import Mathlib

/-!
# Propositional-Logic-Toolkit: shallow embedding and verified properties

The repository holds two variants of one engine:

* `main.cpp`   : single-character identifiers, `Node::data` is a `char`, the
  operand of `~` hangs on the *right* child. Embedded in namespace `Main1`.
* `main_2.cpp` : multi-character identifiers, `Node::data` is a `std::string`,
  the operand of `~` hangs on the *left* child. Embedded in namespace `Main2`.

Conventions of the embedding

* `std::string` is a list of characters (`Str`).
* A `Node*` is a value of the inductive type `Node`; `nullptr` is `Node.null`.
* A function that may throw, dereference a null pointer, or whose recursion is
  not structural returns an `Option`; `none` means "no result". Non-structural
  recursions carry an explicit fuel argument (`...Aux`) and the entry point
  supplies a bound computed from the input; the theorems show that this bound is
  always enough on the inputs they speak about.
* `std::unordered_map<K,bool>` is a function `K → Option Bool`.
-/

/-- A `std::string`, as the list of its characters. -/
abbrev Str := List Char

/-! ## Embedding of `main_2.cpp` -/

namespace Main2

/-- The `struct Node` of `main_2.cpp`; `null` stands for `nullptr`. -/
inductive Node where
  | null : Node
  | mk (data : Str) (left right : Node) : Node
deriving DecidableEq, Repr

/-- Source: `isOperator` (main_2.cpp 29-31). -/
def isOperator (s : Str) : Bool :=
  s == ['+'] || s == ['*'] || s == ['~'] || s == ['>']

/-- Source: `isOperand` (main_2.cpp 33-35). -/
def isOperand (s : Str) : Bool :=
  !s.isEmpty && !isOperator s && s != ['('] && s != [')']

/-- Source: `getPrecedence` (main_2.cpp 37-43). -/
def getPrecedence (op : Str) : Int :=
  if op = ['~'] then 3
  else if op = ['*'] then 2
  else if op = ['+'] then 1
  else if op = ['>'] then 0
  else -1

/-- The `unordered_map<string,bool>` handed to `evaluate`. -/
abbrev Env := Str → Option Bool

/-- Source: `evaluate` (main_2.cpp 214-237). `none` is a thrown `runtime_error`. -/
def evaluate : Node → Env → Option Bool
  | .null, _ => none
  | .mk d l r, values =>
    if isOperand d then values d
    else if d = ['~'] then
      match evaluate l values with
      | none => none
      | some v => some (!v)
    else
      match evaluate l values with
      | none => none
      | some left_val =>
        if d = ['+'] ∨ d = ['*'] ∨ d = ['>'] then
          match evaluate r values with
          | none => none
          | some right_val =>
            if d = ['+'] then some (left_val || right_val)
            else if d = ['*'] then some (left_val && right_val)
            else some (!left_val || right_val)
        else none

/-- Source: `impl_free` (main_2.cpp 239-255). -/
def impl_free : Node → Node
  | .null => .null
  | .mk d l r =>
    if d = ['>'] then .mk ['+'] (.mk ['~'] (impl_free l) .null) (impl_free r)
    else .mk d (impl_free l) (impl_free r)

/-- Number of nodes of a tree. -/
def Node.size : Node → Nat
  | .null => 0
  | .mk _ l r => 1 + l.size + r.size

/-- Reads `p->data == s` through a pointer already known to be non-null
(`root->left && root->left->data == s`); `false` on `nullptr`. -/
def Node.hasData (s : Str) : Node → Bool
  | .null => false
  | .mk d _ _ => d == s

/-- The member `p->left`; only used where `p` is known to be non-null. -/
def Node.left : Node → Node
  | .null => .null
  | .mk _ l _ => l

/-- The member `p->right`; only used where `p` is known to be non-null. -/
def Node.right : Node → Node
  | .null => .null
  | .mk _ _ r => r

/-- Source: `nnf` (main_2.cpp 257-314), with fuel for the recursive calls on the
freshly built `~A`, `~B` nodes. `none`: fuel exhausted, or the source reads
`root->left->data` through a null `left`. -/
def nnfAux : Nat → Node → Option Node
  | 0, _ => none
  | _ + 1, .null => some .null
  | n + 1, .mk d l r =>
    if isOperand d then some (.mk d l r)
    else if d = ['~'] then
      match l with
      | .null => none
      | .mk cd cl cr =>
        if isOperand cd then some (.mk d l r)
        else if cd = ['~'] then nnfAux n cl
        else if cd = ['+'] then
          match nnfAux n (.mk ['~'] cl .null), nnfAux n (.mk ['~'] cr .null) with
          | some a, some b => some (.mk ['*'] a b)
          | _, _ => none
        else if cd = ['*'] then
          match nnfAux n (.mk ['~'] cl .null), nnfAux n (.mk ['~'] cr .null) with
          | some a, some b => some (.mk ['+'] a b)
          | _, _ => none
        else
          match nnfAux n l, nnfAux n r with
          | some l', some r' => some (.mk d l' r')
          | _, _ => none
    else
      match nnfAux n l, nnfAux n r with
      | some l', some r' => some (.mk d l' r')
      | _, _ => none

/-- Source: `nnf` (main_2.cpp 257-314); every recursive call is on a tree with
fewer nodes, so `size + 1` bounds the recursion depth. -/
def nnf (root : Node) : Option Node := nnfAux (root.size + 1) root

/-- Source: `copyTree` (main_2.cpp 316-322). -/
def copyTree : Node → Node
  | .null => .null
  | .mk d l r => .mk d (copyTree l) (copyTree r)

/-- Source: `cnf` (main_2.cpp 324-395), with fuel for the recursive calls on the
freshly built `+` nodes. `none`: fuel exhausted. -/
def cnfAux : Nat → Node → Option Node
  | 0, _ => none
  | _ + 1, .null => some .null
  | n + 1, .mk d l r =>
    if isOperand d || d == ['~'] then some (.mk d l r)
    else
      match cnfAux n l, cnfAux n r with
      | some l', some r' =>
        if d = ['+'] then
          if l'.hasData ['*'] then
            match cnfAux n (.mk ['+'] l'.left r'),
                  cnfAux n (.mk ['+'] (copyTree l'.right) (copyTree r')) with
            | some a, some b => some (.mk ['*'] a b)
            | _, _ => none
          else if r'.hasData ['*'] then
            match cnfAux n (.mk ['+'] (copyTree l') r'.left),
                  cnfAux n (.mk ['+'] l' r'.right) with
            | some a, some b => some (.mk ['*'] a b)
            | _, _ => none
          else some (.mk d l' r')
        else some (.mk d l' r')
      | _, _ => none

/-- Bound on the recursion depth of `cnf`: a `+` node multiplies the bounds of
its children (distribution), any other inner node adds them. -/
def cnfFuel : Node → Nat
  | .null => 2
  | .mk d l r =>
    if isOperand d || d == ['~'] then 2
    else if d = ['+'] then cnfFuel l * cnfFuel r
    else cnfFuel l + cnfFuel r + 1

/-- Source: `cnf` (main_2.cpp 324-395). -/
def cnf (root : Node) : Option Node := cnfAux (cnfFuel root) root

end Main2

namespace Main2

/-- A well-formed expression tree of `main_2.cpp`: a leaf carries an identifier
(an operand string) and no children, a `~` node has exactly one child (the left
one), a `+`, `*` or `>` node has exactly two. -/
inductive WellFormed : Node → Prop
  | leaf {d : Str} : isOperand d = true → WellFormed (.mk d .null .null)
  | neg {c : Node} : WellFormed c → WellFormed (.mk ['~'] c .null)
  | bin {d : Str} {l r : Node} : d = ['+'] ∨ d = ['*'] ∨ d = ['>'] →
      WellFormed l → WellFormed r → WellFormed (.mk d l r)

/-- The identifiers at the leaves of a tree, left to right (what `getVariables`
inserts into its set). -/
def identifiers : Node → List Str
  | .null => []
  | .mk d l r => (if isOperand d then [d] else []) ++ identifiers l ++ identifiers r

/-- The environment binds every identifier of the tree. -/
def Binds (env : Env) (t : Node) : Prop := ∀ v ∈ identifiers t, env v ≠ none

/-- The standard truth value of a tree under a total assignment: `~` negation,
`*` conjunction, `+` disjunction, `l > r` is `(not l) or r`. -/
def truthValue (σ : Str → Bool) : Node → Bool
  | .null => false
  | .mk d l r =>
    if d = ['~'] then !truthValue σ l
    else if d = ['*'] then truthValue σ l && truthValue σ r
    else if d = ['+'] then truthValue σ l || truthValue σ r
    else if d = ['>'] then !truthValue σ l || truthValue σ r
    else σ d

/-- The tree contains a node labelled `s`. -/
def Node.contains (s : Str) : Node → Bool
  | .null => false
  | .mk d l r => d == s || l.contains s || r.contains s

/-- A leaf: an identifier node without children. -/
def Node.isLeaf : Node → Bool
  | .mk d .null .null => isOperand d
  | _ => false

/-- Every `~` node has a leaf as its (left) child. -/
def negOnLeaves : Node → Bool
  | .null => true
  | .mk d l r => (d != ['~'] || l.isLeaf) && negOnLeaves l && negOnLeaves r

/-- No `*` node occurs anywhere below a `+` node. -/
def noAndBelowOr : Node → Bool
  | .null => true
  | .mk d l r =>
    (d != ['+'] || (!l.contains ['*'] && !r.contains ['*'])) && noAndBelowOr l && noAndBelowOr r

/-- Conjunctive normal form as the claim words it: no `>` node, every `~` node
has a leaf as its child, no `*` node below a `+` node. -/
def inCNF (t : Node) : Bool :=
  !t.contains ['>'] && negOnLeaves t && noAndBelowOr t

end Main2

namespace Main2

/-- A literal: an identifier leaf, or `~` over an identifier leaf. -/
inductive IsLit : Node → Prop
  | pos {d : Str} : isOperand d = true → IsLit (.mk d .null .null)
  | neg {d : Str} : isOperand d = true → IsLit (.mk ['~'] (.mk d .null .null) .null)

/-- Negation normal form: literals combined by `+` and `*`. -/
inductive IsNNF : Node → Prop
  | lit {t : Node} : IsLit t → IsNNF t
  | or {l r : Node} : IsNNF l → IsNNF r → IsNNF (.mk ['+'] l r)
  | and {l r : Node} : IsNNF l → IsNNF r → IsNNF (.mk ['*'] l r)

/-- A clause: literals combined by `+`. -/
inductive IsClause : Node → Prop
  | lit {t : Node} : IsLit t → IsClause t
  | or {l r : Node} : IsClause l → IsClause r → IsClause (.mk ['+'] l r)

/-- A conjunction of clauses: clauses combined by `*`. -/
inductive IsCNF : Node → Prop
  | clause {t : Node} : IsClause t → IsCNF t
  | and {l r : Node} : IsCNF l → IsCNF r → IsCNF (.mk ['*'] l r)

end Main2

namespace Main2

/-! ### Text handling of `main_2.cpp` -/

/-- The C `isspace` in the default locale: space, `\t`, `\n`, `\v`, `\f`, `\r`. -/
def isspace (c : Char) : Bool :=
  c == ' ' || c == '\t' || c == '\n' || c == '\x0b' || c == '\x0c' || c == '\r'

/-- The six characters `tokenize` turns into single-character tokens. -/
def isSymbol (c : Char) : Bool :=
  c == '(' || c == ')' || c == '+' || c == '*' || c == '~' || c == '>'

/-- The condition of the inner `while` of `tokenize` on the next character: it is
not a space and not one of `( ) + * ~ >`. -/
def isIdentChar (c : Char) : Bool := !isspace c && !isSymbol c

/-- Source: `tokenize` (main_2.cpp 45-67). The recursion follows the index `i`
of the `for` loop one character at a time; `skip` counts the characters that
the inner `while` has already appended to the previous token (its `i++`). -/
def tokenizeFrom : Nat → Str → List Str
  | _, [] => []
  | skip + 1, _ :: rest => tokenizeFrom skip rest
  | 0, c :: rest =>
    if isspace c then tokenizeFrom 0 rest
    else if isSymbol c then [c] :: tokenizeFrom 0 rest
    else
      let more := rest.takeWhile isIdentChar
      (c :: more) :: tokenizeFrom more.length rest

/-- Source: `tokenize` (main_2.cpp 45-67). -/
def tokenize (infix_text : Str) : List Str := tokenizeFrom 0 infix_text

/-- The loop `while (!s.empty() && cond(s.top())) { prefix += s.top() + " "; s.pop(); }`
of `infixToPrefix`; the stack is a list with its top at the head. -/
def popWhile (cond : Str → Bool) : List Str → Str → List Str × Str
  | [], out => ([], out)
  | top :: s, out =>
    if cond top then popWhile cond s (out ++ top ++ [' '])
    else (top :: s, out)

/-- One round of the main `for` loop of `infixToPrefix` (main_2.cpp 83-101) on
the state (stack, prefix). -/
def infixStep (st : List Str × Str) (token : Str) : List Str × Str :=
  if isOperand token then (st.1, st.2 ++ token ++ [' '])
  else if token = ['('] then (token :: st.1, st.2)
  else if token = [')'] then
    let st' := popWhile (fun top => top != ['(']) st.1 st.2
    (st'.1.tail, st'.2)
  else if isOperator token then
    let st' := popWhile (fun top => decide (getPrecedence top > getPrecedence token)) st.1 st.2
    (token :: st'.1, st'.2)
  else st

/-- The loop `while (ss >> token)` over a `stringstream`: the maximal runs of
non-space characters, in order. As in `tokenizeFrom`, `skip` counts characters
already taken into the previous word. -/
def wordsFrom : Nat → Str → List Str
  | _, [] => []
  | skip + 1, _ :: rest => wordsFrom skip rest
  | 0, c :: rest =>
    if isspace c then wordsFrom 0 rest
    else
      let more := rest.takeWhile (fun x => !isspace x)
      (c :: more) :: wordsFrom more.length rest

/-- The strings `t + " "` of a token list, concatenated. -/
def joinSp (ts : List Str) : Str := (ts.map fun t => t ++ [' ']).flatten

/-- Source: `infixToPrefix` (main_2.cpp 69-124). -/
def infixToPrefix (infix_text : Str) : Str :=
  let tokens := (tokenize infix_text).reverse.map fun token =>
    if token = ['('] then [')'] else if token = [')'] then ['('] else token
  let st := tokens.foldl infixStep ([], [])
  let st := popWhile (fun _ => true) st.1 st.2
  let out_tokens := (wordsFrom 0 st.2).reverse
  let final_text := joinSp out_tokens
  if final_text.isEmpty then final_text else final_text.dropLast

/-- Source: `getNextToken` (main_2.cpp 126-140): the token and what is left of
`expression`. `substr(0, first_space)` is the text before the first space, all
of it when there is none. -/
def getNextToken (expression : Str) : Str × Str :=
  let e := expression.dropWhile fun c => c == ' ' || c == '\t' || c == '\n' || c == '\r'
  if e.isEmpty then ([], e)
  else (e.takeWhile (fun c => c != ' '), e.dropWhile (fun c => c != ' '))

/-- Source: `buildParseTree_helper` (main_2.cpp 147-162), returning the tree and
what is left of `expression`. `none`: fuel exhausted. -/
def buildParseTree_helperAux : Nat → Str → Option (Node × Str)
  | 0, _ => none
  | n + 1, expression =>
    if expression.isEmpty then some (.null, expression)
    else
      let tk := getNextToken expression
      if tk.1.isEmpty then some (.null, tk.2)
      else if isOperator tk.1 then
        match buildParseTree_helperAux n tk.2 with
        | none => none
        | some (l, e1) =>
          if tk.1 ≠ ['~'] then
            match buildParseTree_helperAux n e1 with
            | none => none
            | some (r, e2) => some (.mk tk.1 l r, e2)
          else some (.mk tk.1 l .null, e1)
      else some (.mk tk.1 .null .null, tk.2)

/-- Source: `buildParseTree` (main_2.cpp 142-145). Every call of the helper
that goes on removes at least one character, so `length + 1` bounds the depth. -/
def buildParseTree (expression : Str) : Option Node :=
  if expression.isEmpty then some .null
  else (buildParseTree_helperAux (expression.length + 1) expression).map Prod.fst

/-- Source: `treeToInfixString` (main_2.cpp 397-411). -/
def treeToInfixString : Node → Str
  | .null => []
  | .mk d l r =>
    if isOperand d then d
    else
      let left := treeToInfixString l
      let right := treeToInfixString r
      if d = ['~'] then
        if l.hasData ['+'] || l.hasData ['*'] || l.hasData ['>'] then
          ['~', '('] ++ left ++ [')']
        else ['~'] ++ left
      else ['('] ++ left ++ [' '] ++ d ++ [' '] ++ right ++ [')']

end Main2

namespace Main2

/-- The search `s.find(pat, pos)` on the part of `s` from offset `off` on: the
least index of an occurrence, `none` for `npos`. -/
def findAux (pat : Str) : Str → Nat → Option Nat
  | [], off => if pat.isEmpty then some off else none
  | c :: t, off => if pat.isPrefixOf (c :: t) then some off else findAux pat t (off + 1)

/-- The library call `s.find(pat, pos)`; `none` stands for `npos`. -/
def find (s pat : Str) (pos : Nat) : Option Nat :=
  if pos > s.length then none else findAux pat (s.drop pos) pos

/-- The library call `s.substr(pos, e - pos)` as `check_cnf_valid` uses it, where `e` is
the result of a `find`: with `e = npos` the count `npos - pos` exceeds every
string length, so the rest of the string is taken. -/
def substrTo (s : Str) (pos : Nat) (e : Option Nat) : Str :=
  match e with
  | none => s.drop pos
  | some e => (s.drop pos).take (e - pos)

/-- The literal-collecting `for` loop of `check_cnf_valid` (main_2.cpp 460-469),
returning (`literals`, `negated_literals`); the sets are lists used through
membership only. The recursion follows the index `i`; `skip` is 1 right after
the `i++` that steps over a negated operand. -/
def collectLiterals : Nat → List Str → List Str × List Str
  | _, [] => ([], [])
  | skip + 1, _ :: rest => collectLiterals skip rest
  | 0, t :: rest =>
    if t = ['~'] then
      match rest.head? with
      | some t' =>
        if isOperand t' then
          let r := collectLiterals 1 rest
          (r.1, t' :: r.2)
        else collectLiterals 0 rest
      | none => collectLiterals 0 rest
    else if isOperand t then
      let r := collectLiterals 0 rest
      (t :: r.1, r.2)
    else collectLiterals 0 rest

/-- The body of the `while` loop of `check_cnf_valid` for one non-empty clause
string (main_2.cpp 452-477): the value of `has_complement`. -/
def clauseHasComplement (clause_str : Str) : Bool :=
  let clause_str :=
    if clause_str.head? = some '(' ∧ clause_str.getLast? = some ')' then
      (clause_str.drop 1).take (clause_str.length - 2)
    else clause_str
  let lits := collectLiterals 0 (tokenize clause_str)
  lits.1.any fun lit => lits.2.contains lit

/-- The `while` loop of `check_cnf_valid` (main_2.cpp 443-486) on the state
(`start`, `end`). `none`: fuel exhausted. -/
def check_cnf_validLoop (formula : Str) : Nat → Nat → Option Nat → Option Bool
  | 0, _, _ => none
  | n + 1, start, e =>
    if start < formula.length then
      let clause_str := substrTo formula start e
      if clause_str.isEmpty then
        match e with
        | none => some true
        | some e => check_cnf_validLoop formula n (e + 3) (find formula [' ', '*', ' '] (e + 3))
      else if !clauseHasComplement clause_str then some false
      else
        match e with
        | none => some true
        | some e => check_cnf_validLoop formula n (e + 3) (find formula [' ', '*', ' '] (e + 3))
    else some true

/-- Source: `check_cnf_valid` (main_2.cpp 437-489). Every round moves `start`
forward by at least three, so `length + 1` rounds are enough. -/
def check_cnf_valid (cnf_formula : Str) : Option Bool :=
  check_cnf_validLoop cnf_formula (cnf_formula.length + 1) 0 (find cnf_formula [' ', '*', ' '] 0)

end Main2

namespace Main2

/-! ### DIMACS codec of `main_2.cpp` -/

/-- Source: `using Literal = int`. An `int` is an integer in `[-2^31, 2^31)`. -/
abbrev Literal := Int

/-- Source: `using Clause = vector<Literal>`. -/
abbrev Clause := List Literal

/-- Source: `using DimacsCNF = vector<Clause>`. -/
abbrev DimacsCNF := List Clause

/-- The least value of an `int`. -/
def INT_MIN : Int := -2147483648

/-- The greatest value of an `int`. -/
def INT_MAX : Int := 2147483647

/-- The value is representable in an `int`. -/
def isInt (v : Int) : Prop := INT_MIN ≤ v ∧ v ≤ INT_MAX

/-- Reduction of an integer to the 32-bit two's-complement range. -/
def wrapInt (v : Int) : Int := (v + 2147483648) % 4294967296 - 2147483648

/-- The unary minus `-lit` on `int`; at `INT_MIN` the mathematical result is
not representable and the two's-complement result `INT_MIN` is taken. -/
def negInt (v : Int) : Int := wrapInt (-v)

/-- The lines `while (getline(ss, line))` reads: the text is cut at each `\n`;
a last line without `\n` counts when it is not empty. -/
def getlines : Str → List Str
  | [] => []
  | c :: rest =>
    if c = '\n' then [] :: getlines rest
    else
      match getlines rest with
      | [] => [[c]]
      | line :: lines => (c :: line) :: lines

/-- The value of a string of decimal digits. -/
def digitsValue (ds : Str) : Nat :=
  ds.foldl (fun acc c => 10 * acc + (c.toNat - 48)) 0

/-- The extraction `is >> v` for `int v` on the unread text `s`: the value
written to `v` (if any) and the unread text left when the extraction succeeds.
Leading white space is skipped; at end of input nothing is written; otherwise
an optional sign and the longest run of digits are read, `0` is written when
there is no digit, and the nearest bound when the number does not fit. -/
def extractInt (s : Str) : Option Int × Option Str :=
  let s1 := s.dropWhile isspace
  if s1.isEmpty then (none, none)
  else
    let negative := s1.head? = some '-'
    let s2 := if s1.head? = some '-' ∨ s1.head? = some '+' then s1.drop 1 else s1
    let ds := s2.takeWhile Char.isDigit
    if ds.isEmpty then (some 0, none)
    else
      let v : Int := if negative then -(digitsValue ds : Int) else (digitsValue ds : Int)
      if v < INT_MIN then (some INT_MIN, none)
      else if v > INT_MAX then (some INT_MAX, none)
      else (some v, some (s2.dropWhile Char.isDigit))

/-- The extraction `is >> word` for `std::string word`: white space is skipped
and the run of non-space characters is read; it fails at end of input. -/
def extractWord (s : Str) : Option (Str × Str) :=
  let s1 := s.dropWhile isspace
  if s1.isEmpty then none
  else some (s1.takeWhile (fun c => !isspace c), s1.dropWhile (fun c => !isspace c))

/-- The values the loop `while (cs >> lit)` reads from a line, up to the first
failing extraction. Each successful extraction consumes a character, so fuel
above the length of the text never runs out. -/
def extractIntsAux : Nat → Str → List Int
  | 0, _ => []
  | n + 1, s =>
    match extractInt s with
    | (some v, some rest) => v :: extractIntsAux n rest
    | _ => []

/-- The values the loop `while (cs >> lit)` reads from a line. -/
def extractInts (line : Str) : List Int := extractIntsAux (line.length + 1) line

/-- The loop state of a clause line: `formula`, `currentClause`, `clause_ended`. -/
structure LineState where
  formula : DimacsCNF
  currentClause : Clause
  clause_ended : Bool

/-- The body of `while (cs >> lit)` (main_2.cpp 521-530). -/
def litStep (st : LineState) (lit : Literal) : LineState :=
  if lit = 0 then
    { formula :=
        if !st.currentClause.isEmpty || st.clause_ended == false then
          st.formula ++ [st.currentClause]
        else st.formula
      currentClause := []
      clause_ended := true }
  else
    { formula := st.formula
      currentClause := st.currentClause ++ [lit]
      clause_ended := false }

/-- What `readDIMACSCNF` hands back: the returned formula and the two reference
parameters. -/
structure DimacsResult where
  formula : DimacsCNF
  numVars : Int
  numClauses : Int
deriving DecidableEq, Repr

/-- The loop state of `readDIMACSCNF`. -/
structure ReadState where
  formula : DimacsCNF
  numVars : Int
  numClauses : Int
  p_line_found : Bool

/-- The `while (getline(ss, line))` loop of `readDIMACSCNF` (main_2.cpp 499-532). -/
def readLines : List Str → ReadState → DimacsResult
  | [], st => ⟨st.formula, st.numVars, st.numClauses⟩
  | line :: rest, st =>
    if line.isEmpty || line.head? == some 'c' then readLines rest st
    else if line.head? == some 'p' then
      match extractWord (line.drop 1) with
      | none => ⟨[], st.numVars, st.numClauses⟩
      | some (type, r1) =>
        match extractInt r1 with
        | (w1, none) => ⟨[], w1.getD st.numVars, st.numClauses⟩
        | (w1, some r2) =>
          match extractInt r2 with
          | (w2, none) => ⟨[], w1.getD st.numVars, w2.getD st.numClauses⟩
          | (w2, some _) =>
            if type ≠ ['c', 'n', 'f'] then ⟨[], w1.getD st.numVars, w2.getD st.numClauses⟩
            else
              readLines rest
                { st with numVars := w1.getD st.numVars, numClauses := w2.getD st.numClauses,
                          p_line_found := true }
    else if !st.p_line_found then readLines rest st
    else
      readLines rest
        { st with formula :=
            ((extractInts line).foldl litStep
              { formula := st.formula, currentClause := [], clause_ended := true }).formula }

/-- Source: `readDIMACSCNF` (main_2.cpp 491-534). -/
def readDIMACSCNF (dimacsInput : Str) : DimacsResult :=
  readLines (getlines dimacsInput)
    { formula := [], numVars := 0, numClauses := 0, p_line_found := false }

/-- Source: `is_dimacs_clause_true` (main_2.cpp 536-551); the `set<int>` is a
list used through membership only. -/
def is_dimacs_clause_true (clause : Clause) : Bool :=
  let positiveLits := clause.filter fun lit => decide (lit > 0)
  clause.any fun lit => decide (lit < 0) && positiveLits.contains (negInt lit)

/-- Source: `check_dimacs_valid_formula` (main_2.cpp 553-563); `count_false`
is the number of clauses that fail the test. -/
def check_dimacs_valid_formula (formula : DimacsCNF) : Bool :=
  let count_false := (formula.filter fun cls => !is_dimacs_clause_true cls).length
  count_false == 0

/-- The text `os << v` writes for an `int`. -/
def intToStr (v : Int) : Str :=
  if v < 0 then '-' :: Nat.toDigits 10 v.natAbs else Nat.toDigits 10 v.toNat

/-- The inner `for` loop of `dimacsToInfix` (main_2.cpp 574-585) on the
literals from index `j` on. -/
def literalsToInfix : Clause → Str
  | [] => []
  | lit :: rest =>
    (if lit < 0 then ['~', 'P'] ++ intToStr (negInt lit) else ['P'] ++ intToStr lit) ++
    (if rest.isEmpty then [] else [' ', '+', ' ']) ++ literalsToInfix rest

/-- The outer `for` loop of `dimacsToInfix` (main_2.cpp 569-591) on the clauses
from index `i` on. -/
def clausesToInfix : DimacsCNF → Str
  | [] => []
  | clause :: rest =>
    if clause.isEmpty then clausesToInfix rest
    else
      ['('] ++ literalsToInfix clause ++ [')'] ++
      (if rest.isEmpty then [] else [' ', '*', ' ']) ++ clausesToInfix rest

/-- Source: `dimacsToInfix` (main_2.cpp 565-593). -/
def dimacsToInfix (formula : DimacsCNF) : Str :=
  if formula.isEmpty then [] else clausesToInfix formula

end Main2

namespace Main2

/-- An identifier: a non-empty string without white space, parentheses or the
characters `+ * ~ >`. -/
def IsIdent (x : Str) : Prop := x ≠ [] ∧ ∀ c ∈ x, isIdentChar c = true

/-- The text `s` does not continue an identifier: it is empty or starts with a
character that ends an identifier. -/
def Breaks (s : Str) : Prop := ∀ c ∈ s.head?, isIdentChar c = false

end Main2

namespace Main2

/-- The strings of a list joined by a separator. -/
def joinSep (sep : Str) : List Str → Str
  | [] => []
  | [g] => g
  | g :: h :: t => g ++ sep ++ joinSep sep (h :: t)

/-- A token list read as literals: `(`, `)` and `+` tokens are passed over, an
operand is a positive literal, `~` followed by an operand a negated one. The
flag of a literal is `true` when it is negated. -/
inductive LitToks : List Str → List (Bool × Str) → Prop
  | nil : LitToks [] []
  | skip {t : Str} {ts : List Str} {l : List (Bool × Str)} :
      t = ['('] ∨ t = [')'] ∨ t = ['+'] → LitToks ts l → LitToks (t :: ts) l
  | pos {x : Str} {ts : List Str} {l : List (Bool × Str)} :
      isOperand x = true → LitToks ts l → LitToks (x :: ts) ((false, x) :: l)
  | neg {x : Str} {ts : List Str} {l : List (Bool × Str)} :
      isOperand x = true → LitToks ts l → LitToks (['~'] :: x :: ts) ((true, x) :: l)

/-- Some identifier occurs in the clause both negated and unnegated. -/
def HasComplement (c : List (Bool × Str)) : Prop := ∃ x, (false, x) ∈ c ∧ (true, x) ∈ c

/-- The text of a literal: the identifier, preceded by `~` when negated. -/
def litText (l : Bool × Str) : Str := if l.1 then '~' :: l.2 else l.2

/-- The text of a clause: its literals joined by ` + `, in parentheses. -/
def clauseText (c : List (Bool × Str)) : Str :=
  ['('] ++ joinSep [' ', '+', ' '] (c.map litText) ++ [')']

/-- The text of a CNF formula: its parenthesised clauses joined by ` * `. -/
def cnfText (cs : List (List (Bool × Str))) : Str :=
  joinSep [' ', '*', ' '] (cs.map clauseText)

end Main2

namespace Main2

/-- The literals of a clause tree, left to right, each with its negation flag. -/
def litsOf : Node → List (Bool × Str)
  | .null => []
  | .mk d l r =>
    if isOperand d then [(false, d)]
    else if d = ['~'] then
      match l with
      | .mk x _ _ => [(true, x)]
      | .null => []
    else litsOf l ++ litsOf r

/-- The clauses of a tree that is a conjunction of clauses, left to right. -/
def clausesOf : Node → List (List (Bool × Str))
  | .null => [[]]
  | .mk d l r => if d = ['*'] then clausesOf l ++ clausesOf r else [litsOf (.mk d l r)]

end Main2

namespace Main2

/-- The pre-order token sequence of a tree: the node, then its left subtree,
then its right subtree. -/
def preorder : Node → List Str
  | .null => []
  | .mk d l r => d :: (preorder l ++ preorder r)

/-- The infix grammar of the formula syntax, on texts. `Denotes k s T`: the text
`s` denotes the tree `T` as an expression of level `k`, where level 0 is an
implication chain, 1 a disjunction, 2 a conjunction and 3 a unary expression
(an identifier, a parenthesised expression, or `~` applied to a unary
expression). Binary operators associate to the left: the left operand has the
level of the operator, the right operand the next level. White space may stand
before and after every expression. -/
inductive Denotes : Nat → Str → Node → Prop
  | ident {x : Str} : IsIdent x → Denotes 3 x (.mk x .null .null)
  | paren {s : Str} {T : Node} : Denotes 0 s T → Denotes 3 (['('] ++ s ++ [')']) T
  | neg {s : Str} {T : Node} : Denotes 3 s T → Denotes 3 (['~'] ++ s) (.mk ['~'] T .null)
  | and {s₁ s₂ : Str} {T₁ T₂ : Node} : Denotes 2 s₁ T₁ → Denotes 3 s₂ T₂ →
      Denotes 2 (s₁ ++ ['*'] ++ s₂) (.mk ['*'] T₁ T₂)
  | or {s₁ s₂ : Str} {T₁ T₂ : Node} : Denotes 1 s₁ T₁ → Denotes 2 s₂ T₂ →
      Denotes 1 (s₁ ++ ['+'] ++ s₂) (.mk ['+'] T₁ T₂)
  | imp {s₁ s₂ : Str} {T₁ T₂ : Node} : Denotes 0 s₁ T₁ → Denotes 1 s₂ T₂ →
      Denotes 0 (s₁ ++ ['>'] ++ s₂) (.mk ['>'] T₁ T₂)
  | up {k : Nat} {s : Str} {T : Node} : Denotes (k + 1) s T → Denotes k s T
  | spaceBefore {k : Nat} {c : Char} {s : Str} {T : Node} :
      isspace c = true → Denotes k s T → Denotes k (c :: s) T
  | spaceAfter {k : Nat} {c : Char} {s : Str} {T : Node} :
      isspace c = true → Denotes k s T → Denotes k (s ++ [c]) T

/-- The same grammar on token lists. -/
inductive Parses : Nat → List Str → Node → Prop
  | ident {x : Str} : IsIdent x → Parses 3 [x] (.mk x .null .null)
  | paren {ts : List Str} {T : Node} : Parses 0 ts T → Parses 3 (['('] :: ts ++ [[')']]) T
  | neg {ts : List Str} {T : Node} : Parses 3 ts T → Parses 3 (['~'] :: ts) (.mk ['~'] T .null)
  | bin {k : Nat} {op : Str} {t₁ t₂ : List Str} {T₁ T₂ : Node} :
      (op = ['*'] ∧ k = 2) ∨ (op = ['+'] ∧ k = 1) ∨ (op = ['>'] ∧ k = 0) →
      Parses k t₁ T₁ → Parses (k + 1) t₂ T₂ → Parses k (t₁ ++ op :: t₂) (.mk op T₁ T₂)
  | up {k : Nat} {ts : List Str} {T : Node} : Parses (k + 1) ts T → Parses k ts T

/-- The parenthesis swap `infixToPrefix` applies to the reversed tokens. -/
def swapParen (token : Str) : Str :=
  if token = ['('] then [')'] else if token = [')'] then ['('] else token

end Main2

namespace Main2

/-- A literal of the DIMACS data model: a nonzero integer whose magnitude, the
variable index, is a positive `int`. -/
def IsDimacsLiteral (l : Int) : Prop := l ≠ 0 ∧ -INT_MAX ≤ l ∧ l ≤ INT_MAX

/-- The decimal numeral of a natural number. -/
def decimal (n : Nat) : Str := Nat.toDigits 10 n

/-- The text of a DIMACS literal as the rendering is described: `P<n>` for the
positive literal `n`, `~P<n>` for the negative literal `-n`. -/
def literalText (l : Int) : Str :=
  if 0 < l then 'P' :: decimal l.toNat else ['~', 'P'] ++ decimal (-l).toNat

/-- The rendering of a DIMACS formula as it is described: the clauses in order
joined by ` * `, each clause its literals in order joined by ` + `, in
parentheses. -/
def formulaText (f : DimacsCNF) : Str :=
  joinSep [' ', '*', ' ']
    (f.map fun c => ['('] ++ joinSep [' ', '+', ' '] (c.map literalText) ++ [')'])

/-- A clause line of a DIMACS text: the integers of the clause separated by
spaces and ended by ` 0`. -/
def clauseLine (c : Clause) : Str := joinSep [' '] (c.map intToStr) ++ [' ', '0']

/-- A DIMACS text: the line `p cnf <numVars> <numClauses>` followed by one line
per clause. -/
def dimacsText (numVars numClauses : Int) (f : DimacsCNF) : Str :=
  ['p', ' ', 'c', 'n', 'f', ' '] ++ intToStr numVars ++ [' '] ++ intToStr numClauses ++ ['\n'] ++
    (f.map fun c => clauseLine c ++ ['\n']).flatten

end Main2

namespace Main2

/-- The range of `long long`, by two's-complement wrap-around. -/
def wrapLongLong (v : Int) : Int :=
  (v + 9223372036854775808) % 18446744073709551616 - 9223372036854775808

/-- Source: the truth-table loops of `run_automated_case`, case 5
(main_2.cpp 682-696): one row per `i` from 0 below `row_count = 1LL << n`, and
in a row each variable `varList[j]` with the value `(i >> (n - 1 - j)) & 1`.
A row is the list of the bindings written to `rowValues`, in the order of
`varList`. The caller returns before these loops when `n > 18`. -/
def truthTableRows (varList : List Str) : List (List (Str × Bool)) :=
  let n := varList.length
  let row_count := wrapLongLong ((1 <<< n : Nat) : Int)
  (List.range row_count.toNat).map fun i =>
    varList.enum.map fun jv => (jv.2, ((i >>> (n - 1 - jv.1)) &&& 1) != 0)

/-- The tokens of a text as the formula syntax describes them. The text is
read as a sequence of pieces: a white-space character, which gives no token;
one of `( ) + * ~ >`, which gives a token of its own; or a maximal run of other
characters, which gives one token. A run is maximal when the text after it
does not go on with a character of the same kind; the piece before it is then
never a run either. -/
inductive TokensOf : Str → List Str → Prop
  | nil : TokensOf [] []
  | space {c : Char} {s : Str} {ts : List Str} :
      isspace c = true → TokensOf s ts → TokensOf (c :: s) ts
  | symbol {c : Char} {s : Str} {ts : List Str} :
      isSymbol c = true → TokensOf s ts → TokensOf (c :: s) ([c] :: ts)
  | run {x s : Str} {ts : List Str} :
      IsIdent x → Breaks s → TokensOf s ts → TokensOf (x ++ s) (x :: ts)

/-- The bindings of a truth-table row as the enumeration is described: in row
`i` of `n` variables the `j`-th variable is true exactly when bit `n - 1 - j`
of `i` is set. -/
def rowSpec {α : Type} (varList : List α) (i : Nat) : List (α × Bool) :=
  varList.enum.map fun jv => (jv.2, i.testBit (varList.length - 1 - jv.1))

/-- The rows of the truth table of `n` variables as the enumeration is
described: rows `0, 1, ..., 2^n - 1` in increasing order. -/
def rowsSpec {α : Type} (varList : List α) : List (List (α × Bool)) :=
  (List.range (2 ^ varList.length)).map (rowSpec varList)

end Main2

namespace Main2

/-! ### Variables and the truth table of `main_2.cpp` -/

/-- The order `std::less<std::string>` of a `set<string>`: lexicographic, the
characters compared by their codes. -/
def strLess : Str → Str → Bool
  | [], [] => false
  | [], _ :: _ => true
  | _ :: _, [] => false
  | a :: as, b :: bs =>
    if a.toNat < b.toNat then true
    else if b.toNat < a.toNat then false
    else strLess as bs

/-- The call `vars.insert(x)` on a `set<string>`, kept as the list of its
elements in increasing order (the order in which the set is iterated). -/
def setInsert (x : Str) : List Str → List Str
  | [] => [x]
  | y :: ys =>
    if strLess x y then x :: y :: ys
    else if strLess y x then y :: setInsert x ys
    else y :: ys

/-- Source: `getVariables` (main_2.cpp 205-212): the set `vars` after the call. -/
def getVariables : Node → List Str → List Str
  | .null, vars => vars
  | .mk d l r, vars =>
    let vars := if isOperand d then setInsert d vars else vars
    getVariables r (getVariables l vars)

/-- Source: the truth table of `run_automated_case`, case 5 (main_2.cpp
668-696), from `varList` on: `none` when the table is refused ("Cannot generate
truth table ..."), the rows otherwise. -/
def truthTable (varList : List Str) : Option (List (List (Str × Bool))) :=
  if varList.length > 18 then none
  else some (truthTableRows varList)

/-- Source: the truth table of `main`, case 5 (main_2.cpp 905-935), for the
answer `generate_table` to "Generate full truth table? (Y/N)": `none` when the
table is refused, no row when it is not asked for. -/
def truthTableOnRequest (generate_table : Char) (vars : List Str) :
    Option (List (List (Str × Bool))) :=
  if generate_table = 'Y' ∨ generate_table = 'y' then
    if vars.length > 18 then none
    else some (truthTableRows vars)
  else some []

/-- The labels of the leaves of a tree (the nodes without children), left to
right. -/
def leaves : Node → List Str
  | .null => []
  | .mk d .null .null => [d]
  | .mk _ l r => leaves l ++ leaves r

/-! ### The DIMACS reader, line by line -/

/-- The text of a list of lines, each closed by a line break. -/
def unlines (ls : List Str) : Str := (ls.map fun l => l ++ ['\n']).flatten

/-- A line beginning with `p` read as a header: what follows the `p` reads as
the word `cnf` followed by two integers, which are returned. -/
def headerOf (line : Str) : Option (Int × Int) :=
  match extractWord (line.drop 1) with
  | none => none
  | some (type, r1) =>
    match extractInt r1 with
    | (some nv, some r2) =>
      match extractInt r2 with
      | (some nc, some _) => if type = ['c', 'n', 'f'] then some (nv, nc) else none
      | _ => none
    | _ => none

/-- A line that is neither empty nor a comment nor a header line. -/
def isClauseLine (line : Str) : Bool :=
  !line.isEmpty && line.head? != some 'c' && line.head? != some 'p'

/-- A sequence of integers cut at every `0`: the non-empty runs that are
followed by a `0`, in order; `cur` is the run read so far. -/
def runsFrom : List Int → List Int → List (List Int)
  | [], _ => []
  | v :: vs, cur =>
    if v = 0 then
      if cur.isEmpty then runsFrom vs [] else cur :: runsFrom vs []
    else runsFrom vs (cur ++ [v])

/-- The non-empty runs of a sequence of integers that are followed by a `0`. -/
def terminatedRuns (vs : List Int) : List (List Int) := runsFrom vs []

end Main2

/-! ## Embedding of `main.cpp` -/

namespace Main1

/-- The `struct Node` of `main.cpp`; `null` stands for `nullptr`. -/
inductive Node where
  | null : Node
  | mk (data : Char) (left right : Node) : Node
deriving DecidableEq, Repr

/-- Source: `isOperator` (main.cpp 28-30). -/
def isOperator (c : Char) : Bool :=
  c == '+' || c == '*' || c == '>' || c == '~'

/-- Source: `copyTree` (main.cpp 43-49). -/
def copyTree : Node → Node
  | .null => .null
  | .mk d l r => .mk d (copyTree l) (copyTree r)

/-- Source: `getPrecedence` (main.cpp 61-69). -/
def getPrecedence (op : Char) : Int :=
  if op = '>' then 1
  else if op = '+' then 2
  else if op = '*' then 3
  else if op = '~' then 4
  else 0

/-- The `unordered_map<char,bool>` handed to `evaluate`. -/
abbrev Env := Char → Option Bool

/-- Source: `evaluate` (main.cpp 254-279). It never throws: a null node and an
unbound variable print a diagnostic and yield `false`. -/
def evaluate : Node → Env → Bool
  | .null, _ => false
  | .mk d l r, values =>
    if !isOperator d then
      match values d with
      | none => false
      | some v => v
    else if d = '~' then !evaluate r values
    else
      let leftVal := evaluate l values
      let rightVal := evaluate r values
      if d = '+' then leftVal || rightVal
      else if d = '*' then leftVal && rightVal
      else if d = '>' then !leftVal || rightVal
      else false

/-- Source: `impl_free` (main.cpp 304-320): children first, then the node. -/
def impl_free : Node → Node
  | .null => .null
  | .mk d l r =>
    let l' := impl_free l
    let r' := impl_free r
    if d = '>' then .mk '+' (.mk '~' .null l') r'
    else .mk d l' r'

/-- Number of nodes of a tree. -/
def Node.size : Node → Nat
  | .null => 0
  | .mk _ l r => 1 + l.size + r.size

/-- Source: `nnf` (main.cpp 323-357), with fuel for the recursive calls on the
freshly built `~A`, `~B` nodes. `none`: fuel exhausted, or the source reads
`sub->data` through a null `root->right`. -/
def nnfAux : Nat → Node → Option Node
  | 0, _ => none
  | _ + 1, .null => some .null
  | n + 1, .mk d l r =>
    if d = '~' then
      match r with
      | .null => none
      | .mk sd sl sr =>
        if sd = '~' then nnfAux n sr
        else if sd = '+' then
          match nnfAux n (.mk '~' .null sl), nnfAux n (.mk '~' .null sr) with
          | some a, some b => some (.mk '*' a b)
          | _, _ => none
        else if sd = '*' then
          match nnfAux n (.mk '~' .null sl), nnfAux n (.mk '~' .null sr) with
          | some a, some b => some (.mk '+' a b)
          | _, _ => none
        else
          match nnfAux n l, nnfAux n r with
          | some l', some r' => some (.mk d l' r')
          | _, _ => none
    else
      match nnfAux n l, nnfAux n r with
      | some l', some r' => some (.mk d l' r')
      | _, _ => none

/-- Source: `nnf` (main.cpp 323-357); every recursive call is on a tree with
fewer nodes, so `size + 1` bounds the recursion depth. -/
def nnf (root : Node) : Option Node := nnfAux (root.size + 1) root

/-- Source: `distribute` (main.cpp 361-387), with fuel. `none`: fuel exhausted,
or the source reads `a->data` or `b->data` through a null pointer. -/
def distributeAux : Nat → Node → Node → Option Node
  | 0, _, _ => none
  | n + 1, a, b =>
    match a with
    | .null => none
    | .mk ad al ar =>
      if ad = '*' then
        match distributeAux n al (copyTree b), distributeAux n ar b with
        | some left, some right => some (.mk '*' left right)
        | _, _ => none
      else
        match b with
        | .null => none
        | .mk bd bl br =>
          if bd = '*' then
            match distributeAux n (copyTree a) bl, distributeAux n a br with
            | some left, some right => some (.mk '*' left right)
            | _, _ => none
          else some (.mk '+' a b)

/-- Source: `distribute` (main.cpp 361-387); each call recurses on a strictly
smaller pair, so the total number of nodes bounds the depth. -/
def distribute (a b : Node) : Option Node := distributeAux (a.size + b.size + 1) a b

/-- Source: `cnf` (main.cpp 390-402). -/
def cnf : Node → Option Node
  | .null => some .null
  | .mk d l r =>
    match cnf l, cnf r with
    | some l', some r' =>
      if d = '+' then distribute l' r'
      else some (.mk d l' r')
    | _, _ => none

end Main1

namespace Main1

/-- A well-formed expression tree of `main.cpp`: a leaf carries an identifier (a
character that is not an operator) and no children, a `~` node has exactly one
child (the right one), a `+`, `*` or `>` node has exactly two. -/
inductive WellFormed : Node → Prop
  | leaf {d : Char} : isOperator d = false → WellFormed (.mk d .null .null)
  | neg {c : Node} : WellFormed c → WellFormed (.mk '~' .null c)
  | bin {d : Char} {l r : Node} : d = '+' ∨ d = '*' ∨ d = '>' →
      WellFormed l → WellFormed r → WellFormed (.mk d l r)

/-- The identifiers at the leaves of a tree, left to right. -/
def identifiers : Node → List Char
  | .null => []
  | .mk d l r => (if isOperator d then [] else [d]) ++ identifiers l ++ identifiers r

/-- The environment binds every identifier of the tree. -/
def Binds (env : Env) (t : Node) : Prop := ∀ v ∈ identifiers t, env v ≠ none

/-- The tree contains a node labelled `c`. -/
def Node.contains (c : Char) : Node → Bool
  | .null => false
  | .mk d l r => d == c || l.contains c || r.contains c

/-- A leaf: an identifier node without children. -/
def Node.isLeaf : Node → Bool
  | .mk d .null .null => !isOperator d
  | _ => false

/-- Every `~` node has a leaf as its (right) child. -/
def negOnLeaves : Node → Bool
  | .null => true
  | .mk d l r => (d != '~' || r.isLeaf) && negOnLeaves l && negOnLeaves r

/-- No `*` node occurs anywhere below a `+` node. -/
def noAndBelowOr : Node → Bool
  | .null => true
  | .mk d l r =>
    (d != '+' || (!l.contains '*' && !r.contains '*')) && noAndBelowOr l && noAndBelowOr r

/-- Conjunctive normal form as the claim words it: no `>` node, every `~` node
has a leaf as its child, no `*` node below a `+` node. -/
def inCNF (t : Node) : Bool :=
  !t.contains '>' && negOnLeaves t && noAndBelowOr t

/-- A literal: an identifier leaf, or `~` over an identifier leaf. -/
inductive IsLit : Node → Prop
  | pos {d : Char} : isOperator d = false → IsLit (.mk d .null .null)
  | neg {d : Char} : isOperator d = false → IsLit (.mk '~' .null (.mk d .null .null))

/-- Negation normal form: literals combined by `+` and `*`. -/
inductive IsNNF : Node → Prop
  | lit {t : Node} : IsLit t → IsNNF t
  | or {l r : Node} : IsNNF l → IsNNF r → IsNNF (.mk '+' l r)
  | and {l r : Node} : IsNNF l → IsNNF r → IsNNF (.mk '*' l r)

/-- A clause: literals combined by `+`. -/
inductive IsClause : Node → Prop
  | lit {t : Node} : IsLit t → IsClause t
  | or {l r : Node} : IsClause l → IsClause r → IsClause (.mk '+' l r)

/-- A conjunction of clauses: clauses combined by `*`. -/
inductive IsCNF : Node → Prop
  | clause {t : Node} : IsClause t → IsCNF t
  | and {l r : Node} : IsCNF l → IsCNF r → IsCNF (.mk '*' l r)

end Main1

namespace Main1

/-! ### Text handling of `main.cpp` -/

/-- Source: the loop of `findMainOperator` (main.cpp 77-89) from index `i` on,
over the characters not yet read, with the locals `paren_level`, `main_op_pos`
and `main_op_precedence`; the value is the final `main_op_pos`. -/
def findMainOperatorLoop : Str → Int → Int → Int → Int → Int
  | [], _, _, main_op_pos, _ => main_op_pos
  | c :: rest, i, paren_level, main_op_pos, main_op_precedence =>
    let paren_level :=
      if c = '(' then paren_level + 1 else if c = ')' then paren_level - 1 else paren_level
    let current_precedence := getPrecedence c
    if current_precedence > 0 ∧ paren_level = 0 then
      if current_precedence ≤ main_op_precedence then
        findMainOperatorLoop rest (i + 1) paren_level i current_precedence
      else findMainOperatorLoop rest (i + 1) paren_level main_op_pos main_op_precedence
    else findMainOperatorLoop rest (i + 1) paren_level main_op_pos main_op_precedence

/-- Source: `findMainOperator` (main.cpp 72-91); `-1` when there is none. -/
def findMainOperator (infix_text : Str) : Int :=
  findMainOperatorLoop infix_text 0 0 (-1) 99

/-- Source: the loop of `isFullyEnclosed` (main.cpp 99-103) from index `i` on,
over the characters not yet read; `len` is `infix.length()`. -/
def isFullyEnclosedLoop (len : Nat) : Str → Nat → Int → Bool
  | [], _, paren_level => paren_level == 0
  | c :: rest, i, paren_level =>
    let paren_level :=
      if c = '(' then paren_level + 1 else if c = ')' then paren_level - 1 else paren_level
    if paren_level = 0 ∧ i < len - 1 then false
    else isFullyEnclosedLoop len rest (i + 1) paren_level

/-- Source: `isFullyEnclosed` (main.cpp 94-105). -/
def isFullyEnclosed (infix_text : Str) : Bool :=
  if infix_text.length < 2 ∨ infix_text.head? ≠ some '(' ∨ infix_text.getLast? ≠ some ')' then
    false
  else isFullyEnclosedLoop infix_text.length infix_text 0 0

/-- Source: `infixToPrefix` (main.cpp 108-127). `filter` is the erase-remove of
the character `' '`; `take`/`drop` are the `substr` calls. `none`: fuel
exhausted. -/
def infixToPrefixAux : Nat → Str → Option Str
  | 0, _ => none
  | n + 1, infix_text =>
    let infix_text := infix_text.filter fun c => c != ' '
    if infix_text.length ≤ 1 then some infix_text
    else if isFullyEnclosed infix_text then
      infixToPrefixAux n ((infix_text.drop 1).take (infix_text.length - 2))
    else
      let operator_pos := findMainOperator infix_text
      if operator_pos ≠ -1 then
        let op := infix_text.getD operator_pos.toNat ' '
        if op = '~' ∧ operator_pos = 0 then
          match infixToPrefixAux n (infix_text.drop 1) with
          | none => none
          | some r => some (op :: r)
        else
          match infixToPrefixAux n (infix_text.take operator_pos.toNat),
                infixToPrefixAux n (infix_text.drop (operator_pos.toNat + 1)) with
          | some l, some r => some (op :: (l ++ r))
          | _, _ => none
      else some infix_text

/-- Source: `infixToPrefix` (main.cpp 108-127). Every recursive call is on a
shorter string, so `length + 1` bounds the depth. -/
def infixToPrefix (infix_text : Str) : Option Str :=
  infixToPrefixAux (infix_text.length + 1) infix_text

/-- Source: `buildParseTreeRecursive` (main.cpp 130-145). The pair
(`prefix`, `index`) is kept as the unread part `prefix[index ..]`; the value is
the tree and the unread part left behind. `none`: fuel exhausted. -/
def buildParseTreeRecursive : Nat → Str → Option (Node × Str)
  | 0, _ => none
  | _ + 1, [] => some (.null, [])
  | n + 1, currentChar :: rest =>
    if isOperator currentChar then
      if currentChar = '~' then
        match buildParseTreeRecursive n rest with
        | none => none
        | some (r, rest1) => some (.mk currentChar .null r, rest1)
      else
        match buildParseTreeRecursive n rest with
        | none => none
        | some (l, rest1) =>
          match buildParseTreeRecursive n rest1 with
          | none => none
          | some (r, rest2) => some (.mk currentChar l r, rest2)
    else some (.mk currentChar .null .null, rest)

/-- Source: `buildParseTree` (main.cpp 148-152). Every call that goes on reads
one character, so `length + 1` bounds the depth. -/
def buildParseTree (prefix_text : Str) : Option Node :=
  if prefix_text.isEmpty then some .null
  else (buildParseTreeRecursive (prefix_text.length + 1) prefix_text).map Prod.fst

/-- Source: `parseTreeToInfix` (main.cpp 161-171). -/
def parseTreeToInfix : Node → Str
  | .null => []
  | .mk d l r =>
    if !isOperator d then [d]
    else if d = '~' then ['(', '~'] ++ parseTreeToInfix r ++ [')']
    else ['('] ++ parseTreeToInfix l ++ [d] ++ parseTreeToInfix r ++ [')']

/-- Source: the truth-table loops of `main`, case 5 (main.cpp 637-649): one row
per `mask` from 0 below `1 << n`, and in a row each variable `varList[i]` with
the value `(mask & (1 << (n - i - 1))) != 0`. A row is the list of the bindings
written to `rowValues`, in the order of `varList`. `main` has no ceiling on
`n`; it enters these loops only when there is at least one variable. `1 << n`
is an `int`: at `n = 31` it is the two's-complement value `INT_MIN`, so the
loop body never runs; from `n = 32` on the shift count is not less than the
width of `int`, the shift is undefined and there is no result (`none`). -/
def truthTableRows (varList : List Char) : Option (List (List (Char × Bool))) :=
  let n := varList.length
  if n ≥ 32 then none
  else
    some ((List.range (Main2.wrapInt ((1 <<< n : Nat) : Int)).toNat).map fun mask =>
      varList.enum.map fun iv => (iv.2, (mask &&& (1 <<< (n - iv.1 - 1))) != 0))

end Main1

namespace Main1

/-! ### The formula syntax for `main.cpp` -/

/-- A character that can stand for a variable in the text: any character other
than the space, the parentheses and `+ * ~ >`. -/
def isVariableChar (c : Char) : Bool :=
  c != ' ' && c != '(' && c != ')' && !isOperator c

/-- The pre-order character sequence of a tree: the node, then its left
subtree, then its right subtree. -/
def preorder : Node → Str
  | .null => []
  | .mk d l r => d :: (preorder l ++ preorder r)

/-- The infix grammar of the formula syntax with one-character identifiers.
`Denotes k s T`: the text `s` denotes the tree `T` as an expression of level
`k`, where level 0 is an implication chain, 1 a disjunction, 2 a conjunction and
3 a unary expression (an identifier, a parenthesised expression, or `~` applied
to a unary expression). Binary operators associate to the left. Spaces may
stand before and after every expression. -/
inductive Denotes : Nat → Str → Node → Prop
  | ident {c : Char} : isVariableChar c = true → Denotes 3 [c] (.mk c .null .null)
  | paren {s : Str} {T : Node} : Denotes 0 s T → Denotes 3 (['('] ++ s ++ [')']) T
  | neg {s : Str} {T : Node} : Denotes 3 s T → Denotes 3 (['~'] ++ s) (.mk '~' .null T)
  | and {s₁ s₂ : Str} {T₁ T₂ : Node} : Denotes 2 s₁ T₁ → Denotes 3 s₂ T₂ →
      Denotes 2 (s₁ ++ ['*'] ++ s₂) (.mk '*' T₁ T₂)
  | or {s₁ s₂ : Str} {T₁ T₂ : Node} : Denotes 1 s₁ T₁ → Denotes 2 s₂ T₂ →
      Denotes 1 (s₁ ++ ['+'] ++ s₂) (.mk '+' T₁ T₂)
  | imp {s₁ s₂ : Str} {T₁ T₂ : Node} : Denotes 0 s₁ T₁ → Denotes 1 s₂ T₂ →
      Denotes 0 (s₁ ++ ['>'] ++ s₂) (.mk '>' T₁ T₂)
  | up {k : Nat} {s : Str} {T : Node} : Denotes (k + 1) s T → Denotes k s T
  | spaceBefore {k : Nat} {s : Str} {T : Node} : Denotes k s T → Denotes k (' ' :: s) T
  | spaceAfter {k : Nat} {s : Str} {T : Node} : Denotes k s T → Denotes k (s ++ [' ']) T

/-- The same grammar on texts without spaces. -/
inductive Tight : Nat → Str → Node → Prop
  | ident {c : Char} : isVariableChar c = true → Tight 3 [c] (.mk c .null .null)
  | paren {s : Str} {T : Node} : Tight 0 s T → Tight 3 ('(' :: s ++ [')']) T
  | neg {s : Str} {T : Node} : Tight 3 s T → Tight 3 ('~' :: s) (.mk '~' .null T)
  | bin {k : Nat} {op : Char} {s₁ s₂ : Str} {T₁ T₂ : Node} :
      (op = '*' ∧ k = 2) ∨ (op = '+' ∧ k = 1) ∨ (op = '>' ∧ k = 0) →
      Tight k s₁ T₁ → Tight (k + 1) s₂ T₂ → Tight k (s₁ ++ op :: s₂) (.mk op T₁ T₂)
  | up {k : Nat} {s : Str} {T : Node} : Tight (k + 1) s T → Tight k s T

/-- The tree of `main_2.cpp` for a tree of `main.cpp`: the same labels as
one-character strings, the operand of `~` moved from the right to the left. -/
def toMain2 : Node → Main2.Node
  | .null => .null
  | .mk d l r =>
    if d = '~' then .mk [d] (toMain2 r) .null
    else .mk [d] (toMain2 l) (toMain2 r)

end Main1

namespace Main1

/-! ### The CNF validity check of `main.cpp` -/

/-- Source: the first loop of `is_clause_true` (main.cpp 414-422) with the push
that follows it: the clause is cut at every `+`, empty pieces are dropped.
`token` and `literals` are the locals. -/
def splitPlus : Str → Str → List Str → List Str
  | [], token, literals => if token.isEmpty then literals else literals ++ [token]
  | c :: rest, token, literals =>
    if c = '+' then splitPlus rest [] (if token.isEmpty then literals else literals ++ [token])
    else splitPlus rest (token ++ [c]) literals

/-- Source: `is_clause_true` (main.cpp 408-439). `literals[i][1]` of a
one-character literal is the terminating `\0`. -/
def is_clause_true (clause : Str) : Bool :=
  let clause := clause.filter fun c => c != '('
  let clause := clause.filter fun c => c != ')'
  let clause := clause.filter fun c => c != ' '
  let literals := splitPlus clause [] []
  literals.any fun li =>
    li.head? == some '~' && literals.any fun lj => lj.getD 0 '\x00' == li.getD 1 '\x00'

/-- Source: the first loop of `check_cnf_valid` (main.cpp 446-455) with the
push that follows it: the formula is cut at every `*` met at parenthesis level
0, empty pieces are dropped. -/
def splitStar : Str → Int → Str → List Str → List Str
  | [], _, clause, clauses => if clause.isEmpty then clauses else clauses ++ [clause]
  | c :: rest, paren_level, clause, clauses =>
    let paren_level := if c = '(' then paren_level + 1 else paren_level
    let paren_level := if c = ')' then paren_level - 1 else paren_level
    if c = '*' ∧ paren_level = 0 then
      splitStar rest paren_level [] (if clause.isEmpty then clauses else clauses ++ [clause])
    else splitStar rest paren_level (clause ++ [c]) clauses

/-- Source: `check_cnf_valid` (main.cpp 442-467). -/
def check_cnf_valid (formula : Str) : Bool :=
  let clauses := splitStar formula 0 [] []
  let clauses := if clauses.isEmpty && !formula.isEmpty then clauses ++ [formula] else clauses
  if clauses.isEmpty then false
  else
    let count_false := (clauses.filter fun cls => !is_clause_true cls).length
    count_false == 0

/-- The text of a literal over a one-character variable: the variable, after
`~` when the literal is negated (flag `true`). -/
def litText (l : Bool × Char) : Str := if l.1 then ['~', l.2] else [l.2]

/-- The text of a clause: its literals joined by `+`, in parentheses when the
flag is `true`. -/
def clauseText (c : Bool × List (Bool × Char)) : Str :=
  if c.1 then ['('] ++ Main2.joinSep ['+'] (c.2.map litText) ++ [')']
  else Main2.joinSep ['+'] (c.2.map litText)

/-- The text of a CNF formula: its clauses joined by `*`. -/
def cnfText (cs : List (Bool × List (Bool × Char))) : Str :=
  Main2.joinSep ['*'] (cs.map clauseText)

end Main1

namespace Main2

/-- The literal of the infix syntax that `dimacsToInfix` writes for a DIMACS
literal: the identifier `P` followed by the number, flagged as negated for
a negative literal (main_2.cpp 577-581). -/
def dimacsLit (lit : Literal) : Bool × Str :=
  if lit < 0 then (true, 'P' :: intToStr (negInt lit)) else (false, 'P' :: intToStr lit)

end Main2

namespace Main2

/-! ### The rewrite `cnf` of `main_2.cpp` on a heap of nodes -/

/-- A `struct Node` in memory: the data and the two pointers, `none` for
`nullptr`. -/
structure Cell where
  data : Str
  left : Option Nat
  right : Option Nat
deriving DecidableEq, Repr

/-- The heap: one entry for every address handed out by `new`, in order; the
entry is `none` once the node has been deleted. -/
abbrev Heap := List (Option Cell)

/-- The node at an address; `none` for an address that is not allocated. -/
def Heap.read (h : Heap) (p : Nat) : Option Cell := h.getD p none

/-- Source: `new Node(val)`: a fresh node with both pointers null. -/
def Heap.alloc (h : Heap) (val : Str) : Nat × Heap :=
  (h.length, h ++ [some { data := val, left := none, right := none }])

/-- Source: `delete p`; `none` when `p` is not allocated. -/
def Heap.delete (h : Heap) (p : Nat) : Option Heap :=
  match h.read p with
  | none => none
  | some _ => some (h.set p none)

/-- Source: `p->left = v`; `none` when `p` is not allocated. -/
def Heap.setLeft (h : Heap) (p : Nat) (v : Option Nat) : Option Heap :=
  match h.read p with
  | none => none
  | some c => some (h.set p (some { c with left := v }))

/-- Source: `p->right = v`; `none` when `p` is not allocated. -/
def Heap.setRight (h : Heap) (p : Nat) (v : Option Nat) : Option Heap :=
  match h.read p with
  | none => none
  | some c => some (h.set p (some { c with right := v }))

/-- Source: `copyTree` (main_2.cpp 316-322) on the heap, with fuel: the pointer
returned and the heap left behind. -/
def copyTreeH : Nat → Heap → Option Nat → Option (Option Nat × Heap)
  | 0, _, _ => none
  | _ + 1, h, none => some (none, h)
  | n + 1, h, some root => do
    let c ← h.read root
    let (newNode, h) := h.alloc c.data
    let (l, h) ← copyTreeH n h c.left
    let h ← h.setLeft newNode l
    let (r, h) ← copyTreeH n h c.right
    let h ← h.setRight newNode r
    pure (some newNode, h)

/-- Reads `p && p->data == "*"`. -/
def Heap.isAnd (h : Heap) (p : Option Nat) : Bool :=
  match p with
  | none => false
  | some a =>
    match h.read a with
    | none => false
    | some c => c.data == ['*']

/-- Source: the first distribution of `cnf`, `(A * B) + C` (main_2.cpp 335-355),
up to its deletes; `l` and `r` are the children of `root`. The value holds the
pointers `new_and`, `p_plus_r`, `q_plus_r_copy` and the heap. -/
def distributeLeftH (n : Nat) (h : Heap) (root l : Nat) (r : Option Nat) :
    Option (Nat × Nat × Nat × Heap) :=
  (h.read l).bind fun cl =>
  let p := cl.left
  let q := cl.right
  let new_and := h.alloc ['*']
  let p_plus_r := new_and.2.alloc ['+']
  (p_plus_r.2.setLeft p_plus_r.1 p).bind fun h =>
  (h.setRight p_plus_r.1 r).bind fun h =>
  let q_plus_r_copy := h.alloc ['+']
  (copyTreeH n q_plus_r_copy.2 q).bind fun qc =>
  (qc.2.setLeft q_plus_r_copy.1 qc.1).bind fun h =>
  (copyTreeH n h r).bind fun rc =>
  (rc.2.setRight q_plus_r_copy.1 rc.1).bind fun h =>
  (h.setLeft l none).bind fun h =>
  (h.setRight l none).bind fun h =>
  (h.setRight root none).bind fun h =>
  (h.delete l).bind fun h =>
  (h.delete root).bind fun h =>
  some (new_and.1, p_plus_r.1, q_plus_r_copy.1, h)

/-- Source: the second distribution of `cnf`, `C + (A * B)` (main_2.cpp
365-389), up to its deletes; `l` and `r` are the children of `root`. The value
holds the pointers `new_and`, `p_copy_plus_q`, `p_plus_s` and the heap. -/
def distributeRightH (n : Nat) (h : Heap) (root : Nat) (l : Option Nat) (r : Nat) :
    Option (Nat × Nat × Nat × Heap) :=
  (h.read r).bind fun cr =>
  let p := l
  let q := cr.left
  let s := cr.right
  let new_and := h.alloc ['*']
  let p_copy_plus_q := new_and.2.alloc ['+']
  (copyTreeH n p_copy_plus_q.2 p).bind fun pc =>
  (pc.2.setLeft p_copy_plus_q.1 pc.1).bind fun h =>
  (h.setRight p_copy_plus_q.1 q).bind fun h =>
  let p_plus_s := h.alloc ['+']
  (p_plus_s.2.setLeft p_plus_s.1 p).bind fun h =>
  (h.setRight p_plus_s.1 s).bind fun h =>
  (h.setLeft root none).bind fun h =>
  (h.setLeft r none).bind fun h =>
  (h.setRight r none).bind fun h =>
  (h.delete r).bind fun h =>
  (h.delete root).bind fun h =>
  some (new_and.1, p_copy_plus_q.1, p_plus_s.1, h)

/-- Source: the body of `if (root->data == "+")` in `cnf` (main_2.cpp 333-392)
up to the deletes, on a node `root` whose children `l` and `r` have been
rewritten: `some none` when no distribution applies. -/
def distributeH (n : Nat) (h : Heap) (root : Nat) (l r : Option Nat) :
    Option (Option (Nat × Nat × Nat × Heap)) :=
  (h.read root).bind fun c =>
  if c.data = ['+'] then
    if h.isAnd l then l.bind fun pl => (distributeLeftH n h root pl r).map some
    else if h.isAnd r then r.bind fun pr => (distributeRightH n h root l pr).map some
    else some none
  else some none

/-- Source: `cnf` (main_2.cpp 324-395) on the heap, with fuel: the pointer
returned and the heap left behind. `none`: fuel exhausted or an access through
a pointer that is not allocated. -/
def cnfH : Nat → Heap → Option Nat → Option (Option Nat × Heap)
  | 0, _, _ => none
  | _ + 1, h, none => some (none, h)
  | n + 1, h, some root =>
    (h.read root).bind fun c =>
    if isOperand c.data || c.data == ['~'] then some (some root, h)
    else
      (cnfH n h c.left).bind fun lh =>
      (lh.2.setLeft root lh.1).bind fun h1 =>
      (h1.read root).bind fun c1 =>
      (cnfH n h1 c1.right).bind fun rh =>
      (rh.2.setRight root rh.1).bind fun h2 =>
      (distributeH n h2 root lh.1 rh.1).bind fun d =>
      match d with
      | none => some (some root, h2)
      | some (new_and, x, y, h3) =>
        (cnfH n h3 (some x)).bind fun ah =>
        (ah.2.setLeft new_and ah.1).bind fun h4 =>
        (cnfH n h4 (some y)).bind fun bh =>
        (bh.2.setRight new_and bh.1).bind fun h5 => some (some new_and, h5)

/-- The addresses reached from a pointer through `left` and `right`, with
fuel. -/
def reachable : Nat → Heap → Option Nat → List Nat
  | 0, _, _ => []
  | _ + 1, _, none => []
  | n + 1, h, some p =>
    match h.read p with
    | none => [p]
    | some c => p :: (reachable n h c.left ++ reachable n h c.right)

/-- The nodes still allocated that the tree at `root` does not reach. -/
def leaked (h : Heap) (root : Option Nat) : List Nat :=
  (List.range h.length).filter fun a =>
    (h.read a).isSome && !(reachable (h.length + 1) h root).contains a

/-- The tree read back from the heap, with fuel. -/
def treeAt : Nat → Heap → Option Nat → Node
  | 0, _, _ => .null
  | _ + 1, _, none => .null
  | n + 1, h, some p =>
    match h.read p with
    | none => .null
    | some c => .mk c.data (treeAt n h c.left) (treeAt n h c.right)

end Main2

namespace Main1

/-- The standard truth value of a tree under a total assignment: `~` negation
(of the right child), `*` conjunction, `+` disjunction, `l > r` is
`(not l) or r`. -/
def truthValue (σ : Char → Bool) : Node → Bool
  | .null => false
  | .mk d l r =>
    if d = '~' then !truthValue σ r
    else if d = '*' then truthValue σ l && truthValue σ r
    else if d = '+' then truthValue σ l || truthValue σ r
    else if d = '>' then !truthValue σ l || truthValue σ r
    else σ d

/-- The total assignment that extends an environment by mapping every unbound
variable to false. -/
def extendFalse (env : Env) : Char → Bool := fun c => (env c).getD false

end Main1

namespace Main1

/-- The literals of a clause tree, left to right, each with its negation flag
(`true`: negated). -/
def litsOf : Node → List (Bool × Char)
  | .null => []
  | .mk d l r =>
    if !isOperator d then [(false, d)]
    else if d = '~' then
      match r with
      | .mk x _ _ => [(true, x)]
      | .null => []
    else litsOf l ++ litsOf r

end Main1

/-! ## The reference rewrite of implication elimination -/

/-- A propositional formula over variables of type `α`: a variable, a negation,
a conjunction, a disjunction or an implication. -/
inductive Formula (α : Type) where
  | var : α → Formula α
  | not : Formula α → Formula α
  | and : Formula α → Formula α → Formula α
  | or : Formula α → Formula α → Formula α
  | implies : Formula α → Formula α → Formula α
deriving DecidableEq, Repr

namespace Formula

/-- Implication elimination as it is described: every implication `l > r` is
replaced by `(~l') + r'`, where `l'` and `r'` are the rewritten children; every
other node is left as it is, with rewritten children. -/
def implFree {α : Type} : Formula α → Formula α
  | var x => var x
  | not f => not (implFree f)
  | and f g => and (implFree f) (implFree g)
  | or f g => or (implFree f) (implFree g)
  | implies f g => or (not (implFree f)) (implFree g)

/-- The formula has an implication somewhere. -/
def hasImplies {α : Type} : Formula α → Bool
  | var _ => false
  | not f => hasImplies f
  | and f g => hasImplies f || hasImplies g
  | or f g => hasImplies f || hasImplies g
  | implies _ _ => true

end Formula

namespace Main2

/-- The tree of `main_2.cpp` for a formula: the operand of `~` is the left
child. -/
def ofFormula : Formula Str → Node
  | .var x => .mk x .null .null
  | .not f => .mk ['~'] (ofFormula f) .null
  | .and f g => .mk ['*'] (ofFormula f) (ofFormula g)
  | .or f g => .mk ['+'] (ofFormula f) (ofFormula g)
  | .implies f g => .mk ['>'] (ofFormula f) (ofFormula g)

end Main2

namespace Main1

/-- The tree of `main.cpp` for a formula: the operand of `~` is the right
child. -/
def ofFormula : Formula Char → Node
  | .var x => .mk x .null .null
  | .not f => .mk '~' .null (ofFormula f)
  | .and f g => .mk '*' (ofFormula f) (ofFormula g)
  | .or f g => .mk '+' (ofFormula f) (ofFormula g)
  | .implies f g => .mk '>' (ofFormula f) (ofFormula g)

end Main1

/-! ## Balanced parentheses -/

/-- One step of the parenthesis count at level `k`: the opening parenthesis `o`
raises the level, the closing parenthesis `c` lowers it and has no partner at
level 0, anything else leaves it. -/
def parenStep {α : Type} [DecidableEq α] (o c x : α) (k : Nat) : Option Nat :=
  if x = o then some (k + 1)
  else if x = c then (if k = 0 then none else some (k - 1))
  else some k

/-- The parenthesis level after reading a sequence from level `k`; `none` when
some closing parenthesis has no partner. -/
def parenLevel {α : Type} [DecidableEq α] (o c : α) : List α → Nat → Option Nat
  | [], k => some k
  | x :: s, k =>
    match parenStep o c x k with
    | none => none
    | some k' => parenLevel o c s k'

/-- The parentheses of a text are balanced: every closing parenthesis has a
partner before it and every opening parenthesis one after it. -/
def balanced (s : Str) : Bool := parenLevel '(' ')' s 0 == some 0


namespace Main2

/-! ### Reading a tree from a stream of prefix tokens -/

/-- Reading one tree from a stream of prefix tokens. `ReadsTree ts T ts'`: from
the tokens `ts` the tree `T` is read and the tokens `ts'` are left. On an
exhausted stream the tree read is null; a token that is no operator is a leaf;
`~` takes the tree read next as its left child and has no right child; another
operator takes the tree read next as its left child and the tree read after
that as its right child. -/
inductive ReadsTree : List Str → Node → List Str → Prop
  | exhausted : ReadsTree [] .null []
  | operand {t : Str} {ts : List Str} :
      isOperator t = false → ReadsTree (t :: ts) (.mk t .null .null) ts
  | neg {ts ts1 : List Str} {l : Node} :
      ReadsTree ts l ts1 → ReadsTree (['~'] :: ts) (.mk ['~'] l .null) ts1
  | bin {op : Str} {ts ts1 ts2 : List Str} {l r : Node} :
      isOperator op = true → op ≠ ['~'] →
      ReadsTree ts l ts1 → ReadsTree ts1 r ts2 → ReadsTree (op :: ts) (.mk op l r) ts2

/-- The tree cut after its first `k` nodes in pre-order: every node beyond them
is replaced by null. The value is the cut tree and what is left of `k`. -/
def cutTree : Nat → Node → Node × Nat
  | k, .null => (.null, k)
  | 0, .mk _ _ _ => (.null, 0)
  | k + 1, .mk d l r =>
    let a := cutTree k l
    let b := cutTree a.2 r
    (.mk d a.1 b.1, b.2)

end Main2

namespace Main1

/-! ### Reading a tree from a prefix text -/

/-- Reading one tree from a prefix text, every character a token.
`ReadsTree p T p'`: from the characters `p` the tree `T` is read and the
characters `p'` are left. On an exhausted text the tree read is null; a
character that is no operator is a leaf; `~` takes the tree read next as its
right child and has no left child; another operator takes the tree read next
as its left child and the tree read after that as its right child. -/
inductive ReadsTree : Str → Node → Str → Prop
  | exhausted : ReadsTree [] .null []
  | operand {t : Char} {ts : Str} :
      isOperator t = false → ReadsTree (t :: ts) (.mk t .null .null) ts
  | neg {ts ts1 : Str} {r : Node} :
      ReadsTree ts r ts1 → ReadsTree ('~' :: ts) (.mk '~' .null r) ts1
  | bin {op : Char} {ts ts1 ts2 : Str} {l r : Node} :
      isOperator op = true → op ≠ '~' →
      ReadsTree ts l ts1 → ReadsTree ts1 r ts2 → ReadsTree (op :: ts) (.mk op l r) ts2

/-- The tree cut after its first `k` nodes in pre-order: every node beyond them
is replaced by null. The value is the cut tree and what is left of `k`. -/
def cutTree : Nat → Node → Node × Nat
  | k, .null => (.null, k)
  | 0, .mk _ _ _ => (.null, 0)
  | k + 1, .mk d l r =>
    let a := cutTree k l
    let b := cutTree a.2 r
    (.mk d a.1 b.1, b.2)

end Main1

namespace Main2

theorem isOperand_not_op {d : Str} (h : isOperand d = true) :
    d ≠ ['~'] ∧ d ≠ ['+'] ∧ d ≠ ['*'] ∧ d ≠ ['>'] := by
  refine ⟨?_, ?_, ?_, ?_⟩ <;> rintro rfl <;> revert h <;> decide

theorem binop_not_operand {d : Str} (h : d = ['+'] ∨ d = ['*'] ∨ d = ['>']) :
    isOperand d = false ∧ d ≠ ['~'] := by
  rcases h with rfl | rfl | rfl <;> decide

theorem copyTree_eq (t : Node) : copyTree t = t := by
  induction t with
  | null => rfl
  | mk d l r ihl ihr => simp [copyTree, ihl, ihr]

/-! ### `evaluate` -/

theorem evaluate_leaf {d : Str} (h : isOperand d = true) (l r : Node) (env : Env) :
    evaluate (.mk d l r) env = env d := by
  simp [evaluate, h]

theorem evaluate_neg (l r : Node) (env : Env) :
    evaluate (.mk ['~'] l r) env = (evaluate l env).map (fun v => !v) := by
  have h : isOperand ['~'] = false := by decide
  simp only [evaluate, h]
  cases evaluate l env <;> simp

theorem evaluate_or (l r : Node) (env : Env) :
    evaluate (.mk ['+'] l r) env =
      (evaluate l env).bind fun a => (evaluate r env).map fun b => (a || b) := by
  have h : isOperand ['+'] = false := by decide
  simp only [evaluate, h]
  cases evaluate l env <;> cases evaluate r env <;> simp

theorem evaluate_and (l r : Node) (env : Env) :
    evaluate (.mk ['*'] l r) env =
      (evaluate l env).bind fun a => (evaluate r env).map fun b => (a && b) := by
  have h : isOperand ['*'] = false := by decide
  simp only [evaluate, h]
  cases evaluate l env <;> cases evaluate r env <;> simp

theorem evaluate_imp (l r : Node) (env : Env) :
    evaluate (.mk ['>'] l r) env =
      (evaluate l env).bind fun a => (evaluate r env).map fun b => (!a || b) := by
  have h : isOperand ['>'] = false := by decide
  simp only [evaluate, h]
  cases evaluate l env <;> cases evaluate r env <;> simp

/-- Replacing the children of a node by trees that evaluate alike does not change
the value of the node. -/
theorem evaluate_congr (d : Str) {l l' r r' : Node} (env : Env)
    (hl : evaluate l' env = evaluate l env) (hr : evaluate r' env = evaluate r env) :
    evaluate (.mk d l' r') env = evaluate (.mk d l r) env := by
  simp only [evaluate, hl, hr]

end Main2

namespace Main2

theorem evaluate_impl_free (t : Node) (env : Env) :
    evaluate (impl_free t) env = evaluate t env := by
  induction t with
  | null => rfl
  | mk d l r ihl ihr =>
    by_cases hd : d = ['>']
    · subst hd
      simp only [impl_free, if_true]
      rw [evaluate_or, evaluate_neg, evaluate_imp, ihl, ihr]
      cases evaluate l env <;> cases evaluate r env <;> simp
    · simp only [impl_free, if_neg hd]
      exact evaluate_congr d env ihl ihr

theorem nnfAux_evaluate (env : Env) :
    ∀ (n : Nat) (t t' : Node), nnfAux n t = some t' → evaluate t' env = evaluate t env := by
  intro n
  induction n with
  | zero => intro t t' h; simp [nnfAux] at h
  | succ n ih =>
    intro t t' h
    cases t with
    | null => simp [nnfAux] at h; subst h; rfl
    | mk d l r =>
      simp only [nnfAux] at h
      split at h
      · simp at h; subst h; rfl
      · split at h
        · rename_i hd; subst hd
          cases l with
          | null => simp at h
          | mk cd cl cr =>
            simp only at h
            split at h
            · simp at h; subst h; rfl
            · split at h
              · rename_i hcd; subst hcd
                rw [ih _ _ h, evaluate_neg, evaluate_neg]
                cases evaluate cl env <;> simp
              · split at h
                · rename_i hcd; subst hcd
                  split at h
                  · rename_i a b ha hb
                    simp at h; subst h
                    rw [evaluate_and, ih _ _ ha, ih _ _ hb, evaluate_neg, evaluate_neg,
                      evaluate_neg, evaluate_or]
                    cases evaluate cl env <;> cases evaluate cr env <;> simp
                  · simp at h
                · split at h
                  · rename_i hcd; subst hcd
                    split at h
                    · rename_i a b ha hb
                      simp at h; subst h
                      rw [evaluate_or, ih _ _ ha, ih _ _ hb, evaluate_neg, evaluate_neg,
                        evaluate_neg, evaluate_and]
                      cases evaluate cl env <;> cases evaluate cr env <;> simp
                    · simp at h
                  · split at h
                    · rename_i a b ha hb
                      simp at h; subst h
                      exact evaluate_congr _ env (ih _ _ ha) (ih _ _ hb)
                    · simp at h
        · split at h
          · rename_i a b ha hb
            simp at h; subst h
            exact evaluate_congr _ env (ih _ _ ha) (ih _ _ hb)
          · simp at h

end Main2

namespace Main2

/-! ### `cnf`: value preservation and termination -/

theorem evaluate_distribute_left (p q r : Node) (env : Env) :
    evaluate (.mk ['*'] (.mk ['+'] p r) (.mk ['+'] q r)) env =
      evaluate (.mk ['+'] (.mk ['*'] p q) r) env := by
  simp only [evaluate_and, evaluate_or]
  cases evaluate p env <;> cases evaluate q env <;> cases evaluate r env <;>
    simp [Bool.or_and_distrib_right]

theorem evaluate_distribute_right (l q s : Node) (env : Env) :
    evaluate (.mk ['*'] (.mk ['+'] l q) (.mk ['+'] l s)) env =
      evaluate (.mk ['+'] l (.mk ['*'] q s)) env := by
  simp only [evaluate_and, evaluate_or]
  cases evaluate l env <;> cases evaluate q env <;> cases evaluate s env <;>
    simp [Bool.or_and_distrib_left]

theorem hasData_eq {s : Str} {t : Node} (h : t.hasData s = true) :
    t = .mk s t.left t.right := by
  cases t with
  | null => simp [Node.hasData] at h
  | mk d l r => simp [Node.hasData] at h; simp [h, Node.left, Node.right]

theorem cnfAux_evaluate (env : Env) :
    ∀ (n : Nat) (t t' : Node), cnfAux n t = some t' → evaluate t' env = evaluate t env := by
  intro n
  induction n with
  | zero => intro t t' h; simp [cnfAux] at h
  | succ n ih =>
    intro t t' h
    cases t with
    | null => simp [cnfAux] at h; subst h; rfl
    | mk d l r =>
      simp only [cnfAux] at h
      split at h
      · simp at h; subst h; rfl
      · split at h
        · rename_i l' r' hl hr
          have el := ih _ _ hl
          have er := ih _ _ hr
          split at h
          · rename_i hd; subst hd
            split at h
            · rename_i hand
              split at h
              · rename_i a b ha hb
                simp at h; subst h
                have ea := ih _ _ ha
                have eb := ih _ _ hb
                rw [copyTree_eq, copyTree_eq] at eb
                rw [evaluate_congr _ env ea eb, evaluate_distribute_left, ← hasData_eq hand]
                exact evaluate_congr _ env el er
              · simp at h
            · split at h
              · rename_i hand
                split at h
                · rename_i a b ha hb
                  simp at h; subst h
                  have ea := ih _ _ ha
                  have eb := ih _ _ hb
                  rw [copyTree_eq] at ea
                  rw [evaluate_congr _ env ea eb, evaluate_distribute_right, ← hasData_eq hand]
                  exact evaluate_congr _ env el er
                · simp at h
              · simp at h; subst h
                exact evaluate_congr _ env el er
          · simp at h; subst h
            exact evaluate_congr _ env el er
        · simp at h

theorem cnfFuel_pos (t : Node) : 2 ≤ cnfFuel t := by
  induction t with
  | null => simp [cnfFuel]
  | mk d l r ihl ihr =>
    simp only [cnfFuel]
    split
    · exact le_refl _
    · split
      · nlinarith
      · omega

theorem cnfFuel_and (p q : Node) : cnfFuel (.mk ['*'] p q) = cnfFuel p + cnfFuel q + 1 := by
  simp [cnfFuel, isOperand, isOperator]

theorem cnfFuel_or (p q : Node) : cnfFuel (.mk ['+'] p q) = cnfFuel p * cnfFuel q := by
  simp [cnfFuel, isOperand, isOperator]

theorem distribute_fuel_arith {a b p q r L : Nat} (fa : a ≤ p * r) (fb : b ≤ q * r)
    (h : (p + q + 1) * r ≤ L) (hr : 1 ≤ r) : a + b + 1 ≤ L := by
  have e : (p + q + 1) * r = p * r + q * r + r := by ring
  omega

/-- With fuel at least `cnfFuel t` the recursion of `cnf` finishes, and the
result needs no more fuel than the input. -/
theorem cnfAux_total :
    ∀ (n : Nat) (t : Node), cnfFuel t ≤ n →
      ∃ t', cnfAux n t = some t' ∧ cnfFuel t' ≤ cnfFuel t := by
  intro n
  induction n with
  | zero => intro t h; have := cnfFuel_pos t; omega
  | succ n ih =>
    intro t h
    cases t with
    | null => exact ⟨.null, by simp [cnfAux], le_refl _⟩
    | mk d l r =>
      simp only [cnfAux]
      by_cases h1 : (isOperand d || d == ['~']) = true
      · simp only [h1, if_true]; exact ⟨_, rfl, le_refl _⟩
      · have hf : cnfFuel (.mk d l r) =
            if d = ['+'] then cnfFuel l * cnfFuel r else cnfFuel l + cnfFuel r + 1 := by
          simp only [cnfFuel, if_neg h1]
        have pl := cnfFuel_pos l
        have pr := cnfFuel_pos r
        have hl : cnfFuel l ≤ n := by
          rw [hf] at h; split at h
          · nlinarith
          · omega
        have hr : cnfFuel r ≤ n := by
          rw [hf] at h; split at h
          · nlinarith
          · omega
        obtain ⟨l', el, fl⟩ := ih l hl
        obtain ⟨r', er, fr⟩ := ih r hr
        have pl' := cnfFuel_pos l'
        have pr' := cnfFuel_pos r'
        simp only [if_neg h1, el, er]
        by_cases hd : d = ['+']
        · subst hd
          simp only [if_true] at hf ⊢
          rw [hf] at h ⊢
          have hprod : cnfFuel l' * cnfFuel r' ≤ cnfFuel l * cnfFuel r :=
            Nat.mul_le_mul fl fr
          by_cases ha : l'.hasData ['*'] = true
          · simp only [ha, if_true]
            have e := hasData_eq ha
            have f1 : cnfFuel l' = cnfFuel l'.left + cnfFuel l'.right + 1 := by
              conv_lhs => rw [e]
              exact cnfFuel_and _ _
            have pp := cnfFuel_pos l'.left
            have pq := cnfFuel_pos l'.right
            rw [f1] at hprod
            obtain ⟨a, ea, fa⟩ := ih (.mk ['+'] l'.left r') (by rw [cnfFuel_or]; nlinarith)
            obtain ⟨b, eb, fb⟩ := ih (.mk ['+'] (copyTree l'.right) (copyTree r'))
              (by rw [cnfFuel_or, copyTree_eq, copyTree_eq]; nlinarith)
            rw [cnfFuel_or] at fa
            rw [cnfFuel_or, copyTree_eq, copyTree_eq] at fb
            simp only [ea, eb]
            exact ⟨_, rfl, by rw [cnfFuel_and]; exact distribute_fuel_arith fa fb hprod (by omega)⟩
          · simp only [ha, Bool.false_eq_true, if_false]
            by_cases hb : r'.hasData ['*'] = true
            · simp only [hb, if_true]
              have e := hasData_eq hb
              have f1 : cnfFuel r' = cnfFuel r'.left + cnfFuel r'.right + 1 := by
                conv_lhs => rw [e]
                exact cnfFuel_and _ _
              have pp := cnfFuel_pos r'.left
              have pq := cnfFuel_pos r'.right
              rw [f1] at hprod
              obtain ⟨a, ea, fa⟩ := ih (.mk ['+'] (copyTree l') r'.left)
                (by rw [cnfFuel_or, copyTree_eq]; nlinarith)
              obtain ⟨b, eb, fb⟩ := ih (.mk ['+'] l' r'.right)
                (by rw [cnfFuel_or]; nlinarith)
              rw [cnfFuel_or, copyTree_eq, Nat.mul_comm] at fa
              rw [cnfFuel_or, Nat.mul_comm] at fb
              rw [Nat.mul_comm] at hprod
              simp only [ea, eb]
              exact ⟨_, rfl, by rw [cnfFuel_and]; exact distribute_fuel_arith fa fb hprod (by omega)⟩
            · simp only [hb, Bool.false_eq_true, if_false]
              exact ⟨_, rfl, by rw [cnfFuel_or]; exact hprod⟩
        · simp only [if_neg hd] at hf ⊢
          refine ⟨_, rfl, ?_⟩
          rw [hf]
          simp only [cnfFuel, if_neg h1, if_neg hd]
          omega

end Main2

namespace Main2

/-! ### Shapes through the pipeline -/

theorem impl_free_wellFormed {t : Node} (h : WellFormed t) :
    WellFormed (impl_free t) ∧ (impl_free t).contains ['>'] = false := by
  induction h with
  | @leaf d hd =>
    have hn := (isOperand_not_op hd).2.2.2
    simp only [impl_free, if_neg hn]
    exact ⟨.leaf hd, by simp [Node.contains, hn]⟩
  | neg _ ih =>
    simp only [impl_free]
    exact ⟨.neg ih.1, by simp [Node.contains, ih.2]⟩
  | @bin d l r hd _ _ ihl ihr =>
    rcases hd with rfl | rfl | rfl
    · simp only [impl_free]
      exact ⟨.bin (Or.inl rfl) ihl.1 ihr.1, by simp [Node.contains, ihl.2, ihr.2]⟩
    · simp only [impl_free]
      exact ⟨.bin (Or.inr (Or.inl rfl)) ihl.1 ihr.1, by simp [Node.contains, ihl.2, ihr.2]⟩
    · simp only [impl_free]
      exact ⟨.bin (Or.inl rfl) (.neg ihl.1) ihr.1, by simp [Node.contains, ihl.2, ihr.2]⟩

theorem contains_mk_false {s d : Str} {l r : Node}
    (h : (Node.mk d l r).contains s = false) :
    d ≠ s ∧ l.contains s = false ∧ r.contains s = false := by
  simpa [Node.contains, not_or, and_assoc] using h

/-- On a well-formed tree without `>` the recursion of `nnf` finishes within
`size + 1` steps, never reads through a null pointer, and yields a tree in
negation normal form. -/
theorem nnfAux_total :
    ∀ (n : Nat) (t : Node), WellFormed t → t.contains ['>'] = false → t.size < n →
      ∃ t', nnfAux n t = some t' ∧ IsNNF t' := by
  intro n
  induction n with
  | zero => intro t _ _ h; omega
  | succ n ih =>
    intro t wf hc hs
    cases wf with
    | @leaf d hd =>
      exact ⟨_, by simp [nnfAux, hd], .lit (.pos hd)⟩
    | @neg c wc =>
      have hop : isOperand ['~'] = false := by decide
      obtain ⟨-, hcc, -⟩ := contains_mk_false hc
      simp only [Node.size] at hs
      cases wc with
      | @leaf cd hcd =>
        exact ⟨_, by simp [nnfAux, hop, hcd], .lit (.neg hcd)⟩
      | @neg c' wc' =>
        obtain ⟨-, hcc', -⟩ := contains_mk_false hcc
        simp only [Node.size] at hs
        obtain ⟨t', e, hn⟩ := ih c' wc' hcc' (by omega)
        exact ⟨t', by simp [nnfAux, hop, e], hn⟩
      | @bin cd cl cr hcd wl wr =>
        obtain ⟨hne, hcl, hcr⟩ := contains_mk_false hcc
        simp only [Node.size] at hs
        have hnl : (Node.mk ['~'] cl .null).contains ['>'] = false := by
          simp [Node.contains, hcl]
        have hnr : (Node.mk ['~'] cr .null).contains ['>'] = false := by
          simp [Node.contains, hcr]
        obtain ⟨a, ea, na⟩ := ih _ (.neg wl) hnl (by simp only [Node.size]; omega)
        obtain ⟨b, eb, nb⟩ := ih _ (.neg wr) hnr (by simp only [Node.size]; omega)
        rcases hcd with rfl | rfl | rfl
        · exact ⟨_, by simp [nnfAux, hop, isOperand, isOperator, ea, eb], .and na nb⟩
        · exact ⟨_, by simp [nnfAux, hop, isOperand, isOperator, ea, eb], .or na nb⟩
        · exact absurd rfl hne
    | @bin d l r hd wl wr =>
      obtain ⟨-, hcl, hcr⟩ := contains_mk_false hc
      simp only [Node.size] at hs
      obtain ⟨a, ea, na⟩ := ih l wl hcl (by omega)
      obtain ⟨b, eb, nb⟩ := ih r wr hcr (by omega)
      have hne := contains_mk_false hc
      rcases hd with rfl | rfl | rfl
      · exact ⟨_, by simp [nnfAux, isOperand, isOperator, ea, eb], .or na nb⟩
      · exact ⟨_, by simp [nnfAux, isOperand, isOperator, ea, eb], .and na nb⟩
      · exact absurd rfl hne.1

theorem isLit_not_op {t : Node} (h : IsLit t) :
    t.hasData ['*'] = false ∧ t.hasData ['+'] = false := by
  cases h with
  | pos hd =>
    have := isOperand_not_op hd
    simp [Node.hasData, this]
  | neg hd => simp [Node.hasData]

theorem isLit_cnfAux {t : Node} (h : IsLit t) (n : Nat) : cnfAux (n + 1) t = some t := by
  cases h with
  | pos hd => simp [cnfAux, hd]
  | neg hd => simp [cnfAux]

theorem isCNF_or_of_not_and {l r : Node} (hl : IsCNF l) (hr : IsCNF r)
    (nl : l.hasData ['*'] = false) (nr : r.hasData ['*'] = false) :
    IsCNF (.mk ['+'] l r) := by
  have cl : IsClause l := by
    cases hl with
    | clause h => exact h
    | and _ _ => simp [Node.hasData] at nl
  have cr : IsClause r := by
    cases hr with
    | clause h => exact h
    | and _ _ => simp [Node.hasData] at nr
  exact .clause (.or cl cr)

theorem isClause_isNNF {t : Node} (h : IsClause t) : IsNNF t := by
  induction h with
  | lit h => exact .lit h
  | or _ _ ihl ihr => exact .or ihl ihr

theorem isCNF_isNNF {t : Node} (h : IsCNF t) : IsNNF t := by
  induction h with
  | clause h => exact isClause_isNNF h
  | and _ _ ihl ihr => exact .and ihl ihr

theorem isCNF_of_and {t : Node} (h : IsCNF t) (ha : t.hasData ['*'] = true) :
    IsCNF t.left ∧ IsCNF t.right := by
  cases h with
  | clause hc =>
    cases hc with
    | lit hl => have := (isLit_not_op hl).1; simp [ha] at this
    | or _ _ => simp [Node.hasData] at ha
  | and hl hr => exact ⟨hl, hr⟩

/-- On a tree in negation normal form `cnf` produces a conjunction of clauses. -/
theorem cnfAux_isCNF :
    ∀ (n : Nat) (t t' : Node), IsNNF t → cnfAux n t = some t' → IsCNF t' := by
  intro n
  induction n with
  | zero => intro t t' _ h; simp [cnfAux] at h
  | succ n ih =>
    intro t t' hn h
    cases hn with
    | lit hl =>
      rw [isLit_cnfAux hl] at h
      simp at h; subst h
      exact .clause (.lit hl)
    | @and l r hl hr =>
      have hop : (isOperand ['*'] || (['*'] : Str) == ['~']) = false := by decide
      simp only [cnfAux, hop, Bool.false_eq_true, if_false] at h
      split at h
      · rename_i l' r' el er
        simp at h; subst h
        exact .and (ih _ _ hl el) (ih _ _ hr er)
      · simp at h
    | @or l r hl hr =>
      have hop : (isOperand ['+'] || (['+'] : Str) == ['~']) = false := by decide
      simp only [cnfAux, hop, Bool.false_eq_true, if_false] at h
      split at h
      · rename_i l' r' el er
        have cl := ih _ _ hl el
        have cr := ih _ _ hr er
        simp only [if_true] at h
        split at h
        · rename_i ha
          obtain ⟨cp, cq⟩ := isCNF_of_and cl ha
          split at h
          · rename_i a b ea eb
            simp at h; subst h
            rw [copyTree_eq, copyTree_eq] at eb
            exact .and (ih _ _ (.or (isCNF_isNNF cp) (isCNF_isNNF cr)) ea) (ih _ _ (.or (isCNF_isNNF cq) (isCNF_isNNF cr)) eb)
          · simp at h
        · rename_i ha
          split at h
          · rename_i hb
            obtain ⟨cp, cq⟩ := isCNF_of_and cr hb
            split at h
            · rename_i a b ea eb
              simp at h; subst h
              rw [copyTree_eq] at ea
              exact .and (ih _ _ (.or (isCNF_isNNF cl) (isCNF_isNNF cp)) ea) (ih _ _ (.or (isCNF_isNNF cl) (isCNF_isNNF cq)) eb)
            · simp at h
          · rename_i hb
            simp at h; subst h
            exact isCNF_or_of_not_and cl cr (by simpa using ha) (by simpa using hb)
      · simp at h

end Main2

namespace Main2

theorem isLit_shape {t : Node} (h : IsLit t) :
    t.contains ['>'] = false ∧ t.contains ['*'] = false ∧ negOnLeaves t = true ∧
      noAndBelowOr t = true := by
  cases h with
  | pos hd =>
    have := isOperand_not_op hd
    simp [Node.contains, negOnLeaves, noAndBelowOr, this]
  | neg hd =>
    have := isOperand_not_op hd
    simp [Node.contains, negOnLeaves, noAndBelowOr, Node.isLeaf, this, hd]

theorem isClause_shape {t : Node} (h : IsClause t) :
    t.contains ['>'] = false ∧ t.contains ['*'] = false ∧ negOnLeaves t = true ∧
      noAndBelowOr t = true := by
  induction h with
  | lit h => exact isLit_shape h
  | or _ _ ihl ihr =>
    obtain ⟨a1, a2, a3, a4⟩ := ihl
    obtain ⟨b1, b2, b3, b4⟩ := ihr
    simp [Node.contains, negOnLeaves, noAndBelowOr, a1, a2, a3, a4, b1, b2, b3, b4]

theorem isCNF_shape {t : Node} (h : IsCNF t) :
    t.contains ['>'] = false ∧ negOnLeaves t = true ∧ noAndBelowOr t = true := by
  induction h with
  | clause h => exact ⟨(isClause_shape h).1, (isClause_shape h).2.2.1, (isClause_shape h).2.2.2⟩
  | and _ _ ihl ihr =>
    obtain ⟨a1, a3, a4⟩ := ihl
    obtain ⟨b1, b3, b4⟩ := ihr
    simp [Node.contains, negOnLeaves, noAndBelowOr, a1, a3, a4, b1, b3, b4]

theorem isCNF_inCNF {t : Node} (h : IsCNF t) : inCNF t = true := by
  obtain ⟨a, b, c⟩ := isCNF_shape h
  simp [inCNF, a, b, c]

/-- The three passes run to completion on a well-formed tree: `nnf` and `cnf`
return, the result is a conjunction of clauses and evaluates like the input. -/
theorem pipeline_spec {F : Node} (wf : WellFormed F) :
    ∃ N C, nnf (impl_free F) = some N ∧ cnf N = some C ∧ IsNNF N ∧ IsCNF C ∧
      ∀ env, evaluate C env = evaluate F env := by
  obtain ⟨w, c⟩ := impl_free_wellFormed wf
  obtain ⟨N, eN, hN⟩ := nnfAux_total _ _ w c (Nat.lt_succ_self _)
  obtain ⟨C, eC, -⟩ := cnfAux_total _ N (le_refl _)
  refine ⟨N, C, eN, eC, hN, cnfAux_isCNF _ _ _ hN eC, fun env => ?_⟩
  rw [cnfAux_evaluate env _ _ _ eC, nnfAux_evaluate env _ _ _ eN, evaluate_impl_free]

end Main2

namespace Main2

theorem truthValue_leaf {d : Str} (h : isOperand d = true) (σ : Str → Bool) (l r : Node) :
    truthValue σ (.mk d l r) = σ d := by
  obtain ⟨h1, h2, h3, h4⟩ := isOperand_not_op h
  simp [truthValue, h1, h2, h3, h4]

/-- Both halves of the contract of `evaluate` on a well-formed tree. -/
theorem evaluate_spec {T : Node} (wf : WellFormed T) (env : Env) :
    (evaluate T env = none ↔ ∃ v ∈ identifiers T, env v = none) ∧
    (∀ b, evaluate T env = some b →
      ∀ σ : Str → Bool, (∀ v ∈ identifiers T, ∀ x, env v = some x → σ v = x) →
        b = truthValue σ T) := by
  induction wf with
  | @leaf d hd =>
    rw [evaluate_leaf hd]
    refine ⟨by simp [identifiers, hd], fun b hb σ hσ => ?_⟩
    rw [truthValue_leaf hd]
    exact (hσ d (by simp [identifiers, hd]) b hb).symm
  | @neg c _ ih =>
    obtain ⟨ih1, ih2⟩ := ih
    have hop : isOperand ['~'] = false := by decide
    have hid : identifiers (.mk ['~'] c .null) = identifiers c := by
      simp [identifiers, hop]
    rw [evaluate_neg, hid]
    refine ⟨by rw [← ih1]; cases evaluate c env <;> simp, fun b hb σ hσ => ?_⟩
    cases hc : evaluate c env with
    | none => rw [hc] at hb; simp at hb
    | some x =>
      rw [hc] at hb
      simp at hb
      have := ih2 x hc σ hσ
      simp [truthValue, ← this, hb]
  | @bin d l r hd _ _ ihl ihr =>
    obtain ⟨l1, l2⟩ := ihl
    obtain ⟨r1, r2⟩ := ihr
    have hop := (binop_not_operand hd).1
    have hid : identifiers (.mk d l r) = identifiers l ++ identifiers r := by
      simp [identifiers, hop]
    rw [hid]
    have hex : (∃ v ∈ identifiers l ++ identifiers r, env v = none) ↔
        (evaluate l env = none ∨ evaluate r env = none) := by
      rw [l1, r1]
      simp only [List.mem_append]
      constructor
      · rintro ⟨v, hv | hv, e⟩
        · exact Or.inl ⟨v, hv, e⟩
        · exact Or.inr ⟨v, hv, e⟩
      · rintro (⟨v, hv, e⟩ | ⟨v, hv, e⟩)
        · exact ⟨v, Or.inl hv, e⟩
        · exact ⟨v, Or.inr hv, e⟩
    rw [hex]
    have hσl : ∀ σ : Str → Bool,
        (∀ v ∈ identifiers l ++ identifiers r, ∀ x, env v = some x → σ v = x) →
        (∀ v ∈ identifiers l, ∀ x, env v = some x → σ v = x) ∧
        (∀ v ∈ identifiers r, ∀ x, env v = some x → σ v = x) := fun σ h =>
      ⟨fun v hv => h v (List.mem_append.2 (Or.inl hv)),
       fun v hv => h v (List.mem_append.2 (Or.inr hv))⟩
    rcases hd with rfl | rfl | rfl
    · rw [evaluate_or]
      refine ⟨by cases evaluate l env <;> cases evaluate r env <;> simp,
        fun b hb σ hσ => ?_⟩
      cases hl : evaluate l env with
      | none => rw [hl] at hb; simp at hb
      | some x =>
        cases hr : evaluate r env with
        | none => rw [hl, hr] at hb; simp at hb
        | some y =>
          rw [hl, hr] at hb
          simp at hb
          have e1 := l2 x hl σ (hσl σ hσ).1
          have e2 := r2 y hr σ (hσl σ hσ).2
          simp [truthValue, ← e1, ← e2, hb]
    · rw [evaluate_and]
      refine ⟨by cases evaluate l env <;> cases evaluate r env <;> simp,
        fun b hb σ hσ => ?_⟩
      cases hl : evaluate l env with
      | none => rw [hl] at hb; simp at hb
      | some x =>
        cases hr : evaluate r env with
        | none => rw [hl, hr] at hb; simp at hb
        | some y =>
          rw [hl, hr] at hb
          simp at hb
          have e1 := l2 x hl σ (hσl σ hσ).1
          have e2 := r2 y hr σ (hσl σ hσ).2
          simp [truthValue, ← e1, ← e2, hb]
    · rw [evaluate_imp]
      refine ⟨by cases evaluate l env <;> cases evaluate r env <;> simp,
        fun b hb σ hσ => ?_⟩
      cases hl : evaluate l env with
      | none => rw [hl] at hb; simp at hb
      | some x =>
        cases hr : evaluate r env with
        | none => rw [hl, hr] at hb; simp at hb
        | some y =>
          rw [hl, hr] at hb
          simp at hb
          have e1 := l2 x hl σ (hσl σ hσ).1
          have e2 := r2 y hr σ (hσl σ hσ).2
          simp [truthValue, ← e1, ← e2, hb]

end Main2

namespace Main2

/-! ### Tokenizer -/

theorem isIdent_isOperand {x : Str} (h : IsIdent x) : isOperand x = true := by
  obtain ⟨hne, hc⟩ := h
  cases x with
  | nil => exact absurd rfl hne
  | cons c t =>
    have h1 := hc c (List.mem_cons_self _ _)
    have key : ∀ d : Char, isSymbol d = true → (c :: t) ≠ [d] := by
      intro d hd e
      have : c = d := by simpa using (List.cons.inj e).1
      subst this
      simp [isIdentChar, hd] at h1
    have a := key '+' (by decide)
    have b := key '*' (by decide)
    have c' := key '~' (by decide)
    have d := key '>' (by decide)
    have e := key '(' (by decide)
    have f := key ')' (by decide)
    simp only [isOperand, isOperator, List.isEmpty_cons, Bool.not_false, Bool.true_and,
      Bool.and_eq_true, Bool.not_eq_true', Bool.or_eq_false_iff, bne_iff_ne, ne_eq,
      beq_eq_false_iff_ne]
    exact ⟨⟨⟨⟨⟨a, b⟩, c'⟩, d⟩, e⟩, f⟩

theorem breaks_nil : Breaks [] := by simp [Breaks]

theorem breaks_cons {c : Char} (h : isIdentChar c = false) (s : Str) : Breaks (c :: s) := by
  simp [Breaks, h]

theorem takeWhile_append_breaks {p : Char → Bool} (r s : Str)
    (h : ∀ c ∈ s.head?, p c = false) :
    (r ++ s).takeWhile p = r.takeWhile p := by
  induction r with
  | nil =>
    cases s with
    | nil => rfl
    | cons c t =>
      have := h c (by simp)
      simp [List.takeWhile, this]
  | cons a r ih =>
    simp only [List.cons_append, List.takeWhile]
    cases p a <;> simp [ih]

theorem takeWhile_length_le {α : Type} (p : α → Bool) (r : List α) :
    (r.takeWhile p).length ≤ r.length := by
  induction r with
  | nil => simp
  | cons a r ih =>
    simp only [List.takeWhile]
    cases p a
    · simp
    · simp; omega

theorem tokenizeFrom_append (s2 : Str) (h : Breaks s2) :
    ∀ (s1 : Str) (k : Nat), k ≤ s1.length →
      tokenizeFrom k (s1 ++ s2) = tokenizeFrom k s1 ++ tokenizeFrom 0 s2 := by
  intro s1
  induction s1 with
  | nil =>
    intro k hk
    have : k = 0 := by simpa using hk
    subst this
    cases s2 <;> simp [tokenizeFrom]
  | cons c r ih =>
    intro k hk
    cases k with
    | succ k =>
      simp only [List.cons_append, tokenizeFrom]
      exact ih k (by simpa using hk)
    | zero =>
      simp only [List.cons_append, tokenizeFrom, List.append_eq]
      split
      · exact ih 0 (Nat.zero_le _)
      · split
        · rw [ih 0 (Nat.zero_le _)]; rfl
        · rw [takeWhile_append_breaks r s2 h, ih _ (takeWhile_length_le _ _)]
          rfl

/-- Tokenizing a text followed by a text that does not continue an identifier
gives the tokens of the first followed by the tokens of the second. -/
theorem tokenize_append (s1 s2 : Str) (h : Breaks s2) :
    tokenize (s1 ++ s2) = tokenize s1 ++ tokenize s2 :=
  tokenizeFrom_append s2 h s1 0 (Nat.zero_le _)

theorem tokenize_nil : tokenize [] = [] := rfl

theorem tokenize_space {c : Char} (h : isspace c = true) (s : Str) :
    tokenize (c :: s) = tokenize s := by
  simp [tokenize, tokenizeFrom, h]

theorem isSymbol_not_space {c : Char} (h : isSymbol c = true) : isspace c = false := by
  simp only [isSymbol, Bool.or_eq_true, beq_iff_eq] at h
  rcases h with ((((rfl | rfl) | rfl) | rfl) | rfl) | rfl <;> decide

theorem tokenize_symbol {c : Char} (h : isSymbol c = true) (s : Str) :
    tokenize (c :: s) = [c] :: tokenize s := by
  simp [tokenize, tokenizeFrom, h, isSymbol_not_space h]

theorem takeWhile_all {α : Type} (p : α → Bool) (r : List α) (h : ∀ a ∈ r, p a = true) :
    r.takeWhile p = r := by
  induction r with
  | nil => rfl
  | cons a r ih =>
    simp only [List.takeWhile, h a (List.mem_cons_self _ _)]
    rw [ih fun b hb => h b (List.mem_cons_of_mem _ hb)]

theorem tokenizeFrom_skip_all : ∀ (r : Str), tokenizeFrom r.length r = [] := by
  intro r
  induction r with
  | nil => rfl
  | cons a r ih => simpa [tokenizeFrom] using ih

theorem tokenize_ident {x : Str} (h : IsIdent x) : tokenize x = [x] := by
  obtain ⟨hne, hc⟩ := h
  cases x with
  | nil => exact absurd rfl hne
  | cons c t =>
    have h1 := hc c (List.mem_cons_self _ _)
    simp only [isIdentChar, Bool.and_eq_true, Bool.not_eq_true'] at h1
    have ht : t.takeWhile isIdentChar = t :=
      takeWhile_all _ _ fun b hb => hc b (List.mem_cons_of_mem _ hb)
    simp only [tokenize, tokenizeFrom, h1.1, h1.2, Bool.false_eq_true, if_false, ht]
    rw [tokenizeFrom_skip_all]

theorem tokenize_ident_append {x : Str} (h : IsIdent x) (s : Str) (hs : Breaks s) :
    tokenize (x ++ s) = x :: tokenize s := by
  rw [tokenize_append _ _ hs, tokenize_ident h]; rfl

end Main2

namespace Main2

/-! ### `check_cnf_valid` -/

theorem findAux_none (c : Str) (hc : '*' ∉ c) (off : Nat) :
    findAux [' ', '*', ' '] c off = none := by
  induction c generalizing off with
  | nil => simp [findAux]
  | cons a c ih =>
    have hc' : '*' ∉ c := fun h => hc (List.mem_cons_of_mem _ h)
    have hp : List.isPrefixOf [' ', '*', ' '] (a :: c) = false := by
      cases c with
      | nil => simp [List.isPrefixOf]
      | cons b c =>
        have : b ≠ '*' := fun e => hc (by simp [e])
        simp [List.isPrefixOf, this, Ne.symm this]
    simp only [findAux, hp, Bool.false_eq_true, if_false]
    exact ih hc' _

theorem findAux_some (c : Str) (hc : '*' ∉ c) (rest : Str) (off : Nat) :
    findAux [' ', '*', ' '] (c ++ ' ' :: '*' :: ' ' :: rest) off = some (off + c.length) := by
  induction c generalizing off with
  | nil => simp [findAux, List.isPrefixOf]
  | cons a c ih =>
    have hc' : '*' ∉ c := fun h => hc (List.mem_cons_of_mem _ h)
    have hp : List.isPrefixOf [' ', '*', ' '] (a :: (c ++ ' ' :: '*' :: ' ' :: rest)) = false := by
      cases c with
      | nil => simp [List.isPrefixOf]
      | cons b c =>
        have : b ≠ '*' := fun e => hc (by simp [e])
        simp [List.isPrefixOf, this, Ne.symm this]
    simp only [List.cons_append, findAux, List.append_eq, hp, Bool.false_eq_true, if_false]
    rw [ih hc' (off + 1)]
    simp only [List.length_cons]
    congr 1
    omega

theorem find_last (pre c : Str) (hc : '*' ∉ c) :
    find (pre ++ c) [' ', '*', ' '] pre.length = none := by
  simp [find, findAux_none c hc]

theorem find_next (pre c rest : Str) (hc : '*' ∉ c) :
    find (pre ++ (c ++ ' ' :: '*' :: ' ' :: rest)) [' ', '*', ' '] pre.length =
      some (pre.length + c.length) := by
  simp only [find, List.length_append, List.drop_left]
  rw [if_neg (by omega)]
  exact findAux_some c hc rest _

theorem collectLiterals_append_close :
    ∀ (ts : List Str) (k : Nat),
      collectLiterals k (ts ++ [[')']]) = collectLiterals k ts := by
  intro ts
  induction ts with
  | nil =>
    intro k
    cases k with
    | zero => simp [collectLiterals, isOperand]
    | succ k => simp [collectLiterals]
  | cons t r ih =>
    intro k
    cases k with
    | succ k => simpa [collectLiterals] using ih k
    | zero =>
      simp only [List.cons_append, collectLiterals, List.append_eq, ih]
      cases r with
      | nil =>
        have : isOperand [')'] = false := by decide
        simp [this]
      | cons t' r' => simp

theorem collectLiterals_open (ts : List Str) :
    collectLiterals 0 (['('] :: ts) = collectLiterals 0 ts := by
  have h1 : (['('] : Str) ≠ ['~'] := by decide
  have h2 : isOperand ['('] = false := by decide
  simp [collectLiterals, h1, h2]

/-- Removing an enclosing parenthesis pair from a clause string does not change
the literals the loop collects. -/
theorem collectLiterals_strip (seg : Str) :
    collectLiterals 0 (tokenize
      (if seg.head? = some '(' ∧ seg.getLast? = some ')' then
        (seg.drop 1).take (seg.length - 2) else seg)) =
    collectLiterals 0 (tokenize seg) := by
  split
  · rename_i h
    obtain ⟨h1, h2⟩ := h
    cases seg with
    | nil => simp at h1
    | cons a t =>
      have ha : a = '(' := by simpa using h1
      subst ha
      have ht : t ≠ [] := by
        intro e; subst e; simp at h2
      have hl : t.getLast? = some ')' := by
        cases t with
        | nil => exact absurd rfl ht
        | cons b t' => simpa [List.getLast?_cons_cons] using h2
      obtain ⟨mid, rfl⟩ : ∃ mid, t = mid ++ [')'] := by
        refine ⟨t.dropLast, ?_⟩
        have := List.dropLast_append_getLast? ')' (by simpa using hl)
        exact this.symm
      have e1 : (List.drop 1 ('(' :: (mid ++ [')']))).take (('(' :: (mid ++ [')'])).length - 2)
          = mid := by
        simp
      rw [e1, tokenize_symbol (by decide), tokenize_append _ _ (breaks_cons (by decide) _),
        tokenize_symbol (by decide), tokenize_nil, collectLiterals_open,
        collectLiterals_append_close]
  · rfl

end Main2

namespace Main2

theorem litToks_collect {ts : List Str} {l : List (Bool × Str)} (h : LitToks ts l) :
    collectLiterals 0 ts =
      ((l.filter fun p => !p.1).map Prod.snd, (l.filter fun p => p.1).map Prod.snd) := by
  induction h with
  | nil => rfl
  | @skip t ts l ht _ ih =>
    have h1 : t ≠ ['~'] := by rcases ht with rfl | rfl | rfl <;> decide
    have h2 : isOperand t = false := by rcases ht with rfl | rfl | rfl <;> decide
    simp [collectLiterals, h1, h2, ih]
  | @pos x ts l hx _ ih =>
    have h1 : x ≠ ['~'] := (isOperand_not_op hx).1
    simp [collectLiterals, h1, hx, ih]
  | @neg x ts l hx _ ih =>
    simp [collectLiterals, hx, ih]

theorem litToks_append {t1 t2 : List Str} {l1 l2 : List (Bool × Str)}
    (h1 : LitToks t1 l1) (h2 : LitToks t2 l2) : LitToks (t1 ++ t2) (l1 ++ l2) := by
  induction h1 with
  | nil => exact h2
  | skip ht _ ih => exact .skip ht ih
  | pos hx _ ih => exact .pos hx ih
  | neg hx _ ih => exact .neg hx ih

/-- The verdict of the loop body on a clause string whose tokens read as the
literals `l`: some identifier occurs both negated and unnegated. -/
theorem clauseHasComplement_iff {seg : Str} {l : List (Bool × Str)}
    (h : LitToks (tokenize seg) l) :
    clauseHasComplement seg = true ↔ HasComplement l := by
  unfold clauseHasComplement
  simp only []
  rw [collectLiterals_strip, litToks_collect h]
  simp only [List.any_eq_true, List.mem_map, List.mem_filter, List.contains_iff_exists_mem_beq,
    beq_iff_eq, HasComplement]
  constructor
  · rintro ⟨x, ⟨⟨b, y⟩, ⟨hm, hb⟩, rfl⟩, ⟨z, ⟨⟨b', y'⟩, ⟨hm', hb'⟩, rfl⟩, e⟩⟩
    simp only [Bool.not_eq_true'] at hb
    simp only at hb' e
    subst hb hb' e
    exact ⟨_, hm, hm'⟩
  · rintro ⟨x, h1, h2⟩
    exact ⟨x, ⟨(false, x), ⟨h1, by simp⟩, rfl⟩, ⟨x, ⟨(true, x), ⟨h2, rfl⟩, rfl⟩, rfl⟩⟩

theorem joinSep_cons_cons (sep g h : Str) (t : List Str) :
    joinSep sep (g :: h :: t) = g ++ sep ++ joinSep sep (h :: t) := rfl

theorem length_le_joinSep (sep : Str) (segs : List Str) (h : ∀ g ∈ segs, g ≠ []) :
    segs.length ≤ (joinSep sep segs).length := by
  induction segs with
  | nil => simp
  | cons g t ih =>
    have hg : 1 ≤ g.length := by
      have := h g (List.mem_cons_self _ _)
      cases g with
      | nil => exact absurd rfl this
      | cons _ _ => simp
    cases t with
    | nil => simpa [joinSep] using hg
    | cons g' t' =>
      have := ih fun x hx => h x (List.mem_cons_of_mem _ hx)
      simp only [joinSep_cons_cons, List.length_append, List.length_cons] at this ⊢
      omega

/-- The loop of `check_cnf_valid`, started at the beginning of a run of clause
strings joined by ` * `, reports whether all of them pass the body's test. -/
theorem check_cnf_validLoop_segs :
    ∀ (segs : List Str), segs ≠ [] → (∀ g ∈ segs, g ≠ [] ∧ '*' ∉ g) →
      ∀ (pre : Str) (n : Nat), segs.length ≤ n →
        check_cnf_validLoop (pre ++ joinSep [' ', '*', ' '] segs) n pre.length
            (find (pre ++ joinSep [' ', '*', ' '] segs) [' ', '*', ' '] pre.length) =
          some (segs.all clauseHasComplement) := by
  intro segs
  induction segs with
  | nil => intro h; exact absurd rfl h
  | cons g t ih =>
    intro _ hg pre n hn
    obtain ⟨m, rfl⟩ : ∃ m, n = m + 1 := ⟨n - 1, by simp at hn; omega⟩
    obtain ⟨gne, gstar⟩ := hg g (List.mem_cons_self _ _)
    have glen : 0 < g.length := List.length_pos.2 gne
    cases t with
    | nil =>
      simp only [joinSep, find_last pre g gstar, check_cnf_validLoop, List.length_append,
        substrTo, List.drop_left]
      rw [if_pos (by omega)]
      have : g.isEmpty = false := by cases g <;> simp_all
      simp only [this, Bool.false_eq_true, if_false, List.all_cons, List.all_nil, Bool.and_true]
      cases clauseHasComplement g <;> simp
    | cons g' t' =>
      have hst : pre.length < (pre ++ joinSep [' ', '*', ' '] (g :: g' :: t')).length := by
        simp only [joinSep_cons_cons, List.length_append]; omega
      have e1 : pre ++ joinSep [' ', '*', ' '] (g :: g' :: t') =
          pre ++ (g ++ ' ' :: '*' :: ' ' :: joinSep [' ', '*', ' '] (g' :: t')) := by
        simp [joinSep_cons_cons]
      have e2 : pre ++ joinSep [' ', '*', ' '] (g :: g' :: t') =
          (pre ++ g ++ [' ', '*', ' ']) ++ joinSep [' ', '*', ' '] (g' :: t') := by
        simp [joinSep_cons_cons]
      have hf := find_next pre g (joinSep [' ', '*', ' '] (g' :: t')) gstar
      rw [← e1] at hf
      rw [hf]
      simp only [check_cnf_validLoop, if_pos hst]
      have hsub : substrTo (pre ++ joinSep [' ', '*', ' '] (g :: g' :: t')) pre.length
          (some (pre.length + g.length)) = g := by
        rw [e1]
        simp [substrTo]
      rw [hsub]
      have : g.isEmpty = false := by cases g <;> simp_all
      simp only [this, Bool.false_eq_true, if_false, List.all_cons]
      cases hc : clauseHasComplement g
      · simp
      · simp only [Bool.not_true, Bool.false_eq_true, if_false, Bool.true_and]
        have hl : (pre ++ g ++ [' ', '*', ' ']).length = pre.length + g.length + 3 := by
          simp only [List.length_append, List.length_cons, List.length_nil]
        have := ih (by simp) (fun x hx => hg x (List.mem_cons_of_mem _ hx))
          (pre ++ g ++ [' ', '*', ' ']) m (by simp at hn ⊢; omega)
        rw [← e2, hl] at this
        simpa using this

/-- The checker on clause strings joined by ` * `: it returns, and its answer
is whether every clause string passes the body's test. -/
theorem check_cnf_valid_segs (segs : List Str) (hg : ∀ g ∈ segs, g ≠ [] ∧ '*' ∉ g) :
    check_cnf_valid (joinSep [' ', '*', ' '] segs) = some (segs.all clauseHasComplement) := by
  cases segs with
  | nil => simp [check_cnf_valid, joinSep, check_cnf_validLoop]
  | cons g t =>
    have := check_cnf_validLoop_segs (g :: t) (by simp) hg []
      ((joinSep [' ', '*', ' '] (g :: t)).length + 1)
      (Nat.le_succ_of_le (length_le_joinSep _ _ fun x hx => (hg x hx).1))
    simpa [check_cnf_valid] using this

end Main2

namespace Main2

theorem isIdent_no_star {x : Str} (h : IsIdent x) : '*' ∉ x := by
  intro hm
  have := h.2 _ hm
  revert this
  decide

theorem litText_no_star {l : Bool × Str} (h : IsIdent l.2) : '*' ∉ litText l := by
  have := isIdent_no_star h
  unfold litText
  split
  · simp only [List.mem_cons, not_or]
    exact ⟨by decide, this⟩
  · exact this

theorem joinSep_plus_no_star (c : List (Bool × Str)) (h : ∀ l ∈ c, IsIdent l.2) :
    '*' ∉ joinSep [' ', '+', ' '] (c.map litText) := by
  induction c with
  | nil => simp [joinSep]
  | cons l t ih =>
    have hl := litText_no_star (h l (List.mem_cons_self _ _))
    have ht := ih fun x hx => h x (List.mem_cons_of_mem _ hx)
    cases t with
    | nil => simpa [joinSep] using hl
    | cons l' t' =>
      simp only [List.map_cons, joinSep_cons_cons, List.mem_append, not_or] at ht ⊢
      exact ⟨⟨hl, by decide⟩, ht⟩

theorem clauseText_ok (c : List (Bool × Str)) (h : ∀ l ∈ c, IsIdent l.2) :
    clauseText c ≠ [] ∧ '*' ∉ clauseText c := by
  have := joinSep_plus_no_star c h
  refine ⟨by simp [clauseText], ?_⟩
  simp only [clauseText, List.mem_append, List.mem_singleton, not_or]
  exact ⟨⟨by decide, this⟩, by decide⟩

theorem litToks_joinSep_plus (c : List (Bool × Str)) (h : ∀ l ∈ c, IsIdent l.2)
    (rest : Str) (l' : List (Bool × Str)) (hb : Breaks rest) (hr : LitToks (tokenize rest) l') :
    LitToks (tokenize (joinSep [' ', '+', ' '] (c.map litText) ++ rest)) (c ++ l') := by
  induction c with
  | nil => simpa [joinSep] using hr
  | cons l t ih =>
    have hl := h l (List.mem_cons_self _ _)
    have ht := ih fun x hx => h x (List.mem_cons_of_mem _ hx)
    have one : ∀ (r : Str) (m : List (Bool × Str)), Breaks r → LitToks (tokenize r) m →
        LitToks (tokenize (litText l ++ r)) (l :: m) := by
      intro r m br hm
      obtain ⟨b, x⟩ := l
      cases b with
      | false =>
        simp only [litText, Bool.false_eq_true, if_false]
        rw [tokenize_ident_append hl _ br]
        exact .pos (isIdent_isOperand hl) hm
      | true =>
        simp only [litText, if_true, List.cons_append]
        rw [tokenize_symbol (by decide), tokenize_ident_append hl _ br]
        exact .neg (isIdent_isOperand hl) hm
    cases t with
    | nil => simpa [joinSep] using one rest l' hb hr
    | cons l2 t' =>
      simp only [List.map_cons, joinSep_cons_cons, List.append_assoc, List.cons_append,
        List.nil_append] at ht ⊢
      refine one _ _ (breaks_cons (by decide) _) ?_
      rw [tokenize_space (by decide), tokenize_symbol (by decide), tokenize_space (by decide)]
      exact .skip (Or.inr (Or.inr rfl)) ht

theorem litToks_clauseText (c : List (Bool × Str)) (h : ∀ l ∈ c, IsIdent l.2) :
    LitToks (tokenize (clauseText c)) c := by
  have := litToks_joinSep_plus c h [')'] [] (breaks_cons (by decide) _)
    (by rw [tokenize_symbol (by decide), tokenize_nil]; exact .skip (Or.inr (Or.inl rfl)) .nil)
  simp only [clauseText, List.cons_append, List.nil_append, List.append_nil] at this ⊢
  rw [tokenize_symbol (by decide)]
  exact .skip (Or.inl rfl) this

/-- On a CNF text of parenthesised clauses joined by ` * ` the checker returns,
and it answers true exactly when every clause has a complementary pair. -/
theorem check_cnf_valid_cnfText (cs : List (List (Bool × Str)))
    (hid : ∀ c ∈ cs, ∀ l ∈ c, IsIdent l.2) :
    ∃ b, check_cnf_valid (cnfText cs) = some b ∧ (b = true ↔ ∀ c ∈ cs, HasComplement c) := by
  refine ⟨_, check_cnf_valid_segs (cs.map clauseText) ?_, ?_⟩
  · intro g hg
    obtain ⟨c, hc, rfl⟩ := List.mem_map.1 hg
    exact clauseText_ok c (hid c hc)
  · simp only [List.all_eq_true, List.mem_map, forall_exists_index, and_imp,
      forall_apply_eq_imp_iff₂]
    constructor
    · intro h c hc
      exact (clauseHasComplement_iff (litToks_clauseText c (hid c hc))).1 (h c hc)
    · intro h c hc
      exact (clauseHasComplement_iff (litToks_clauseText c (hid c hc))).2 (h c hc)

end Main2

namespace Main2

/-! ### The checker on the text of a generated CNF tree -/

theorem identifiers_leaf {d : Str} (h : isOperand d = true) :
    identifiers (.mk d .null .null) = [d] := by
  simp [identifiers, h]

theorem identifiers_neg (c r : Node) :
    identifiers (.mk ['~'] c r) = identifiers c ++ identifiers r := by
  have : isOperand ['~'] = false := by decide
  simp [identifiers, this]

theorem identifiers_bin {d : Str} (h : d = ['+'] ∨ d = ['*'] ∨ d = ['>']) (l r : Node) :
    identifiers (.mk d l r) = identifiers l ++ identifiers r := by
  simp [identifiers, (binop_not_operand h).1]

theorem treeToInfixString_leaf {d : Str} (h : isOperand d = true) (l r : Node) :
    treeToInfixString (.mk d l r) = d := by
  simp [treeToInfixString, h]

theorem treeToInfixString_negLeaf {d : Str} (h : isOperand d = true) :
    treeToInfixString (.mk ['~'] (.mk d .null .null) .null) = '~' :: d := by
  have h0 : isOperand ['~'] = false := by decide
  obtain ⟨-, h2, h3, h4⟩ := isOperand_not_op h
  simp [treeToInfixString, h0, h, Node.hasData, h2, h3, h4]

theorem treeToInfixString_bin {d : Str} (h : d = ['+'] ∨ d = ['*'] ∨ d = ['>']) (l r : Node) :
    treeToInfixString (.mk d l r) =
      '(' :: (treeToInfixString l ++ ' ' :: (d ++ ' ' :: (treeToInfixString r ++ [')']))) := by
  obtain ⟨h1, h2⟩ := binop_not_operand h
  simp [treeToInfixString, h1, h2]

theorem litToks_closers (b : Str) (hb : ∀ c ∈ b, c = ')') :
    Breaks b ∧ LitToks (tokenize b) [] := by
  induction b with
  | nil => exact ⟨breaks_nil, by rw [tokenize_nil]; exact .nil⟩
  | cons c t ih =>
    have hc : c = ')' := hb c (List.mem_cons_self _ _)
    subst hc
    refine ⟨breaks_cons (by decide) _, ?_⟩
    rw [tokenize_symbol (by decide)]
    exact .skip (Or.inr (Or.inl rfl)) (ih fun x hx => hb x (List.mem_cons_of_mem _ hx)).2

theorem litToks_openers (a : Str) (ha : ∀ c ∈ a, c = '(') {s : Str} {l : List (Bool × Str)}
    (h : LitToks (tokenize s) l) : LitToks (tokenize (a ++ s)) l := by
  induction a with
  | nil => exact h
  | cons c t ih =>
    have hc : c = '(' := ha c (List.mem_cons_self _ _)
    subst hc
    rw [List.cons_append, tokenize_symbol (by decide)]
    exact .skip (Or.inl rfl) (ih fun x hx => ha x (List.mem_cons_of_mem _ hx))

/-- The text of a clause tree, followed by a text that does not continue an
identifier, tokenizes to the literals of the clause and then those of the rest. -/
theorem litToks_clause {c : Node} (hc : IsClause c) (hid : ∀ v ∈ identifiers c, IsIdent v) :
    ∀ (rest : Str) (l' : List (Bool × Str)), Breaks rest → LitToks (tokenize rest) l' →
      LitToks (tokenize (treeToInfixString c ++ rest)) (litsOf c ++ l') := by
  induction hc with
  | lit hl =>
    intro rest l' hb hr
    cases hl with
    | @pos d hd =>
      have hi : IsIdent d := hid d (by simp [identifiers_leaf hd])
      rw [treeToInfixString_leaf hd, tokenize_ident_append hi _ hb]
      simpa [litsOf, hd] using LitToks.pos hd hr
    | @neg d hd =>
      have hi : IsIdent d := hid d (by simp [identifiers_neg, identifiers_leaf hd])
      have h0 : isOperand ['~'] = false := by decide
      rw [treeToInfixString_negLeaf hd, List.cons_append, tokenize_symbol (by decide),
        tokenize_ident_append hi _ hb]
      simpa [litsOf, h0] using LitToks.neg hd hr
  | @or l r _ _ ihl ihr =>
    intro rest l' hb hr
    have hidl : ∀ v ∈ identifiers l, IsIdent v := fun v hv =>
      hid v (by rw [identifiers_bin (Or.inl rfl)]; exact List.mem_append.2 (Or.inl hv))
    have hidr : ∀ v ∈ identifiers r, IsIdent v := fun v hv =>
      hid v (by rw [identifiers_bin (Or.inl rfl)]; exact List.mem_append.2 (Or.inr hv))
    have h0 : isOperand ['+'] = false := by decide
    have e : litsOf (.mk ['+'] l r) = litsOf l ++ litsOf r := by
      simp [litsOf, h0]
    rw [treeToInfixString_bin (Or.inl rfl), e]
    simp only [List.cons_append, List.append_assoc, List.nil_append]
    rw [tokenize_symbol (by decide)]
    refine .skip (Or.inl rfl) (ihl hidl _ _ (breaks_cons (by decide) _) ?_)
    rw [tokenize_space (by decide), tokenize_symbol (by decide), tokenize_space (by decide)]
    refine .skip (Or.inr (Or.inr rfl)) (ihr hidr _ _ (breaks_cons (by decide) _) ?_)
    rw [tokenize_symbol (by decide)]
    exact .skip (Or.inr (Or.inl rfl)) hr

theorem clause_text_no_star {c : Node} (hc : IsClause c)
    (hid : ∀ v ∈ identifiers c, IsIdent v) :
    treeToInfixString c ≠ [] ∧ '*' ∉ treeToInfixString c := by
  induction hc with
  | lit hl =>
    cases hl with
    | @pos d hd =>
      have hi : IsIdent d := hid d (by simp [identifiers_leaf hd])
      rw [treeToInfixString_leaf hd]
      exact ⟨hi.1, isIdent_no_star hi⟩
    | @neg d hd =>
      have hi : IsIdent d := hid d (by simp [identifiers_neg, identifiers_leaf hd])
      rw [treeToInfixString_negLeaf hd]
      refine ⟨by simp, ?_⟩
      simp only [List.mem_cons, not_or]
      exact ⟨by decide, isIdent_no_star hi⟩
  | @or l r _ _ ihl ihr =>
    have hidl : ∀ v ∈ identifiers l, IsIdent v := fun v hv =>
      hid v (by rw [identifiers_bin (Or.inl rfl)]; exact List.mem_append.2 (Or.inl hv))
    have hidr : ∀ v ∈ identifiers r, IsIdent v := fun v hv =>
      hid v (by rw [identifiers_bin (Or.inl rfl)]; exact List.mem_append.2 (Or.inr hv))
    rw [treeToInfixString_bin (Or.inl rfl)]
    refine ⟨by simp, ?_⟩
    simp only [List.mem_cons, List.mem_append, List.mem_singleton, not_or, List.not_mem_nil,
      or_false]
    exact ⟨by decide, (ihl hidl).2, by decide, by decide, by decide, (ihr hidr).2, by decide⟩

theorem joinSep_append (sep : Str) :
    ∀ (xs ys : List Str), xs ≠ [] → ys ≠ [] →
      joinSep sep (xs ++ ys) = joinSep sep xs ++ sep ++ joinSep sep ys := by
  intro xs
  induction xs with
  | nil => intro ys h; exact absurd rfl h
  | cons x t ih =>
    intro ys _ hy
    cases t with
    | nil =>
      cases ys with
      | nil => exact absurd rfl hy
      | cons y ys => simp [joinSep]
    | cons x' t' =>
      have := ih ys (by simp) hy
      simp only [List.cons_append, joinSep_cons_cons] at this ⊢
      rw [this]
      simp only [List.append_assoc]

theorem isClause_clausesOf {c : Node} (hc : IsClause c) : clausesOf c = [litsOf c] := by
  cases hc with
  | lit hl =>
    cases hl with
    | pos hd =>
      have := (isOperand_not_op hd).2.2.1
      simp [clausesOf, this]
    | neg hd => simp [clausesOf]
  | or _ _ => simp [clausesOf]

/-- The text of a conjunction of clauses, wrapped in extra opening and closing
parentheses, is a run of clause strings joined by ` * `; the strings match the
clauses of the tree one by one. -/
theorem cnf_text_segs {C : Node} (hC : IsCNF C) (hid : ∀ v ∈ identifiers C, IsIdent v) :
    ∀ (a b : Str), (∀ c ∈ a, c = '(') → (∀ c ∈ b, c = ')') →
      ∃ segs : List Str, segs ≠ [] ∧
        a ++ treeToInfixString C ++ b = joinSep [' ', '*', ' '] segs ∧
        List.Forall₂ (fun seg cl => (seg ≠ [] ∧ '*' ∉ seg) ∧ LitToks (tokenize seg) cl)
          segs (clausesOf C) := by
  induction hC with
  | @clause c hc =>
    intro a b ha hb
    obtain ⟨hne, hns⟩ := clause_text_no_star hc hid
    obtain ⟨bb, bl⟩ := litToks_closers b hb
    refine ⟨[a ++ treeToInfixString c ++ b], by simp, rfl, ?_⟩
    rw [isClause_clausesOf hc]
    refine .cons ⟨⟨by simp [hne], ?_⟩, ?_⟩ .nil
    · simp only [List.mem_append, not_or]
      refine ⟨⟨fun h => ?_, hns⟩, fun h => ?_⟩
      · have := ha _ h; revert this; decide
      · have := hb _ h; revert this; decide
    · rw [List.append_assoc]
      have := litToks_clause hc hid b [] bb bl
      rw [List.append_nil] at this
      exact litToks_openers a ha this
  | @and l r _ _ ihl ihr =>
    intro a b ha hb
    have hidl : ∀ v ∈ identifiers l, IsIdent v := fun v hv =>
      hid v (by rw [identifiers_bin (Or.inr (Or.inl rfl))]; exact List.mem_append.2 (Or.inl hv))
    have hidr : ∀ v ∈ identifiers r, IsIdent v := fun v hv =>
      hid v (by rw [identifiers_bin (Or.inr (Or.inl rfl))]; exact List.mem_append.2 (Or.inr hv))
    obtain ⟨sl, nl, el, fl⟩ := ihl hidl (a ++ ['(']) [] (by
      intro c hc
      rcases List.mem_append.1 hc with h | h
      · exact ha c h
      · simpa using h) (by simp)
    obtain ⟨sr, nr, er, fr⟩ := ihr hidr [] (')' :: b) (by simp) (by
      intro c hc
      rcases List.mem_cons.1 hc with h | h
      · exact h
      · exact hb c h)
    refine ⟨sl ++ sr, by simp [nl], ?_, ?_⟩
    · rw [joinSep_append _ _ _ nl nr, ← el, ← er, treeToInfixString_bin (Or.inr (Or.inl rfl))]
      simp
    · have : clausesOf (.mk ['*'] l r) = clausesOf l ++ clausesOf r := by simp [clausesOf]
      rw [this]
      exact List.rel_append fl fr

end Main2

namespace Main2

/-! ### Identifiers through the passes, and tautologies in CNF -/

theorem identifiers_impl_free (t : Node) : identifiers (impl_free t) = identifiers t := by
  induction t with
  | null => rfl
  | mk d l r ihl ihr =>
    by_cases hd : d = ['>']
    · subst hd
      have h0 : isOperand ['>'] = false := by decide
      have h1 : isOperand ['+'] = false := by decide
      have h2 : isOperand ['~'] = false := by decide
      simp [impl_free, identifiers, h0, h1, h2, ihl, ihr]
    · simp [impl_free, hd, identifiers, ihl, ihr]

theorem identifiers_mk_of_not_operand {d : Str} (h : isOperand d = false) (l r : Node) :
    identifiers (.mk d l r) = identifiers l ++ identifiers r := by
  simp [identifiers, h]

theorem nnfAux_identifiers :
    ∀ (n : Nat) (t t' : Node), nnfAux n t = some t' →
      ∀ v ∈ identifiers t', v ∈ identifiers t := by
  intro n
  induction n with
  | zero => intro t t' h; simp [nnfAux] at h
  | succ n ih =>
    intro t t' h
    cases t with
    | null => simp [nnfAux] at h; subst h; simp
    | mk d l r =>
      simp only [nnfAux] at h
      have h0 : isOperand ['~'] = false := by decide
      have h1 : isOperand ['+'] = false := by decide
      have h2 : isOperand ['*'] = false := by decide
      split at h
      · simp at h; subst h; simp
      · rename_i hop
        simp only [Bool.not_eq_true] at hop
        split at h
        · rename_i hd; subst hd
          cases l with
          | null => simp at h
          | mk cd cl cr =>
            simp only at h
            split at h
            · simp at h; subst h; simp
            · rename_i hcop
              simp only [Bool.not_eq_true] at hcop
              split at h
              · rename_i hcd; subst hcd
                intro v hv
                have := ih _ _ h v hv
                simp only [identifiers_neg, List.mem_append]
                exact Or.inl (Or.inl this)
              · split at h
                · rename_i hcd; subst hcd
                  split at h
                  · rename_i a b ha hb
                    simp at h; subst h
                    intro v hv
                    rw [identifiers_mk_of_not_operand h2] at hv
                    simp only [identifiers_neg, identifiers_mk_of_not_operand h1,
                      List.mem_append]
                    rcases List.mem_append.1 hv with hv | hv
                    · have := ih _ _ ha v hv
                      rw [identifiers_neg] at this
                      simp only [identifiers, List.append_nil] at this
                      exact Or.inl (Or.inl this)
                    · have := ih _ _ hb v hv
                      rw [identifiers_neg] at this
                      simp only [identifiers, List.append_nil] at this
                      exact Or.inl (Or.inr this)
                  · simp at h
                · split at h
                  · rename_i hcd; subst hcd
                    split at h
                    · rename_i a b ha hb
                      simp at h; subst h
                      intro v hv
                      rw [identifiers_mk_of_not_operand h1] at hv
                      simp only [identifiers_neg, identifiers_mk_of_not_operand h2,
                        List.mem_append]
                      rcases List.mem_append.1 hv with hv | hv
                      · have := ih _ _ ha v hv
                        rw [identifiers_neg] at this
                        simp only [identifiers, List.append_nil] at this
                        exact Or.inl (Or.inl this)
                      · have := ih _ _ hb v hv
                        rw [identifiers_neg] at this
                        simp only [identifiers, List.append_nil] at this
                        exact Or.inl (Or.inr this)
                    · simp at h
                  · split at h
                    · rename_i a b ha hb
                      simp at h; subst h
                      intro v hv
                      rw [identifiers_neg] at hv ⊢
                      rcases List.mem_append.1 hv with hv | hv
                      · exact List.mem_append.2 (Or.inl (ih _ _ ha v hv))
                      · exact List.mem_append.2 (Or.inr (ih _ _ hb v hv))
                    · simp at h
        · split at h
          · rename_i a b ha hb
            simp at h; subst h
            intro v hv
            rw [identifiers_mk_of_not_operand hop] at hv ⊢
            rcases List.mem_append.1 hv with hv | hv
            · exact List.mem_append.2 (Or.inl (ih _ _ ha v hv))
            · exact List.mem_append.2 (Or.inr (ih _ _ hb v hv))
          · simp at h

theorem cnfAux_identifiers :
    ∀ (n : Nat) (t t' : Node), cnfAux n t = some t' →
      ∀ v ∈ identifiers t', v ∈ identifiers t := by
  intro n
  induction n with
  | zero => intro t t' h; simp [cnfAux] at h
  | succ n ih =>
    intro t t' h
    cases t with
    | null => simp [cnfAux] at h; subst h; simp
    | mk d l r =>
      have h1 : isOperand ['+'] = false := by decide
      have h2 : isOperand ['*'] = false := by decide
      simp only [cnfAux] at h
      split at h
      · simp at h; subst h; simp
      · rename_i hop
        have hop' : isOperand d = false := by
          simp only [Bool.or_eq_true, not_or, Bool.not_eq_true] at hop
          exact hop.1
        split at h
        · rename_i l' r' hl hr
          have il := ih _ _ hl
          have ir := ih _ _ hr
          have base : ∀ v ∈ identifiers l' ++ identifiers r', v ∈ identifiers (.mk d l r) := by
            intro v hv
            rw [identifiers_mk_of_not_operand hop']
            rcases List.mem_append.1 hv with hv | hv
            · exact List.mem_append.2 (Or.inl (il v hv))
            · exact List.mem_append.2 (Or.inr (ir v hv))
          split at h
          · rename_i hd
            split at h
            · rename_i hand
              split at h
              · rename_i a b ha hb
                simp at h; subst h
                intro v hv
                have e := hasData_eq hand
                have el : identifiers l' = identifiers l'.left ++ identifiers l'.right := by
                  conv_lhs => rw [e]
                  exact identifiers_mk_of_not_operand h2 _ _
                apply base
                rw [el]
                rw [identifiers_mk_of_not_operand h2] at hv
                rcases List.mem_append.1 hv with hv | hv
                · have := ih _ _ ha v hv
                  rw [identifiers_mk_of_not_operand h1] at this
                  simp only [List.mem_append] at this ⊢
                  tauto
                · have := ih _ _ hb v hv
                  rw [identifiers_mk_of_not_operand h1, copyTree_eq, copyTree_eq] at this
                  simp only [List.mem_append] at this ⊢
                  tauto
              · simp at h
            · split at h
              · rename_i hand
                split at h
                · rename_i a b ha hb
                  simp at h; subst h
                  intro v hv
                  have e := hasData_eq hand
                  have er : identifiers r' = identifiers r'.left ++ identifiers r'.right := by
                    conv_lhs => rw [e]
                    exact identifiers_mk_of_not_operand h2 _ _
                  apply base
                  rw [er]
                  rw [identifiers_mk_of_not_operand h2] at hv
                  rcases List.mem_append.1 hv with hv | hv
                  · have := ih _ _ ha v hv
                    rw [identifiers_mk_of_not_operand h1, copyTree_eq] at this
                    simp only [List.mem_append] at this ⊢
                    tauto
                  · have := ih _ _ hb v hv
                    rw [identifiers_mk_of_not_operand h1] at this
                    simp only [List.mem_append] at this ⊢
                    tauto
                · simp at h
              · simp at h; subst h
                intro v hv
                rw [identifiers_mk_of_not_operand hop'] at hv
                exact base v hv
          · simp at h; subst h
            intro v hv
            rw [identifiers_mk_of_not_operand hop'] at hv
            exact base v hv
        · simp at h

/-- Under an environment that binds every string, a clause tree whose literals
all lie in a clause without complementary pair evaluates to false when the
negated identifiers of that clause are set to true and all others to false. -/
theorem clause_falsified {c : Node} (hc : IsClause c) (cl : List (Bool × Str))
    (hsub : ∀ p ∈ litsOf c, p ∈ cl) (hno : ¬ HasComplement cl) :
    evaluate c (fun x => some (decide ((true, x) ∈ cl))) = some false := by
  induction hc with
  | lit hl =>
    cases hl with
    | @pos d hd =>
      rw [evaluate_leaf hd]
      have hm : (false, d) ∈ cl := hsub _ (by simp [litsOf, hd])
      have : (true, d) ∉ cl := fun h => hno ⟨d, hm, h⟩
      simp [this]
    | @neg d hd =>
      have h0 : isOperand ['~'] = false := by decide
      have hm : (true, d) ∈ cl := hsub _ (by simp [litsOf, h0])
      rw [evaluate_neg, evaluate_leaf hd]
      simp [hm]
  | @or l r _ _ ihl ihr =>
    have h0 : isOperand ['+'] = false := by decide
    have e : litsOf (.mk ['+'] l r) = litsOf l ++ litsOf r := by simp [litsOf, h0]
    rw [e] at hsub
    rw [evaluate_or, ihl fun p hp => hsub p (List.mem_append.2 (Or.inl hp)),
      ihr fun p hp => hsub p (List.mem_append.2 (Or.inr hp))]
    rfl

theorem isNNF_evaluate_total {t : Node} (h : IsNNF t) (σ : Str → Bool) :
    ∃ b, evaluate t (fun x => some (σ x)) = some b := by
  induction h with
  | lit hl =>
    cases hl with
    | pos hd => exact ⟨_, evaluate_leaf hd _ _ _⟩
    | neg hd => exact ⟨_, by rw [evaluate_neg, evaluate_leaf hd]; rfl⟩
  | or _ _ ihl ihr =>
    obtain ⟨a, ha⟩ := ihl
    obtain ⟨b, hb⟩ := ihr
    exact ⟨_, by rw [evaluate_or, ha, hb]; rfl⟩
  | and _ _ ihl ihr =>
    obtain ⟨a, ha⟩ := ihl
    obtain ⟨b, hb⟩ := ihr
    exact ⟨_, by rw [evaluate_and, ha, hb]; rfl⟩

theorem cnf_falsified {C : Node} (hC : IsCNF C) (cl : List (Bool × Str))
    (hm : cl ∈ clausesOf C) (hno : ¬ HasComplement cl) :
    evaluate C (fun x => some (decide ((true, x) ∈ cl))) = some false := by
  induction hC with
  | @clause c hc =>
    rw [isClause_clausesOf hc] at hm
    have : cl = litsOf c := by simpa using hm
    subst this
    exact clause_falsified hc _ (fun p hp => hp) hno
  | @and l r hl hr ihl ihr =>
    have : clausesOf (.mk ['*'] l r) = clausesOf l ++ clausesOf r := by simp [clausesOf]
    rw [this] at hm
    rw [evaluate_and]
    rcases List.mem_append.1 hm with h | h
    · obtain ⟨b, hb⟩ := isNNF_evaluate_total (isCNF_isNNF hr) fun x => decide ((true, x) ∈ cl)
      rw [ihl h, hb]; rfl
    · obtain ⟨b, hb⟩ := isNNF_evaluate_total (isCNF_isNNF hl) fun x => decide ((true, x) ∈ cl)
      rw [ihr h, hb]
      simp

theorem forall2_segs {segs : List Str} {cls : List (List (Bool × Str))}
    (f : List.Forall₂ (fun seg cl => (seg ≠ [] ∧ '*' ∉ seg) ∧ LitToks (tokenize seg) cl)
      segs cls) :
    (∀ g ∈ segs, g ≠ [] ∧ '*' ∉ g) ∧
      (segs.all clauseHasComplement = true ↔ ∀ cl ∈ cls, HasComplement cl) := by
  induction f with
  | nil => simp
  | @cons a b _ _ hab _ ih =>
    refine ⟨?_, ?_⟩
    · intro g hg
      rcases List.mem_cons.1 hg with rfl | h
      · exact hab.1
      · exact ih.1 g h
    · simp only [List.all_cons, Bool.and_eq_true, List.mem_cons, forall_eq_or_imp,
        clauseHasComplement_iff hab.2, ih.2]

/-- On the text of a conjunction of clauses the checker returns, and it answers
true when every clause of the tree has a complementary pair. -/
theorem check_cnf_valid_tree {C : Node} (hC : IsCNF C) (hid : ∀ v ∈ identifiers C, IsIdent v) :
    ∃ b, check_cnf_valid (treeToInfixString C) = some b ∧
      (b = true ↔ ∀ cl ∈ clausesOf C, HasComplement cl) := by
  obtain ⟨segs, -, e, f⟩ := cnf_text_segs hC hid [] [] (by simp) (by simp)
  simp only [List.nil_append, List.append_nil] at e
  obtain ⟨h1, h2⟩ := forall2_segs f
  exact ⟨_, by rw [e]; exact check_cnf_valid_segs segs h1, h2⟩

end Main2

namespace Main2

/-- For a well-formed tautology over identifiers the three passes run to
completion and the checker accepts the text of the result. -/
theorem tautology_accepted {F : Node} (wf : WellFormed F)
    (hid : ∀ v ∈ identifiers F, IsIdent v)
    (taut : ∀ env : Env, Binds env F → evaluate F env = some true) :
    ∃ N C, nnf (impl_free F) = some N ∧ cnf N = some C ∧
      check_cnf_valid (treeToInfixString C) = some true := by
  obtain ⟨N, C, eN, eC, -, hC, hev⟩ := pipeline_spec wf
  have hidC : ∀ v ∈ identifiers C, IsIdent v := fun v hv =>
    hid v (by
      have h1 := cnfAux_identifiers _ _ _ eC v hv
      have h2 := nnfAux_identifiers _ _ _ eN v h1
      rwa [identifiers_impl_free] at h2)
  obtain ⟨b, hb, hiff⟩ := check_cnf_valid_tree hC hidC
  refine ⟨N, C, eN, eC, ?_⟩
  have : b = true := by
    rw [hiff]
    intro cl hcl
    by_contra hno
    have h1 := cnf_falsified hC cl hcl hno
    rw [hev, taut _ (fun v _ => Option.some_ne_none _)] at h1
    simp at h1
  rw [hb, this]

end Main2

namespace Main2

/-! ### `infixToPrefix` is a precedence parser -/

theorem denotes_parses {k : Nat} {s : Str} {T : Node} (h : Denotes k s T) :
    Parses k (tokenize s) T := by
  induction h with
  | ident hx => rw [tokenize_ident hx]; exact .ident hx
  | @paren s T _ ih =>
    have : tokenize (['('] ++ s ++ [')']) = ['('] :: tokenize s ++ [[')']] := by
      rw [List.append_assoc, List.singleton_append, tokenize_symbol (by decide),
        tokenize_append _ _ (breaks_cons (by decide) _), tokenize_symbol (by decide),
        tokenize_nil, List.cons_append]
    rw [this]; exact .paren ih
  | @neg s T _ ih =>
    rw [List.singleton_append, tokenize_symbol (by decide)]; exact .neg ih
  | @and s₁ s₂ T₁ T₂ _ _ ih₁ ih₂ =>
    have : tokenize (s₁ ++ ['*'] ++ s₂) = tokenize s₁ ++ ['*'] :: tokenize s₂ := by
      rw [List.append_assoc, List.singleton_append,
        tokenize_append _ _ (breaks_cons (by decide) _), tokenize_symbol (by decide)]
    rw [this]; exact .bin (Or.inl ⟨rfl, rfl⟩) ih₁ ih₂
  | @or s₁ s₂ T₁ T₂ _ _ ih₁ ih₂ =>
    have : tokenize (s₁ ++ ['+'] ++ s₂) = tokenize s₁ ++ ['+'] :: tokenize s₂ := by
      rw [List.append_assoc, List.singleton_append,
        tokenize_append _ _ (breaks_cons (by decide) _), tokenize_symbol (by decide)]
    rw [this]; exact .bin (Or.inr (Or.inl ⟨rfl, rfl⟩)) ih₁ ih₂
  | @imp s₁ s₂ T₁ T₂ _ _ ih₁ ih₂ =>
    have : tokenize (s₁ ++ ['>'] ++ s₂) = tokenize s₁ ++ ['>'] :: tokenize s₂ := by
      rw [List.append_assoc, List.singleton_append,
        tokenize_append _ _ (breaks_cons (by decide) _), tokenize_symbol (by decide)]
    rw [this]; exact .bin (Or.inr (Or.inr ⟨rfl, rfl⟩)) ih₁ ih₂
  | up _ ih => exact .up ih
  | @spaceBefore k c s T hc _ ih => rw [tokenize_space hc]; exact ih
  | @spaceAfter k c s T hc _ ih =>
    have hb : Breaks [c] := breaks_cons (by simp [isIdentChar, hc]) _
    rw [tokenize_append _ _ hb, tokenize_space hc, tokenize_nil, List.append_nil]
    exact ih

theorem joinSp_append (a b : List Str) : joinSp (a ++ b) = joinSp a ++ joinSp b := by
  simp [joinSp]

theorem joinSp_cons (t : Str) (ts : List Str) : joinSp (t :: ts) = t ++ ' ' :: joinSp ts := by
  simp [joinSp]

/-- Popping while the test holds: a run of stack entries that all pass the test,
above a stack whose top (if any) fails it, is emitted in order. -/
theorem popWhile_run (cond : Str → Bool) (pend S : List Str) (out : Str)
    (hp : ∀ p ∈ pend, cond p = true) (hS : ∀ t ∈ S.head?, cond t = false) :
    popWhile cond (pend ++ S) out = (S, out ++ joinSp pend) := by
  induction pend generalizing out with
  | nil =>
    cases S with
    | nil => simp [popWhile, joinSp]
    | cons t S' =>
      have := hS t (by simp)
      simp [popWhile, this, joinSp]
  | cons p ps ih =>
    have h1 := hp p (List.mem_cons_self _ _)
    simp only [List.cons_append, popWhile, List.append_eq, h1, if_true]
    rw [ih _ fun q hq => hp q (List.mem_cons_of_mem _ hq), joinSp_cons]
    simp

theorem getPrecedence_le (t : Str) : getPrecedence t ≤ 3 := by
  unfold getPrecedence
  split
  · omega
  · split
    · omega
    · split
      · omega
      · split <;> omega

theorem isIdent_swapParen {x : Str} (h : IsIdent x) : swapParen x = x := by
  have h1 := isIdent_isOperand h
  have a : x ≠ ['('] := by rintro rfl; revert h1; decide
  have b : x ≠ [')'] := by rintro rfl; revert h1; decide
  simp [swapParen, a, b]

/-- The reversed, parenthesis-swapped token list the main loop runs over. -/
theorem revToks_append (a b : List Str) :
    (a ++ b).reverse.map swapParen = b.reverse.map swapParen ++ a.reverse.map swapParen := by
  simp

theorem infixStep_operand {x : Str} (h : isOperand x = true) (S : List Str) (O : Str) :
    infixStep (S, O) x = (S, O ++ x ++ [' ']) := by
  simp [infixStep, h]

theorem infixStep_open (S : List Str) (O : Str) :
    infixStep (S, O) ['('] = (['('] :: S, O) := by
  have : isOperand ['('] = false := by decide
  simp [infixStep, this]

theorem infixStep_close (S : List Str) (O : Str) :
    infixStep (S, O) [')'] =
      ((popWhile (fun top => top != ['(']) S O).1.tail,
        (popWhile (fun top => top != ['(']) S O).2) := by
  have h1 : isOperand [')'] = false := by decide
  have h2 : ([')'] : Str) ≠ ['('] := by decide
  simp [infixStep, h1, h2]

theorem infixStep_operator {op : Str} (h : isOperator op = true) (S : List Str) (O : Str) :
    infixStep (S, O) op =
      (op :: (popWhile (fun top => decide (getPrecedence top > getPrecedence op)) S O).1,
        (popWhile (fun top => decide (getPrecedence top > getPrecedence op)) S O).2) := by
  have h1 : isOperand op = false := by simp [isOperand, h]
  have h2 : op ≠ ['('] := by rintro rfl; revert h; decide
  have h3 : op ≠ [')'] := by rintro rfl; revert h; decide
  simp [infixStep, h1, h2, h3, h]

theorem prec3_is_neg {p : Str} (h1 : isOperator p = true) (h2 : (3 : Int) ≤ getPrecedence p) :
    p = ['~'] := by
  simp only [isOperator, Bool.or_eq_true, beq_iff_eq] at h1
  rcases h1 with ((rfl | rfl) | rfl) | rfl
  · revert h2; decide
  · revert h2; decide
  · rfl
  · revert h2; decide

theorem cons_eq_append_of_all_eq {α : Type} (a : α) (l : List α) (h : ∀ x ∈ l, x = a) :
    a :: l = l ++ [a] := by
  induction l with
  | nil => rfl
  | cons b t ih =>
    have hb : b = a := h b (List.mem_cons_self _ _)
    subst hb
    rw [List.cons_append, ← ih fun x hx => h x (List.mem_cons_of_mem _ hx)]

/-- The invariant of the main loop of `infixToPrefix`. Running the loop over the
reversed tokens of an expression of level `k`, above a stack whose top does not
bind tighter than level `k`, leaves that stack untouched, pushes some pending
operators of level at least `k`, and has emitted the rest of the reversed
pre-order of the tree. -/
theorem infixStep_parses {k : Nat} {ts : List Str} {T : Node} (h : Parses k ts T) :
    ∀ (S : List Str) (O : Str), (∀ t ∈ S.head?, getPrecedence t ≤ (k : Int)) →
      ∃ pend part : List Str,
        (ts.reverse.map swapParen).foldl infixStep (S, O) = (pend ++ S, O ++ joinSp part) ∧
        part ++ pend = (preorder T).reverse ∧
        ∀ p ∈ pend, isOperator p = true ∧ (k : Int) ≤ getPrecedence p := by
  induction h with
  | @ident x hx =>
    intro S O _
    refine ⟨[], [x], ?_, by simp [preorder], by simp⟩
    simp [isIdent_swapParen hx, infixStep_operand (isIdent_isOperand hx), joinSp]
  | @paren ts T _ ih =>
    intro S O _
    obtain ⟨pend, part, e, hpp, hpend⟩ := ih (['('] :: S) O (by simp [getPrecedence])
    refine ⟨[], (preorder T).reverse, ?_, by simp, by simp⟩
    have e0 : (['('] :: ts ++ [[')']]).reverse.map swapParen =
        ['('] :: (ts.reverse.map swapParen ++ [[')']]) := by
      simp [swapParen]
    rw [e0, List.foldl_cons, infixStep_open, List.foldl_append, e]
    simp only [List.foldl_cons, List.foldl_nil, infixStep_close]
    rw [popWhile_run (fun top => top != ['(']) pend (['('] :: S) _
      (fun p hp => by
        have := (hpend p hp).1
        have hne : p ≠ ['('] := by rintro rfl; revert this; decide
        simpa using hne)
      (by simp)]
    simp [← hpp, joinSp_append]
  | @neg ts T _ ih =>
    intro S O hS
    obtain ⟨pend, part, e, hpp, hpend⟩ := ih S O hS
    have hall : ∀ p ∈ pend, p = ['~'] := fun p hp =>
      prec3_is_neg (hpend p hp).1 (by simpa using (hpend p hp).2)
    refine ⟨['~'] :: pend, part, ?_, ?_, ?_⟩
    · have e0 : (['~'] :: ts).reverse.map swapParen = ts.reverse.map swapParen ++ [['~']] := by
        simp [swapParen]
      rw [e0, List.foldl_append, e]
      simp only [List.foldl_cons, List.foldl_nil, infixStep_operator (by decide : isOperator ['~'] = true)]
      have hnone : popWhile (fun top => decide (getPrecedence top > getPrecedence ['~']))
          (pend ++ S) (O ++ joinSp part) = (pend ++ S, O ++ joinSp part) := by
        have h3 : getPrecedence ['~'] = 3 := by decide
        have := popWhile_run (fun top => decide (getPrecedence top > getPrecedence ['~']))
          [] (pend ++ S) (O ++ joinSp part) (by simp)
          (fun t _ => by
            have := getPrecedence_le t
            simp only [h3, gt_iff_lt, decide_eq_false_iff_not, not_lt]
            exact this)
        simpa [joinSp] using this
      rw [hnone]
      rfl
    · rw [cons_eq_append_of_all_eq _ _ hall, ← List.append_assoc, hpp]
      simp [preorder]
    · intro p hp
      rcases List.mem_cons.1 hp with rfl | hp
      · exact ⟨by decide, by decide⟩
      · exact hpend p hp
  | @bin k op t₁ t₂ T₁ T₂ hop _ _ ih₁ ih₂ =>
    intro S O hS
    have hopr : isOperator op = true ∧ getPrecedence op = (k : Int) ∧ swapParen op = op := by
      rcases hop with ⟨rfl, rfl⟩ | ⟨rfl, rfl⟩ | ⟨rfl, rfl⟩ <;> decide
    obtain ⟨ho1, ho2, ho3⟩ := hopr
    obtain ⟨pend2, part2, e2, hpp2, hpend2⟩ := ih₂ S O (fun t ht => by
      have := hS t ht
      push_cast
      omega)
    obtain ⟨pend1, part1, e1, hpp1, hpend1⟩ := ih₁ (op :: S)
      (O ++ joinSp part2 ++ joinSp pend2) (by simp [ho2])
    refine ⟨pend1 ++ [op], (preorder T₂).reverse ++ part1, ?_, ?_, ?_⟩
    · have e0 : (t₁ ++ op :: t₂).reverse.map swapParen =
          t₂.reverse.map swapParen ++ op :: t₁.reverse.map swapParen := by
        simp [ho3]
      rw [e0, List.foldl_append, e2, List.foldl_cons, infixStep_operator ho1]
      rw [popWhile_run (fun top => decide (getPrecedence top > getPrecedence op)) pend2 S _
        (fun p hp => by
          have := (hpend2 p hp).2
          push_cast at this
          simp only [ho2, gt_iff_lt, decide_eq_true_eq]
          omega)
        (fun t ht => by
          have := hS t ht
          simp only [ho2, gt_iff_lt, decide_eq_false_iff_not, not_lt]
          exact this)]
      simp only []
      rw [e1]
      simp [← hpp2, joinSp_append]
    · rw [List.append_assoc, ← List.append_assoc part1, hpp1]
      simp [preorder]
    · intro p hp
      rcases List.mem_append.1 hp with hp | hp
      · exact hpend1 p hp
      · have : p = op := by simpa using hp
        subst this
        exact ⟨ho1, by rw [ho2]⟩
  | @up k ts T _ ih =>
    intro S O hS
    obtain ⟨pend, part, e, hpp, hpend⟩ := ih S O (fun t ht => by
      have := hS t ht
      push_cast
      omega)
    exact ⟨pend, part, e, hpp, fun p hp => ⟨(hpend p hp).1, by
      have := (hpend p hp).2
      push_cast at this
      omega⟩⟩

end Main2

namespace Main2

theorem wordsFrom_skip (a b : Str) : wordsFrom a.length (a ++ b) = wordsFrom 0 b := by
  induction a with
  | nil => rfl
  | cons c t ih =>
    cases b with
    | nil => simpa [wordsFrom] using ih
    | cons d b' => simpa [wordsFrom] using ih

/-- Reading back, word by word, a text made of space-free non-empty tokens each
followed by a space gives the tokens. -/
theorem wordsFrom_joinSp (toks : List Str)
    (h : ∀ t ∈ toks, t ≠ [] ∧ ∀ c ∈ t, isspace c = false) :
    wordsFrom 0 (joinSp toks) = toks := by
  induction toks with
  | nil => rfl
  | cons t ts ih =>
    obtain ⟨hne, hc⟩ := h t (List.mem_cons_self _ _)
    have ih' := ih fun x hx => h x (List.mem_cons_of_mem _ hx)
    cases t with
    | nil => exact absurd rfl hne
    | cons c t' =>
      have hc0 : isspace c = false := hc c (List.mem_cons_self _ _)
      have htw : (t' ++ ' ' :: joinSp ts).takeWhile (fun x => !isspace x) = t' := by
        rw [takeWhile_append_breaks t' _ (by simp; decide)]
        exact takeWhile_all _ _ fun a ha => by
          simp [hc a (List.mem_cons_of_mem _ ha)]
      rw [joinSp_cons, List.cons_append]
      simp only [wordsFrom, hc0, Bool.false_eq_true, if_false, htw]
      rw [wordsFrom_skip]
      have : isspace ' ' = true := by decide
      simp only [wordsFrom, this, if_true]
      rw [ih']

theorem isIdent_no_space {x : Str} (h : IsIdent x) : ∀ c ∈ x, isspace c = false := by
  intro c hc
  have := h.2 c hc
  simp only [isIdentChar, Bool.and_eq_true, Bool.not_eq_true'] at this
  exact this.1

theorem parses_preorder_tokens {k : Nat} {ts : List Str} {T : Node} (h : Parses k ts T) :
    preorder T ≠ [] ∧ ∀ t ∈ preorder T, t ≠ [] ∧ ∀ c ∈ t, isspace c = false := by
  induction h with
  | @ident x hx =>
    refine ⟨by simp [preorder], fun t ht => ?_⟩
    have : t = x := by simpa [preorder] using ht
    subst this
    exact ⟨hx.1, isIdent_no_space hx⟩
  | paren _ ih => exact ih
  | neg _ ih =>
    refine ⟨by simp [preorder], fun t ht => ?_⟩
    simp only [preorder, List.append_nil, List.mem_cons] at ht
    rcases ht with rfl | ht
    · exact ⟨by simp, by decide⟩
    · exact ih.2 t ht
  | bin hop _ _ ih₁ ih₂ =>
    refine ⟨by simp [preorder], fun t ht => ?_⟩
    simp only [preorder, List.mem_cons, List.mem_append] at ht
    rcases ht with rfl | ht | ht
    · rcases hop with ⟨rfl, -⟩ | ⟨rfl, -⟩ | ⟨rfl, -⟩ <;> exact ⟨by simp, by decide⟩
    · exact ih₁.2 t ht
    · exact ih₂.2 t ht
  | up _ ih => exact ih

theorem joinSp_eq_joinSep (ts : List Str) (h : ts ≠ []) :
    joinSp ts = joinSep [' '] ts ++ [' '] := by
  induction ts with
  | nil => exact absurd rfl h
  | cons t ts ih =>
    cases ts with
    | nil => simp [joinSp, joinSep]
    | cons t' ts' =>
      rw [joinSp_cons, ih (by simp), joinSep_cons_cons]
      simp

/-- The converter on a token list of the grammar yields the pre-order tokens of
the tree joined by single spaces. -/
theorem infixToPrefix_of_parses {s : Str} {T : Node} {k : Nat}
    (h : Parses k (tokenize s) T) : infixToPrefix s = joinSep [' '] (preorder T) := by
  obtain ⟨pend, part, e, hpp, hpend⟩ := infixStep_parses h [] [] (by simp)
  obtain ⟨hne, htok⟩ := parses_preorder_tokens h
  have hsw : (fun token : Str =>
      if token = ['('] then [')'] else if token = [')'] then ['('] else token) = swapParen := rfl
  unfold infixToPrefix
  simp only [hsw, e, List.append_nil, List.nil_append]
  have hflush : popWhile (fun _ => true) pend (joinSp part) =
      ([], joinSp ((preorder T).reverse)) := by
    have := popWhile_run (fun _ => true) pend [] (joinSp part) (by simp) (by simp)
    rw [List.append_nil] at this
    rw [this, ← joinSp_append, hpp]
  rw [hflush]
  simp only []
  rw [wordsFrom_joinSp _ (fun t ht => htok t (List.mem_reverse.1 ht)), List.reverse_reverse,
    joinSp_eq_joinSep _ hne]
  simp

/-- The pre-order token sequence of the denoted tree, joined by single spaces,
is what `infixToPrefix` returns on every text of the grammar. -/
theorem infixToPrefix_of_denotes {s : Str} {T : Node} {k : Nat} (h : Denotes k s T) :
    infixToPrefix s = joinSep [' '] (preorder T) :=
  infixToPrefix_of_parses (denotes_parses h)

end Main2

namespace Main2

/-! ### Round trip through text -/

theorem denotes_of_le {s : Str} {T : Node} :
    ∀ {k j : Nat}, Denotes k s T → j ≤ k → Denotes j s T := by
  intro k j h hjk
  induction hjk using Nat.decreasingInduction with
  | self => exact h
  | of_succ m _ ih => exact .up ih

/-- The text `treeToInfixString` writes for a well-formed tree over identifiers
denotes that tree, as a unary expression. -/
theorem treeToInfixString_denotes {T : Node} (wf : WellFormed T)
    (hid : ∀ v ∈ identifiers T, IsIdent v) : Denotes 3 (treeToInfixString T) T := by
  induction wf with
  | @leaf d hd =>
    rw [treeToInfixString_leaf hd]
    exact .ident (hid d (by simp [identifiers_leaf hd]))
  | @neg c wc ih =>
    have hc := ih fun v hv => hid v (by rw [identifiers_neg]; exact List.mem_append.2 (Or.inl hv))
    have h0 : isOperand ['~'] = false := by decide
    simp only [treeToInfixString, h0, Bool.false_eq_true, if_false, if_true]
    split
    · have := Denotes.neg (Denotes.paren (denotes_of_le hc (Nat.zero_le 3)))
      simpa using this
    · exact .neg hc
  | @bin d l r hd wl wr ihl ihr =>
    have hl := ihl fun v hv =>
      hid v (by rw [identifiers_bin hd]; exact List.mem_append.2 (Or.inl hv))
    have hr := ihr fun v hv =>
      hid v (by rw [identifiers_bin hd]; exact List.mem_append.2 (Or.inr hv))
    rw [treeToInfixString_bin hd]
    have sp : isspace ' ' = true := by decide
    have key : Denotes 0 (treeToInfixString l ++ ' ' :: (d ++ ' ' :: treeToInfixString r))
        (.mk d l r) := by
      rcases hd with rfl | rfl | rfl
      · have := Denotes.or (Denotes.spaceAfter sp (denotes_of_le hl (by omega : 1 ≤ 3)))
          (Denotes.spaceBefore sp (denotes_of_le hr (by omega : 2 ≤ 3)))
        exact denotes_of_le (by simpa using this) (Nat.zero_le 1)
      · have := Denotes.and (Denotes.spaceAfter sp (denotes_of_le hl (by omega : 2 ≤ 3)))
          (Denotes.spaceBefore sp hr)
        exact denotes_of_le (by simpa using this) (Nat.zero_le 2)
      · have := Denotes.imp (Denotes.spaceAfter sp (denotes_of_le hl (by omega : 0 ≤ 3)))
          (Denotes.spaceBefore sp (denotes_of_le hr (by omega : 1 ≤ 3)))
        simpa using this
    have := Denotes.paren key
    simpa using this

theorem getNextToken_token (sp t rest : Str) (hsp : sp = [] ∨ sp = [' '])
    (hne : t ≠ []) (ht : ∀ c ∈ t, isspace c = false)
    (hrest : rest = [] ∨ rest.head? = some ' ') :
    getNextToken (sp ++ t ++ rest) = (t, rest) := by
  have hstrip : ∀ c ∈ t, (c == ' ' || c == '\t' || c == '\n' || c == '\r') = false := by
    intro c hc
    have := ht c hc
    simp only [isspace, Bool.or_eq_false_iff] at this ⊢
    tauto
  have hns : ∀ c ∈ t, (c != ' ') = true := by
    intro c hc
    have := hstrip c hc
    simp only [Bool.or_eq_false_iff, beq_eq_false_iff_ne] at this
    simpa using this.1.1.1
  have hd : (sp ++ t ++ rest).dropWhile
      (fun c => c == ' ' || c == '\t' || c == '\n' || c == '\r') = t ++ rest := by
    cases t with
    | nil => exact absurd rfl hne
    | cons a t' =>
      have ha := hstrip a (List.mem_cons_self _ _)
      rcases hsp with rfl | rfl
      · simp only [List.nil_append, List.cons_append, List.dropWhile, ha, List.append_eq]
      · have hs : ((' ' : Char) == ' ' || ' ' == '\t' || ' ' == '\n' || ' ' == '\r') = true := by
          decide
        simp only [List.cons_append, List.nil_append, List.dropWhile, ha, hs, List.append_eq]
  have hbr : ∀ c ∈ rest.head?, (c != ' ') = false := by
    intro c hc
    rcases hrest with rfl | h
    · simp at hc
    · rw [h] at hc
      have : c = ' ' := by simpa using hc.symm
      subst this; rfl
  have e1 : (t ++ rest).takeWhile (fun c => c != ' ') = t := by
    rw [takeWhile_append_breaks t rest hbr]
    exact takeWhile_all _ _ hns
  have e2 : (t ++ rest).dropWhile (fun c => c != ' ') = rest := by
    have := List.takeWhile_append_dropWhile (fun c => c != ' ') (t ++ rest)
    rw [e1] at this
    exact List.append_cancel_left this
  have hemp : (t ++ rest).isEmpty = false := by
    cases t with
    | nil => exact absurd rfl hne
    | cons _ _ => rfl
  simp only [getNextToken, hd, hemp, Bool.false_eq_true, if_false, e1, e2]

theorem preorder_ne_nil {T : Node} (wf : WellFormed T) : preorder T ≠ [] := by
  cases wf <;> simp [preorder]

theorem preorder_length (T : Node) : (preorder T).length = T.size := by
  induction T with
  | null => rfl
  | mk d l r ihl ihr => simp [preorder, Node.size, ihl, ihr]; omega

theorem joinSep_cons_of_ne_nil (sep t : Str) {ts : List Str} (h : ts ≠ []) :
    joinSep sep (t :: ts) = t ++ sep ++ joinSep sep ts := by
  cases ts with
  | nil => exact absurd rfl h
  | cons a b => rfl

/-- Parsing the pre-order tokens of a well-formed tree over identifiers, joined
by single spaces, gives the tree back and consumes exactly those tokens. -/
theorem buildParseTree_helperAux_preorder {T : Node} (wf : WellFormed T)
    (hid : ∀ v ∈ identifiers T, IsIdent v) :
    ∀ (n : Nat) (sp rest : Str), T.size ≤ n → (sp = [] ∨ sp = [' ']) →
      (rest = [] ∨ rest.head? = some ' ') →
      buildParseTree_helperAux n (sp ++ joinSep [' '] (preorder T) ++ rest) = some (T, rest) := by
  induction wf with
  | @leaf d hd =>
    intro n sp rest hn hsp hrest
    have hi : IsIdent d := hid d (by simp [identifiers_leaf hd])
    obtain ⟨m, rfl⟩ : ∃ m, n = m + 1 := ⟨n - 1, by simp [Node.size] at hn; omega⟩
    have hop : isOperator d = false := by
      have := hd
      simp only [isOperand, Bool.and_eq_true, Bool.not_eq_true'] at this
      exact this.1.1.2
    have hemp : (sp ++ d ++ rest).isEmpty = false := by
      cases sp <;> cases d <;> simp_all [IsIdent]
    have hdne : d.isEmpty = false := by
      cases d <;> simp_all [IsIdent]
    simp only [preorder, List.append_nil, joinSep, buildParseTree_helperAux, hemp,
      getNextToken_token sp d rest hsp hi.1 (isIdent_no_space hi) hrest, hdne, hop,
      Bool.false_eq_true, if_false]
  | @neg c wc ih =>
    intro n sp rest hn hsp hrest
    have hc := ih fun v hv => hid v (by rw [identifiers_neg]; exact List.mem_append.2 (Or.inl hv))
    obtain ⟨m, rfl⟩ : ∃ m, n = m + 1 := ⟨n - 1, by simp [Node.size] at hn; omega⟩
    have hm : c.size ≤ m := by simp [Node.size] at hn; omega
    have e : sp ++ joinSep [' '] (preorder (.mk ['~'] c .null)) ++ rest =
        sp ++ ['~'] ++ ([' '] ++ joinSep [' '] (preorder c) ++ rest) := by
      simp [preorder, joinSep_cons_of_ne_nil _ _ (preorder_ne_nil wc)]
    have hemp : (sp ++ ['~'] ++ ([' '] ++ joinSep [' '] (preorder c) ++ rest)).isEmpty = false := by
      cases sp <;> simp
    have hg := getNextToken_token sp ['~'] ([' '] ++ joinSep [' '] (preorder c) ++ rest) hsp
      (by simp) (by decide) (Or.inr (by simp))
    have hop : isOperator ['~'] = true := by decide
    rw [e]
    simp only [buildParseTree_helperAux, hemp, hg, hop, hc m [' '] rest hm (Or.inr rfl) hrest]
    simp
  | @bin d l r hd wl wr ihl ihr =>
    intro n sp rest hn hsp hrest
    have hl := ihl fun v hv =>
      hid v (by rw [identifiers_bin hd]; exact List.mem_append.2 (Or.inl hv))
    have hr := ihr fun v hv =>
      hid v (by rw [identifiers_bin hd]; exact List.mem_append.2 (Or.inr hv))
    obtain ⟨m, rfl⟩ : ∃ m, n = m + 1 := ⟨n - 1, by simp [Node.size] at hn; omega⟩
    have hml : l.size ≤ m := by simp [Node.size] at hn; omega
    have hmr : r.size ≤ m := by simp [Node.size] at hn; omega
    have hdtok : d ≠ [] ∧ (∀ c ∈ d, isspace c = false) ∧ isOperator d = true ∧ d ≠ ['~'] := by
      rcases hd with rfl | rfl | rfl <;> exact ⟨by simp, by decide, by decide, by decide⟩
    obtain ⟨d1, d2, d3, d4⟩ := hdtok
    have e : sp ++ joinSep [' '] (preorder (.mk d l r)) ++ rest =
        sp ++ d ++ ([' '] ++ joinSep [' '] (preorder l) ++
          ([' '] ++ joinSep [' '] (preorder r) ++ rest)) := by
      have hne : preorder l ++ preorder r ≠ [] := by simp [preorder_ne_nil wl]
      simp [preorder, joinSep_cons_of_ne_nil _ _ hne,
        joinSep_append _ _ _ (preorder_ne_nil wl) (preorder_ne_nil wr)]
    have hemp : (sp ++ d ++ ([' '] ++ joinSep [' '] (preorder l) ++
          ([' '] ++ joinSep [' '] (preorder r) ++ rest))).isEmpty = false := by
      cases sp <;> cases d <;> simp_all
    have hdne : d.isEmpty = false := by cases d <;> simp_all
    have hg := getNextToken_token sp d ([' '] ++ joinSep [' '] (preorder l) ++
          ([' '] ++ joinSep [' '] (preorder r) ++ rest)) hsp d1 d2 (Or.inr (by simp))
    have h1 := hl m [' '] ([' '] ++ joinSep [' '] (preorder r) ++ rest) hml (Or.inr rfl)
      (Or.inr (by simp))
    have h2 := hr m [' '] rest hmr (Or.inr rfl) hrest
    rw [e]
    simp only [buildParseTree_helperAux, hemp, hg, hdne, d3, h1, h2]
    simp [d4]

theorem buildParseTree_preorder {T : Node} (wf : WellFormed T)
    (hid : ∀ v ∈ identifiers T, IsIdent v) :
    buildParseTree (joinSep [' '] (preorder T)) = some T := by
  have hne := preorder_ne_nil wf
  have htok : ∀ g ∈ preorder T, g ≠ [] := by
    intro g hg
    have := (parses_preorder_tokens (denotes_parses (treeToInfixString_denotes wf hid))).2 g hg
    exact this.1
  have hlen := length_le_joinSep [' '] (preorder T) htok
  rw [preorder_length] at hlen
  have hemp : (joinSep [' '] (preorder T)).isEmpty = false := by
    have : 0 < T.size := by cases wf <;> simp [Node.size]
    cases h : joinSep [' '] (preorder T) with
    | nil => rw [h] at hlen; simp at hlen; omega
    | cons _ _ => rfl
  have := buildParseTree_helperAux_preorder wf hid
    ((joinSep [' '] (preorder T)).length + 1) [] [] (by omega) (Or.inl rfl) (Or.inl rfl)
  simp only [List.nil_append, List.append_nil] at this
  simp [buildParseTree, hemp, this]

/-- Text round trip: printing a well-formed tree over identifiers, converting
the text to prefix form and parsing it gives the tree back. -/
theorem roundtrip_tree {T : Node} (wf : WellFormed T) (hid : ∀ v ∈ identifiers T, IsIdent v) :
    buildParseTree (infixToPrefix (treeToInfixString T)) = some T := by
  rw [infixToPrefix_of_denotes (treeToInfixString_denotes wf hid)]
  exact buildParseTree_preorder wf hid

end Main2

namespace Main2

/-! ### DIMACS codec -/

theorem wrapInt_of_isInt {v : Int} (h : isInt v) : wrapInt v = v := by
  obtain ⟨h1, h2⟩ := h
  simp only [INT_MIN, INT_MAX] at h1 h2
  unfold wrapInt
  rw [Int.emod_eq_of_lt (by omega) (by omega)]
  omega

theorem isInt_iff (v : Int) : isInt v ↔ -2147483648 ≤ v ∧ v ≤ 2147483647 := Iff.rfl

theorem negInt_eq_neg {v : Int} (h : isInt v) (hmin : v ≠ -2147483648) : negInt v = -v := by
  rw [isInt_iff] at h
  exact wrapInt_of_isInt ((isInt_iff _).2 ⟨by omega, by omega⟩)

theorem negInt_INT_MIN : negInt (-2147483648) = -2147483648 := by decide

/-- A clause passes `is_dimacs_clause_true` exactly when it holds some positive
literal together with its negation. -/
theorem is_dimacs_clause_true_iff (c : List Int) (hc : ∀ l ∈ c, isInt l) :
    is_dimacs_clause_true c = true ↔ ∃ v : Int, 0 < v ∧ v ∈ c ∧ -v ∈ c := by
  simp only [is_dimacs_clause_true, List.any_eq_true, Bool.and_eq_true, decide_eq_true_eq,
    List.contains_iff_exists_mem_beq, List.mem_filter, beq_iff_eq, gt_iff_lt]
  constructor
  · rintro ⟨l, hl, hneg, w, ⟨hw, hpos⟩, e⟩
    have hneg' : (l : Int) < 0 := hneg
    have hpos' : (0 : Int) < w := hpos
    have hmin : (l : Int) ≠ -2147483648 := by
      intro h
      have e' : negInt (-2147483648) = (w : Int) := h ▸ e
      rw [negInt_INT_MIN] at e'
      omega
    have e' : -(l : Int) = (w : Int) := by
      rw [← negInt_eq_neg (hc l hl) hmin]; exact e
    have e'' : -(w : Int) = (l : Int) := by rw [← e']; exact neg_neg _
    exact ⟨w, hpos, hw, e'' ▸ hl⟩
  · rintro ⟨v, hpos, hv, hnv⟩
    have h1 := (isInt_iff _).1 (hc v hv)
    have h2 := hc (-v) hnv
    have hmin : -v ≠ -2147483648 := by omega
    have e : negInt (-v) = v := by rw [negInt_eq_neg h2 hmin]; omega
    have hlt : -v < 0 := by omega
    exact ⟨-v, hnv, hlt, v, ⟨hv, hpos⟩, e⟩

theorem check_dimacs_valid_formula_iff (f : DimacsCNF) :
    check_dimacs_valid_formula f = true ↔ ∀ c ∈ f, is_dimacs_clause_true c = true := by
  simp [check_dimacs_valid_formula, List.filter_eq_nil_iff]

theorem isDimacsLiteral_iff (l : Int) :
    IsDimacsLiteral l ↔ l ≠ 0 ∧ -2147483647 ≤ l ∧ l ≤ 2147483647 := Iff.rfl

/-! #### Rendering -/

theorem literalToInfix_eq (l : Int) (h : IsDimacsLiteral l) :
    (if l < 0 then ['~', 'P'] ++ intToStr (negInt l) else ['P'] ++ intToStr l) =
      literalText l := by
  obtain ⟨h0, h1, h2⟩ := (isDimacsLiteral_iff l).1 h
  by_cases hn : l < 0
  · have hneg : negInt l = -l :=
      negInt_eq_neg ((isInt_iff _).2 ⟨by omega, by omega⟩) (by omega)
    have h3 : ¬ (0 < l) := by omega
    have h4 : ¬ (-l < 0) := by omega
    simp [hn, hneg, literalText, h3, intToStr, h4, decimal]
  · have h3 : 0 < l := by omega
    simp [hn, literalText, h3, intToStr, decimal]

theorem literalsToInfix_eq (c : List Int) (hc : ∀ l ∈ c, IsDimacsLiteral l) :
    literalsToInfix c = joinSep [' ', '+', ' '] (c.map literalText) := by
  induction c with
  | nil => rfl
  | cons l t ih =>
    have hl := literalToInfix_eq l (hc l (List.mem_cons_self _ _))
    have iht := ih fun x hx => hc x (List.mem_cons_of_mem _ hx)
    cases t with
    | nil =>
      simp only [literalsToInfix, hl, List.isEmpty_nil, if_true, List.append_nil, List.map_cons,
        List.map_nil, joinSep]
    | cons l' t' =>
      simp only [literalsToInfix, hl, List.map_cons, joinSep_cons_cons, List.isEmpty_cons,
        Bool.false_eq_true, if_false] at iht ⊢
      rw [iht]

theorem clausesToInfix_eq (f : List (List Int)) (hne : ∀ c ∈ f, c ≠ [])
    (hl : ∀ c ∈ f, ∀ l ∈ c, IsDimacsLiteral l) :
    clausesToInfix f = formulaText f := by
  induction f with
  | nil => rfl
  | cons c t ih =>
    have iht := ih (fun x hx => hne x (List.mem_cons_of_mem _ hx))
      (fun x hx => hl x (List.mem_cons_of_mem _ hx))
    have hc : c.isEmpty = false := by
      have := hne c (List.mem_cons_self _ _)
      cases c <;> simp_all
    have e := literalsToInfix_eq c (hl c (List.mem_cons_self _ _))
    cases t with
    | nil => simp [clausesToInfix, hc, e, formulaText, joinSep]
    | cons c' t' =>
      simp only [clausesToInfix, hc, Bool.false_eq_true, if_false, e, formulaText,
        List.map_cons, joinSep_cons_cons, List.isEmpty_cons] at iht ⊢
      rw [iht]

theorem dimacsToInfix_eq (f : List (List Int)) (hne : ∀ c ∈ f, c ≠ [])
    (hl : ∀ c ∈ f, ∀ l ∈ c, IsDimacsLiteral l) :
    dimacsToInfix f = formulaText f := by
  unfold dimacsToInfix
  split
  · rename_i h
    have : f = [] := by simpa using h
    subst this; rfl
  · exact clausesToInfix_eq f hne hl

end Main2

namespace Main2

/-! #### Parsing a DIMACS text -/

theorem digitChar_spec : ∀ m : Nat, m < 10 →
    (Nat.digitChar m).isDigit = true ∧ (Nat.digitChar m).toNat - 48 = m := by
  decide

theorem digitsValue_append_singleton (pre : Str) (d : Char) :
    digitsValue (pre ++ [d]) = 10 * digitsValue pre + (d.toNat - 48) := by
  simp [digitsValue, List.foldl_append]

/-- The digits `Nat.toDigitsCore` puts in front of its accumulator: a non-empty
run of decimal digits whose value is the number. -/
theorem toDigitsCore_spec :
    ∀ (fuel n : Nat) (ds : Str), n < fuel →
      ∃ pre : Str, Nat.toDigitsCore 10 fuel n ds = pre ++ ds ∧ pre ≠ [] ∧
        (∀ c ∈ pre, c.isDigit = true) ∧ digitsValue pre = n := by
  intro fuel
  induction fuel with
  | zero => intro n ds h; omega
  | succ fuel ih =>
    intro n ds h
    obtain ⟨hd1, hd2⟩ := digitChar_spec (n % 10) (Nat.mod_lt _ (by omega))
    simp only [Nat.toDigitsCore]
    split
    · rename_i hz
      refine ⟨[Nat.digitChar (n % 10)], rfl, by simp, by simpa using hd1, ?_⟩
      have : digitsValue [Nat.digitChar (n % 10)] = (Nat.digitChar (n % 10)).toNat - 48 := by
        simp [digitsValue]
      rw [this, hd2]
      omega
    · rename_i hz
      obtain ⟨pre, e, hne, hdig, hval⟩ := ih (n / 10) (Nat.digitChar (n % 10) :: ds) (by omega)
      refine ⟨pre ++ [Nat.digitChar (n % 10)], by rw [e]; simp, by simp, ?_, ?_⟩
      · intro c hc
        rcases List.mem_append.1 hc with h | h
        · exact hdig c h
        · have : c = Nat.digitChar (n % 10) := by simpa using h
          rw [this]; exact hd1
      · rw [digitsValue_append_singleton, hval, hd2]
        omega

theorem decimal_spec (n : Nat) :
    decimal n ≠ [] ∧ (∀ c ∈ decimal n, c.isDigit = true) ∧ digitsValue (decimal n) = n := by
  obtain ⟨pre, e, hne, hdig, hval⟩ := toDigitsCore_spec (n + 1) n [] (Nat.lt_succ_self _)
  have : decimal n = pre := by
    simp only [decimal, Nat.toDigits, e, List.append_nil]
  rw [this]
  exact ⟨hne, hdig, hval⟩

theorem isDigit_not_space {c : Char} (h : c.isDigit = true) : isspace c = false := by
  simp only [isspace, Bool.or_eq_false_iff, beq_eq_false_iff_ne]
  refine ⟨⟨⟨⟨⟨?_, ?_⟩, ?_⟩, ?_⟩, ?_⟩, ?_⟩ <;> rintro rfl <;> revert h <;> decide

theorem isDigit_ne {c : Char} (h : c.isDigit = true) :
    c ≠ '-' ∧ c ≠ '+' ∧ c ≠ '\n' ∧ c ≠ 'c' ∧ c ≠ 'p' := by
  refine ⟨?_, ?_, ?_, ?_, ?_⟩ <;> rintro rfl <;> revert h <;> decide

theorem dropWhile_append_of_head {p : Char → Bool} (sp : Str) (hsp : ∀ c ∈ sp, p c = true)
    (s : Str) (hs : ∀ c ∈ s.head?, p c = false) :
    (sp ++ s).dropWhile p = s := by
  induction sp with
  | nil =>
    cases s with
    | nil => rfl
    | cons a t =>
      have := hs a (by simp)
      simp [List.dropWhile, this]
  | cons a t ih =>
    have := hsp a (List.mem_cons_self _ _)
    simp only [List.cons_append, List.dropWhile, this]
    exact ih fun c hc => hsp c (List.mem_cons_of_mem _ hc)

theorem dropWhile_digits (ds rest : Str) (hds : ∀ c ∈ ds, c.isDigit = true)
    (hrest : ∀ c ∈ rest.head?, c.isDigit = false) :
    (ds ++ rest).takeWhile Char.isDigit = ds ∧ (ds ++ rest).dropWhile Char.isDigit = rest := by
  have e1 : (ds ++ rest).takeWhile Char.isDigit = ds := by
    rw [takeWhile_append_breaks ds rest hrest]
    exact takeWhile_all _ _ hds
  refine ⟨e1, ?_⟩
  have := List.takeWhile_append_dropWhile Char.isDigit (ds ++ rest)
  rw [e1] at this
  exact List.append_cancel_left this

/-- The written form of an `int`: an optional `-` and then the decimal digits
of its magnitude. -/
theorem intToStr_spec (v : Int) :
    ∃ ds : Str, ds ≠ [] ∧ (∀ c ∈ ds, c.isDigit = true) ∧
      ((0 ≤ v ∧ intToStr v = ds ∧ (digitsValue ds : Int) = v) ∨
       (v < 0 ∧ intToStr v = '-' :: ds ∧ -(digitsValue ds : Int) = v)) := by
  by_cases h : v < 0
  · obtain ⟨a, b, c⟩ := decimal_spec v.natAbs
    refine ⟨decimal v.natAbs, a, b, Or.inr ⟨h, by simp [intToStr, h, decimal], ?_⟩⟩
    rw [c]; omega
  · obtain ⟨a, b, c⟩ := decimal_spec v.toNat
    refine ⟨decimal v.toNat, a, b, Or.inl ⟨by omega, by simp [intToStr, h, decimal], ?_⟩⟩
    rw [c]; omega

/-- Extracting an `int` from its written form, after white space and before a
text that does not go on with a digit, yields the value and leaves that text. -/
theorem extractInt_intToStr (sp : Str) (v : Int) (rest : Str)
    (hsp : ∀ c ∈ sp, isspace c = true) (hv : isInt v)
    (hrest : ∀ c ∈ rest.head?, c.isDigit = false) :
    extractInt (sp ++ intToStr v ++ rest) = (some v, some rest) := by
  obtain ⟨ds, hne, hdig, hcase⟩ := intToStr_spec v
  obtain ⟨d0, ds', rfl⟩ : ∃ d0 ds', ds = d0 :: ds' := by
    cases ds with
    | nil => exact absurd rfl hne
    | cons a b => exact ⟨a, b, rfl⟩
  have hd0 := hdig d0 (List.mem_cons_self _ _)
  obtain ⟨n1, n2, -, -, -⟩ := isDigit_ne hd0
  obtain ⟨t1, t2⟩ := dropWhile_digits (d0 :: ds') rest hdig hrest
  rw [isInt_iff] at hv
  rcases hcase with ⟨hpos, e, hval⟩ | ⟨hneg, e, hval⟩
  · have hdrop : (sp ++ intToStr v ++ rest).dropWhile isspace = d0 :: ds' ++ rest := by
      rw [e, List.append_assoc]
      exact dropWhile_append_of_head sp hsp _ (by simp [isDigit_not_space hd0])
    have hv1 : ¬ ((digitsValue (d0 :: ds') : Int) < INT_MIN) := by
      simp only [INT_MIN]; omega
    have hv2 : ¬ ((digitsValue (d0 :: ds') : Int) > INT_MAX) := by
      simp only [INT_MAX]; omega
    simp only [extractInt, hdrop, List.cons_append, List.isEmpty_cons, Bool.false_eq_true,
      if_false, List.head?_cons, Option.some.injEq, n1, n2, or_self]
    rw [← List.cons_append, t1, t2]
    rw [hval] at hv1 hv2
    simp only [List.isEmpty_cons, Bool.false_eq_true, if_false, hval, hv1, hv2]
  · have hdrop : (sp ++ intToStr v ++ rest).dropWhile isspace = '-' :: (d0 :: ds' ++ rest) := by
      rw [e, List.append_assoc]
      exact dropWhile_append_of_head sp hsp _ (by simp; decide)
    have hv1 : ¬ (-(digitsValue (d0 :: ds') : Int) < INT_MIN) := by
      simp only [INT_MIN]; omega
    have hv2 : ¬ (-(digitsValue (d0 :: ds') : Int) > INT_MAX) := by
      simp only [INT_MAX]; omega
    simp only [extractInt, hdrop, List.isEmpty_cons, Bool.false_eq_true,
      if_false, List.head?_cons, true_or, if_true, List.drop_succ_cons, List.drop_zero]
    rw [t1, t2]
    rw [hval] at hv1 hv2
    simp only [List.isEmpty_cons, Bool.false_eq_true, if_false, hval, hv1, hv2]

end Main2

namespace Main2

theorem getlines_line (line rest : Str) (h : '\n' ∉ line) :
    getlines (line ++ '\n' :: rest) = line :: getlines rest := by
  induction line with
  | nil => simp [getlines]
  | cons a t ih =>
    have ha : a ≠ '\n' := fun e => h (by simp [e])
    have ht : '\n' ∉ t := fun m => h (List.mem_cons_of_mem _ m)
    simp only [List.cons_append, getlines, if_neg ha, List.append_eq, ih ht]

theorem getlines_lines (lines : List Str) (h : ∀ l ∈ lines, '\n' ∉ l) :
    getlines (lines.map fun l => l ++ ['\n']).flatten = lines := by
  induction lines with
  | nil => rfl
  | cons l t ih =>
    simp only [List.map_cons, List.flatten_cons, List.append_assoc, List.singleton_append]
    rw [getlines_line _ _ (h l (List.mem_cons_self _ _)),
      ih fun x hx => h x (List.mem_cons_of_mem _ hx)]

theorem intToStr_chars (v : Int) :
    intToStr v ≠ [] ∧ (∀ c ∈ (intToStr v).head?, c = '-' ∨ c.isDigit = true) ∧
      ∀ c ∈ intToStr v, c = '-' ∨ c.isDigit = true := by
  obtain ⟨ds, hne, hdig, hcase⟩ := intToStr_spec v
  rcases hcase with ⟨-, e, -⟩ | ⟨-, e, -⟩
  · rw [e]
    refine ⟨hne, fun c hc => Or.inr (hdig c (List.mem_of_mem_head? hc)), fun c hc => Or.inr (hdig c hc)⟩
  · rw [e]
    refine ⟨by simp, fun c hc => Or.inl (by simpa using hc.symm), fun c hc => ?_⟩
    rcases List.mem_cons.1 hc with h | h
    · exact Or.inl h
    · exact Or.inr (hdig c h)

theorem intChar_ne {c : Char} (h : c = '-' ∨ c.isDigit = true) :
    c ≠ '\n' ∧ c ≠ 'c' ∧ c ≠ 'p' := by
  rcases h with rfl | h
  · decide
  · exact ⟨(isDigit_ne h).2.2.1, (isDigit_ne h).2.2.2.1, (isDigit_ne h).2.2.2.2⟩

theorem joinSep_space_chars (c : List Int) :
    ∀ x ∈ joinSep [' '] (c.map intToStr), x = ' ' ∨ x = '-' ∨ x.isDigit = true := by
  induction c with
  | nil => simp [joinSep]
  | cons l t ih =>
    have hl := (intToStr_chars l).2.2
    cases t with
    | nil =>
      intro x hx
      exact Or.inr (hl x (by simpa [joinSep] using hx))
    | cons l' t' =>
      intro x hx
      simp only [List.map_cons, joinSep_cons_cons, List.mem_append, List.mem_singleton] at hx ih
      rcases hx with (h | h) | h
      · exact Or.inr (hl x h)
      · exact Or.inl h
      · exact ih x h

theorem clauseLine_no_newline (c : List Int) : '\n' ∉ clauseLine c := by
  intro h
  simp only [clauseLine, List.mem_append, List.mem_cons, List.mem_singleton,
    List.not_mem_nil, or_false] at h
  rcases h with h | h | h
  · rcases joinSep_space_chars c _ h with h' | h' | h'
    · revert h'; decide
    · revert h'; decide
    · revert h'; decide
  · revert h; decide
  · revert h; decide

theorem intToStr_zero : intToStr 0 = ['0'] := by decide

/-- The values read from a clause line are the literals of the clause and the
closing zero. -/
theorem extractIntsAux_clauseLine :
    ∀ (c : List Int), c ≠ [] → (∀ l ∈ c, isInt l) →
      ∀ (n : Nat) (sp : Str), c.length + 1 ≤ n → (∀ x ∈ sp, isspace x = true) →
        extractIntsAux n (sp ++ joinSep [' '] (c.map intToStr) ++ [' ', '0']) = c ++ [0] := by
  intro c
  induction c with
  | nil => intro h; exact absurd rfl h
  | cons l t ih =>
    intro _ hc n sp hn hsp
    obtain ⟨m, rfl⟩ : ∃ m, n = m + 1 := ⟨n - 1, by simp at hn; omega⟩
    have hl := hc l (List.mem_cons_self _ _)
    cases t with
    | nil =>
      obtain ⟨k, rfl⟩ : ∃ k, m = k + 1 := ⟨m - 1, by simp at hn; omega⟩
      have e1 := extractInt_intToStr sp l [' ', '0'] hsp hl (by simp)
      have e2 := extractInt_intToStr [' '] 0 [] (by simp; decide)
        ((isInt_iff _).2 ⟨by omega, by omega⟩) (by simp)
      rw [intToStr_zero] at e2
      simp only [List.map_cons, List.map_nil, joinSep, extractIntsAux, e1]
      have e2' : extractInt [' ', '0'] = (some 0, some []) := by simpa using e2
      simp only [e2']
      cases k with
      | zero => simp [extractIntsAux]
      | succ k => simp [extractIntsAux, extractInt]
    | cons l' t' =>
      have e1 := extractInt_intToStr sp l
        ([' '] ++ joinSep [' '] ((l' :: t').map intToStr) ++ [' ', '0']) hsp hl (by simp)
      have := ih (by simp) (fun x hx => hc x (List.mem_cons_of_mem _ hx)) m [' ']
        (by simp at hn ⊢; omega) (by simp; decide)
      have e0 : sp ++ joinSep [' '] ((l :: l' :: t').map intToStr) ++ [' ', '0'] =
          sp ++ intToStr l ++ ([' '] ++ joinSep [' '] ((l' :: t').map intToStr) ++ [' ', '0']) := by
        simp [joinSep_cons_cons]
      rw [e0, extractIntsAux, e1]
      show l :: extractIntsAux m
        ([' '] ++ joinSep [' '] ((l' :: t').map intToStr) ++ [' ', '0']) = _
      rw [this]
      rfl

theorem foldl_litStep_nonzero (c : List Int) (hc : ∀ l ∈ c, l ≠ 0) (F : DimacsCNF)
    (cur : List Int) (e : Bool) :
    c.foldl litStep ⟨F, cur, e⟩ = ⟨F, cur ++ c, if c.isEmpty then e else false⟩ := by
  induction c generalizing cur e with
  | nil => simp
  | cons l t ih =>
    have hl := hc l (List.mem_cons_self _ _)
    simp only [List.foldl_cons, litStep, if_neg hl]
    rw [ih fun x hx => hc x (List.mem_cons_of_mem _ hx)]
    cases t <;> simp

theorem extractInts_clauseLine (c : List Int) (hne : c ≠ []) (hc : ∀ l ∈ c, isInt l) :
    extractInts (clauseLine c) = c ++ [0] := by
  have hlen : c.length ≤ (joinSep [' '] (c.map intToStr)).length := by
    have := length_le_joinSep [' '] (c.map intToStr) (by
      intro g hg
      obtain ⟨l, -, rfl⟩ := List.mem_map.1 hg
      exact (intToStr_chars l).1)
    simpa using this
  have := extractIntsAux_clauseLine c hne hc ((clauseLine c).length + 1) []
    (by simp only [clauseLine, List.length_append, List.length_cons, List.length_nil]; omega)
    (by simp)
  simpa [extractInts, clauseLine] using this

/-- Reading the clause lines of a formula appends its clauses to the formula
read so far. -/
theorem readLines_clauseLines (f : List (List Int))
    (hf : ∀ c ∈ f, c ≠ [] ∧ ∀ l ∈ c, l ≠ 0 ∧ isInt l) (F : DimacsCNF) (nv nc : Int) :
    readLines (f.map clauseLine) ⟨F, nv, nc, true⟩ = ⟨F ++ f, nv, nc⟩ := by
  induction f generalizing F with
  | nil => simp [readLines]
  | cons c t ih =>
    obtain ⟨hne, hl⟩ := hf c (List.mem_cons_self _ _)
    obtain ⟨l0, c', rfl⟩ : ∃ l0 c', c = l0 :: c' := by
      cases c with
      | nil => exact absurd rfl hne
      | cons a b => exact ⟨a, b, rfl⟩
    obtain ⟨a0, s0, hs0⟩ : ∃ a0 s0, intToStr l0 = a0 :: s0 := by
      have := (intToStr_chars l0).1
      cases h : intToStr l0 with
      | nil => exact absurd h this
      | cons a b => exact ⟨a, b, rfl⟩
    have ha0 : a0 = '-' ∨ a0.isDigit = true := (intToStr_chars l0).2.1 a0 (by simp [hs0])
    obtain ⟨-, k1, k2⟩ := intChar_ne ha0
    obtain ⟨rest, hline⟩ : ∃ rest, clauseLine (l0 :: c') = a0 :: rest := by
      cases c' with
      | nil => exact ⟨s0 ++ [' ', '0'], by simp [clauseLine, joinSep, hs0]⟩
      | cons l1 c'' =>
        exact ⟨s0 ++ [' '] ++ joinSep [' '] ((l1 :: c'').map intToStr) ++ [' ', '0'], by
          simp [clauseLine, joinSep_cons_cons, hs0]⟩
    have hints := extractInts_clauseLine (l0 :: c') hne fun l h => (hl l h).2
    have hfold : ((l0 :: c' ++ [0]).foldl litStep ⟨F, [], true⟩).formula = F ++ [l0 :: c'] := by
      rw [List.foldl_append, foldl_litStep_nonzero _ (fun l h => (hl l h).1)]
      simp [litStep]
    simp only [List.map_cons, readLines]
    rw [hline] at hints ⊢
    simp only [List.isEmpty_cons, List.head?_cons, Bool.false_or, Option.some.injEq,
      beq_iff_eq, k1, k2, if_false, Bool.not_true, Bool.false_eq_true, hints]
    have := ih (fun x hx => hf x (List.mem_cons_of_mem _ hx)) (F ++ [l0 :: c'])
    simp only [hfold]
    rw [this]
    simp

end Main2

namespace Main2

theorem extractWord_header (rest : Str) :
    extractWord (' ' :: 'c' :: 'n' :: 'f' :: ' ' :: rest) = some (['c', 'n', 'f'], ' ' :: rest) := by
  have h1 : isspace ' ' = true := by decide
  have h2 : isspace 'c' = false := by decide
  have h3 : isspace 'n' = false := by decide
  have h4 : isspace 'f' = false := by decide
  simp [extractWord, List.dropWhile, List.takeWhile, h1, h2, h3, h4]

/-- Reading the header line `p cnf <numVars> <numClauses>` records the two
counts and marks the header as found. -/
theorem readLines_header (nv nc : Int) (hnv : isInt nv) (hnc : isInt nc) (lines : List Str)
    (st : ReadState) :
    readLines ((['p', ' ', 'c', 'n', 'f', ' '] ++ intToStr nv ++ [' '] ++ intToStr nc) :: lines) st =
      readLines lines { st with numVars := nv, numClauses := nc, p_line_found := true } := by
  have e1 := extractInt_intToStr [' '] nv ([' '] ++ intToStr nc) (by simp; decide) hnv (by simp)
  have e2 := extractInt_intToStr [' '] nc [] (by simp; decide) hnc (by simp)
  simp only [List.append_nil, List.singleton_append, List.cons_append, List.nil_append] at e1 e2
  have hp : (('p' : Char) == 'c') = false := by decide
  simp only [readLines, List.cons_append, List.nil_append, List.append_assoc, List.isEmpty_cons,
    List.head?_cons, Bool.false_or, beq_self_eq_true, if_true, List.drop_succ_cons,
    List.drop_zero, extractWord_header, e1, e2, Option.getD_some, ne_eq, not_true_eq_false,
    if_false, Option.some_beq_some, hp, Bool.false_eq_true, beq_iff_eq]

theorem header_no_newline (nv nc : Int) :
    '\n' ∉ ['p', ' ', 'c', 'n', 'f', ' '] ++ intToStr nv ++ [' '] ++ intToStr nc := by
  intro h
  have key : ∀ v : Int, '\n' ∉ intToStr v := by
    intro v hm
    exact (intChar_ne ((intToStr_chars v).2.2 _ hm)).1 rfl
  simp only [List.mem_append, List.mem_cons, List.mem_singleton, List.not_mem_nil,
    or_false] at h
  rcases h with ((h | h) | h) | h
  · revert h; decide
  · exact key nv h
  · revert h; decide
  · exact key nc h

/-- Parsing the DIMACS text of a formula returns the formula and the two
declared counts. -/
theorem readDIMACSCNF_dimacsText (nv nc : Int) (f : List (List Int))
    (hnv : isInt nv) (hnc : isInt nc)
    (hf : ∀ c ∈ f, c ≠ [] ∧ ∀ l ∈ c, l ≠ 0 ∧ isInt l) :
    readDIMACSCNF (dimacsText nv nc f) = ⟨f, nv, nc⟩ := by
  have hlines : getlines (dimacsText nv nc f) =
      (['p', ' ', 'c', 'n', 'f', ' '] ++ intToStr nv ++ [' '] ++ intToStr nc) ::
        f.map clauseLine := by
    have e : dimacsText nv nc f =
        (['p', ' ', 'c', 'n', 'f', ' '] ++ intToStr nv ++ [' '] ++ intToStr nc) ++
          '\n' :: ((f.map clauseLine).map fun l => l ++ ['\n']).flatten := by
      simp [dimacsText, List.map_map, Function.comp_def]
    rw [e, getlines_line _ _ (header_no_newline nv nc), getlines_lines]
    intro l hl
    obtain ⟨c, -, rfl⟩ := List.mem_map.1 hl
    exact clauseLine_no_newline c
  rw [readDIMACSCNF, hlines, readLines_header nv nc hnv hnc, readLines_clauseLines f hf]
  simp

end Main2

namespace Main2

/-! ### The tokens of a text -/

theorem takeWhile_append_dropWhile {α : Type} (p : α → Bool) (l : List α) :
    l.takeWhile p ++ l.dropWhile p = l := by
  induction l with
  | nil => rfl
  | cons a l ih =>
    simp only [List.takeWhile, List.dropWhile]
    cases p a <;> simp [ih]

theorem dropWhile_length_le {α : Type} (p : α → Bool) (l : List α) :
    (l.dropWhile p).length ≤ l.length := by
  have h := congrArg List.length (takeWhile_append_dropWhile p l)
  simp only [List.length_append] at h
  omega

theorem breaks_dropWhile (l : Str) : Breaks (l.dropWhile isIdentChar) := by
  induction l with
  | nil => exact breaks_nil
  | cons a l ih =>
    simp only [List.dropWhile]
    cases h : isIdentChar a
    · exact breaks_cons h l
    · exact ih

theorem mem_takeWhile_imp {α : Type} (p : α → Bool) (l : List α) :
    ∀ a ∈ l.takeWhile p, p a = true := by
  induction l with
  | nil => simp
  | cons b l ih =>
    intro a ha
    simp only [List.takeWhile] at ha
    cases h : p b
    · simp [h] at ha
    · simp only [h, List.mem_cons] at ha
      rcases ha with rfl | ha
      · exact h
      · exact ih a ha

/-- The token list of `tokenize` is a reading of the text into pieces. -/
theorem tokensOf_tokenize : ∀ (n : Nat) (s : Str), s.length ≤ n → TokensOf s (tokenize s) := by
  intro n
  induction n with
  | zero =>
    intro s hs
    have : s = [] := List.eq_nil_of_length_eq_zero (by omega)
    subst this
    exact .nil
  | succ n ih =>
    intro s hs
    cases s with
    | nil => exact .nil
    | cons c rest =>
      have hr : rest.length ≤ n := by simpa using hs
      by_cases h1 : isspace c = true
      · rw [tokenize_space h1]
        exact .space h1 (ih rest hr)
      · by_cases h2 : isSymbol c = true
        · rw [tokenize_symbol h2]
          exact .symbol h2 (ih rest hr)
        · have hc : isIdentChar c = true := by simp [isIdentChar, h1, h2]
          have hx : IsIdent (c :: rest.takeWhile isIdentChar) := by
            refine ⟨by simp, ?_⟩
            intro a ha
            rcases List.mem_cons.1 ha with rfl | ha
            · exact hc
            · exact mem_takeWhile_imp _ _ a ha
          have hb := breaks_dropWhile rest
          have hsplit : c :: rest =
              (c :: rest.takeWhile isIdentChar) ++ rest.dropWhile isIdentChar := by
            rw [List.cons_append, takeWhile_append_dropWhile]
          have hlen := dropWhile_length_le isIdentChar rest
          rw [hsplit, tokenize_ident_append hx _ hb]
          exact .run hx hb (ih _ (by omega))

/-- A reading of the text into pieces gives the token list of `tokenize`. -/
theorem tokenize_of_tokensOf {s : Str} {ts : List Str} (h : TokensOf s ts) :
    tokenize s = ts := by
  induction h with
  | nil => rfl
  | space hc _ ih => rw [tokenize_space hc, ih]
  | symbol hc _ ih => rw [tokenize_symbol hc, ih]
  | run hx hb _ ih => rw [tokenize_ident_append hx _ hb, ih]

theorem tokensOf_flatten {s : Str} {ts : List Str} (h : TokensOf s ts) :
    ts.flatten = s.filter fun c => !isspace c := by
  induction h with
  | nil => rfl
  | space hc _ ih => simp [List.filter, hc, ih]
  | @symbol c s ts hc _ ih =>
    simp [List.filter, isSymbol_not_space hc, ih]
  | @run x s ts hx _ _ ih =>
    have : x.filter (fun c => !isspace c) = x := by
      apply List.filter_eq_self.2
      intro a ha
      have := hx.2 a ha
      simp only [isIdentChar, Bool.and_eq_true, Bool.not_eq_true'] at this
      simp [this.1]
    simp [List.filter_append, this, ih]

theorem tokensOf_shape {s : Str} {ts : List Str} (h : TokensOf s ts) :
    ∀ t ∈ ts, (∃ c, isSymbol c = true ∧ t = [c]) ∨ IsIdent t := by
  induction h with
  | nil => simp
  | space _ _ ih => exact ih
  | symbol hc _ ih =>
    intro t ht
    rcases List.mem_cons.1 ht with rfl | ht
    · exact Or.inl ⟨_, hc, rfl⟩
    · exact ih t ht
  | run hx _ _ ih =>
    intro t ht
    rcases List.mem_cons.1 ht with rfl | ht
    · exact Or.inr hx
    · exact ih t ht

end Main2

namespace Main2

/-! ### Chains of two binary operators -/

/-- A binary operator of the grammar, applied at its level. -/
theorem denotes_bin {op : Char} {k : Nat} {s₁ s₂ : Str} {T₁ T₂ : Node}
    (hop : (op = '*' ∧ k = 2) ∨ (op = '+' ∧ k = 1) ∨ (op = '>' ∧ k = 0))
    (h₁ : Denotes k s₁ T₁) (h₂ : Denotes (k + 1) s₂ T₂) :
    Denotes k (s₁ ++ [op] ++ s₂) (.mk [op] T₁ T₂) := by
  rcases hop with ⟨rfl, rfl⟩ | ⟨rfl, rfl⟩ | ⟨rfl, rfl⟩
  · exact .and h₁ h₂
  · exact .or h₁ h₂
  · exact .imp h₁ h₂

theorem denotes_ident_spaced {x : Str} (h : IsIdent x) (k : Nat) (hk : k ≤ 3) :
    Denotes k x (.mk x .null .null) ∧ Denotes k (x ++ [' ']) (.mk x .null .null) ∧
    Denotes k (' ' :: x) (.mk x .null .null) ∧
    Denotes k (' ' :: (x ++ [' '])) (.mk x .null .null) := by
  have sp : isspace ' ' = true := by decide
  exact ⟨denotes_of_le (.ident h) hk, denotes_of_le (.spaceAfter sp (.ident h)) hk,
    denotes_of_le (.spaceBefore sp (.ident h)) hk,
    denotes_of_le (.spaceBefore sp (.spaceAfter sp (.ident h))) hk⟩

/-- In `a op₁ b op₂ c` with `op₂` binding no tighter than `op₁`, the first
operator is applied first: the prefix form is `op₂ op₁ a b c`. -/
theorem infixToPrefix_chain_left {op₁ op₂ : Char} {k₁ k₂ : Nat} {a b c : Str}
    (h₁ : (op₁ = '*' ∧ k₁ = 2) ∨ (op₁ = '+' ∧ k₁ = 1) ∨ (op₁ = '>' ∧ k₁ = 0))
    (h₂ : (op₂ = '*' ∧ k₂ = 2) ∨ (op₂ = '+' ∧ k₂ = 1) ∨ (op₂ = '>' ∧ k₂ = 0))
    (hk : k₂ ≤ k₁) (ha : IsIdent a) (hb : IsIdent b) (hc : IsIdent c) :
    infixToPrefix (a ++ [' ', op₁, ' '] ++ b ++ [' ', op₂, ' '] ++ c) =
      [op₂, ' ', op₁, ' '] ++ a ++ [' '] ++ b ++ [' '] ++ c := by
  have k1 : k₁ ≤ 2 := by rcases h₁ with ⟨-, rfl⟩ | ⟨-, rfl⟩ | ⟨-, rfl⟩ <;> omega
  have k2 : k₂ ≤ 2 := by omega
  have d1 : Denotes k₁ (a ++ [' '] ++ [op₁] ++ (' ' :: (b ++ [' ']))) (.mk [op₁]
      (.mk a .null .null) (.mk b .null .null)) :=
    denotes_bin h₁ (denotes_ident_spaced ha k₁ (by omega)).2.1
      (denotes_ident_spaced hb (k₁ + 1) (by omega)).2.2.2
  have d2 := denotes_bin h₂ (denotes_of_le d1 hk) (denotes_ident_spaced hc (k₂ + 1) (by omega)).2.2.1
  have e := infixToPrefix_of_denotes d2
  have es : a ++ [' '] ++ [op₁] ++ (' ' :: (b ++ [' '])) ++ [op₂] ++ (' ' :: c) =
      a ++ [' ', op₁, ' '] ++ b ++ [' ', op₂, ' '] ++ c := by simp
  rw [es] at e
  rw [e]
  simp [preorder, joinSep]

/-- In `a op₁ b op₂ c` with `op₂` binding tighter than `op₁`, the second
operator is applied first: the prefix form is `op₁ a op₂ b c`. -/
theorem infixToPrefix_chain_right {op₁ op₂ : Char} {k₁ k₂ : Nat} {a b c : Str}
    (h₁ : (op₁ = '*' ∧ k₁ = 2) ∨ (op₁ = '+' ∧ k₁ = 1) ∨ (op₁ = '>' ∧ k₁ = 0))
    (h₂ : (op₂ = '*' ∧ k₂ = 2) ∨ (op₂ = '+' ∧ k₂ = 1) ∨ (op₂ = '>' ∧ k₂ = 0))
    (hk : k₁ < k₂) (ha : IsIdent a) (hb : IsIdent b) (hc : IsIdent c) :
    infixToPrefix (a ++ [' ', op₁, ' '] ++ b ++ [' ', op₂, ' '] ++ c) =
      [op₁, ' '] ++ a ++ [' ', op₂, ' '] ++ b ++ [' '] ++ c := by
  have k2 : k₂ ≤ 2 := by rcases h₂ with ⟨-, rfl⟩ | ⟨-, rfl⟩ | ⟨-, rfl⟩ <;> omega
  have d1 : Denotes k₂ ((' ' :: (b ++ [' '])) ++ [op₂] ++ (' ' :: c)) (.mk [op₂]
      (.mk b .null .null) (.mk c .null .null)) :=
    denotes_bin h₂ (denotes_ident_spaced hb k₂ (by omega)).2.2.2
      (denotes_ident_spaced hc (k₂ + 1) (by omega)).2.2.1
  have d2 := denotes_bin h₁ (denotes_ident_spaced ha k₁ (by omega)).2.1
    (denotes_of_le d1 (show k₁ + 1 ≤ k₂ by omega))
  have e := infixToPrefix_of_denotes d2
  have es : a ++ [' '] ++ [op₁] ++ ((' ' :: (b ++ [' '])) ++ [op₂] ++ (' ' :: c)) =
      a ++ [' ', op₁, ' '] ++ b ++ [' ', op₂, ' '] ++ c := by simp
  rw [es] at e
  rw [e]
  simp [preorder, joinSep]

/-! ### `buildParseTree` always returns -/

theorem getNextToken_length (e : Str) :
    (getNextToken e).2.length ≤ e.length ∧
    ((getNextToken e).1 ≠ [] → (getNextToken e).2.length < e.length) := by
  simp only [getNextToken]
  have h1 := dropWhile_length_le (fun c => c == ' ' || c == '\t' || c == '\n' || c == '\r') e
  generalize e.dropWhile (fun c => c == ' ' || c == '\t' || c == '\n' || c == '\r') = e' at h1
  have h2 := congrArg List.length (takeWhile_append_dropWhile (fun c => c != ' ') e')
  simp only [List.length_append] at h2
  split
  · exact ⟨h1, fun h => absurd rfl h⟩
  · refine ⟨by simp only []; omega, fun h => ?_⟩
    simp only [] at h ⊢
    have : 0 < (e'.takeWhile (fun c => c != ' ')).length := List.length_pos.2 h
    omega

theorem buildParseTree_helperAux_total :
    ∀ (n : Nat) (e : Str), e.length < n →
      ∃ t e', buildParseTree_helperAux n e = some (t, e') ∧ e'.length ≤ e.length := by
  intro n
  induction n with
  | zero => intro e h; omega
  | succ n ih =>
    intro e h
    simp only [buildParseTree_helperAux]
    split
    · exact ⟨_, _, rfl, le_refl _⟩
    · have hg := getNextToken_length e
      split
      · exact ⟨_, _, rfl, hg.1⟩
      · rename_i hne
        have hlt := hg.2 (by simpa using hne)
        split
        · obtain ⟨l, e1, h1, hl1⟩ := ih (getNextToken e).2 (by omega)
          rw [h1]
          simp only []
          split
          · obtain ⟨r, e2, h2, hl2⟩ := ih e1 (by omega)
            rw [h2]
            exact ⟨_, _, rfl, by omega⟩
          · exact ⟨_, _, rfl, by omega⟩
        · exact ⟨_, _, rfl, hg.1⟩

theorem buildParseTree_total (e : Str) : ∃ t, buildParseTree e = some t := by
  simp only [buildParseTree]
  split
  · exact ⟨_, rfl⟩
  · obtain ⟨t, e', h, -⟩ := buildParseTree_helperAux_total (e.length + 1) e (Nat.lt_succ_self _)
    exact ⟨t, by rw [h]; rfl⟩

end Main2

namespace Main2

/-! ### Truth-table rows -/

theorem shift_and_one_eq_testBit (i k : Nat) : (((i >>> k) &&& 1) != 0) = i.testBit k := by
  simp [Nat.testBit, Nat.and_comm]

theorem and_one_shift_eq_testBit (m k : Nat) : ((m &&& (1 <<< k)) != 0) = m.testBit k := by
  rw [Nat.one_shiftLeft, Nat.and_two_pow]
  cases m.testBit k <;> simp

theorem wrapLongLong_two_pow {n : Nat} (h : n ≤ 62) :
    (wrapLongLong ((1 <<< n : Nat) : Int)).toNat = 2 ^ n := by
  have hp : 2 ^ n ≤ 2 ^ 62 := Nat.pow_le_pow_right (by decide) h
  have hn : (2 : Nat) ^ 62 = 4611686018427387904 := by norm_num
  rw [Nat.one_shiftLeft, wrapLongLong]
  generalize 2 ^ n = p at hp ⊢
  omega

theorem wrapInt_two_pow {n : Nat} (h : n ≤ 30) :
    (wrapInt ((1 <<< n : Nat) : Int)).toNat = 2 ^ n := by
  have hp : 2 ^ n ≤ 2 ^ 30 := Nat.pow_le_pow_right (by decide) h
  have hn : (2 : Nat) ^ 30 = 1073741824 := by norm_num
  rw [Nat.one_shiftLeft, wrapInt]
  generalize 2 ^ n = p at hp ⊢
  omega

/-- The rows `run_automated_case` enumerates are the rows of the described
enumeration, as long as `1LL << n` is representable. -/
theorem truthTableRows_eq (varList : List Str) (h : varList.length ≤ 62) :
    truthTableRows varList = rowsSpec varList := by
  simp only [truthTableRows, rowsSpec, wrapLongLong_two_pow h, shift_and_one_eq_testBit]
  rfl

theorem rowsSpec_length {α : Type} (varList : List α) :
    (rowsSpec varList).length = 2 ^ varList.length := by
  simp [rowsSpec]

theorem rowSpec_length {α : Type} (varList : List α) (i : Nat) :
    (rowSpec varList i).length = varList.length := by
  simp [rowSpec]

theorem rowsSpec_get {α : Type} (varList : List α) (i : Nat) (h : i < 2 ^ varList.length) :
    (rowsSpec varList)[i]? = some (rowSpec varList i) := by
  simp [rowsSpec, h]

theorem rowSpec_get {α : Type} (varList : List α) (i j : Nat) (h : j < varList.length) :
    (rowSpec varList i)[j]? =
      some (varList.get ⟨j, h⟩, i.testBit (varList.length - 1 - j)) := by
  simp [rowSpec, List.getElem?_enum, h]

end Main2

namespace Main1

/-- The rows `main` enumerates are the rows of the described enumeration, as
long as `1 << n` is representable. -/
theorem truthTableRows_eq_m1 (varList : List Char) (h : varList.length ≤ 30) :
    truthTableRows varList = some (Main2.rowsSpec varList) := by
  have h32 : ¬ varList.length ≥ 32 := by omega
  simp only [truthTableRows, h32, if_false, Main2.rowsSpec, Main2.wrapInt_two_pow h,
    Main2.and_one_shift_eq_testBit]
  congr 1
  apply List.map_congr_left
  intro mask _
  apply List.map_congr_left
  intro iv _
  rw [Nat.sub_right_comm]

/-- With 31 variables the bound `1 << 31` of the row loop is negative and no
row is produced. -/
theorem truthTableRows_31 (varList : List Char) (h : varList.length = 31) :
    truthTableRows varList = some [] := by
  have hw : (Main2.wrapInt ((1 <<< 31 : Nat) : Int)).toNat = 0 := by decide
  have h32 : ¬ 31 ≥ 32 := by decide
  simp only [truthTableRows, h, h32, if_false, hw, List.range_zero, List.map_nil]

/-- From 32 variables on the shift `1 << n` is undefined. -/
theorem truthTableRows_undefined (varList : List Char) (h : 32 ≤ varList.length) :
    truthTableRows varList = none := by
  simp only [truthTableRows, ge_iff_le, h, if_true]

end Main1

namespace Main2

/-! ### `buildParseTree` on a token stream that ends early -/

theorem buildParseTree_helperAux_nil (n : Nat) :
    buildParseTree_helperAux (n + 1) [] = some (.null, []) := by
  simp [buildParseTree_helperAux]

/-- An operator token alone gives a node without children. -/
theorem buildParseTree_operator_alone {op : Str} (hop : isOperator op = true) :
    buildParseTree op = some (.mk op .null .null) := by
  have hne : op ≠ [] := by rintro rfl; revert hop; decide
  have hsp : ∀ c ∈ op, isspace c = false := by
    have h : op = ['+'] ∨ op = ['*'] ∨ op = ['~'] ∨ op = ['>'] := by
      simpa [isOperator, or_assoc] using hop
    rcases h with rfl | rfl | rfl | rfl <;> decide
  have hg := getNextToken_token [] op [] (Or.inl rfl) hne hsp (Or.inl rfl)
  simp only [List.nil_append, List.append_nil] at hg
  have he : op.isEmpty = false := by cases op <;> simp_all
  have hl : op.length + 1 = (op.length - 1 + 1) + 1 := by
    have := List.length_pos.2 hne; omega
  rw [buildParseTree, he, hl]
  simp only [Bool.false_eq_true, if_false, buildParseTree_helperAux, he, hg, hop, if_true]
  by_cases h : op = ['~'] <;> simp [h]

/-- A binary operator followed by the pre-order tokens of one well-formed tree
only: the tree becomes the left child and the right child is null. -/
theorem buildParseTree_missing_right {op : Str} {T : Node}
    (hop : op = ['+'] ∨ op = ['*'] ∨ op = ['>']) (wf : WellFormed T)
    (hid : ∀ v ∈ identifiers T, IsIdent v) :
    buildParseTree (op ++ [' '] ++ joinSep [' '] (preorder T)) = some (.mk op T .null) := by
  have hne : op ≠ [] := by rcases hop with rfl | rfl | rfl <;> simp
  have hsp : ∀ c ∈ op, isspace c = false := by
    rcases hop with rfl | rfl | rfl <;> decide
  have ho : isOperator op = true := by rcases hop with rfl | rfl | rfl <;> decide
  have hnt : op ≠ ['~'] := by rcases hop with rfl | rfl | rfl <;> decide
  have hg := getNextToken_token [] op (' ' :: joinSep [' '] (preorder T)) (Or.inl rfl) hne hsp
    (Or.inr rfl)
  have es : op ++ [' '] ++ joinSep [' '] (preorder T) =
      [] ++ op ++ ' ' :: joinSep [' '] (preorder T) := by simp
  have hsz := preorder_length T
  have hle := length_le_joinSep [' '] (preorder T) (by
    intro g hg
    exact ((parses_preorder_tokens (denotes_parses (treeToInfixString_denotes wf hid))).2 g hg).1)
  obtain ⟨m, hm⟩ : ∃ m, (op ++ [' '] ++ joinSep [' '] (preorder T)).length = m + 1 + 1 :=
    ⟨(op ++ [' '] ++ joinSep [' '] (preorder T)).length - 2, by
      have := List.length_pos.2 hne
      simp only [List.length_append, List.length_singleton]; omega⟩
  have hT : T.size ≤ m + 1 + 1 := by
    simp only [List.length_append, List.length_singleton] at hm
    omega
  have h1 := buildParseTree_helperAux_preorder wf hid (m + 1 + 1) [' '] [] hT (Or.inr rfl)
    (Or.inl rfl)
  rw [List.append_nil] at h1
  have he : (op ++ [' '] ++ joinSep [' '] (preorder T)).isEmpty = false := by
    cases op <;> simp_all
  have hemp : op.isEmpty = false := by cases op <;> simp_all
  rw [buildParseTree, he, hm]
  simp only [Bool.false_eq_true, if_false]
  rw [buildParseTree_helperAux]
  simp only [he, Bool.false_eq_true, if_false]
  rw [es, hg]
  simp only [ho, if_true, ne_eq, hnt, not_false_eq_true, List.singleton_append, hemp,
    Bool.false_eq_true, if_false] at h1 ⊢
  rw [h1]
  simp only [buildParseTree_helperAux_nil]
  rfl

end Main2

namespace Main2

/-! ### The order of the variable set -/

theorem char_eq_of_toNat {a b : Char} (h1 : ¬ a.toNat < b.toNat) (h2 : ¬ b.toNat < a.toNat) :
    a = b := by
  have h : a.toNat = b.toNat := by omega
  have := congrArg Char.ofNat h
  simpa using this

theorem strLess_irrefl : ∀ a : Str, strLess a a = false := by
  intro a
  induction a with
  | nil => rfl
  | cons c t ih => simp [strLess, ih]

theorem strLess_trans : ∀ a b c : Str, strLess a b = true → strLess b c = true →
    strLess a c = true := by
  intro a
  induction a with
  | nil =>
    intro b c hab hbc
    cases b with
    | nil => simp [strLess] at hab
    | cons y ys =>
      cases c with
      | nil => simp [strLess] at hbc
      | cons z zs => rfl
  | cons x xs ih =>
    intro b c hab hbc
    cases b with
    | nil => simp [strLess] at hab
    | cons y ys =>
      cases c with
      | nil => simp [strLess] at hbc
      | cons z zs =>
        simp only [strLess] at hab hbc ⊢
        by_cases h1 : x.toNat < y.toNat
        · by_cases h2 : y.toNat < z.toNat
          · have : x.toNat < z.toNat := by omega
            simp [this]
          · by_cases h3 : z.toNat < y.toNat
            · simp [h2, h3] at hbc
            · have : x.toNat < z.toNat := by omega
              simp [this]
        · by_cases h1' : y.toNat < x.toNat
          · simp [h1, h1'] at hab
          · simp only [h1, h1', if_false] at hab
            by_cases h2 : y.toNat < z.toNat
            · have : x.toNat < z.toNat := by omega
              simp [this]
            · by_cases h3 : z.toNat < y.toNat
              · simp [h2, h3] at hbc
              · simp only [h2, h3, if_false] at hbc
                have e1 : ¬ x.toNat < z.toNat := by omega
                have e2 : ¬ z.toNat < x.toNat := by omega
                simp only [e1, e2, if_false]
                exact ih ys zs hab hbc

theorem strLess_total : ∀ a b : Str, strLess a b = false → strLess b a = false → a = b := by
  intro a
  induction a with
  | nil =>
    intro b hab _
    cases b with
    | nil => rfl
    | cons y ys => simp [strLess] at hab
  | cons x xs ih =>
    intro b hab hba
    cases b with
    | nil => simp [strLess] at hba
    | cons y ys =>
      simp only [strLess] at hab hba
      by_cases h1 : x.toNat < y.toNat
      · simp [h1] at hab
      · by_cases h2 : y.toNat < x.toNat
        · simp [h2] at hba
        · simp only [h1, h2, if_false] at hab hba
          rw [char_eq_of_toNat h1 h2, ih ys hab hba]

/-! ### `getVariables` -/

theorem mem_setInsert (x y : Str) : ∀ vs : List Str, y ∈ setInsert x vs ↔ y = x ∨ y ∈ vs := by
  intro vs
  induction vs with
  | nil => simp [setInsert]
  | cons z zs ih =>
    simp only [setInsert]
    cases h1 : strLess x z
    · cases h2 : strLess z x
      · have e : x = z := strLess_total x z h1 h2
        subst e
        simp only [Bool.false_eq_true, if_false, List.mem_cons]
        tauto
      · simp only [Bool.false_eq_true, if_false, if_true, List.mem_cons, ih]
        tauto
    · simp only [if_true, List.mem_cons]

theorem sorted_setInsert (x : Str) :
    ∀ vs : List Str, vs.Pairwise (fun a b => strLess a b = true) →
      (setInsert x vs).Pairwise (fun a b => strLess a b = true) := by
  intro vs
  induction vs with
  | nil => intro _; simp [setInsert]
  | cons z zs ih =>
    intro h
    obtain ⟨hz, hzs⟩ := List.pairwise_cons.1 h
    simp only [setInsert]
    cases h1 : strLess x z
    · cases h2 : strLess z x
      · simp only [Bool.false_eq_true, if_false]
        exact h
      · simp only [Bool.false_eq_true, if_false, if_true]
        refine List.pairwise_cons.2 ⟨?_, ih hzs⟩
        intro a ha
        rcases (mem_setInsert x a zs).1 ha with rfl | ha
        · exact h2
        · exact hz a ha
    · simp only [if_true]
      refine List.pairwise_cons.2 ⟨?_, h⟩
      intro a ha
      rcases List.mem_cons.1 ha with rfl | ha
      · exact h1
      · exact strLess_trans _ _ _ h1 (hz a ha)

theorem getVariables_spec :
    ∀ (T : Node) (vars : List Str), vars.Pairwise (fun a b => strLess a b = true) →
      (getVariables T vars).Pairwise (fun a b => strLess a b = true) ∧
      ∀ y, y ∈ getVariables T vars ↔ y ∈ vars ∨ y ∈ identifiers T := by
  intro T
  induction T with
  | null => intro vars h; simp [getVariables, identifiers, h]
  | mk d l r ihl ihr =>
    intro vars h
    simp only [getVariables, identifiers]
    cases hd : isOperand d
    case true =>
      simp only [if_true]
      obtain ⟨s1, m1⟩ := ihl (setInsert d vars) (sorted_setInsert d vars h)
      obtain ⟨s2, m2⟩ := ihr _ s1
      refine ⟨s2, fun y => ?_⟩
      rw [m2, m1, mem_setInsert]
      simp only [List.mem_append, List.mem_singleton]
      tauto
    case false =>
      simp only [Bool.false_eq_true, if_false]
      obtain ⟨s1, m1⟩ := ihl vars h
      obtain ⟨s2, m2⟩ := ihr _ s1
      refine ⟨s2, fun y => ?_⟩
      rw [m2, m1]
      simp only [List.mem_append, List.nil_append]
      tauto

theorem leaves_eq_identifiers {T : Node} (wf : WellFormed T) : leaves T = identifiers T := by
  induction wf with
  | @leaf d hd => simp [leaves, identifiers, hd]
  | @neg c hc ih =>
    have hn : isOperand ['~'] = false := by decide
    cases hc with
    | leaf hd => simp [leaves, identifiers, hn, hd]
    | neg h => simp [leaves, identifiers, hn] at ih ⊢; exact ih
    | bin hop h1 h2 => simp [leaves, identifiers, hn] at ih ⊢; exact ih
  | @bin d l r hd hl hr ihl ihr =>
    have hn : isOperand d = false := by rcases hd with rfl | rfl | rfl <;> decide
    have e : leaves (.mk d l r) = leaves l ++ leaves r := by
      cases hl <;> simp [leaves]
    rw [e, ihl, ihr]
    simp [identifiers, hn]

theorem sorted_nodup {vs : List Str} (h : vs.Pairwise (fun a b => strLess a b = true)) :
    vs.Nodup := by
  refine List.Pairwise.imp ?_ h
  intro a b hab e
  rw [e, strLess_irrefl] at hab
  exact Bool.false_ne_true hab

/-- The variable set of a well-formed tree: the labels of its leaves, each
once, in strictly increasing order. -/
theorem getVariables_leaves {T : Node} (wf : WellFormed T) :
    (getVariables T []).Pairwise (fun a b => strLess a b = true) ∧
    (getVariables T []).Nodup ∧
    (∀ y, y ∈ getVariables T [] ↔ y ∈ leaves T) ∧
    (getVariables T []).length = (leaves T).toFinset.card := by
  obtain ⟨s, m⟩ := getVariables_spec T [] List.Pairwise.nil
  have hm : ∀ y, y ∈ getVariables T [] ↔ y ∈ leaves T := by
    intro y
    rw [m, leaves_eq_identifiers wf]
    simp
  refine ⟨s, sorted_nodup s, hm, ?_⟩
  rw [← List.toFinset_card_of_nodup (sorted_nodup s)]
  congr 1
  ext y
  simp [hm]

/-! ### The ceiling of the truth table -/

theorem truthTable_none_iff (varList : List Str) :
    truthTable varList = none ↔ 18 < varList.length := by
  simp only [truthTable, gt_iff_lt]
  split <;> simp_all

theorem truthTable_rows (varList : List Str) (h : varList.length ≤ 18) :
    truthTable varList = some (rowsSpec varList) := by
  have h' : ¬ varList.length > 18 := by omega
  rw [truthTable, if_neg h', truthTableRows_eq varList (by omega)]

theorem truthTableOnRequest_eq (g : Char) (vars : List Str) (hg : g = 'Y' ∨ g = 'y') :
    truthTableOnRequest g vars = truthTable vars := by
  simp only [truthTableOnRequest, truthTable, hg, if_true]

end Main2

namespace Main2

/-! ### One line of the DIMACS reader -/

theorem foldl_litStep_runs :
    ∀ (ints : List Int) (F : DimacsCNF) (cur : List Int) (e : Bool), cur.isEmpty = e →
      (ints.foldl litStep ⟨F, cur, e⟩).formula = F ++ runsFrom ints cur := by
  intro ints
  induction ints with
  | nil => intro F cur e _; simp [runsFrom]
  | cons v vs ih =>
    intro F cur e he
    simp only [List.foldl_cons, runsFrom]
    by_cases hv : v = 0
    · subst hv
      simp only [litStep, if_true]
      rw [ih _ [] true rfl]
      cases hc : cur.isEmpty
      · rw [hc] at he
        subst he
        simp
      · rw [hc] at he
        subst he
        simp
    · simp only [litStep, hv, if_false]
      rw [ih _ (cur ++ [v]) false (by simp)]

theorem lineFormula_eq (line : Str) (F : DimacsCNF) :
    ((extractInts line).foldl litStep
        { formula := F, currentClause := [], clause_ended := true }).formula =
      F ++ terminatedRuns (extractInts line) :=
  foldl_litStep_runs _ F [] true rfl

theorem readLines_skip {line : Str} (h : line = [] ∨ line.head? = some 'c') (rest : List Str)
    (st : ReadState) : readLines (line :: rest) st = readLines rest st := by
  rcases h with rfl | h
  · simp [readLines]
  · simp [readLines, h]

theorem readLines_before {line : Str} (h : isClauseLine line = true) (rest : List Str)
    (st : ReadState) (hp : st.p_line_found = false) :
    readLines (line :: rest) st = readLines rest st := by
  simp only [isClauseLine, Bool.and_eq_true, Bool.not_eq_true', bne_iff_ne, ne_eq] at h
  obtain ⟨⟨h1, h2⟩, h3⟩ := h
  simp [readLines, h1, h2, h3, hp]

theorem readLines_clause {line : Str} (h : isClauseLine line = true) (rest : List Str)
    (st : ReadState) (hp : st.p_line_found = true) :
    readLines (line :: rest) st =
      readLines rest { st with formula := st.formula ++ terminatedRuns (extractInts line) } := by
  simp only [isClauseLine, Bool.and_eq_true, Bool.not_eq_true', bne_iff_ne, ne_eq] at h
  obtain ⟨⟨h1, h2⟩, h3⟩ := h
  simp [readLines, h1, h2, h3, hp, lineFormula_eq]

theorem extractInt_value {s r : Str} {w : Option Int} (h : extractInt s = (w, some r)) :
    ∃ v, w = some v := by
  simp only [extractInt] at h
  split_ifs at h <;> simp only [Prod.mk.injEq] at h <;> first
    | exact ⟨_, h.1.symm⟩
    | exact absurd h.2 (by simp)

theorem readLines_header_valid {line : Str} (h : line.head? = some 'p') {nv nc : Int}
    (hh : headerOf line = some (nv, nc)) (rest : List Str) (st : ReadState) :
    readLines (line :: rest) st =
      readLines rest { st with numVars := nv, numClauses := nc, p_line_found := true } := by
  have hne : line.isEmpty = false := by cases line <;> simp_all
  have hc : (line.head? == some 'c') = false := by simp [h]
  have hp : (line.head? == some 'p') = true := by simp [h]
  simp only [readLines, hne, hc, hp, Bool.or_self, Bool.false_eq_true, if_false, if_true]
  simp only [headerOf] at hh
  cases hW : extractWord (line.drop 1) with
  | none => rw [hW] at hh; simp at hh
  | some p =>
    obtain ⟨type, r1⟩ := p
    rw [hW] at hh
    simp only [] at hh ⊢
    cases hI1 : extractInt r1 with
    | mk w1 o1 =>
      rw [hI1] at hh
      cases o1 with
      | none => cases w1 <;> simp at hh
      | some r2 =>
        cases w1 with
        | none => simp at hh
        | some v1 =>
          simp only [] at hh ⊢
          cases hI2 : extractInt r2 with
          | mk w2 o2 =>
            rw [hI2] at hh
            cases o2 with
            | none => cases w2 <;> simp at hh
            | some r3 =>
              cases w2 with
              | none => simp at hh
              | some v2 =>
                simp only [] at hh ⊢
                by_cases ht : type = ['c', 'n', 'f']
                · simp only [ht, if_true, Option.some.injEq, Prod.mk.injEq] at hh
                  obtain ⟨rfl, rfl⟩ := hh
                  simp [ht]
                · simp [ht] at hh

theorem readLines_header_invalid {line : Str} (h : line.head? = some 'p')
    (hh : headerOf line = none) (rest : List Str) (st : ReadState) :
    (readLines (line :: rest) st).formula = [] := by
  have hne : line.isEmpty = false := by cases line <;> simp_all
  have hc : (line.head? == some 'c') = false := by simp [h]
  have hp : (line.head? == some 'p') = true := by simp [h]
  simp only [readLines, hne, hc, hp, Bool.or_self, Bool.false_eq_true, if_false, if_true]
  simp only [headerOf] at hh
  cases hW : extractWord (line.drop 1) with
  | none => rfl
  | some p =>
    obtain ⟨type, r1⟩ := p
    rw [hW] at hh
    simp only [] at hh ⊢
    cases hI1 : extractInt r1 with
    | mk w1 o1 =>
      rw [hI1] at hh
      cases o1 with
      | none => rfl
      | some r2 =>
        obtain ⟨v1, rfl⟩ := extractInt_value hI1
        simp only [] at hh ⊢
        cases hI2 : extractInt r2 with
        | mk w2 o2 =>
          rw [hI2] at hh
          cases o2 with
          | none => rfl
          | some r3 =>
            obtain ⟨v2, rfl⟩ := extractInt_value hI2
            simp only [] at hh ⊢
            by_cases ht : type = ['c', 'n', 'f']
            · simp [ht] at hh
            · simp [ht]

/-- Every line is empty, a comment, a header line or a clause line. -/
theorem line_cases (line : Str) :
    (line = [] ∨ line.head? = some 'c') ∨ line.head? = some 'p' ∨ isClauseLine line = true := by
  cases line with
  | nil => exact Or.inl (Or.inl rfl)
  | cons c t =>
    by_cases h1 : c = 'c'
    · exact Or.inl (Or.inr (by simp [h1]))
    · by_cases h2 : c = 'p'
      · exact Or.inr (Or.inl (by simp [h2]))
      · exact Or.inr (Or.inr (by simp [isClauseLine, h1, h2]))

end Main2

namespace Main2

/-! ### Runs of integers closed by `0` -/

theorem runsFrom_mem :
    ∀ (vs cur c : List Int), c ∈ runsFrom vs cur →
      (∃ pre post, cur ++ vs = pre ++ c ++ 0 :: post) ∧ c ≠ [] ∧
        ((∀ x ∈ cur, x ≠ 0) → ∀ x ∈ c, x ≠ 0) := by
  intro vs
  induction vs with
  | nil => intro cur c h; simp [runsFrom] at h
  | cons v vs ih =>
    intro cur c h
    simp only [runsFrom] at h
    by_cases hv : v = 0
    · subst hv
      simp only [if_true] at h
      cases hc : cur.isEmpty
      · rw [hc] at h
        simp only [Bool.false_eq_true, if_false, List.mem_cons] at h
        rcases h with rfl | h
        · refine ⟨⟨[], vs, by simp⟩, ?_, fun hz => hz⟩
          intro e
          rw [e] at hc
          simp at hc
        · obtain ⟨⟨pre, post, e⟩, hne, hz⟩ := ih [] c h
          refine ⟨⟨cur ++ 0 :: pre, post, ?_⟩, hne, fun _ => hz (by simp)⟩
          simp only [List.nil_append] at e
          rw [e]
          simp
      · rw [hc] at h
        simp only [if_true] at h
        obtain ⟨⟨pre, post, e⟩, hne, hz⟩ := ih [] c h
        have hcur : cur = [] := by simpa using hc
        refine ⟨⟨0 :: pre, post, ?_⟩, hne, fun _ => hz (by simp)⟩
        simp only [List.nil_append] at e
        rw [hcur, e]
        simp
    · simp only [hv, if_false] at h
      obtain ⟨⟨pre, post, e⟩, hne, hz⟩ := ih (cur ++ [v]) c h
      refine ⟨⟨pre, post, ?_⟩, hne, fun hcur => hz ?_⟩
      · rw [← e]; simp
      · intro x hx
        rcases List.mem_append.1 hx with hx | hx
        · exact hcur x hx
        · rw [List.mem_singleton.1 hx]; exact hv

/-- A run kept by `terminatedRuns` is not empty, holds no `0` and is followed
by a `0` in the sequence. -/
theorem terminatedRuns_mem {vs c : List Int} (h : c ∈ terminatedRuns vs) :
    (∃ pre post, vs = pre ++ c ++ 0 :: post) ∧ c ≠ [] ∧ ∀ x ∈ c, x ≠ 0 := by
  obtain ⟨⟨pre, post, e⟩, hne, hz⟩ := runsFrom_mem vs [] c h
  exact ⟨⟨pre, post, by simpa using e⟩, hne, hz (by simp)⟩

theorem terminatedRuns_nonzero {vs : List Int} (h : ∀ x ∈ vs, x ≠ 0) :
    ∀ cur, runsFrom vs cur = [] := by
  induction vs with
  | nil => intro cur; rfl
  | cons v vs ih =>
    intro cur
    have hv := h v (List.mem_cons_self _ _)
    simp only [runsFrom, hv, if_false]
    exact ih (fun x hx => h x (List.mem_cons_of_mem _ hx)) _

/-! ### The lines of the DIMACS reader -/

/-- Every returned clause is already in the formula the loop starts with or is
a run closed by `0` on one of the clause lines. -/
theorem readLines_mem :
    ∀ (ls : List Str) (st : ReadState) (c : List Int), c ∈ (readLines ls st).formula →
      c ∈ st.formula ∨ ∃ line ∈ ls, isClauseLine line = true ∧
        c ∈ terminatedRuns (extractInts line) := by
  intro ls
  induction ls with
  | nil => intro st c h; exact Or.inl (by simpa [readLines] using h)
  | cons line rest ih =>
    intro st c h
    have lift : ∀ st', c ∈ (readLines rest st').formula → st'.formula = st.formula →
        c ∈ st.formula ∨ ∃ l ∈ line :: rest, isClauseLine l = true ∧
          c ∈ terminatedRuns (extractInts l) := by
      intro st' h' e
      rcases ih st' c h' with h1 | ⟨l, hl, h2⟩
      · exact Or.inl (e ▸ h1)
      · exact Or.inr ⟨l, List.mem_cons_of_mem _ hl, h2⟩
    rcases line_cases line with hs | hp | hc
    · rw [readLines_skip hs] at h
      exact lift st h rfl
    · cases hh : headerOf line with
      | none =>
        rw [readLines_header_invalid hp hh] at h
        simp at h
      | some p =>
        obtain ⟨nv, nc⟩ := p
        rw [readLines_header_valid hp hh] at h
        exact lift _ h rfl
    · cases hf : st.p_line_found
      · rw [readLines_before hc rest st hf] at h
        exact lift st h rfl
      · rw [readLines_clause hc rest st hf] at h
        rcases ih _ c h with h1 | ⟨l, hl, h2⟩
        · rcases List.mem_append.1 h1 with h1 | h1
          · exact Or.inl h1
          · exact Or.inr ⟨line, List.mem_cons_self _ _, hc, h1⟩
        · exact Or.inr ⟨l, List.mem_cons_of_mem _ hl, h2⟩

/-- A header line that does not read as `cnf` and two integers empties the
formula, whatever was read before. -/
theorem readLines_invalid_header :
    ∀ (ls : List Str) (st : ReadState),
      (∃ l ∈ ls, l.head? = some 'p' ∧ headerOf l = none) → (readLines ls st).formula = [] := by
  intro ls
  induction ls with
  | nil => intro st h; simp at h
  | cons line rest ih =>
    intro st h
    obtain ⟨l, hl, hlp, hlh⟩ := h
    have inrest : ¬ (line.head? = some 'p' ∧ headerOf line = none) →
        ∃ l ∈ rest, l.head? = some 'p' ∧ headerOf l = none := by
      intro hn
      rcases List.mem_cons.1 hl with rfl | hl
      · exact absurd ⟨hlp, hlh⟩ hn
      · exact ⟨l, hl, hlp, hlh⟩
    rcases line_cases line with hs | hp | hc
    · rw [readLines_skip hs]
      refine ih st (inrest ?_)
      rintro ⟨h1, -⟩
      rcases hs with rfl | hs
      · simp at h1
      · rw [hs] at h1; revert h1; decide
    · cases hh : headerOf line with
      | none => exact readLines_header_invalid hp hh rest st
      | some p =>
        obtain ⟨nv, nc⟩ := p
        rw [readLines_header_valid hp hh]
        exact ih _ (inrest (by rw [hh]; simp))
    · have hnp : line.head? ≠ some 'p' := by
        simp only [isClauseLine, Bool.and_eq_true, bne_iff_ne, ne_eq] at hc
        exact hc.2
      cases hf : st.p_line_found
      · rw [readLines_before hc rest st hf]
        exact ih st (inrest fun h => hnp h.1)
      · rw [readLines_clause hc rest st hf]
        exact ih _ (inrest fun h => hnp h.1)

/-- Before a header line has been read, lines that do not begin with `p` are
passed over. -/
theorem readLines_no_header :
    ∀ (pre rest : List Str) (st : ReadState), (∀ l ∈ pre, l.head? ≠ some 'p') →
      st.p_line_found = false → readLines (pre ++ rest) st = readLines rest st := by
  intro pre
  induction pre with
  | nil => intro rest st _ _; rfl
  | cons line pre ih =>
    intro rest st h hf
    have ht := ih rest st (fun l hl => h l (List.mem_cons_of_mem _ hl)) hf
    rcases line_cases line with hs | hp | hc
    · rw [List.cons_append, readLines_skip hs, ht]
    · exact absurd hp (h line (List.mem_cons_self _ _))
    · rw [List.cons_append, readLines_before hc _ st hf, ht]

/-- After a header line, when every further header line is valid: the formula
grows by the closed runs of each clause line, in order. -/
theorem readLines_body :
    ∀ (body : List Str) (st : ReadState), st.p_line_found = true →
      (∀ l ∈ body, l.head? = some 'p' → headerOf l ≠ none) →
      (readLines body st).formula =
        st.formula ++ ((body.filter isClauseLine).map fun l =>
          terminatedRuns (extractInts l)).flatten := by
  intro body
  induction body with
  | nil => intro st _ _; simp [readLines]
  | cons line rest ih =>
    intro st hf h
    have hr := fun l hl => h l (List.mem_cons_of_mem _ hl)
    rcases line_cases line with hs | hp | hc
    · have hn : isClauseLine line = false := by
        rcases hs with rfl | hs
        · rfl
        · simp [isClauseLine, hs]
      rw [readLines_skip hs, ih st hf hr, List.filter_cons, hn]
      simp
    · have hn : isClauseLine line = false := by simp [isClauseLine, hp]
      cases hh : headerOf line with
      | none => exact absurd hh (h line (List.mem_cons_self _ _) hp)
      | some p =>
        obtain ⟨nv, nc⟩ := p
        rw [readLines_header_valid hp hh, ih _ rfl hr, List.filter_cons, hn]
        simp
    · rw [readLines_clause hc rest st hf, ih _ (by exact hf) hr, List.filter_cons, hc]
      simp

end Main2

namespace Main2

/-! ### Blank lines and comment lines -/

theorem readLines_header_invalid_rest {line : Str} (h : line.head? = some 'p')
    (hh : headerOf line = none) (rest : List Str) (st : ReadState) :
    readLines (line :: rest) st = readLines [line] st := by
  have hne : line.isEmpty = false := by cases line <;> simp_all
  have hc : (line.head? == some 'c') = false := by simp [h]
  have hp : (line.head? == some 'p') = true := by simp [h]
  simp only [readLines, hne, hc, hp, Bool.or_self, Bool.false_eq_true, if_false, if_true]
  simp only [headerOf] at hh
  cases hW : extractWord (line.drop 1) with
  | none => rfl
  | some p =>
    obtain ⟨type, r1⟩ := p
    rw [hW] at hh
    simp only [] at hh ⊢
    cases hI1 : extractInt r1 with
    | mk w1 o1 =>
      rw [hI1] at hh
      cases o1 with
      | none => rfl
      | some r2 =>
        obtain ⟨v1, rfl⟩ := extractInt_value hI1
        simp only [] at hh ⊢
        cases hI2 : extractInt r2 with
        | mk w2 o2 =>
          rw [hI2] at hh
          cases o2 with
          | none => rfl
          | some r3 =>
            obtain ⟨v2, rfl⟩ := extractInt_value hI2
            simp only [] at hh ⊢
            by_cases ht : type = ['c', 'n', 'f']
            · simp [ht] at hh
            · simp [ht]

/-- An empty line or a comment line among the lines changes nothing. -/
theorem readLines_insert {x : Str} (hx : x = [] ∨ x.head? = some 'c') :
    ∀ (ls₁ ls₂ : List Str) (st : ReadState),
      readLines (ls₁ ++ x :: ls₂) st = readLines (ls₁ ++ ls₂) st := by
  intro ls₁
  induction ls₁ with
  | nil => intro ls₂ st; exact readLines_skip hx ls₂ st
  | cons line rest ih =>
    intro ls₂ st
    simp only [List.cons_append]
    rcases line_cases line with hs | hp | hc
    · rw [readLines_skip hs, readLines_skip hs, ih]
    · cases hh : headerOf line with
      | none =>
        rw [readLines_header_invalid_rest hp hh, readLines_header_invalid_rest hp hh (rest ++ ls₂)]
      | some p =>
        obtain ⟨nv, nc⟩ := p
        rw [readLines_header_valid hp hh, readLines_header_valid hp hh, ih]
    · cases hf : st.p_line_found
      · rw [readLines_before hc _ st hf, readLines_before hc _ st hf, ih]
      · rw [readLines_clause hc _ st hf, readLines_clause hc _ st hf, ih]

theorem getlines_unlines_append :
    ∀ (ls : List Str), (∀ l ∈ ls, '\n' ∉ l) → ∀ rest : Str,
      getlines (unlines ls ++ rest) = ls ++ getlines rest := by
  intro ls
  induction ls with
  | nil => intro _ rest; rfl
  | cons l ls ih =>
    intro h rest
    have e : unlines (l :: ls) ++ rest = l ++ '\n' :: (unlines ls ++ rest) := by
      simp [unlines]
    rw [e, getlines_line _ _ (h l (List.mem_cons_self _ _)),
      ih (fun x hx => h x (List.mem_cons_of_mem _ hx))]
    rfl

/-- Inserting an empty line or a comment line at the start of a line of the
text changes nothing in what `readDIMACSCNF` returns. -/
theorem readDIMACSCNF_insert (ls : List Str) (hls : ∀ l ∈ ls, '\n' ∉ l) (x : Str)
    (hx : x = [] ∨ x.head? = some 'c') (hn : '\n' ∉ x) (rest : Str) :
    readDIMACSCNF (unlines ls ++ (x ++ '\n' :: rest)) = readDIMACSCNF (unlines ls ++ rest) := by
  simp only [readDIMACSCNF]
  rw [getlines_unlines_append ls hls, getlines_unlines_append ls hls, getlines_line _ _ hn,
    readLines_insert hx]

end Main2

namespace Main2

/-! ### Reading integers from a line with more text after it -/

theorem dropWhile_append_breaks {p : Char → Bool} (r s : Str)
    (h : ∀ c ∈ s.head?, p c = false) :
    (r ++ s).dropWhile p = r.dropWhile p ++ s := by
  induction r with
  | nil =>
    cases s with
    | nil => rfl
    | cons c t =>
      have := h c (by simp)
      simp [List.dropWhile, this]
  | cons a r ih =>
    simp only [List.cons_append, List.dropWhile]
    cases p a <;> simp [ih]

theorem dropWhile_append_of_ne_nil {p : Char → Bool} (r s : Str)
    (h : r.dropWhile p ≠ []) : (r ++ s).dropWhile p = r.dropWhile p ++ s := by
  induction r with
  | nil => simp at h
  | cons a r ih =>
    simp only [List.cons_append, List.dropWhile] at h ⊢
    cases hp : p a
    · simp
    · rw [hp] at h
      simp only [] at h ⊢
      exact ih h

theorem dropWhile_append_of_eq_nil {p : Char → Bool} (r s : Str)
    (h : r.dropWhile p = []) : (r ++ s).dropWhile p = s.dropWhile p := by
  induction r with
  | nil => rfl
  | cons a r ih =>
    simp only [List.cons_append, List.dropWhile] at h ⊢
    cases hp : p a
    · rw [hp] at h; simp at h
    · rw [hp] at h
      simp only [] at h ⊢
      exact ih h

theorem not_digit_of_space {c : Char} (h : isspace c = true) : c.isDigit = false := by
  cases hd : c.isDigit
  · rfl
  · rw [isDigit_not_space hd] at h
    exact absurd h (by simp)

/-- Text added after a white-space character does not change an extraction
that has met a character other than white space. -/
theorem extractInt_append (s t : Str) (ht : ∀ c ∈ t.head?, isspace c = true)
    (hs : s.dropWhile isspace ≠ []) :
    extractInt (s ++ t) = ((extractInt s).1, (extractInt s).2.map fun r => r ++ t) := by
  have hd : ∀ c ∈ t.head?, Char.isDigit c = false := fun c hc => not_digit_of_space (ht c hc)
  obtain ⟨a, s1, hs1⟩ : ∃ a s1, s.dropWhile isspace = a :: s1 := by
    cases h : s.dropWhile isspace with
    | nil => exact absurd h hs
    | cons a s1 => exact ⟨a, s1, rfl⟩
  have e1 : (s ++ t).dropWhile isspace = a :: (s1 ++ t) := by
    rw [dropWhile_append_of_ne_nil s t hs, hs1]; rfl
  simp only [extractInt, e1, hs1, List.isEmpty_cons, Bool.false_eq_true, if_false, List.head?_cons,
    Option.some.injEq, List.drop_succ_cons, List.drop_zero]
  by_cases hsign : a = '-' ∨ a = '+'
  · simp only [hsign, if_true, takeWhile_append_breaks s1 t hd, dropWhile_append_breaks s1 t hd]
    split_ifs <;> rfl
  · have e2 : a :: (s1 ++ t) = (a :: s1) ++ t := rfl
    simp only [hsign, if_false, e2, takeWhile_append_breaks (a :: s1) t hd,
      dropWhile_append_breaks (a :: s1) t hd]
    split_ifs <;> rfl

theorem extractInt_append_blank (s t : Str) (hs : s.dropWhile isspace = []) :
    extractInt (s ++ t) = extractInt t := by
  simp only [extractInt, dropWhile_append_of_eq_nil s t hs]

theorem extractInt_blank (s : Str) (hs : s.dropWhile isspace = []) :
    extractInt s = (none, none) := by
  simp [extractInt, hs]

theorem extractInt_rest_length {s rest : Str} {w : Option Int}
    (h : extractInt s = (w, some rest)) : rest.length < s.length := by
  have h1 := dropWhile_length_le isspace s
  simp only [extractInt] at h
  generalize s.dropWhile isspace = s1 at h h1
  by_cases c1 : s1.isEmpty = true
  · simp [c1] at h
  · simp only [c1, if_false] at h
    have hs2 : (if s1.head? = some '-' ∨ s1.head? = some '+' then s1.drop 1 else s1).length ≤
        s1.length := by
      split_ifs <;> simp
    generalize (if s1.head? = some '-' ∨ s1.head? = some '+' then s1.drop 1 else s1) = s2
      at h hs2
    by_cases c3 : (s2.takeWhile Char.isDigit).isEmpty = true
    · simp [c3] at h
    · simp only [c3, if_false] at h
      have hlen := congrArg List.length (takeWhile_append_dropWhile Char.isDigit s2)
      simp only [List.length_append] at hlen
      have hpos : 0 < (s2.takeWhile Char.isDigit).length := by
        cases hh : s2.takeWhile Char.isDigit with
        | nil => rw [hh] at c3; simp at c3
        | cons _ _ => simp
      split_ifs at h <;> simp only [Prod.mk.injEq, Option.some.injEq] at h <;>
        first
        | (obtain ⟨-, h2⟩ := h; rw [← h2]; omega)
        | exact absurd h.2 (fun e => Option.noConfusion e)

end Main2

namespace Main2

/-! ### The integers of a line with more text after it -/

theorem extractIntsAux_fuel :
    ∀ (n m : Nat) (s : Str), s.length < n → s.length < m →
      extractIntsAux n s = extractIntsAux m s := by
  intro n
  induction n with
  | zero => intro m s h; omega
  | succ n ih =>
    intro m s hn hm
    obtain ⟨m, rfl⟩ := Nat.exists_eq_succ_of_ne_zero (by omega : m ≠ 0)
    simp only [extractIntsAux]
    cases hI : extractInt s with
    | mk w o =>
      cases o with
      | none => cases w <;> rfl
      | some rest =>
        obtain ⟨v, rfl⟩ := extractInt_value hI
        have := extractInt_rest_length hI
        simp only []
        rw [ih m rest (by omega) (by omega)]

theorem extractInts_eq (n : Nat) (s : Str) (h : s.length < n) :
    extractIntsAux n s = extractInts s :=
  extractIntsAux_fuel n _ s h (Nat.lt_succ_self _)

theorem extractInts_step {s rest : Str} {v : Int} (h : extractInt s = (some v, some rest)) :
    extractInts s = v :: extractInts rest := by
  have hl := extractInt_rest_length h
  rw [extractInts, extractIntsAux, h]
  simp only []
  rw [extractInts_eq _ _ (by omega)]

theorem extractInts_stop {s : Str} {w : Option Int} (h : extractInt s = (w, none)) :
    extractInts s = [] := by
  rw [extractInts, extractIntsAux, h]
  cases w <;> rfl

/-- Text added after a white-space character adds integers at the end of what
is read from a line, or nothing. -/
theorem extractInts_append (t : Str) (ht : ∀ c ∈ t.head?, isspace c = true) :
    ∀ (n : Nat) (s : Str), s.length < n →
      extractInts (s ++ t) = extractInts s ∨
        extractInts (s ++ t) = extractInts s ++ extractInts t := by
  intro n
  induction n with
  | zero => intro s h; omega
  | succ n ih =>
    intro s hn
    by_cases hs : s.dropWhile isspace = []
    · right
      have e1 : extractInts s = [] := extractInts_stop (extractInt_blank s hs)
      have e2 := extractInt_append_blank s t hs
      rw [e1, List.nil_append]
      cases hI : extractInt t with
      | mk w o =>
        rw [hI] at e2
        cases o with
        | none => rw [extractInts_stop e2, extractInts_stop hI]
        | some rest =>
          obtain ⟨v, rfl⟩ := extractInt_value hI
          rw [extractInts_step e2, extractInts_step hI]
    · have e := extractInt_append s t ht hs
      cases hI : extractInt s with
      | mk w o =>
        rw [hI] at e
        cases o with
        | none =>
          left
          simp only [Option.map_none'] at e
          rw [extractInts_stop e, extractInts_stop hI]
        | some rest =>
          obtain ⟨v, rfl⟩ := extractInt_value hI
          simp only [Option.map_some'] at e
          have hl := extractInt_rest_length hI
          rw [extractInts_step e, extractInts_step hI]
          rcases ih rest (by omega) with h | h
          · left; rw [h]
          · right; rw [h]; rfl

/-- The integers read from a list of integers written with single spaces. -/
theorem extractInts_ints :
    ∀ (c : List Int), (∀ l ∈ c, isInt l) → ∀ sp : Str, (∀ x ∈ sp, isspace x = true) →
      extractInts (sp ++ joinSep [' '] (c.map intToStr)) = c := by
  intro c
  induction c with
  | nil =>
    intro _ sp hsp
    have : (sp ++ joinSep [' '] (([] : List Int).map intToStr)).dropWhile isspace = [] := by
      simp only [List.map_nil, joinSep, List.append_nil]
      exact List.dropWhile_eq_nil_iff.2 hsp
    exact extractInts_stop (extractInt_blank _ this)
  | cons l t ih =>
    intro hc sp hsp
    have hl := hc l (List.mem_cons_self _ _)
    have ht := fun x hx => hc x (List.mem_cons_of_mem _ hx)
    cases t with
    | nil =>
      have e := extractInt_intToStr sp l [] hsp hl (by simp)
      simp only [List.append_nil] at e
      have e0 : extractInts [] = [] := rfl
      simp only [List.map_cons, List.map_nil, joinSep]
      rw [extractInts_step e, e0]
    | cons l2 t2 =>
      have e := extractInt_intToStr sp l (' ' :: joinSep [' '] ((l2 :: t2).map intToStr)) hsp hl
        (by simp)
      have es : sp ++ joinSep [' '] ((l :: l2 :: t2).map intToStr) =
          sp ++ intToStr l ++ ' ' :: joinSep [' '] ((l2 :: t2).map intToStr) := by
        simp [joinSep]
      rw [es, extractInts_step e]
      have := ih ht [' '] (by simp; decide)
      rw [List.singleton_append] at this
      rw [this]

theorem runsFrom_append_nonzero (b : List Int) (hb : ∀ x ∈ b, x ≠ 0) :
    ∀ (a cur : List Int), runsFrom (a ++ b) cur = runsFrom a cur := by
  intro a
  induction a with
  | nil => intro cur; simp [runsFrom, terminatedRuns_nonzero hb]
  | cons v vs ih =>
    intro cur
    simp only [List.cons_append, runsFrom, List.append_eq, ih]

/-- Nonzero integers written after a space at the end of a line do not change
the closed runs of the line. -/
theorem terminatedRuns_line_append (L : Str) (lits : List Int)
    (hl : ∀ l ∈ lits, l ≠ 0 ∧ isInt l) :
    terminatedRuns (extractInts (L ++ ' ' :: joinSep [' '] (lits.map intToStr))) =
      terminatedRuns (extractInts L) := by
  have ht : extractInts (' ' :: joinSep [' '] (lits.map intToStr)) = lits := by
    have := extractInts_ints lits (fun l h => (hl l h).2) [' '] (by simp; decide)
    simpa using this
  rcases extractInts_append (' ' :: joinSep [' '] (lits.map intToStr)) (by simp; decide)
    (L.length + 1) L (Nat.lt_succ_self _) with h | h
  · rw [h]
  · rw [h, ht, terminatedRuns, runsFrom_append_nonzero lits (fun x hx => (hl x hx).1)]
    rfl

end Main2

namespace Main2

/-! ### Text added at the end of an input -/

theorem getlines_eq_nil {s : Str} (h : getlines s = []) : s = [] := by
  cases s with
  | nil => rfl
  | cons c rest =>
    simp only [getlines] at h
    split_ifs at h
    split at h <;> simp at h

theorem getlines_single {t : Str} (hne : t ≠ []) (hn : '\n' ∉ t) : getlines t = [t] := by
  induction t with
  | nil => exact absurd rfl hne
  | cons c rest ih =>
    have hc : c ≠ '\n' := fun e => hn (by simp [e])
    have hr : '\n' ∉ rest := fun m => hn (List.mem_cons_of_mem _ m)
    simp only [getlines, hc, if_false]
    cases rest with
    | nil => rfl
    | cons d r => rw [ih (by simp) hr]

/-- Text without a line break added at the end of an input goes on the last
line, or makes a new last line when the input is empty or ends with a line
break. -/
theorem getlines_append (t : Str) (hne : t ≠ []) (hn : '\n' ∉ t) :
    ∀ s : Str, ∃ init L, getlines (s ++ t) = init ++ [L ++ t] ∧
      ((L ≠ [] ∧ getlines s = init ++ [L]) ∨ (L = [] ∧ getlines s = init)) := by
  intro s
  induction s with
  | nil => exact ⟨[], [], by simpa using getlines_single hne hn, Or.inr ⟨rfl, rfl⟩⟩
  | cons c rest ih =>
    obtain ⟨init, L, e, h⟩ := ih
    by_cases hc : c = '\n'
    · subst hc
      refine ⟨[] :: init, L, by simp [getlines, e], ?_⟩
      rcases h with ⟨h1, h2⟩ | ⟨h1, h2⟩
      · exact Or.inl ⟨h1, by simp [getlines, h2]⟩
      · exact Or.inr ⟨h1, by simp [getlines, h2]⟩
    · cases init with
      | nil =>
        refine ⟨[], c :: L, by simp [getlines, hc, e], Or.inl ⟨by simp, ?_⟩⟩
        rcases h with ⟨-, h2⟩ | ⟨h1, h2⟩
        · simp [getlines, hc, h2]
        · simp [getlines, hc, h2, h1]
      | cons l0 init' =>
        refine ⟨(c :: l0) :: init', L, by simp [getlines, hc, e], ?_⟩
        rcases h with ⟨h1, h2⟩ | ⟨h1, h2⟩
        · exact Or.inl ⟨h1, by simp [getlines, hc, h2]⟩
        · exact Or.inr ⟨h1, by simp [getlines, hc, h2]⟩

/-- A line break and text added at the end of an input: the lines of the
input, an empty line when the input is empty or ends with a line break, and
the lines of the text. -/
theorem getlines_append_newline (u : Str) :
    ∀ s : Str, ∃ blank : List Str, (blank = [] ∨ blank = [[]]) ∧
      getlines (s ++ '\n' :: u) = getlines s ++ blank ++ getlines u := by
  intro s
  induction s with
  | nil => exact ⟨[[]], Or.inr rfl, by simp [getlines]⟩
  | cons c rest ih =>
    obtain ⟨blank, hb, e⟩ := ih
    by_cases hc : c = '\n'
    · subst hc
      exact ⟨blank, hb, by simp [getlines, e]⟩
    · cases hr : getlines rest with
      | nil =>
        have := getlines_eq_nil hr
        subst this
        exact ⟨[], Or.inl rfl, by simp [getlines, hc]⟩
      | cons l ls =>
        rw [hr] at e
        exact ⟨blank, hb, by simp [getlines, hc, e, hr]⟩

/-- The formula read from lines that end with one of two lines is the same
when the two lines have the same effect on the formula. -/
theorem readLines_last_congr {a b : Str}
    (h : ∀ st, (readLines [a] st).formula = (readLines [b] st).formula) :
    ∀ (init : List Str) (st : ReadState),
      (readLines (init ++ [a]) st).formula = (readLines (init ++ [b]) st).formula := by
  intro init
  induction init with
  | nil => intro st; exact h st
  | cons line rest ih =>
    intro st
    simp only [List.cons_append]
    rcases line_cases line with hs | hp | hc
    · rw [readLines_skip hs, readLines_skip hs, ih]
    · cases hh : headerOf line with
      | none => rw [readLines_header_invalid hp hh, readLines_header_invalid hp hh]
      | some p =>
        obtain ⟨nv, nc⟩ := p
        rw [readLines_header_valid hp hh, readLines_header_valid hp hh, ih]
    · cases hf : st.p_line_found
      · rw [readLines_before hc _ st hf, readLines_before hc _ st hf, ih]
      · rw [readLines_clause hc _ st hf, readLines_clause hc _ st hf, ih]

theorem readLines_last_harmless {a : Str}
    (h : ∀ st, (readLines [a] st).formula = st.formula) (init : List Str) (st : ReadState) :
    (readLines (init ++ [a]) st).formula = (readLines init st).formula := by
  have h' : ∀ st, (readLines [a] st).formula = (readLines [[]] st).formula := by
    intro st
    rw [h st, readLines_skip (Or.inl rfl)]
    rfl
  rw [readLines_last_congr h' init st, readLines_insert (Or.inl rfl) init [] st,
    List.append_nil]

end Main2

namespace Main2

/-! ### Integers without a closing `0` at the end of an input -/

theorem intsText_no_newline (lits : List Int) : '\n' ∉ joinSep [' '] (lits.map intToStr) := by
  intro h
  rcases joinSep_space_chars lits _ h with h' | h' | h'
  · revert h'; decide
  · revert h'; decide
  · revert h'; decide

theorem intsText_head (l : Int) (lits : List Int) :
    ∃ c r, joinSep [' '] ((l :: lits).map intToStr) = c :: r ∧ (c = '-' ∨ c.isDigit = true) := by
  obtain ⟨hne, hh, -⟩ := intToStr_chars l
  obtain ⟨c, r, e⟩ : ∃ c r, intToStr l = c :: r := by
    cases h : intToStr l with
    | nil => exact absurd h hne
    | cons c r => exact ⟨c, r, rfl⟩
  have hc : c = '-' ∨ c.isDigit = true := hh c (by simp [e])
  cases lits with
  | nil => exact ⟨c, r, by simp [joinSep, e], hc⟩
  | cons l2 t => exact ⟨c, r ++ [' '] ++ joinSep [' '] ((l2 :: t).map intToStr),
      by simp [joinSep, e], hc⟩

/-- A line of nonzero integers without a closing `0` leaves the formula as it
is. -/
theorem readLines_open_line (lits : List Int) (hl : ∀ l ∈ lits, l ≠ 0 ∧ isInt l) (sp : Str)
    (hsp : sp = [] ∨ sp = [' ']) (st : ReadState) :
    (readLines [sp ++ joinSep [' '] (lits.map intToStr)] st).formula = st.formula := by
  have hsp' : ∀ x ∈ sp, isspace x = true := by
    rcases hsp with rfl | rfl
    · simp
    · simp; decide
  have hints := extractInts_ints lits (fun l h => (hl l h).2) sp hsp'
  have hruns : terminatedRuns (extractInts (sp ++ joinSep [' '] (lits.map intToStr))) = [] := by
    rw [hints]
    exact terminatedRuns_nonzero (fun x hx => (hl x hx).1) []
  rcases line_cases (sp ++ joinSep [' '] (lits.map intToStr)) with hs | hp | hc
  · rw [readLines_skip hs]; rfl
  · exfalso
    rcases hsp with rfl | rfl
    · cases lits with
      | nil => simp [joinSep] at hp
      | cons l t =>
        obtain ⟨c, r, e, hc⟩ := intsText_head l t
        rw [List.nil_append, e] at hp
        simp only [List.head?_cons, Option.some.injEq] at hp
        exact (intChar_ne hc).2.2 hp
    · simp at hp
  · cases hf : st.p_line_found
    · rw [readLines_before hc _ st hf]; rfl
    · rw [readLines_clause hc _ st hf, hruns]
      simp [readLines]

/-- Nonzero integers without a closing `0` written after a space at the end of
a line that is not a header line leave the effect of the line as it is. -/
theorem readLines_extended_line (lits : List Int) (hl : ∀ l ∈ lits, l ≠ 0 ∧ isInt l)
    {L : Str} (hne : L ≠ []) (hp : L.head? ≠ some 'p') (st : ReadState) :
    (readLines [L ++ ' ' :: joinSep [' '] (lits.map intToStr)] st).formula =
      (readLines [L] st).formula := by
  obtain ⟨c, r, rfl⟩ : ∃ c r, L = c :: r := by
    cases L with
    | nil => exact absurd rfl hne
    | cons c r => exact ⟨c, r, rfl⟩
  have hhead : ((c :: r) ++ ' ' :: joinSep [' '] (lits.map intToStr)).head? = (c :: r).head? := rfl
  rcases line_cases (c :: r) with hs | hp' | hc
  · have hs' : (c :: r).head? = some 'c' := by
      rcases hs with h | h
      · simp at h
      · exact h
    rw [readLines_skip (Or.inr hs'), readLines_skip (Or.inr (hhead.trans hs'))]
  · exact absurd hp' hp
  · have hc' : isClauseLine ((c :: r) ++ ' ' :: joinSep [' '] (lits.map intToStr)) = true := by
      simp only [isClauseLine, List.cons_append, List.isEmpty_cons, List.head?_cons] at hc ⊢
      exact hc
    cases hf : st.p_line_found
    · rw [readLines_before hc _ st hf, readLines_before hc' _ st hf]
    · rw [readLines_clause hc _ st hf, readLines_clause hc' _ st hf,
        terminatedRuns_line_append _ lits hl]

/-- A further line of nonzero integers without a closing `0` does not change
the formula read from an input. -/
theorem readDIMACSCNF_append_line (input : Str) (lits : List Int)
    (hl : ∀ l ∈ lits, l ≠ 0 ∧ isInt l) :
    (readDIMACSCNF (input ++ '\n' :: joinSep [' '] (lits.map intToStr))).formula =
      (readDIMACSCNF input).formula := by
  obtain ⟨blank, hb, e⟩ := getlines_append_newline (joinSep [' '] (lits.map intToStr)) input
  simp only [readDIMACSCNF, e]
  have h1 : ∀ st, (readLines (getlines input ++ blank) st).formula =
      (readLines (getlines input) st).formula := by
    intro st
    rcases hb with rfl | rfl
    · rw [List.append_nil]
    · exact readLines_last_harmless (fun st' => by rw [readLines_skip (Or.inl rfl)]; rfl) _ st
  by_cases ht : joinSep [' '] (lits.map intToStr) = []
  · rw [ht]
    simp only [getlines, List.append_nil]
    exact h1 _
  · rw [getlines_single ht (intsText_no_newline lits)]
    have h2 := readLines_last_harmless
      (fun st' => by simpa using readLines_open_line lits hl [] (Or.inl rfl) st')
      (getlines input ++ blank)
    rw [h2, h1]

/-- Nonzero integers without a closing `0` written after a space at the end of
an input whose last line is not a header line do not change the formula read
from it. -/
theorem readDIMACSCNF_append_space (input : Str) (lits : List Int)
    (hl : ∀ l ∈ lits, l ≠ 0 ∧ isInt l)
    (hlast : ∀ L, (getlines input).getLast? = some L → L.head? ≠ some 'p') :
    (readDIMACSCNF (input ++ ' ' :: joinSep [' '] (lits.map intToStr))).formula =
      (readDIMACSCNF input).formula := by
  have hn : '\n' ∉ ' ' :: joinSep [' '] (lits.map intToStr) := by
    intro h
    rcases List.mem_cons.1 h with h | h
    · revert h; decide
    · exact intsText_no_newline lits h
  obtain ⟨init, L, e, h⟩ := getlines_append (' ' :: joinSep [' '] (lits.map intToStr))
    (by simp) hn input
  simp only [readDIMACSCNF, e]
  rcases h with ⟨hne, hg⟩ | ⟨rfl, hg⟩
  · rw [hg]
    have hp := hlast L (by rw [hg]; simp)
    exact readLines_last_congr (fun st => readLines_extended_line lits hl hne hp st) init _
  · rw [hg]
    exact readLines_last_harmless
      (fun st' => by simpa using readLines_open_line lits hl [' '] (Or.inr rfl) st') init _

/-- Every clause `readDIMACSCNF` returns is a run of nonzero integers that a
`0` closes on one of the lines of the input. -/
theorem readDIMACSCNF_clause (input : Str) (c : List Int)
    (h : c ∈ (readDIMACSCNF input).formula) :
    (∃ line ∈ getlines input, ∃ pre post, extractInts line = pre ++ c ++ 0 :: post) ∧
      c ≠ [] ∧ ∀ x ∈ c, x ≠ 0 := by
  rcases readLines_mem _ _ c h with h0 | ⟨line, hl, -, hc⟩
  · simp at h0
  · obtain ⟨hpp, hne, hz⟩ := terminatedRuns_mem hc
    exact ⟨⟨line, hl, hpp⟩, hne, hz⟩

end Main2

namespace Main1

theorem binop_isOperator_m1 {d : Char} (h : d = '+' ∨ d = '*' ∨ d = '>') :
    isOperator d = true ∧ d ≠ '~' := by
  rcases h with rfl | rfl | rfl <;> decide

theorem not_isOperator_m1 {d : Char} (h : isOperator d = false) :
    d ≠ '~' ∧ d ≠ '+' ∧ d ≠ '*' ∧ d ≠ '>' := by
  refine ⟨?_, ?_, ?_, ?_⟩ <;> rintro rfl <;> revert h <;> decide

theorem copyTree_eq_m1 (t : Node) : copyTree t = t := by
  induction t with
  | null => rfl
  | mk d l r ihl ihr => simp [copyTree, ihl, ihr]

/-! ### `evaluate` -/

theorem evaluate_neg_m1 (l r : Node) (env : Env) :
    evaluate (.mk '~' l r) env = !evaluate r env := by
  have h : isOperator '~' = true := by decide
  simp [evaluate, h]

theorem evaluate_or_m1 (l r : Node) (env : Env) :
    evaluate (.mk '+' l r) env = (evaluate l env || evaluate r env) := by
  have h : isOperator '+' = true := by decide
  simp [evaluate, h]

theorem evaluate_and_m1 (l r : Node) (env : Env) :
    evaluate (.mk '*' l r) env = (evaluate l env && evaluate r env) := by
  have h : isOperator '*' = true := by decide
  simp [evaluate, h]

theorem evaluate_imp_m1 (l r : Node) (env : Env) :
    evaluate (.mk '>' l r) env = (!evaluate l env || evaluate r env) := by
  have h : isOperator '>' = true := by decide
  simp [evaluate, h]

theorem evaluate_congr_m1 (d : Char) {l l' r r' : Node} (env : Env)
    (hl : evaluate l' env = evaluate l env) (hr : evaluate r' env = evaluate r env) :
    evaluate (.mk d l' r') env = evaluate (.mk d l r) env := by
  simp only [evaluate, hl, hr]

theorem evaluate_impl_free_m1 (t : Node) (env : Env) :
    evaluate (impl_free t) env = evaluate t env := by
  induction t with
  | null => rfl
  | mk d l r ihl ihr =>
    by_cases hd : d = '>'
    · subst hd
      simp only [impl_free, if_true]
      rw [evaluate_or_m1, evaluate_neg_m1, evaluate_imp_m1, ihl, ihr]
    · simp only [impl_free, if_neg hd]
      exact evaluate_congr_m1 d env ihl ihr

theorem nnfAux_evaluate_m1 (env : Env) :
    ∀ (n : Nat) (t t' : Node), nnfAux n t = some t' → evaluate t' env = evaluate t env := by
  intro n
  induction n with
  | zero => intro t t' h; simp [nnfAux] at h
  | succ n ih =>
    intro t t' h
    cases t with
    | null => simp [nnfAux] at h; subst h; rfl
    | mk d l r =>
      simp only [nnfAux] at h
      split at h
      · rename_i hd; subst hd
        cases r with
        | null => simp at h
        | mk sd sl sr =>
          simp only at h
          split at h
          · rename_i hsd; subst hsd
            rw [ih _ _ h, evaluate_neg_m1, evaluate_neg_m1]
            simp
          · split at h
            · rename_i hsd; subst hsd
              split at h
              · rename_i a b ha hb
                simp at h; subst h
                rw [evaluate_and_m1, ih _ _ ha, ih _ _ hb, evaluate_neg_m1, evaluate_neg_m1,
                  evaluate_neg_m1, evaluate_or_m1]
                simp
              · simp at h
            · split at h
              · rename_i hsd; subst hsd
                split at h
                · rename_i a b ha hb
                  simp at h; subst h
                  rw [evaluate_or_m1, ih _ _ ha, ih _ _ hb, evaluate_neg_m1, evaluate_neg_m1,
                    evaluate_neg_m1, evaluate_and_m1]
                  simp
                · simp at h
              · split at h
                · rename_i a b ha hb
                  simp at h; subst h
                  exact evaluate_congr_m1 _ env (ih _ _ ha) (ih _ _ hb)
                · simp at h
      · split at h
        · rename_i a b ha hb
          simp at h; subst h
          exact evaluate_congr_m1 _ env (ih _ _ ha) (ih _ _ hb)
        · simp at h

theorem distributeAux_evaluate_m1 (env : Env) :
    ∀ (n : Nat) (a b t : Node), distributeAux n a b = some t →
      evaluate t env = (evaluate a env || evaluate b env) := by
  intro n
  induction n with
  | zero => intro a b t h; simp [distributeAux] at h
  | succ n ih =>
    intro a b t h
    cases a with
    | null => simp [distributeAux] at h
    | mk ad al ar =>
      simp only [distributeAux] at h
      split at h
      · rename_i had; subst had
        split at h
        · rename_i x y hx hy
          simp at h; subst h
          rw [evaluate_and_m1, ih _ _ _ hx, ih _ _ _ hy, copyTree_eq_m1, evaluate_and_m1]
          cases evaluate al env <;> cases evaluate ar env <;> cases evaluate b env <;> rfl
        · simp at h
      · cases b with
        | null => simp at h
        | mk bd bl br =>
          simp only at h
          split at h
          · rename_i hbd; subst hbd
            split at h
            · rename_i x y hx hy
              simp at h; subst h
              rw [evaluate_and_m1, ih _ _ _ hx, ih _ _ _ hy, copyTree_eq_m1, evaluate_and_m1]
              cases evaluate (.mk ad al ar) env <;> cases evaluate bl env <;>
                cases evaluate br env <;> rfl
            · simp at h
          · simp at h; subst h
            rw [evaluate_or_m1]

theorem cnf_evaluate_m1 (env : Env) :
    ∀ (t t' : Node), cnf t = some t' → evaluate t' env = evaluate t env := by
  intro t
  induction t with
  | null => intro t' h; simp [cnf] at h; subst h; rfl
  | mk d l r ihl ihr =>
    intro t' h
    simp only [cnf] at h
    split at h
    · rename_i l' r' hl hr
      split at h
      · rename_i hd; subst hd
        rw [distributeAux_evaluate_m1 env _ _ _ _ h, evaluate_or_m1, ihl _ hl, ihr _ hr]
      · simp at h; subst h
        exact evaluate_congr_m1 _ env (ihl _ hl) (ihr _ hr)
    · simp at h

end Main1

namespace Main1

/-! ### Shapes through the pipeline -/

theorem impl_free_wellFormed_m1 {t : Node} (h : WellFormed t) :
    WellFormed (impl_free t) ∧ (impl_free t).contains '>' = false := by
  induction h with
  | @leaf d hd =>
    have hn := (not_isOperator_m1 hd).2.2.2
    simp only [impl_free, if_neg hn]
    exact ⟨.leaf hd, by simp [Node.contains, hn]⟩
  | neg _ ih =>
    simp only [impl_free]
    exact ⟨.neg ih.1, by simp [Node.contains, ih.2]⟩
  | @bin d l r hd _ _ ihl ihr =>
    rcases hd with rfl | rfl | rfl
    · simp only [impl_free]
      exact ⟨.bin (Or.inl rfl) ihl.1 ihr.1, by simp [Node.contains, ihl.2, ihr.2]⟩
    · simp only [impl_free]
      exact ⟨.bin (Or.inr (Or.inl rfl)) ihl.1 ihr.1, by simp [Node.contains, ihl.2, ihr.2]⟩
    · simp only [impl_free]
      exact ⟨.bin (Or.inl rfl) (.neg ihl.1) ihr.1, by simp [Node.contains, ihl.2, ihr.2]⟩

theorem contains_mk_false_m1 {s d : Char} {l r : Node}
    (h : (Node.mk d l r).contains s = false) :
    d ≠ s ∧ l.contains s = false ∧ r.contains s = false := by
  simpa [Node.contains, not_or, and_assoc] using h

theorem nnfAux_null_m1 (n : Nat) : nnfAux (n + 1) .null = some .null := by
  simp [nnfAux]

theorem nnfAux_leaf_m1 {d : Char} (hd : isOperator d = false) (n : Nat) :
    nnfAux (n + 2) (.mk d .null .null) = some (.mk d .null .null) := by
  have hn := (not_isOperator_m1 hd).1
  simp [nnfAux, hn]

/-- On a well-formed tree without `>` the recursion of `nnf` finishes within
`size + 1` steps, never reads through a null pointer, and yields a tree in
negation normal form. -/
theorem nnfAux_total_m1 :
    ∀ (n : Nat) (t : Node), WellFormed t → t.contains '>' = false → t.size < n →
      ∃ t', nnfAux n t = some t' ∧ IsNNF t' := by
  intro n
  induction n with
  | zero => intro t _ _ h; omega
  | succ n ih =>
    intro t wf hc hs
    cases wf with
    | @leaf d hd =>
      simp only [Node.size] at hs
      obtain ⟨m, rfl⟩ : ∃ m, n = m + 1 := ⟨n - 1, by omega⟩
      exact ⟨_, nnfAux_leaf_m1 hd m, .lit (.pos hd)⟩
    | @neg c wc =>
      obtain ⟨-, -, hcc⟩ := contains_mk_false_m1 hc
      simp only [Node.size] at hs
      cases wc with
      | @leaf cd hcd =>
        obtain ⟨h1, h2, h3, -⟩ := not_isOperator_m1 hcd
        simp only [Node.size] at hs
        obtain ⟨m, rfl⟩ : ∃ m, n = m + 2 := ⟨n - 2, by omega⟩
        refine ⟨_, ?_, .lit (.neg hcd)⟩
        rw [nnfAux]
        simp only [if_true, if_neg h1, if_neg h2, if_neg h3]
        rw [nnfAux_null_m1, nnfAux_leaf_m1 hcd]
      | @neg c' wc' =>
        obtain ⟨-, -, hcc'⟩ := contains_mk_false_m1 hcc
        simp only [Node.size] at hs
        obtain ⟨t', e, hn⟩ := ih c' wc' hcc' (by omega)
        exact ⟨t', by simp [nnfAux, e], hn⟩
      | @bin cd cl cr hcd wl wr =>
        obtain ⟨hne, hcl, hcr⟩ := contains_mk_false_m1 hcc
        simp only [Node.size] at hs
        have hnl : (Node.mk '~' .null cl).contains '>' = false := by
          simp [Node.contains, hcl]
        have hnr : (Node.mk '~' .null cr).contains '>' = false := by
          simp [Node.contains, hcr]
        obtain ⟨a, ea, na⟩ := ih _ (.neg wl) hnl (by simp only [Node.size]; omega)
        obtain ⟨b, eb, nb⟩ := ih _ (.neg wr) hnr (by simp only [Node.size]; omega)
        rcases hcd with rfl | rfl | rfl
        · exact ⟨_, by simp [nnfAux, ea, eb], .and na nb⟩
        · exact ⟨_, by simp [nnfAux, ea, eb], .or na nb⟩
        · exact absurd rfl hne
    | @bin d l r hd wl wr =>
      obtain ⟨hne, hcl, hcr⟩ := contains_mk_false_m1 hc
      simp only [Node.size] at hs
      obtain ⟨a, ea, na⟩ := ih l wl hcl (by omega)
      obtain ⟨b, eb, nb⟩ := ih r wr hcr (by omega)
      rcases hd with rfl | rfl | rfl
      · exact ⟨_, by simp [nnfAux, ea, eb], .or na nb⟩
      · exact ⟨_, by simp [nnfAux, ea, eb], .and na nb⟩
      · exact absurd rfl hne

theorem isCNF_or_m1 {l r : Node} (hl : IsClause l) (hr : IsClause r) :
    IsCNF (.mk '+' l r) := .clause (.or hl hr)

/-- The data of a clause root is never `*`. -/
theorem isClause_data_ne_and_m1 {d : Char} {l r : Node} (h : IsClause (.mk d l r)) : d ≠ '*' := by
  cases h with
  | lit hl =>
    cases hl with
    | pos hd => exact (not_isOperator_m1 hd).2.2.1
    | neg _ => decide
  | or _ _ => decide

theorem isClause_ne_null_m1 {t : Node} (h : IsClause t) : t ≠ .null := by
  intro e; subst e
  cases h with
  | lit hl => cases hl

/-- On two conjunctions of clauses `distribute` finishes within its fuel, never
reads through a null pointer, and yields a conjunction of clauses. -/
theorem distributeAux_total_m1 :
    ∀ (n : Nat) (a b : Node), IsCNF a → IsCNF b → a.size + b.size < n →
      ∃ t, distributeAux n a b = some t ∧ IsCNF t := by
  intro n
  induction n with
  | zero => intro a b _ _ h; omega
  | succ n ih =>
    intro a b ha hb hs
    cases ha with
    | @and al ar hal har =>
      simp only [Node.size] at hs
      obtain ⟨x, ex, cx⟩ := ih al (copyTree b) hal (by rw [copyTree_eq_m1]; exact hb)
        (by rw [copyTree_eq_m1]; omega)
      obtain ⟨y, ey, cy⟩ := ih ar b har hb (by omega)
      exact ⟨_, by simp [distributeAux, ex, ey], .and cx cy⟩
    | clause ca =>
      cases a with
      | null => exact absurd rfl (isClause_ne_null_m1 ca)
      | mk ad al ar =>
        have hne := isClause_data_ne_and_m1 ca
        cases hb with
        | @and bl br hbl hbr =>
          simp only [Node.size] at hs
          obtain ⟨x, ex, cx⟩ := ih (copyTree (.mk ad al ar)) bl
            (by rw [copyTree_eq_m1]; exact .clause ca) hbl
            (by rw [copyTree_eq_m1]; simp only [Node.size]; omega)
          obtain ⟨y, ey, cy⟩ := ih (.mk ad al ar) br (.clause ca) hbr
            (by simp only [Node.size]; omega)
          exact ⟨_, by simp [distributeAux, hne, ex, ey], .and cx cy⟩
        | clause cb =>
          cases b with
          | null => exact absurd rfl (isClause_ne_null_m1 cb)
          | mk bd bl br =>
            have hne' := isClause_data_ne_and_m1 cb
            exact ⟨_, by simp [distributeAux, hne, hne'], .clause (.or ca cb)⟩

/-- On a tree in negation normal form `cnf` returns a conjunction of clauses. -/
theorem cnf_total_m1 {t : Node} (h : IsNNF t) : ∃ t', cnf t = some t' ∧ IsCNF t' := by
  induction h with
  | lit hl =>
    cases hl with
    | @pos d hd =>
      have := (not_isOperator_m1 hd).2.1
      exact ⟨_, by simp [cnf, this], .clause (.lit (.pos hd))⟩
    | @neg d hd =>
      have := (not_isOperator_m1 hd).2.1
      exact ⟨_, by simp [cnf, this], .clause (.lit (.neg hd))⟩
  | or _ _ ihl ihr =>
    obtain ⟨l', el, cl⟩ := ihl
    obtain ⟨r', er, cr⟩ := ihr
    obtain ⟨t', et, ct⟩ := distributeAux_total_m1 _ l' r' cl cr (Nat.lt_succ_self _)
    exact ⟨t', by simp [cnf, el, er, distribute, et], ct⟩
  | and _ _ ihl ihr =>
    obtain ⟨l', el, cl⟩ := ihl
    obtain ⟨r', er, cr⟩ := ihr
    exact ⟨_, by simp [cnf, el, er], .and cl cr⟩

theorem isLit_shape_m1 {t : Node} (h : IsLit t) :
    t.contains '>' = false ∧ t.contains '*' = false ∧ negOnLeaves t = true ∧
      noAndBelowOr t = true := by
  cases h with
  | pos hd =>
    have := not_isOperator_m1 hd
    simp [Node.contains, negOnLeaves, noAndBelowOr, this]
  | neg hd =>
    have := not_isOperator_m1 hd
    simp [Node.contains, negOnLeaves, noAndBelowOr, Node.isLeaf, this, hd]

theorem isClause_shape_m1 {t : Node} (h : IsClause t) :
    t.contains '>' = false ∧ t.contains '*' = false ∧ negOnLeaves t = true ∧
      noAndBelowOr t = true := by
  induction h with
  | lit h => exact isLit_shape_m1 h
  | or _ _ ihl ihr =>
    obtain ⟨a1, a2, a3, a4⟩ := ihl
    obtain ⟨b1, b2, b3, b4⟩ := ihr
    simp [Node.contains, negOnLeaves, noAndBelowOr, a1, a2, a3, a4, b1, b2, b3, b4]

theorem isCNF_shape_m1 {t : Node} (h : IsCNF t) :
    t.contains '>' = false ∧ negOnLeaves t = true ∧ noAndBelowOr t = true := by
  induction h with
  | clause h => exact ⟨(isClause_shape_m1 h).1, (isClause_shape_m1 h).2.2.1, (isClause_shape_m1 h).2.2.2⟩
  | and _ _ ihl ihr =>
    obtain ⟨a1, a3, a4⟩ := ihl
    obtain ⟨b1, b3, b4⟩ := ihr
    simp [Node.contains, negOnLeaves, noAndBelowOr, a1, a3, a4, b1, b3, b4]

theorem isCNF_inCNF_m1 {t : Node} (h : IsCNF t) : inCNF t = true := by
  obtain ⟨a, b, c⟩ := isCNF_shape_m1 h
  simp [inCNF, a, b, c]

/-- The three passes run to completion on a well-formed tree: `nnf` and `cnf`
return, the result is a conjunction of clauses and evaluates like the input. -/
theorem pipeline_spec_m1 {F : Node} (wf : WellFormed F) :
    ∃ N C, nnf (impl_free F) = some N ∧ cnf N = some C ∧ IsNNF N ∧ IsCNF C ∧
      ∀ env, evaluate C env = evaluate F env := by
  obtain ⟨w, c⟩ := impl_free_wellFormed_m1 wf
  obtain ⟨N, eN, hN⟩ := nnfAux_total_m1 _ _ w c (Nat.lt_succ_self _)
  obtain ⟨C, eC, hC⟩ := cnf_total_m1 hN
  refine ⟨N, C, eN, eC, hN, hC, fun env => ?_⟩
  rw [cnf_evaluate_m1 env _ _ eC, nnfAux_evaluate_m1 env _ _ _ eN, evaluate_impl_free_m1]

end Main1

namespace Main1

/-! ### Texts of the grammar without spaces -/

theorem isVariableChar_spec {c : Char} (h : isVariableChar c = true) :
    c ≠ ' ' ∧ c ≠ '(' ∧ c ≠ ')' ∧ isOperator c = false := by
  simpa [isVariableChar, and_assoc] using h

theorem getPrecedence_of_not_operator {c : Char} (h : isOperator c = false) :
    getPrecedence c = 0 := by
  have := not_isOperator_m1 h
  simp [getPrecedence, this.1, this.2.1, this.2.2.1, this.2.2.2]

theorem binop_facts {op : Char} {k : Nat}
    (h : (op = '*' ∧ k = 2) ∨ (op = '+' ∧ k = 1) ∨ (op = '>' ∧ k = 0)) :
    op ≠ ' ' ∧ op ≠ '(' ∧ op ≠ ')' ∧ op ≠ '~' ∧ getPrecedence op = (k : Int) + 1 ∧ k ≤ 2 ∧
      isOperator op = true := by
  rcases h with ⟨rfl, rfl⟩ | ⟨rfl, rfl⟩ | ⟨rfl, rfl⟩ <;> decide

theorem tight_level_le {k : Nat} {w : Str} {T : Node} (h : Tight k w T) : k ≤ 3 := by
  induction h with
  | ident _ => exact le_refl _
  | paren _ _ => exact le_refl _
  | neg _ _ => exact le_refl _
  | bin hop _ _ _ _ => have := (binop_facts hop).2.2.2.2.2.1; omega
  | up _ ih => omega

theorem tight_no_space {k : Nat} {w : Str} {T : Node} (h : Tight k w T) :
    ∀ c ∈ w, c ≠ ' ' := by
  induction h with
  | ident hc =>
    intro c hm
    rw [List.mem_singleton.1 hm]
    exact (isVariableChar_spec hc).1
  | paren _ ih =>
    intro c hm
    simp only [List.mem_cons, List.mem_append, List.mem_singleton, List.not_mem_nil,
      or_false] at hm
    rcases hm with (rfl | hm) | rfl
    · decide
    · exact ih c hm
    · decide
  | neg _ ih =>
    intro c hm
    rcases List.mem_cons.1 hm with rfl | hm
    · decide
    · exact ih c hm
  | bin hop _ _ ih₁ ih₂ =>
    intro c hm
    simp only [List.mem_cons, List.mem_append] at hm
    rcases hm with hm | rfl | hm
    · exact ih₁ c hm
    · exact (binop_facts hop).1
    · exact ih₂ c hm
  | up _ ih => exact ih

theorem tight_filter {k : Nat} {w : Str} {T : Node} (h : Tight k w T) :
    w.filter (fun c => c != ' ') = w := by
  apply List.filter_eq_self.2
  intro c hc
  simpa using tight_no_space h c hc

theorem tight_ne_nil {k : Nat} {w : Str} {T : Node} (h : Tight k w T) : w ≠ [] := by
  induction h with
  | ident _ => simp
  | paren _ _ => simp
  | neg _ _ => simp
  | bin _ _ _ _ _ => simp
  | up _ ih => exact ih

theorem tight_length_pos {k : Nat} {w : Str} {T : Node} (h : Tight k w T) : 0 < w.length :=
  List.length_pos.2 (tight_ne_nil h)

theorem tight_of_le {w : Str} {T : Node} :
    ∀ {k j : Nat}, Tight k w T → j ≤ k → Tight j w T := by
  intro k j h hjk
  induction hjk using Nat.decreasingInduction with
  | self => exact h
  | of_succ m _ ih => exact .up ih

/-- Removing the spaces of a text of the grammar gives a text of the grammar
without spaces, for the same tree. -/
theorem denotes_tight {k : Nat} {s : Str} {T : Node} (h : Denotes k s T) :
    Tight k (s.filter fun c => c != ' ') T := by
  induction h with
  | @ident c hc =>
    have := (isVariableChar_spec hc).1
    have e : ([c].filter fun c => c != ' ') = [c] := by simp [this]
    rw [e]
    exact .ident hc
  | paren _ ih =>
    simp only [List.filter_append, List.filter_cons, List.filter_nil]
    exact .paren ih
  | neg _ ih =>
    simp only [List.filter_append, List.filter_cons, List.filter_nil]
    exact .neg ih
  | and _ _ ih₁ ih₂ =>
    simp only [List.filter_append, List.filter_cons, List.filter_nil, List.append_assoc]
    exact .bin (Or.inl ⟨rfl, rfl⟩) ih₁ ih₂
  | or _ _ ih₁ ih₂ =>
    simp only [List.filter_append, List.filter_cons, List.filter_nil, List.append_assoc]
    exact .bin (Or.inr (Or.inl ⟨rfl, rfl⟩)) ih₁ ih₂
  | imp _ _ ih₁ ih₂ =>
    simp only [List.filter_append, List.filter_cons, List.filter_nil, List.append_assoc]
    exact .bin (Or.inr (Or.inr ⟨rfl, rfl⟩)) ih₁ ih₂
  | up _ ih => exact .up ih
  | spaceBefore _ ih => simpa [List.filter] using ih
  | spaceAfter _ ih => simpa [List.filter_append, List.filter] using ih

end Main1

namespace Main1

/-! ### `findMainOperator` on texts of the grammar -/

theorem findMainOperatorLoop_plain {c : Char} (h1 : c ≠ '(') (h2 : c ≠ ')')
    (h3 : getPrecedence c = 0) (rest : Str) (i L pos prec : Int) :
    findMainOperatorLoop (c :: rest) i L pos prec =
      findMainOperatorLoop rest (i + 1) L pos prec := by
  simp [findMainOperatorLoop, h1, h2, h3]

theorem findMainOperatorLoop_open (rest : Str) (i L pos prec : Int) :
    findMainOperatorLoop ('(' :: rest) i L pos prec =
      findMainOperatorLoop rest (i + 1) (L + 1) pos prec := by
  have h : getPrecedence '(' = 0 := by decide
  simp [findMainOperatorLoop, h]

theorem findMainOperatorLoop_close (rest : Str) (i L pos prec : Int) :
    findMainOperatorLoop (')' :: rest) i L pos prec =
      findMainOperatorLoop rest (i + 1) (L - 1) pos prec := by
  have h : getPrecedence ')' = 0 := by decide
  have h' : ')' ≠ '(' := by decide
  simp [findMainOperatorLoop, h, h']

theorem findMainOperatorLoop_op {c : Char} (h1 : c ≠ '(') (h2 : c ≠ ')')
    (h3 : 0 < getPrecedence c) (rest : Str) (i L pos prec : Int) :
    findMainOperatorLoop (c :: rest) i L pos prec =
      if L = 0 ∧ getPrecedence c ≤ prec then
        findMainOperatorLoop rest (i + 1) L i (getPrecedence c)
      else findMainOperatorLoop rest (i + 1) L pos prec := by
  simp only [findMainOperatorLoop, h1, h2, if_false, gt_iff_lt, h3, true_and]
  by_cases hL : L = 0
  · by_cases hp : getPrecedence c ≤ prec
    · simp [hL, hp]
    · simp [hL, hp]
  · simp [hL]

/-- Reading a text of the grammar, the loop of `findMainOperator` comes back to
the parenthesis level it started from; it records nothing when it starts inside
parentheses or when the recorded precedence is below every operator of the
text, and it never records a precedence below both the one it had and the
level of the text. -/
theorem findMainOperatorLoop_tight {k : Nat} {w : Str} {T : Node} (h : Tight k w T) :
    ∀ (rest : Str) (i L pos prec : Int), 0 ≤ L →
      ∃ pos' prec', findMainOperatorLoop (w ++ rest) i L pos prec =
          findMainOperatorLoop rest (i + w.length) L pos' prec' ∧
        ((0 < L ∨ prec ≤ k) → pos' = pos ∧ prec' = prec) ∧
        (prec ≤ prec' ∨ (k : Int) + 1 ≤ prec') := by
  induction h with
  | @ident c hc =>
    intro rest i L pos prec _
    obtain ⟨-, h1, h2, h3⟩ := isVariableChar_spec hc
    refine ⟨pos, prec, ?_, fun _ => ⟨rfl, rfl⟩, Or.inl (le_refl _)⟩
    rw [List.singleton_append, findMainOperatorLoop_plain h1 h2 (getPrecedence_of_not_operator h3)]
    simp
  | @paren s T _ ih =>
    intro rest i L pos prec hL
    obtain ⟨pos', prec', e, hno, -⟩ := ih (')' :: rest) (i + 1) (L + 1) pos prec (by omega)
    obtain ⟨rfl, rfl⟩ := hno (Or.inl (by omega))
    refine ⟨pos', prec', ?_, fun _ => ⟨rfl, rfl⟩, Or.inl (le_refl _)⟩
    have es : '(' :: s ++ [')'] ++ rest = '(' :: (s ++ ')' :: rest) := by simp
    rw [es, findMainOperatorLoop_open, e, findMainOperatorLoop_close]
    simp only [List.length_cons, List.length_append, List.length_singleton, List.length_nil,
      Nat.cast_add, Nat.cast_one]
    congr 1 <;> omega
  | @neg s T _ ih =>
    intro rest i L pos prec hL
    have hp : getPrecedence '~' = 4 := by decide
    rw [List.cons_append, findMainOperatorLoop_op (by decide) (by decide) (by decide), hp]
    have hlen : ∀ (x : Int), x + 1 + (s.length : Int) = x + (('~' :: s).length : Int) := by
      intro x; simp only [List.length_cons, Nat.cast_add, Nat.cast_one]; omega
    by_cases hc : L = 0 ∧ (4 : Int) ≤ prec
    · rw [if_pos hc]
      obtain ⟨pos', prec', e, -, hb⟩ := ih rest (i + 1) L i 4 hL
      refine ⟨pos', prec', by rw [e, hlen], fun hh => ?_, ?_⟩
      · exfalso; simp only [Nat.cast_ofNat] at hh; omega
      · simp only [Nat.cast_ofNat] at hb ⊢; omega
    · rw [if_neg hc]
      obtain ⟨pos', prec', e, hno, hb⟩ := ih rest (i + 1) L pos prec hL
      refine ⟨pos', prec', by rw [e, hlen], fun hh => hno hh, hb⟩
  | @bin k op s₁ s₂ T₁ T₂ hop _ _ ih₁ ih₂ =>
    intro rest i L pos prec hL
    obtain ⟨-, o1, o2, -, hp, -, -⟩ := binop_facts hop
    obtain ⟨pos1, prec1, e1, hno1, hb1⟩ := ih₁ (op :: (s₂ ++ rest)) i L pos prec hL
    have hlen : ∀ (x : Int), x + (s₁.length : Int) + 1 + (s₂.length : Int) =
        x + ((s₁ ++ op :: s₂).length : Int) := by
      intro x
      simp only [List.length_cons, List.length_append, Nat.cast_add, Nat.cast_one]; omega
    have e0 : findMainOperatorLoop (s₁ ++ op :: s₂ ++ rest) i L pos prec =
        if L = 0 ∧ (k : Int) + 1 ≤ prec1 then
          findMainOperatorLoop (s₂ ++ rest) (i + s₁.length + 1) L (i + s₁.length) ((k : Int) + 1)
        else findMainOperatorLoop (s₂ ++ rest) (i + s₁.length + 1) L pos1 prec1 := by
      rw [List.append_assoc, List.cons_append, e1,
        findMainOperatorLoop_op o1 o2 (by rw [hp]; omega), hp]
    rw [e0]
    by_cases hc : L = 0 ∧ (k : Int) + 1 ≤ prec1
    · rw [if_pos hc]
      obtain ⟨pos', prec', e, hno, -⟩ :=
        ih₂ rest (i + s₁.length + 1) L (i + s₁.length) ((k : Int) + 1) hL
      obtain ⟨rfl, rfl⟩ := hno (Or.inr (by push_cast; omega))
      refine ⟨_, _, by rw [e, hlen], fun hh => ?_, Or.inr (le_refl _)⟩
      exfalso
      rcases hh with hh | hh
      · omega
      · have := (hno1 (Or.inr hh)).2
        omega
    · rw [if_neg hc]
      obtain ⟨pos', prec', e, hno, hb⟩ := ih₂ rest (i + s₁.length + 1) L pos1 prec1 hL
      refine ⟨pos', prec', by rw [e, hlen], fun hh => ?_, ?_⟩
      · obtain ⟨rfl, rfl⟩ := hno1 hh
        exact hno (by rcases hh with hh | hh; exact Or.inl hh; exact Or.inr (by push_cast; omega))
      · push_cast at hb
        omega
  | @up k s T _ ih =>
    intro rest i L pos prec hL
    obtain ⟨pos', prec', e, hno, hb⟩ := ih rest i L pos prec hL
    refine ⟨pos', prec', e, fun hh => hno ?_, ?_⟩
    · rcases hh with hh | hh
      · exact Or.inl hh
      · exact Or.inr (by push_cast; omega)
    · push_cast at hb
      omega

end Main1

namespace Main1

/-! ### `isFullyEnclosed` on texts of the grammar -/

theorem isFullyEnclosedLoop_plain {c : Char} (h1 : c ≠ '(') (h2 : c ≠ ')')
    (len : Nat) (rest : Str) (i : Nat) (L : Int) :
    isFullyEnclosedLoop len (c :: rest) i L =
      if L = 0 ∧ i < len - 1 then false else isFullyEnclosedLoop len rest (i + 1) L := by
  simp [isFullyEnclosedLoop, h1, h2]

theorem isFullyEnclosedLoop_open (len : Nat) (rest : Str) (i : Nat) (L : Int) :
    isFullyEnclosedLoop len ('(' :: rest) i L =
      if L + 1 = 0 ∧ i < len - 1 then false else isFullyEnclosedLoop len rest (i + 1) (L + 1) := by
  simp [isFullyEnclosedLoop]

theorem isFullyEnclosedLoop_close (len : Nat) (rest : Str) (i : Nat) (L : Int) :
    isFullyEnclosedLoop len (')' :: rest) i L =
      if L - 1 = 0 ∧ i < len - 1 then false else isFullyEnclosedLoop len rest (i + 1) (L - 1) := by
  have h' : ')' ≠ '(' := by decide
  simp [isFullyEnclosedLoop, h']

/-- Inside parentheses the loop of `isFullyEnclosed` reads a text of the
grammar to its end and is back at the level it started from. -/
theorem isFullyEnclosedLoop_tight {k : Nat} {w : Str} {T : Node} (h : Tight k w T) :
    ∀ (len : Nat) (rest : Str) (i : Nat) (L : Int), 0 < L →
      isFullyEnclosedLoop len (w ++ rest) i L = isFullyEnclosedLoop len rest (i + w.length) L := by
  induction h with
  | @ident c hc =>
    intro len rest i L hL
    obtain ⟨-, h1, h2, -⟩ := isVariableChar_spec hc
    rw [List.singleton_append, isFullyEnclosedLoop_plain h1 h2, if_neg (by omega)]
    rfl
  | @paren s T _ ih =>
    intro len rest i L hL
    have es : '(' :: s ++ [')'] ++ rest = '(' :: (s ++ ')' :: rest) := by simp
    rw [es, isFullyEnclosedLoop_open, if_neg (by omega), ih _ _ _ _ (by omega),
      isFullyEnclosedLoop_close, if_neg (by omega)]
    simp only [List.length_cons, List.length_append, List.length_singleton, List.length_nil]
    congr 1 <;> omega
  | @neg s T _ ih =>
    intro len rest i L hL
    rw [List.cons_append, isFullyEnclosedLoop_plain (by decide) (by decide), if_neg (by omega),
      ih _ _ _ _ hL]
    simp only [List.length_cons]
    congr 1; omega
  | @bin k op s₁ s₂ T₁ T₂ hop _ _ ih₁ ih₂ =>
    intro len rest i L hL
    obtain ⟨-, o1, o2, -, -, -, -⟩ := binop_facts hop
    rw [List.append_assoc, List.cons_append, ih₁ _ _ _ _ hL, isFullyEnclosedLoop_plain o1 o2,
      if_neg (by omega), ih₂ _ _ _ _ hL]
    simp only [List.length_cons, List.length_append]
    congr 1; omega
  | up _ ih => exact ih

/-- A text of the grammar followed by more text is found not to be enclosed:
the level is back at 0 before the last character. -/
theorem isFullyEnclosedLoop_tight_zero {k : Nat} {w : Str} {T : Node} (h : Tight k w T) :
    ∀ (len : Nat) (rest : Str) (i : Nat), i + w.length < len →
      isFullyEnclosedLoop len (w ++ rest) i 0 = false := by
  induction h with
  | @ident c hc =>
    intro len rest i hi
    obtain ⟨-, h1, h2, -⟩ := isVariableChar_spec hc
    simp only [List.length_singleton] at hi
    rw [List.singleton_append, isFullyEnclosedLoop_plain h1 h2, if_pos ⟨rfl, by omega⟩]
  | @paren s T hs _ =>
    intro len rest i hi
    simp only [List.length_cons, List.length_append, List.length_singleton, List.length_nil] at hi
    have es : '(' :: s ++ [')'] ++ rest = '(' :: (s ++ ')' :: rest) := by simp
    rw [es, isFullyEnclosedLoop_open, if_neg (by omega),
      isFullyEnclosedLoop_tight hs _ _ _ _ (by omega), isFullyEnclosedLoop_close,
      if_pos ⟨by omega, by omega⟩]
  | @neg s T _ _ =>
    intro len rest i hi
    simp only [List.length_cons] at hi
    rw [List.cons_append, isFullyEnclosedLoop_plain (by decide) (by decide),
      if_pos ⟨rfl, by omega⟩]
  | @bin k op s₁ s₂ T₁ T₂ hop _ _ ih₁ _ =>
    intro len rest i hi
    simp only [List.length_cons, List.length_append] at hi
    rw [List.append_assoc]
    exact ih₁ _ _ _ (by omega)
  | up _ ih => exact ih

theorem isFullyEnclosed_paren {s : Str} {T : Node} (h : Tight 0 s T) :
    isFullyEnclosed ('(' :: s ++ [')']) = true := by
  have hl : ('(' :: s ++ [')']).length = s.length + 2 := by simp
  have hg : ¬(('(' :: s ++ [')']).length < 2 ∨ ('(' :: s ++ [')']).head? ≠ some '(' ∨
      ('(' :: s ++ [')']).getLast? ≠ some ')') := by
    have hlast : ('(' :: s ++ [')']).getLast? = some ')' := by
      rw [List.getLast?_append]; rfl
    rw [hl, hlast]
    simp
  rw [isFullyEnclosed, if_neg hg, hl]
  have es : '(' :: s ++ [')'] = '(' :: (s ++ [')']) := by simp
  rw [es, isFullyEnclosedLoop_open, if_neg (by omega),
    isFullyEnclosedLoop_tight h _ _ _ _ (by omega), isFullyEnclosedLoop_close,
    if_neg (by omega)]
  simp [isFullyEnclosedLoop]

theorem isFullyEnclosed_bin {k : Nat} {op : Char} {s₁ s₂ : Str} {T₁ : Node}
    (h₁ : Tight k s₁ T₁) : isFullyEnclosed (s₁ ++ op :: s₂) = false := by
  rw [isFullyEnclosed]
  split
  · rfl
  · exact isFullyEnclosedLoop_tight_zero h₁ _ _ _ (by simp)

theorem isFullyEnclosed_tilde (s : Str) : isFullyEnclosed ('~' :: s) = false := by
  simp [isFullyEnclosed]

end Main1

namespace Main1

/-! ### Unfolding `infixToPrefix` -/

theorem infixToPrefixAux_short (n : Nat) {s : Str} (hf : s.filter (fun c => c != ' ') = s)
    (hl : s.length ≤ 1) : infixToPrefixAux (n + 1) s = some s := by
  simp only [infixToPrefixAux, hf, hl, if_true]

theorem infixToPrefixAux_paren (n : Nat) {s : Str} (hf : s.filter (fun c => c != ' ') = s)
    (hl : 2 ≤ s.length) (he : isFullyEnclosed s = true) :
    infixToPrefixAux (n + 1) s = infixToPrefixAux n ((s.drop 1).take (s.length - 2)) := by
  have hl' : ¬ s.length ≤ 1 := by omega
  simp only [infixToPrefixAux, hf, hl', if_false, he, if_true]

theorem infixToPrefixAux_neg (n : Nat) {s r : Str} (hf : s.filter (fun c => c != ' ') = s)
    (hl : 2 ≤ s.length) (he : isFullyEnclosed s = false) (hp : findMainOperator s = 0)
    (ho : s.getD 0 ' ' = '~') (hr : infixToPrefixAux n (s.drop 1) = some r) :
    infixToPrefixAux (n + 1) s = some ('~' :: r) := by
  have hl' : ¬ s.length ≤ 1 := by omega
  have h0 : ((0 : Int) ≠ -1) := by decide
  simp only [infixToPrefixAux, hf, hl', if_false, he, Bool.false_eq_true, hp, ne_eq, h0,
    not_false_eq_true, if_true, Int.toNat_zero, ho, and_self, hr]

theorem infixToPrefixAux_split (n q : Nat) {s l r : Str}
    (hf : s.filter (fun c => c != ' ') = s) (hl : 2 ≤ s.length)
    (he : isFullyEnclosed s = false) (hp : findMainOperator s = (q : Int))
    (ho : ¬(s.getD q ' ' = '~' ∧ q = 0))
    (h₁ : infixToPrefixAux n (s.take q) = some l)
    (h₂ : infixToPrefixAux n (s.drop (q + 1)) = some r) :
    infixToPrefixAux (n + 1) s = some (s.getD q ' ' :: (l ++ r)) := by
  have hl' : ¬ s.length ≤ 1 := by omega
  have hq : ((q : Int) ≠ -1) := by omega
  have ho' : ¬(s.getD q ' ' = '~' ∧ (q : Int) = 0) := by
    intro h; exact ho ⟨h.1, by exact_mod_cast h.2⟩
  simp only [infixToPrefixAux, hf, hl', if_false, he, Bool.false_eq_true, hp, ne_eq, hq,
    not_false_eq_true, if_true, Int.toNat_ofNat, ho', h₁, h₂]

/-! ### Runs of `~` -/

theorem findMainOperatorLoop_tildes :
    ∀ (m : Nat) (rest : Str) (i pos prec : Int), 4 ≤ prec →
      findMainOperatorLoop (List.replicate (m + 1) '~' ++ rest) i 0 pos prec =
        findMainOperatorLoop rest (i + ((m + 1 : Nat) : Int)) 0 (i + (m : Int)) 4 := by
  intro m
  induction m with
  | zero =>
    intro rest i pos prec hp
    have h4 : getPrecedence '~' = 4 := by decide
    rw [show List.replicate (0 + 1) '~' ++ rest = '~' :: rest from rfl,
      findMainOperatorLoop_op (by decide) (by decide) (by decide), h4, if_pos ⟨rfl, hp⟩]
    simp
  | succ m ih =>
    intro rest i pos prec hp
    have h4 : getPrecedence '~' = 4 := by decide
    rw [show List.replicate (m + 1 + 1) '~' ++ rest = '~' :: (List.replicate (m + 1) '~' ++ rest)
      from rfl, findMainOperatorLoop_op (by decide) (by decide) (by decide), h4,
      if_pos ⟨rfl, hp⟩, ih _ _ _ _ (le_refl _)]
    congr 1
    · push_cast; omega
    · push_cast; omega

theorem replicate_filter (m : Nat) :
    (List.replicate m '~').filter (fun c => c != ' ') = List.replicate m '~' := by
  apply List.filter_eq_self.2
  intro c hc
  rw [List.eq_of_mem_replicate hc]
  decide

theorem isFullyEnclosed_tildes (m : Nat) (rest : Str) :
    isFullyEnclosed (List.replicate (m + 1) '~' ++ rest) = false :=
  isFullyEnclosed_tilde _

theorem infixToPrefixAux_tildes_nil (n : Nat) (h : 0 < n) : infixToPrefixAux n [] = some [] := by
  obtain ⟨n, rfl⟩ := Nat.exists_eq_succ_of_ne_zero (by omega : n ≠ 0)
  exact infixToPrefixAux_short n rfl (by simp)

/-- On a run of `~` alone `infixToPrefix` returns the run. -/
theorem infixToPrefixAux_tildes :
    ∀ (m n : Nat), m < n → infixToPrefixAux n (List.replicate m '~') = some (List.replicate m '~') := by
  intro m
  induction m with
  | zero =>
    intro n hn
    obtain ⟨n, rfl⟩ := Nat.exists_eq_succ_of_ne_zero (by omega : n ≠ 0)
    exact infixToPrefixAux_short n rfl (by simp)
  | succ m ih =>
    intro n hn
    obtain ⟨n, rfl⟩ := Nat.exists_eq_succ_of_ne_zero (by omega : n ≠ 0)
    cases m with
    | zero => exact infixToPrefixAux_short n rfl (by simp)
    | succ m =>
      have hp : findMainOperator (List.replicate (m + 1 + 1) '~') = ((m + 1 : Nat) : Int) := by
        have := findMainOperatorLoop_tildes (m + 1) [] 0 (-1) 99 (by decide)
        rw [List.append_nil] at this
        rw [findMainOperator, this]
        simp [findMainOperatorLoop]
      have hg : (List.replicate (m + 1 + 1) '~').getD (m + 1) ' ' = '~' := by
        simp [List.getD_eq_getElem?_getD, List.getElem?_replicate]
      have he : isFullyEnclosed (List.replicate (m + 1 + 1) '~') = false :=
        isFullyEnclosed_tilde (List.replicate (m + 1) '~')
      have h := infixToPrefixAux_split n (m + 1) (replicate_filter (m + 1 + 1)) (by simp)
        he hp (by omega)
        (l := List.replicate (m + 1) '~') (r := [])
        (by
          rw [List.take_replicate, Nat.min_eq_left (by omega)]
          exact ih n (by omega))
        (by
          rw [List.drop_replicate, show m + 1 + 1 - (m + 1 + 1) = 0 by omega]
          exact infixToPrefixAux_tildes_nil n (by omega))
      rw [List.append_nil] at h
      rw [h, hg]
      rfl

end Main1

namespace Main1

/-! ### `infixToPrefix` on texts of the grammar -/

theorem findMainOperator_bin {k : Nat} {op : Char} {s₁ s₂ : Str} {T₁ T₂ : Node}
    (hop : (op = '*' ∧ k = 2) ∨ (op = '+' ∧ k = 1) ∨ (op = '>' ∧ k = 0))
    (h₁ : Tight k s₁ T₁) (h₂ : Tight (k + 1) s₂ T₂) :
    findMainOperator (s₁ ++ op :: s₂) = (s₁.length : Int) := by
  obtain ⟨-, o1, o2, -, hp, hk, -⟩ := binop_facts hop
  obtain ⟨pos1, prec1, e1, -, hb1⟩ := findMainOperatorLoop_tight h₁ (op :: s₂) 0 0 (-1) 99 (le_refl _)
  have hprec : (k : Int) + 1 ≤ prec1 := by omega
  obtain ⟨pos2, prec2, e2, hno, -⟩ :=
    findMainOperatorLoop_tight h₂ [] (0 + s₁.length + 1) 0 (0 + s₁.length) ((k : Int) + 1)
      (le_refl _)
  obtain ⟨rfl, rfl⟩ := hno (Or.inr (by push_cast; omega))
  rw [List.append_nil] at e2
  rw [findMainOperator, e1, findMainOperatorLoop_op o1 o2 (by rw [hp]; omega), hp,
    if_pos ⟨rfl, hprec⟩, e2]
  simp [findMainOperatorLoop]

/-- A run of `~` in front of a text that `findMainOperator` reads without
recording anything: the result is the run followed by the result for the
text. -/
theorem infixToPrefixAux_tildes_atom {X p : Str}
    (hf : X.filter (fun c => c != ' ') = X) (hne : X ≠ [])
    (hno : ∀ (rest : Str) (i pos prec : Int),
      findMainOperatorLoop (X ++ rest) i 0 pos prec =
        findMainOperatorLoop rest (i + X.length) 0 pos prec)
    (hX : ∀ n, X.length < n → infixToPrefixAux n X = some p) :
    ∀ (m n : Nat), m + X.length < n →
      infixToPrefixAux n (List.replicate m '~' ++ X) = some (List.replicate m '~' ++ p) := by
  intro m n hn
  have hXl : 0 < X.length := List.length_pos.2 hne
  cases m with
  | zero => simpa using hX n (by omega)
  | succ m =>
    obtain ⟨n, rfl⟩ := Nat.exists_eq_succ_of_ne_zero (by omega : n ≠ 0)
    have hp : findMainOperator (List.replicate (m + 1) '~' ++ X) = (m : Int) := by
      have h := findMainOperatorLoop_tildes m (X ++ []) 0 (-1) 99 (by decide)
      rw [hno, List.append_nil] at h
      rw [findMainOperator, h]
      simp [findMainOperatorLoop]
    have hfil : (List.replicate (m + 1) '~' ++ X).filter (fun c => c != ' ') =
        List.replicate (m + 1) '~' ++ X := by
      rw [List.filter_append, replicate_filter, hf]
    have hlen : 2 ≤ (List.replicate (m + 1) '~' ++ X).length := by
      simp only [List.length_append, List.length_replicate]; omega
    have he : isFullyEnclosed (List.replicate (m + 1) '~' ++ X) = false :=
      isFullyEnclosed_tilde (List.replicate m '~' ++ X)
    cases m with
    | zero =>
      exact infixToPrefixAux_neg n hfil hlen he hp rfl (hX n (by omega))
    | succ m =>
      have hg : (List.replicate (m + 1 + 1) '~' ++ X).getD (m + 1) ' ' = '~' := by
        rw [List.getD_eq_getElem?_getD, List.getElem?_append_left (by simp)]
        simp [List.getElem?_replicate]
      have ht : (List.replicate (m + 1 + 1) '~' ++ X).take (m + 1) = List.replicate (m + 1) '~' := by
        rw [List.take_append_of_le_length (by simp), List.take_replicate,
          Nat.min_eq_left (by omega)]
      have hd : (List.replicate (m + 1 + 1) '~' ++ X).drop (m + 1 + 1) = X := by
        rw [List.drop_append_of_le_length (by simp), List.drop_replicate]
        simp
      have h := infixToPrefixAux_split n (m + 1) hfil hlen he hp (by omega)
        (l := List.replicate (m + 1) '~') (r := p)
        (by rw [ht]; exact infixToPrefixAux_tildes _ _ (by omega))
        (by rw [hd]; exact hX n (by omega))
      rw [h, hg]
      rfl

/-- The result of `infixToPrefix` on a text of the grammar without spaces, with
a run of `~` in front when the text is a unary expression, is the pre-order
character sequence of the tree. -/
theorem infixToPrefixAux_tight {k : Nat} {w : Str} {T : Node} (h : Tight k w T) :
    ∀ (m n : Nat), (k = 3 ∨ m = 0) → m + w.length < n →
      infixToPrefixAux n (List.replicate m '~' ++ w) =
        some (List.replicate m '~' ++ preorder T) := by
  induction h with
  | @ident c hc =>
    intro m n _ hn
    obtain ⟨c0, c1, c2, c3⟩ := isVariableChar_spec hc
    have hp : preorder (.mk c .null .null) = [c] := rfl
    rw [hp]
    refine infixToPrefixAux_tildes_atom (by simp [c0]) (by simp) ?_ ?_ m n hn
    · intro rest i pos prec
      rw [List.singleton_append, findMainOperatorLoop_plain c1 c2
        (getPrecedence_of_not_operator c3)]
      simp
    · intro n hn
      obtain ⟨n, rfl⟩ := Nat.exists_eq_succ_of_ne_zero (by omega : n ≠ 0)
      exact infixToPrefixAux_short n (by simp [c0]) (by simp)
  | @paren s T hs ih =>
    intro m n _ hn
    refine infixToPrefixAux_tildes_atom (tight_filter (.paren hs)) (by simp) ?_ ?_ m n hn
    · intro rest i pos prec
      obtain ⟨pos', prec', e, hno, -⟩ :=
        findMainOperatorLoop_tight hs (')' :: rest) (i + 1) (0 + 1) pos prec (by decide)
      obtain ⟨rfl, rfl⟩ := hno (Or.inl (by decide))
      have es : '(' :: s ++ [')'] ++ rest = '(' :: (s ++ ')' :: rest) := by simp
      rw [es, findMainOperatorLoop_open, e, findMainOperatorLoop_close]
      simp only [List.length_cons, List.length_append, List.length_singleton, List.length_nil,
        Nat.cast_add, Nat.cast_one]
      congr 1; omega
    · intro n hn
      obtain ⟨n, rfl⟩ := Nat.exists_eq_succ_of_ne_zero (by omega : n ≠ 0)
      have hl : ('(' :: s ++ [')']).length = s.length + 2 := by simp
      rw [infixToPrefixAux_paren n (tight_filter (.paren hs)) (by omega)
        (isFullyEnclosed_paren hs), hl]
      have hd : (('(' :: s ++ [')']).drop 1).take (s.length + 2 - 2) = s := by
        simp
      rw [hd]
      have := ih 0 n (Or.inr rfl) (by omega)
      simpa using this
  | @neg s T _ ih =>
    intro m n _ hn
    have h := ih (m + 1) n (Or.inl rfl) (by simp only [List.length_cons] at hn; omega)
    have e1 : List.replicate m '~' ++ '~' :: s = List.replicate (m + 1) '~' ++ s := by
      rw [List.replicate_succ']; simp
    have e2 : List.replicate m '~' ++ preorder (.mk '~' .null T) =
        List.replicate (m + 1) '~' ++ preorder T := by
      rw [List.replicate_succ']; simp [preorder]
    rw [e1, e2, h]
  | @bin k op s₁ s₂ T₁ T₂ hop h₁ h₂ ih₁ ih₂ =>
    intro m n hk hn
    obtain ⟨-, -, -, o3, -, hk2, -⟩ := binop_facts hop
    have hm : m = 0 := by rcases hk with hk | hk <;> omega
    subst hm
    obtain ⟨n, rfl⟩ := Nat.exists_eq_succ_of_ne_zero (by omega : n ≠ 0)
    simp only [List.replicate_zero, List.nil_append, List.length_append, List.length_cons,
      Nat.zero_add] at hn ⊢
    have hl₁ := tight_length_pos h₁
    have hg : (s₁ ++ op :: s₂).getD s₁.length ' ' = op := by
      rw [List.getD_eq_getElem?_getD, List.getElem?_append_right (le_refl _)]
      simp
    have ht : (s₁ ++ op :: s₂).take s₁.length = s₁ := by simp
    have hd : (s₁ ++ op :: s₂).drop (s₁.length + 1) = s₂ := by
      rw [List.drop_append_eq_append_drop]
      simp
    have h := infixToPrefixAux_split n s₁.length (tight_filter (.bin hop h₁ h₂))
      (by simp only [List.length_append, List.length_cons]; omega)
      (isFullyEnclosed_bin h₁) (findMainOperator_bin hop h₁ h₂)
      (by rw [hg]; exact fun hh => o3 hh.1)
      (l := preorder T₁) (r := preorder T₂)
      (by rw [ht]; simpa using ih₁ 0 n (Or.inr rfl) (by omega))
      (by rw [hd]; simpa using ih₂ 0 n (Or.inr rfl) (by omega))
    rw [h, hg]
    rfl
  | @up k s T hs ih =>
    intro m n hk hn
    rcases hk with rfl | rfl
    · have := tight_level_le hs
      omega
    · exact ih 0 n (Or.inr rfl) hn

/-- The result of `infixToPrefix` on a text of the grammar is the pre-order
character sequence of the tree it denotes. -/
theorem infixToPrefix_of_denotes_m1 {k : Nat} {s : Str} {T : Node} (h : Denotes k s T) :
    infixToPrefix s = some (preorder T) := by
  have ht := denotes_tight h
  have hlen : (s.filter fun c => c != ' ').length ≤ s.length := List.length_filter_le _ _
  have h1 := infixToPrefixAux_tight ht 0 (s.length + 1) (Or.inr rfl) (by omega)
  simp only [List.replicate_zero, List.nil_append] at h1
  have h2 : infixToPrefixAux (s.length + 1) s =
      infixToPrefixAux (s.length + 1) (s.filter fun c => c != ' ') := by
    simp only [infixToPrefixAux, List.filter_filter, Bool.and_self]
  rw [infixToPrefix, h2, h1]

end Main1

namespace Main1

/-! ### `buildParseTree` -/

theorem preorder_length_m1 (T : Node) : (preorder T).length = T.size := by
  induction T with
  | null => rfl
  | mk d l r ihl ihr => simp [preorder, Node.size, ihl, ihr]; omega

/-- Parsing the pre-order characters of a well-formed tree gives the tree back
and reads exactly those characters. -/
theorem buildParseTreeRecursive_preorder {T : Node} (wf : WellFormed T) :
    ∀ (n : Nat) (rest : Str), T.size < n →
      buildParseTreeRecursive n (preorder T ++ rest) = some (T, rest) := by
  induction wf with
  | @leaf d hd =>
    intro n rest hn
    obtain ⟨n, rfl⟩ := Nat.exists_eq_succ_of_ne_zero (by omega : n ≠ 0)
    simp [preorder, buildParseTreeRecursive, hd]
  | @neg c _ ih =>
    intro n rest hn
    obtain ⟨n, rfl⟩ := Nat.exists_eq_succ_of_ne_zero (by omega : n ≠ 0)
    have h := ih n rest (by simp only [Node.size] at hn; omega)
    have ho : isOperator '~' = true := by decide
    simp only [preorder, List.nil_append, List.cons_append, buildParseTreeRecursive, ho, if_true,
      List.append_eq, h]
  | @bin d l r hd _ _ ihl ihr =>
    intro n rest hn
    obtain ⟨n, rfl⟩ := Nat.exists_eq_succ_of_ne_zero (by omega : n ≠ 0)
    obtain ⟨ho, hne⟩ := binop_isOperator_m1 hd
    have h1 := ihl n (preorder r ++ rest) (by simp only [Node.size] at hn; omega)
    have h2 := ihr n rest (by simp only [Node.size] at hn; omega)
    simp only [preorder, List.cons_append, buildParseTreeRecursive, ho,
      if_true, hne, if_false, List.append_eq, List.append_assoc, h1, h2]

theorem buildParseTree_preorder_m1 {T : Node} (wf : WellFormed T) :
    buildParseTree (preorder T) = some T := by
  have hne : (preorder T).isEmpty = false := by cases wf <;> rfl
  have h := buildParseTreeRecursive_preorder wf ((preorder T).length + 1) []
    (by rw [preorder_length_m1]; omega)
  rw [List.append_nil] at h
  simp [buildParseTree, hne, h]

theorem buildParseTreeRecursive_total :
    ∀ (n : Nat) (p : Str), p.length < n →
      ∃ t rest, buildParseTreeRecursive n p = some (t, rest) ∧ rest.length ≤ p.length := by
  intro n
  induction n with
  | zero => intro p h; omega
  | succ n ih =>
    intro p h
    cases p with
    | nil => exact ⟨_, _, rfl, le_refl _⟩
    | cons c rest =>
      simp only [List.length_cons] at h ⊢
      simp only [buildParseTreeRecursive]
      obtain ⟨l, r1, h1, hl1⟩ := ih rest (by omega)
      obtain ⟨r, r2, h2, hl2⟩ := ih r1 (by omega)
      split
      · split
        · rw [h1]; exact ⟨_, _, rfl, by omega⟩
        · rw [h1]; simp only []; rw [h2]; exact ⟨_, _, rfl, by omega⟩
      · exact ⟨_, _, rfl, by omega⟩

theorem buildParseTree_total_m1 (p : Str) : ∃ t, buildParseTree p = some t := by
  simp only [buildParseTree]
  split
  · exact ⟨_, rfl⟩
  · obtain ⟨t, e', h, -⟩ := buildParseTreeRecursive_total (p.length + 1) p (Nat.lt_succ_self _)
    exact ⟨t, by rw [h]; rfl⟩

/-! ### `parseTreeToInfix` -/

theorem identifiers_leaf_m1 {d : Char} (h : isOperator d = false) :
    identifiers (.mk d .null .null) = [d] := by
  simp [identifiers, h]

theorem identifiers_neg_m1 (c : Node) : identifiers (.mk '~' .null c) = identifiers c := by
  have ho : isOperator '~' = true := by decide
  simp [identifiers, ho]

theorem identifiers_bin_m1 {d : Char} (h : d = '+' ∨ d = '*' ∨ d = '>') (l r : Node) :
    identifiers (.mk d l r) = identifiers l ++ identifiers r := by
  simp [identifiers, (binop_isOperator_m1 h).1]

theorem denotes_of_le_m1 {s : Str} {T : Node} :
    ∀ {k j : Nat}, Denotes k s T → j ≤ k → Denotes j s T := by
  intro k j h hjk
  induction hjk using Nat.decreasingInduction with
  | self => exact h
  | of_succ m _ ih => exact .up ih

/-- The text `parseTreeToInfix` writes for a well-formed tree denotes that
tree, as a unary expression. -/
theorem parseTreeToInfix_denotes {T : Node} (wf : WellFormed T)
    (hid : ∀ c ∈ identifiers T, c ≠ ' ' ∧ c ≠ '(' ∧ c ≠ ')') :
    Denotes 3 (parseTreeToInfix T) T := by
  induction wf with
  | @leaf d hd =>
    have h := hid d (by simp [identifiers_leaf_m1 hd])
    simp only [parseTreeToInfix, hd, Bool.not_false, if_true]
    exact .ident (by simp [isVariableChar, h.1, h.2.1, h.2.2, hd])
  | @neg c _ ih =>
    have hc := ih (by rw [identifiers_neg_m1] at hid; exact hid)
    have ho : isOperator '~' = true := by decide
    simp only [parseTreeToInfix, ho, Bool.not_true, Bool.false_eq_true, if_false, if_true]
    have : Denotes 3 (['('] ++ (['~'] ++ parseTreeToInfix c) ++ [')']) (.mk '~' .null c) :=
      .paren (denotes_of_le_m1 (.neg hc) (by omega))
    simpa using this
  | @bin d l r hd _ _ ihl ihr =>
    obtain ⟨ho, hne⟩ := binop_isOperator_m1 hd
    rw [identifiers_bin_m1 hd] at hid
    have hl := ihl fun c hc => hid c (List.mem_append_left _ hc)
    have hr := ihr fun c hc => hid c (List.mem_append_right _ hc)
    simp only [parseTreeToInfix, ho, Bool.not_true, Bool.false_eq_true, if_false, hne]
    have hb : Denotes 0 (parseTreeToInfix l ++ [d] ++ parseTreeToInfix r) (.mk d l r) := by
      rcases hd with rfl | rfl | rfl
      · exact .up (.or (denotes_of_le_m1 hl (by omega)) (denotes_of_le_m1 hr (by omega)))
      · exact .up (.up (.and (denotes_of_le_m1 hl (by omega)) hr))
      · exact .imp (denotes_of_le_m1 hl (by omega)) (denotes_of_le_m1 hr (by omega))
    have := Denotes.paren hb
    simpa using this

/-- The round trip of `main.cpp` through text gives the tree back. -/
theorem roundtrip_tree_m1 {T : Node} (wf : WellFormed T)
    (hid : ∀ c ∈ identifiers T, c ≠ ' ' ∧ c ≠ '(' ∧ c ≠ ')') :
    infixToPrefix (parseTreeToInfix T) = some (preorder T) ∧
      buildParseTree (preorder T) = some T :=
  ⟨infixToPrefix_of_denotes_m1 (parseTreeToInfix_denotes wf hid), buildParseTree_preorder_m1 wf⟩

end Main1

namespace Main1

/-! ### The two converters on the same text -/

theorem denotes_toMain2 {k : Nat} {s : Str} {T : Node} (h : Denotes k s T)
    (hid : ∀ c ∈ identifiers T, Main2.isspace c = false) :
    Main2.Denotes k s (toMain2 T) := by
  induction h with
  | @ident c hc =>
    obtain ⟨c0, c1, c2, c3⟩ := isVariableChar_spec hc
    have hn := not_isOperator_m1 c3
    have hsp := hid c (by simp [identifiers_leaf_m1 c3])
    have e : toMain2 (.mk c .null .null) = .mk [c] .null .null := by
      simp [toMain2, hn.2.2.2]
    rw [e]
    refine .ident ⟨by simp, ?_⟩
    intro a ha
    rw [List.mem_singleton.1 ha]
    simp [Main2.isIdentChar, Main2.isSymbol, hsp, c1, c2, hn.1, hn.2.1, hn.2.2.1, hn.2.2.2]
  | paren _ ih => exact .paren (ih hid)
  | @neg s T _ ih =>
    rw [identifiers_neg_m1] at hid
    have e : toMain2 (.mk '~' .null T) = .mk ['~'] (toMain2 T) .null := by simp [toMain2]
    rw [e]
    exact .neg (ih hid)
  | @and s₁ s₂ T₁ T₂ _ _ ih₁ ih₂ =>
    rw [identifiers_bin_m1 (Or.inr (Or.inl rfl))] at hid
    have e : toMain2 (.mk '*' T₁ T₂) = .mk ['*'] (toMain2 T₁) (toMain2 T₂) := by
      simp [toMain2]
    rw [e]
    exact .and (ih₁ fun c hc => hid c (List.mem_append_left _ hc))
      (ih₂ fun c hc => hid c (List.mem_append_right _ hc))
  | @or s₁ s₂ T₁ T₂ _ _ ih₁ ih₂ =>
    rw [identifiers_bin_m1 (Or.inl rfl)] at hid
    have e : toMain2 (.mk '+' T₁ T₂) = .mk ['+'] (toMain2 T₁) (toMain2 T₂) := by
      simp [toMain2]
    rw [e]
    exact .or (ih₁ fun c hc => hid c (List.mem_append_left _ hc))
      (ih₂ fun c hc => hid c (List.mem_append_right _ hc))
  | @imp s₁ s₂ T₁ T₂ _ _ ih₁ ih₂ =>
    rw [identifiers_bin_m1 (Or.inr (Or.inr rfl))] at hid
    have e : toMain2 (.mk '>' T₁ T₂) = .mk ['>'] (toMain2 T₁) (toMain2 T₂) := by
      simp [toMain2]
    rw [e]
    exact .imp (ih₁ fun c hc => hid c (List.mem_append_left _ hc))
      (ih₂ fun c hc => hid c (List.mem_append_right _ hc))
  | up _ ih => exact .up (ih hid)
  | spaceBefore _ ih => exact .spaceBefore (by decide) (ih hid)
  | spaceAfter _ ih => exact .spaceAfter (by decide) (ih hid)

theorem preorder_toMain2 {k : Nat} {s : Str} {T : Node} (h : Denotes k s T) :
    Main2.preorder (toMain2 T) = (preorder T).map fun c => [c] := by
  induction h with
  | @ident c hc =>
    have hn := not_isOperator_m1 (isVariableChar_spec hc).2.2.2
    simp [toMain2, hn.2.2.2, Main2.preorder, preorder]
  | paren _ ih => exact ih
  | neg _ ih => simp [toMain2, Main2.preorder, preorder, ih]
  | and _ _ ih₁ ih₂ => simp [toMain2, Main2.preorder, preorder, ih₁, ih₂]
  | or _ _ ih₁ ih₂ => simp [toMain2, Main2.preorder, preorder, ih₁, ih₂]
  | imp _ _ ih₁ ih₂ => simp [toMain2, Main2.preorder, preorder, ih₁, ih₂]
  | up _ ih => exact ih
  | spaceBefore _ ih => exact ih
  | spaceAfter _ ih => exact ih

theorem preorder_no_space {k : Nat} {s : Str} {T : Node} (h : Denotes k s T) :
    ∀ c ∈ preorder T, c ≠ ' ' := by
  induction h with
  | @ident c hc =>
    intro a ha
    have : a = c := by simpa [preorder] using ha
    rw [this]
    exact (isVariableChar_spec hc).1
  | paren _ ih => exact ih
  | neg _ ih =>
    intro a ha
    simp only [preorder, List.nil_append, List.mem_cons] at ha
    rcases ha with rfl | ha
    · decide
    · exact ih a ha
  | and _ _ ih₁ ih₂ =>
    intro a ha
    simp only [preorder, List.mem_cons, List.mem_append] at ha
    rcases ha with rfl | ha | ha
    · decide
    · exact ih₁ a ha
    · exact ih₂ a ha
  | or _ _ ih₁ ih₂ =>
    intro a ha
    simp only [preorder, List.mem_cons, List.mem_append] at ha
    rcases ha with rfl | ha | ha
    · decide
    · exact ih₁ a ha
    · exact ih₂ a ha
  | imp _ _ ih₁ ih₂ =>
    intro a ha
    simp only [preorder, List.mem_cons, List.mem_append] at ha
    rcases ha with rfl | ha | ha
    · decide
    · exact ih₁ a ha
    · exact ih₂ a ha
  | up _ ih => exact ih
  | spaceBefore _ ih => exact ih
  | spaceAfter _ ih => exact ih

theorem joinSep_singletons_filter :
    ∀ (l : Str), (∀ c ∈ l, c ≠ ' ') →
      (Main2.joinSep [' '] (l.map fun c => [c])).filter (fun c => c != ' ') = l := by
  intro l
  induction l with
  | nil => intro _; rfl
  | cons a l ih =>
    intro h
    have ha : a ≠ ' ' := h a (List.mem_cons_self _ _)
    have hl := ih fun c hc => h c (List.mem_cons_of_mem _ hc)
    cases l with
    | nil => simp [Main2.joinSep, ha]
    | cons b l =>
      rw [List.map_cons, List.map_cons] at *
      rw [Main2.joinSep_cons_cons, List.filter_append, List.filter_append, hl]
      simp [ha]

/-- On a text of the grammar with one-character identifiers the converter of
`main.cpp` returns what the converter of `main_2.cpp` returns, without its
spaces. -/
theorem converters_agree {s : Str} {T : Node} (h : Denotes 0 s T)
    (hid : ∀ c ∈ identifiers T, Main2.isspace c = false) :
    infixToPrefix s = some ((Main2.infixToPrefix s).filter fun c => c != ' ') := by
  rw [infixToPrefix_of_denotes_m1 h, Main2.infixToPrefix_of_denotes (denotes_toMain2 h hid),
    preorder_toMain2 h, joinSep_singletons_filter _ (preorder_no_space h)]

end Main1

namespace Main1

/-! ### Chains of two binary operators and a stream that ends early -/

theorem denotes_bin_m1 {op : Char} {k : Nat} {s₁ s₂ : Str} {T₁ T₂ : Node}
    (hop : (op = '*' ∧ k = 2) ∨ (op = '+' ∧ k = 1) ∨ (op = '>' ∧ k = 0))
    (h₁ : Denotes k s₁ T₁) (h₂ : Denotes (k + 1) s₂ T₂) :
    Denotes k (s₁ ++ [op] ++ s₂) (.mk op T₁ T₂) := by
  rcases hop with ⟨rfl, rfl⟩ | ⟨rfl, rfl⟩ | ⟨rfl, rfl⟩
  · exact .and h₁ h₂
  · exact .or h₁ h₂
  · exact .imp h₁ h₂

/-- In `a op b op c` the first operator is applied first: the prefix form
is `op op a b c`. -/
theorem infixToPrefix_chain_left_m1 {op : Char} {k : Nat} {a b c : Char}
    (hop : (op = '*' ∧ k = 2) ∨ (op = '+' ∧ k = 1) ∨ (op = '>' ∧ k = 0))
    (ha : isVariableChar a = true) (hb : isVariableChar b = true)
    (hc : isVariableChar c = true) :
    infixToPrefix [a, ' ', op, ' ', b, ' ', op, ' ', c] = some [op, op, a, b, c] := by
  have hk := (binop_facts hop).2.2.2.2.2.1
  have d1 : Denotes k ([a, ' '] ++ [op] ++ [' ', b, ' ']) (.mk op (.mk a .null .null)
      (.mk b .null .null)) :=
    denotes_bin_m1 hop (denotes_of_le_m1 (.spaceAfter (.ident ha)) (by omega))
      (denotes_of_le_m1 (.spaceBefore (.spaceAfter (.ident hb))) (by omega))
  have d2 := denotes_bin_m1 hop d1
    (denotes_of_le_m1 (.spaceBefore (.ident hc)) (by omega : k + 1 ≤ 3))
  exact infixToPrefix_of_denotes_m1 d2

/-- An operator character alone gives a node without children. -/
theorem buildParseTree_operator_alone_m1 {op : Char} (hop : isOperator op = true) :
    buildParseTree [op] = some (.mk op .null .null) := by
  by_cases h : op = '~'
  · subst h; rfl
  · simp [buildParseTree, buildParseTreeRecursive, hop, h]

/-- A binary operator followed by the pre-order characters of one well-formed
tree only: the tree becomes the left child and the right child is null. -/
theorem buildParseTree_missing_right_m1 {op : Char} {T : Node}
    (hop : op = '+' ∨ op = '*' ∨ op = '>') (wf : WellFormed T) :
    buildParseTree (op :: preorder T) = some (.mk op T .null) := by
  obtain ⟨ho, hne⟩ := binop_isOperator_m1 hop
  have h1 := buildParseTreeRecursive_preorder wf ((preorder T).length + 1) []
    (by rw [preorder_length_m1]; omega)
  rw [List.append_nil] at h1
  simp [buildParseTree, buildParseTreeRecursive, ho, hne, h1]

end Main1

namespace Main1

/-! ### The CNF validity check on CNF texts -/

theorem litText_chars {l : Bool × Char} (h : isVariableChar l.2 = true) :
    litText l ≠ [] ∧ ∀ c ∈ litText l, c ≠ '+' ∧ c ≠ '*' ∧ c ≠ '(' ∧ c ≠ ')' ∧ c ≠ ' ' := by
  obtain ⟨b, x⟩ := l
  obtain ⟨c0, c1, c2, c3⟩ := isVariableChar_spec h
  have hp : ∀ {y : Char}, isOperator y = false → y ≠ '+' ∧ y ≠ '*' := by
    intro y hy
    constructor <;> rintro rfl <;> revert hy <;> decide
  cases b
  · refine ⟨by simp [litText], ?_⟩
    intro c hc
    have : c = x := by simpa [litText] using hc
    subst this
    exact ⟨(hp c3).1, (hp c3).2, c1, c2, c0⟩
  · refine ⟨by simp [litText], ?_⟩
    intro c hc
    have : c = '~' ∨ c = x := by simpa [litText] using hc
    rcases this with rfl | rfl
    · decide
    · exact ⟨(hp c3).1, (hp c3).2, c1, c2, c0⟩

theorem splitPlus_plain (u : Str) (hu : ∀ c ∈ u, c ≠ '+') :
    ∀ (rest token : Str) (literals : List Str),
      splitPlus (u ++ rest) token literals = splitPlus rest (token ++ u) literals := by
  induction u with
  | nil => intro rest token literals; simp
  | cons c u ih =>
    intro rest token literals
    have hc := hu c (List.mem_cons_self _ _)
    simp only [List.cons_append, splitPlus, hc, if_false, List.append_eq]
    rw [ih (fun x hx => hu x (List.mem_cons_of_mem _ hx))]
    simp

theorem splitPlus_joinSep :
    ∀ (toks : List Str), (∀ t ∈ toks, t ≠ [] ∧ ∀ c ∈ t, c ≠ '+') → ∀ literals : List Str,
      splitPlus (Main2.joinSep ['+'] toks) [] literals = literals ++ toks := by
  intro toks
  induction toks with
  | nil => intro _ literals; simp [Main2.joinSep, splitPlus]
  | cons t ts ih =>
    intro h literals
    obtain ⟨hne, hc⟩ := h t (List.mem_cons_self _ _)
    have hts := fun x hx => h x (List.mem_cons_of_mem _ hx)
    have hemp : t.isEmpty = false := by cases t <;> simp_all
    cases ts with
    | nil =>
      have := splitPlus_plain t hc [] [] literals
      simp only [List.append_nil, List.nil_append] at this
      simp only [Main2.joinSep, this, splitPlus, hemp, Bool.false_eq_true, if_false]
    | cons t2 ts2 =>
      rw [Main2.joinSep_cons_cons, List.append_assoc, splitPlus_plain t hc]
      simp only [List.nil_append, List.singleton_append, splitPlus, if_true, hemp,
        Bool.false_eq_true, if_false, List.append_eq]
      rw [ih hts]
      simp

theorem splitStar_plain (u : Str) (hu : ∀ c ∈ u, c ≠ '*' ∧ c ≠ '(' ∧ c ≠ ')') :
    ∀ (rest : Str) (lvl : Int) (clause : Str) (clauses : List Str),
      splitStar (u ++ rest) lvl clause clauses = splitStar rest lvl (clause ++ u) clauses := by
  induction u with
  | nil => intro rest lvl clause clauses; simp
  | cons c u ih =>
    intro rest lvl clause clauses
    obtain ⟨h1, h2, h3⟩ := hu c (List.mem_cons_self _ _)
    simp only [List.cons_append, splitStar, h1, h2, h3, if_false, false_and, List.append_eq]
    rw [ih (fun x hx => hu x (List.mem_cons_of_mem _ hx))]
    simp

theorem clauseBody_chars {lits : List (Bool × Char)}
    (h : ∀ l ∈ lits, isVariableChar l.2 = true) :
    ∀ c ∈ Main2.joinSep ['+'] (lits.map litText), c ≠ '*' ∧ c ≠ '(' ∧ c ≠ ')' ∧ c ≠ ' ' := by
  induction lits with
  | nil => intro c hc; simp [Main2.joinSep] at hc
  | cons l t ih =>
    intro c hc
    have hl := (litText_chars (h l (List.mem_cons_self _ _))).2
    have iht := ih fun x hx => h x (List.mem_cons_of_mem _ hx)
    cases t with
    | nil =>
      simp only [List.map_cons, List.map_nil, Main2.joinSep] at hc
      exact ⟨(hl c hc).2.1, (hl c hc).2.2.1, (hl c hc).2.2.2.1, (hl c hc).2.2.2.2⟩
    | cons l2 t2 =>
      rw [List.map_cons, List.map_cons, Main2.joinSep_cons_cons, ← List.map_cons] at hc
      simp only [List.mem_append, List.mem_singleton] at hc
      rcases hc with (hc | rfl) | hc
      · exact ⟨(hl c hc).2.1, (hl c hc).2.2.1, (hl c hc).2.2.2.1, (hl c hc).2.2.2.2⟩
      · decide
      · exact iht c hc

/-- A clause text is passed to the current clause as a whole, and the
parenthesis level is back at 0 after it. -/
theorem splitStar_clauseText {c : Bool × List (Bool × Char)}
    (h : ∀ l ∈ c.2, isVariableChar l.2 = true) (rest clause : Str) (clauses : List Str) :
    splitStar (clauseText c ++ rest) 0 clause clauses =
      splitStar rest 0 (clause ++ clauseText c) clauses := by
  have hb : ∀ x ∈ Main2.joinSep ['+'] (c.2.map litText), x ≠ '*' ∧ x ≠ '(' ∧ x ≠ ')' :=
    fun x hx => ⟨(clauseBody_chars h x hx).1, (clauseBody_chars h x hx).2.1,
      (clauseBody_chars h x hx).2.2.1⟩
  obtain ⟨p, lits⟩ := c
  cases p
  · simp only [clauseText, Bool.false_eq_true, if_false]
    exact splitStar_plain _ hb _ _ _ _
  · simp only [clauseText, if_true]
    have e : ['('] ++ Main2.joinSep ['+'] (lits.map litText) ++ [')'] ++ rest =
        '(' :: (Main2.joinSep ['+'] (lits.map litText) ++ ')' :: rest) := by simp
    have h1 : ('(' : Char) ≠ '*' := by decide
    have h2 : ('(' : Char) ≠ ')' := by decide
    have h3 : (')' : Char) ≠ '*' := by decide
    have h4 : (')' : Char) ≠ '(' := by decide
    rw [e]
    simp only [splitStar, if_true, h1, h2, if_false, false_and, List.append_eq]
    rw [splitStar_plain _ hb]
    simp only [splitStar, h3, h4, if_false, if_true, false_and, List.append_eq]
    simp

theorem clauseText_ne_nil {c : Bool × List (Bool × Char)} (hne : c.2 ≠ [])
    (h : ∀ l ∈ c.2, isVariableChar l.2 = true) : clauseText c ≠ [] := by
  obtain ⟨p, lits⟩ := c
  cases p
  · simp only [clauseText, Bool.false_eq_true, if_false]
    cases lits with
    | nil => exact absurd rfl hne
    | cons l t =>
      have := (litText_chars (h l (List.mem_cons_self _ _))).1
      cases t with
      | nil => simpa [Main2.joinSep] using this
      | cons l2 t2 =>
        rw [List.map_cons, List.map_cons, Main2.joinSep_cons_cons]
        simp [this]
  · simp [clauseText]

theorem splitStar_cnfText :
    ∀ (cs : List (Bool × List (Bool × Char))),
      (∀ c ∈ cs, c.2 ≠ [] ∧ ∀ l ∈ c.2, isVariableChar l.2 = true) →
      ∀ clauses : List Str, splitStar (cnfText cs) 0 [] clauses = clauses ++ cs.map clauseText := by
  intro cs
  induction cs with
  | nil => intro _ clauses; simp [cnfText, Main2.joinSep, splitStar]
  | cons c t ih =>
    intro h clauses
    obtain ⟨hne, hc⟩ := h c (List.mem_cons_self _ _)
    have ht := fun x hx => h x (List.mem_cons_of_mem _ hx)
    have hemp : (clauseText c).isEmpty = false := by
      have := clauseText_ne_nil hne hc
      cases hh : clauseText c with
      | nil => exact absurd hh this
      | cons _ _ => rfl
    cases t with
    | nil =>
      have := splitStar_clauseText hc [] [] clauses
      simp only [List.append_nil, List.nil_append] at this
      simp only [cnfText, List.map_cons, List.map_nil, Main2.joinSep, this, splitStar, hemp,
        Bool.false_eq_true, if_false]
    | cons c2 t2 =>
      have e : cnfText (c :: c2 :: t2) = clauseText c ++ ('*' :: cnfText (c2 :: t2)) := by
        simp [cnfText, Main2.joinSep]
      have h1 : ('*' : Char) ≠ '(' := by decide
      have h2 : ('*' : Char) ≠ ')' := by decide
      rw [e, splitStar_clauseText hc]
      simp only [List.nil_append, splitStar, h1, h2, if_false, and_self, if_true, hemp,
        Bool.false_eq_true, List.append_eq]
      rw [ih ht]
      simp

end Main1

namespace Main1

theorem filter_clauseText {c : Bool × List (Bool × Char)}
    (h : ∀ l ∈ c.2, isVariableChar l.2 = true) :
    (((clauseText c).filter fun x => x != '(').filter fun x => x != ')').filter
      (fun x => x != ' ') = Main2.joinSep ['+'] (c.2.map litText) := by
  have hb := clauseBody_chars h
  have f1 : (Main2.joinSep ['+'] (c.2.map litText)).filter (fun x => x != '(') =
      Main2.joinSep ['+'] (c.2.map litText) :=
    List.filter_eq_self.2 fun x hx => by simpa using (hb x hx).2.1
  have f2 : (Main2.joinSep ['+'] (c.2.map litText)).filter (fun x => x != ')') =
      Main2.joinSep ['+'] (c.2.map litText) :=
    List.filter_eq_self.2 fun x hx => by simpa using (hb x hx).2.2.1
  have f3 : (Main2.joinSep ['+'] (c.2.map litText)).filter (fun x => x != ' ') =
      Main2.joinSep ['+'] (c.2.map litText) :=
    List.filter_eq_self.2 fun x hx => by simpa using (hb x hx).2.2.2
  obtain ⟨p, lits⟩ := c
  cases p
  · simp only [clauseText, Bool.false_eq_true, if_false]
    rw [f1, f2, f3]
  · have e1 : (['('] : Str).filter (fun x => x != '(') = [] := by decide
    have e2 : ([')'] : Str).filter (fun x => x != '(') = [')'] := by decide
    have e3 : ([')'] : Str).filter (fun x => x != ')') = [] := by decide
    simp only [clauseText, if_true, List.filter_append, e1, e2, e3, List.nil_append,
      List.append_nil, List.filter_nil]
    exact (congrArg _ (congrArg _ f1)).trans ((congrArg _ f2).trans f3)

/-- The test of `is_clause_true` on the literal texts of a clause. -/
theorem any_litText (lits : List (Bool × Char))
    (h : ∀ l ∈ lits, isVariableChar l.2 = true) :
    ((lits.map litText).any fun li =>
        li.head? == some '~' &&
          (lits.map litText).any fun lj => lj.getD 0 '\x00' == li.getD 1 '\x00') = true ↔
      ∃ x, (true, x) ∈ lits ∧ (false, x) ∈ lits := by
  have hv : ∀ l ∈ lits, l.2 ≠ '~' := by
    intro l hl
    exact (not_isOperator_m1 (isVariableChar_spec (h l hl)).2.2.2).1
  constructor
  · intro hany
    simp only [List.any_eq_true, List.mem_map, Bool.and_eq_true, beq_iff_eq] at hany
    obtain ⟨li, ⟨⟨bi, xi⟩, hi, rfl⟩, hhead, lj, ⟨⟨bj, xj⟩, hj, rfl⟩, hcmp⟩ := hany
    cases bi
    · simp only [litText, Bool.false_eq_true, if_false, List.head?_cons, Option.some.injEq]
        at hhead
      exact absurd hhead (hv _ hi)
    · cases bj
      · simp only [litText, Bool.false_eq_true, if_false, if_true, List.getD_cons_zero,
          List.getD_cons_succ] at hcmp
        subst hcmp
        exact ⟨xj, hi, hj⟩
      · simp only [litText, if_true, List.getD_cons_zero, List.getD_cons_succ] at hcmp
        exact absurd hcmp.symm (hv _ hi)
  · rintro ⟨x, hn, hp⟩
    simp only [List.any_eq_true, List.mem_map, Bool.and_eq_true, beq_iff_eq]
    exact ⟨litText (true, x), ⟨_, hn, rfl⟩, rfl, litText (false, x), ⟨_, hp, rfl⟩, rfl⟩

theorem is_clause_true_clauseText {c : Bool × List (Bool × Char)}
    (h : ∀ l ∈ c.2, isVariableChar l.2 = true) :
    is_clause_true (clauseText c) = true ↔ ∃ x, (true, x) ∈ c.2 ∧ (false, x) ∈ c.2 := by
  have hs : splitPlus (Main2.joinSep ['+'] (c.2.map litText)) [] [] = c.2.map litText := by
    have := splitPlus_joinSep (c.2.map litText) (by
      intro t ht
      obtain ⟨l, hl, rfl⟩ := List.mem_map.1 ht
      exact ⟨(litText_chars (h l hl)).1, fun x hx => ((litText_chars (h l hl)).2 x hx).1⟩) []
    simpa using this
  simp only [is_clause_true, filter_clauseText h, hs]
  exact any_litText c.2 h

/-- On a CNF text `check_cnf_valid` of `main.cpp` answers true exactly when
every clause holds a variable both negated and unnegated. -/
theorem check_cnf_valid_cnfText_m1 (cs : List (Bool × List (Bool × Char))) (hne : cs ≠ [])
    (h : ∀ c ∈ cs, c.2 ≠ [] ∧ ∀ l ∈ c.2, isVariableChar l.2 = true) :
    check_cnf_valid (cnfText cs) = true ↔
      ∀ c ∈ cs, ∃ x, (true, x) ∈ c.2 ∧ (false, x) ∈ c.2 := by
  have hs := splitStar_cnfText cs h []
  rw [List.nil_append] at hs
  have hemp : (cs.map clauseText).isEmpty = false := by
    cases cs with
    | nil => exact absurd rfl hne
    | cons _ _ => rfl
  simp only [check_cnf_valid, hs, hemp, Bool.false_and, Bool.false_eq_true, if_false,
    beq_iff_eq, List.length_eq_zero, List.filter_eq_nil_iff, List.mem_map,
    Bool.not_eq_true', forall_exists_index, and_imp, forall_apply_eq_imp_iff₂,
    Bool.not_eq_false]
  constructor
  · intro hall c hc
    exact (is_clause_true_clauseText (h c hc).2).1 (hall c hc)
  · intro hall c hc
    exact (is_clause_true_clauseText (h c hc).2).2 (hall c hc)

end Main1

namespace Main2

/-- With one header line, valid, and every later header line valid too, the
formula is read line by line: the closed runs of each clause line after the
header, in order. -/
theorem readDIMACSCNF_per_line (input : Str) (pre body : List Str) (hdr : Str) (nv nc : Int)
    (hg : getlines input = pre ++ hdr :: body) (hpre : ∀ l ∈ pre, l.head? ≠ some 'p')
    (hp : hdr.head? = some 'p') (hh : headerOf hdr = some (nv, nc))
    (hbody : ∀ l ∈ body, l.head? = some 'p' → headerOf l ≠ none) :
    (readDIMACSCNF input).formula =
      ((body.filter isClauseLine).map fun l => terminatedRuns (extractInts l)).flatten := by
  rw [readDIMACSCNF, hg, readLines_no_header pre _ _ hpre rfl, readLines_header_valid hp hh,
    readLines_body body _ rfl hbody]
  rfl

theorem readDIMACSCNF_no_header (input : Str) (h : ∀ l ∈ getlines input, l.head? ≠ some 'p') :
    (readDIMACSCNF input).formula = [] := by
  rw [readDIMACSCNF]
  have := readLines_no_header (getlines input) []
    { numVars := 0, numClauses := 0, formula := [], p_line_found := false } h rfl
  rw [List.append_nil] at this
  rw [this]
  rfl

theorem isLit_wellFormed {t : Node} (h : IsLit t) : WellFormed t := by
  cases h with
  | pos hd => exact .leaf hd
  | neg hd => exact .neg (.leaf hd)

theorem isClause_wellFormed {t : Node} (h : IsClause t) : WellFormed t := by
  induction h with
  | lit hl => exact isLit_wellFormed hl
  | or _ _ ihl ihr => exact .bin (Or.inl rfl) ihl ihr

theorem isCNF_wellFormed {t : Node} (h : IsCNF t) : WellFormed t := by
  induction h with
  | clause hc => exact isClause_wellFormed hc
  | and _ _ ihl ihr => exact .bin (Or.inr (Or.inl rfl)) ihl ihr

end Main2

namespace Main1

theorem isLit_wellFormed_m1 {t : Node} (h : IsLit t) : WellFormed t := by
  cases h with
  | pos hd => exact .leaf hd
  | neg hd => exact .neg (.leaf hd)

theorem isClause_wellFormed_m1 {t : Node} (h : IsClause t) : WellFormed t := by
  induction h with
  | lit hl => exact isLit_wellFormed_m1 hl
  | or _ _ ihl ihr => exact .bin (Or.inl rfl) ihl ihr

theorem isCNF_wellFormed_m1 {t : Node} (h : IsCNF t) : WellFormed t := by
  induction h with
  | clause hc => exact isClause_wellFormed_m1 hc
  | and _ _ ihl ihr => exact .bin (Or.inr (Or.inl rfl)) ihl ihr

end Main1

namespace Main1

theorem evaluate_eq_truthValue (env : Env) :
    ∀ T : Node, evaluate T env = truthValue (extendFalse env) T := by
  intro T
  induction T with
  | null => rfl
  | mk d l r ihl ihr =>
    simp only [evaluate, truthValue, ihl, ihr]
    by_cases h1 : d = '~'
    · subst h1; simp [isOperator]
    by_cases h2 : d = '*'
    · subst h2; simp [isOperator]
    by_cases h3 : d = '+'
    · subst h3; simp [isOperator]
    by_cases h4 : d = '>'
    · subst h4; simp [isOperator]
    have hop : isOperator d = false := by simp [isOperator, h1, h2, h3, h4]
    simp only [hop, h1, h2, h3, h4, if_false, Bool.not_false, if_true, extendFalse]
    cases env d <;> rfl

theorem isNNF_shape_m1 {t : Node} (h : IsNNF t) :
    t.contains '>' = false ∧ negOnLeaves t = true := by
  induction h with
  | lit hl => exact ⟨(isLit_shape_m1 hl).1, (isLit_shape_m1 hl).2.2.1⟩
  | or _ _ ihl ihr =>
    simp [Node.contains, negOnLeaves, ihl.1, ihl.2, ihr.1, ihr.2]
  | and _ _ ihl ihr =>
    simp [Node.contains, negOnLeaves, ihl.1, ihl.2, ihr.1, ihr.2]

end Main1

namespace Main2

theorem isNNF_shape {t : Node} (h : IsNNF t) :
    t.contains ['>'] = false ∧ negOnLeaves t = true := by
  induction h with
  | lit hl => exact ⟨(isLit_shape hl).1, (isLit_shape hl).2.2.1⟩
  | or _ _ ihl ihr =>
    simp [Node.contains, negOnLeaves, ihl.1, ihl.2, ihr.1, ihr.2]
  | and _ _ ihl ihr =>
    simp [Node.contains, negOnLeaves, ihl.1, ihl.2, ihr.1, ihr.2]

/-- More fuel does not change a result of `cnfAux`. -/
theorem cnfAux_mono :
    ∀ (n : Nat) (t t' : Node), cnfAux n t = some t' → cnfAux (n + 1) t = some t' := by
  intro n
  induction n with
  | zero => intro t t' h; simp [cnfAux] at h
  | succ n ih =>
    intro t t' h
    cases t with
    | null => simpa [cnfAux] using h
    | mk d l r =>
      rw [cnfAux] at h ⊢
      split at h
      · rename_i h1; rw [if_pos h1]; exact h
      · rename_i h1
        rw [if_neg h1]
        cases hl : cnfAux n l with
        | none => simp [hl] at h
        | some l' =>
          cases hr : cnfAux n r with
          | none => simp [hl, hr] at h
          | some r' =>
            simp only [hl, hr] at h
            simp only [ih _ _ hl, ih _ _ hr]
            split at h
            · rename_i hp
              simp only [if_pos hp]
              split at h
              · rename_i hs
                simp only [if_pos hs]
                cases ha : cnfAux n (.mk ['+'] l'.left r') with
                | none => simp [ha] at h
                | some a =>
                  cases hb : cnfAux n (.mk ['+'] (copyTree l'.right) (copyTree r')) with
                  | none => simp [ha, hb] at h
                  | some b =>
                    simp only [ha, hb] at h
                    simp only [ih _ _ ha, ih _ _ hb]
                    exact h
              · rename_i hs
                simp only [if_neg hs]
                split at h
                · rename_i hs2
                  simp only [if_pos hs2]
                  cases ha : cnfAux n (.mk ['+'] (copyTree l') r'.left) with
                  | none => simp [ha] at h
                  | some a =>
                    cases hb : cnfAux n (.mk ['+'] l' r'.right) with
                    | none => simp [ha, hb] at h
                    | some b =>
                      simp only [ha, hb] at h
                      simp only [ih _ _ ha, ih _ _ hb]
                      exact h
                · rename_i hs2
                  simp only [if_neg hs2]
                  exact h
            · rename_i hp
              simp only [if_neg hp]
              exact h

theorem cnfAux_mono_le (n m : Nat) (t t' : Node) (h : cnfAux n t = some t') (hnm : n ≤ m) :
    cnfAux m t = some t' := by
  induction hnm with
  | refl => exact h
  | step _ ih => exact cnfAux_mono _ _ _ ih

/-- The function `cnf` returns on every tree, and any fuel from `cnfFuel` on
gives the same result. -/
theorem cnf_total (t : Node) :
    ∃ t', cnf t = some t' ∧ ∀ n, cnfFuel t ≤ n → cnfAux n t = some t' := by
  obtain ⟨t', h, -⟩ := cnfAux_total (cnfFuel t) t (le_refl _)
  exact ⟨t', h, fun n hn => cnfAux_mono_le _ _ _ _ h hn⟩

end Main2

namespace Main2

/-- On a well-formed tree without `>` the pass `nnf` loses no identifier. -/
theorem nnfAux_identifiers_rev :
    ∀ (n : Nat) (t t' : Node), WellFormed t → t.contains ['>'] = false →
      nnfAux n t = some t' → ∀ v ∈ identifiers t, v ∈ identifiers t' := by
  intro n
  induction n with
  | zero => intro t t' _ _ h; simp [nnfAux] at h
  | succ n ih =>
    intro t t' wf hc h
    have hop : isOperand ['~'] = false := by decide
    have h1 : isOperand ['+'] = false := by decide
    have h2 : isOperand ['*'] = false := by decide
    have hidn : ∀ c : Node, identifiers (.mk ['~'] c .null) = identifiers c := by
      intro c; rw [identifiers_neg]; simp [identifiers]
    cases wf with
    | @leaf d hd =>
      simp only [nnfAux, hd, if_true, Option.some.injEq] at h
      subst h; exact fun v hv => hv
    | @neg c wc =>
      obtain ⟨-, hcc, -⟩ := contains_mk_false hc
      cases wc with
      | @leaf cd hcd =>
        simp only [nnfAux, hop, hcd, if_true, Bool.false_eq_true, if_false,
          Option.some.injEq] at h
        subst h; exact fun v hv => hv
      | @neg c' wc' =>
        obtain ⟨-, hcc', -⟩ := contains_mk_false hcc
        simp only [nnfAux, hop, if_true] at h
        intro v hv
        apply ih _ _ wc' hcc' (by simpa using h)
        rw [hidn, hidn] at hv
        exact hv
      | @bin cd cl cr hcd wl wr =>
        obtain ⟨hne, hcl, hcr⟩ := contains_mk_false hcc
        have hnl : (Node.mk ['~'] cl .null).contains ['>'] = false := by
          simp [Node.contains, hcl]
        have hnr : (Node.mk ['~'] cr .null).contains ['>'] = false := by
          simp [Node.contains, hcr]
        have hid : identifiers (.mk ['~'] (.mk cd cl cr) .null) =
            identifiers cl ++ identifiers cr := by
          rw [identifiers_neg, identifiers_bin hcd]; simp [identifiers]
        rw [hid]
        rcases hcd with rfl | rfl | rfl
        · simp only [nnfAux, hop, h1, if_true] at h
          cases ha : nnfAux n (.mk ['~'] cl .null) with
          | none => simp [ha] at h
          | some a =>
            cases hb : nnfAux n (.mk ['~'] cr .null) with
            | none => simp [ha, hb] at h
            | some b =>
              simp [ha, hb] at h
              subst h
              have ia := ih _ _ (.neg wl) hnl ha
              have ib := ih _ _ (.neg wr) hnr hb
              intro v hv
              rw [identifiers_mk_of_not_operand h2]
              rcases List.mem_append.1 hv with hv | hv
              · exact List.mem_append.2 (Or.inl (ia v (by rw [hidn]; exact hv)))
              · exact List.mem_append.2 (Or.inr (ib v (by rw [hidn]; exact hv)))
        · simp only [nnfAux, hop, h2, if_true] at h
          cases ha : nnfAux n (.mk ['~'] cl .null) with
          | none => simp [ha] at h
          | some a =>
            cases hb : nnfAux n (.mk ['~'] cr .null) with
            | none => simp [ha, hb] at h
            | some b =>
              simp [ha, hb] at h
              subst h
              have ia := ih _ _ (.neg wl) hnl ha
              have ib := ih _ _ (.neg wr) hnr hb
              intro v hv
              rw [identifiers_mk_of_not_operand h1]
              rcases List.mem_append.1 hv with hv | hv
              · exact List.mem_append.2 (Or.inl (ia v (by rw [hidn]; exact hv)))
              · exact List.mem_append.2 (Or.inr (ib v (by rw [hidn]; exact hv)))
        · exact absurd rfl hne
    | @bin d l r hd wl wr =>
      obtain ⟨hne, hcl, hcr⟩ := contains_mk_false hc
      have hdo := (binop_not_operand hd).1
      have hdn : d ≠ ['~'] := by rcases hd with rfl | rfl | rfl <;> decide
      simp only [nnfAux, hdo, hdn, if_false] at h
      cases ha : nnfAux n l with
      | none => simp [ha] at h
      | some a =>
        cases hb : nnfAux n r with
        | none => simp [ha, hb] at h
        | some b =>
          simp [ha, hb] at h
          subst h
          intro v hv
          rw [identifiers_mk_of_not_operand hdo] at hv ⊢
          rcases List.mem_append.1 hv with hv | hv
          · exact List.mem_append.2 (Or.inl (ih _ _ wl hcl ha v hv))
          · exact List.mem_append.2 (Or.inr (ih _ _ wr hcr hb v hv))

/-- The pass `cnf` loses no identifier: distribution copies sub-trees, it drops
none. -/
theorem cnfAux_identifiers_rev :
    ∀ (n : Nat) (t t' : Node), cnfAux n t = some t' →
      ∀ v ∈ identifiers t, v ∈ identifiers t' := by
  intro n
  induction n with
  | zero => intro t t' h; simp [cnfAux] at h
  | succ n ih =>
    intro t t' h
    cases t with
    | null => simp [cnfAux] at h; subst h; simp
    | mk d l r =>
      have h1 : isOperand ['+'] = false := by decide
      have h2 : isOperand ['*'] = false := by decide
      simp only [cnfAux] at h
      split at h
      · simp at h; subst h; simp
      · rename_i hop
        have hop' : isOperand d = false := by
          simp only [Bool.or_eq_true, not_or, Bool.not_eq_true] at hop
          exact hop.1
        split at h
        · rename_i l' r' hl hr
          have il := ih _ _ hl
          have ir := ih _ _ hr
          have base : ∀ v ∈ identifiers (.mk d l r), v ∈ identifiers l' ++ identifiers r' := by
            intro v hv
            rw [identifiers_mk_of_not_operand hop'] at hv
            rcases List.mem_append.1 hv with hv | hv
            · exact List.mem_append.2 (Or.inl (il v hv))
            · exact List.mem_append.2 (Or.inr (ir v hv))
          split at h
          · rename_i hd
            split at h
            · rename_i hand
              split at h
              · rename_i a b ha hb
                simp at h; subst h
                intro v hv
                have e := hasData_eq hand
                have el : identifiers l' = identifiers l'.left ++ identifiers l'.right := by
                  conv_lhs => rw [e]
                  exact identifiers_mk_of_not_operand h2 _ _
                have hv' := base v hv
                rw [el] at hv'
                rw [identifiers_mk_of_not_operand h2]
                have ia := ih _ _ ha v
                have ib := ih _ _ hb v
                rw [identifiers_mk_of_not_operand h1] at ia ib
                rw [copyTree_eq, copyTree_eq] at ib
                simp only [List.mem_append] at hv' ia ib ⊢
                tauto
              · simp at h
            · split at h
              · rename_i hand
                split at h
                · rename_i a b ha hb
                  simp at h; subst h
                  intro v hv
                  have e := hasData_eq hand
                  have er : identifiers r' = identifiers r'.left ++ identifiers r'.right := by
                    conv_lhs => rw [e]
                    exact identifiers_mk_of_not_operand h2 _ _
                  have hv' := base v hv
                  rw [er] at hv'
                  rw [identifiers_mk_of_not_operand h2]
                  have ia := ih _ _ ha v
                  have ib := ih _ _ hb v
                  rw [identifiers_mk_of_not_operand h1] at ia ib
                  rw [copyTree_eq] at ia
                  simp only [List.mem_append] at hv' ia ib ⊢
                  tauto
                · simp at h
              · simp at h; subst h
                intro v hv
                rw [identifiers_mk_of_not_operand hop']
                exact base v hv
          · simp at h; subst h
            intro v hv
            rw [identifiers_mk_of_not_operand hop']
            exact base v hv
        · simp at h

/-- Two strictly increasing lists with the same members are equal. -/
theorem sorted_ext {xs ys : List Str} (hx : xs.Pairwise (fun a b => strLess a b = true))
    (hy : ys.Pairwise (fun a b => strLess a b = true)) (h : ∀ v, v ∈ xs ↔ v ∈ ys) : xs = ys := by
  have hp : xs.Perm ys := (List.perm_ext_iff_of_nodup (sorted_nodup hx) (sorted_nodup hy)).2 h
  have anti : IsAntisymm Str (fun a b => strLess a b = true) :=
    ⟨fun a b h1 h2 => by
      have := strLess_trans a b a h1 h2
      rw [strLess_irrefl] at this
      exact absurd this Bool.false_ne_true⟩
  exact List.eq_of_perm_of_sorted hp hx hy

/-- The three passes keep the variable set. -/
theorem getVariables_pipeline {F : Node} (wf : WellFormed F) :
    ∃ N C, nnf (impl_free F) = some N ∧ cnf N = some C ∧
      getVariables C [] = getVariables F [] ∧ getVariables N [] = getVariables F [] ∧
      getVariables (impl_free F) [] = getVariables F [] := by
  obtain ⟨N, C, eN, eC, -, -, -⟩ := pipeline_spec wf
  obtain ⟨w, c⟩ := impl_free_wellFormed wf
  have mem : ∀ (T : Node) v, v ∈ getVariables T [] ↔ v ∈ identifiers T := by
    intro T v
    rw [(getVariables_spec T [] List.Pairwise.nil).2]
    simp
  have srt : ∀ T : Node, (getVariables T []).Pairwise (fun a b => strLess a b = true) :=
    fun T => (getVariables_spec T [] List.Pairwise.nil).1
  have eI : ∀ v, v ∈ identifiers (impl_free F) ↔ v ∈ identifiers F := by
    intro v; rw [identifiers_impl_free]
  have eNi : ∀ v, v ∈ identifiers N ↔ v ∈ identifiers F := fun v =>
    ⟨fun hv => (eI v).1 (nnfAux_identifiers _ _ _ eN v hv),
      fun hv => nnfAux_identifiers_rev _ _ _ w c eN v ((eI v).2 hv)⟩
  have eCi : ∀ v, v ∈ identifiers C ↔ v ∈ identifiers F := fun v =>
    ⟨fun hv => (eNi v).1 (cnfAux_identifiers _ _ _ eC v hv),
      fun hv => cnfAux_identifiers_rev _ _ _ eC v ((eNi v).2 hv)⟩
  refine ⟨N, C, eN, eC, sorted_ext (srt _) (srt _) fun v => ?_,
    sorted_ext (srt _) (srt _) fun v => ?_, sorted_ext (srt _) (srt _) fun v => ?_⟩
  · rw [mem, mem, eCi]
  · rw [mem, mem, eNi]
  · rw [mem, mem, eI]

end Main2

namespace Main2

theorem litsOf_identifiers {c : Node} (hc : IsClause c) :
    ∀ p ∈ litsOf c, p.2 ∈ identifiers c := by
  induction hc with
  | lit hl =>
    cases hl with
    | @pos d hd => intro p hp; simp [litsOf, hd] at hp; subst hp; simp [identifiers, hd]
    | @neg d hd =>
      have h0 : isOperand ['~'] = false := by decide
      intro p hp
      simp [litsOf, h0] at hp
      subst hp
      simp [identifiers, h0, hd]
  | @or l r _ _ ihl ihr =>
    have h1 : isOperand ['+'] = false := by decide
    intro p hp
    have : litsOf (.mk ['+'] l r) = litsOf l ++ litsOf r := by simp [litsOf, h1]
    rw [this] at hp
    rw [identifiers_mk_of_not_operand h1]
    rcases List.mem_append.1 hp with hp | hp
    · exact List.mem_append.2 (Or.inl (ihl p hp))
    · exact List.mem_append.2 (Or.inr (ihr p hp))

/-- Under an environment binding its identifiers a clause tree evaluates, and
it is true exactly when one of its literals is. -/
theorem clause_evaluate {c : Node} (hc : IsClause c) (env : Env)
    (hb : ∀ v ∈ identifiers c, env v ≠ none) :
    ∃ b, evaluate c env = some b ∧
      (b = true ↔ ∃ p ∈ litsOf c, env p.2 = some (!p.1)) := by
  induction hc with
  | lit hl =>
    cases hl with
    | @pos d hd =>
      rw [evaluate_leaf hd]
      have hne := hb d (by simp [identifiers, hd])
      cases he : env d with
      | none => exact absurd he hne
      | some b => exact ⟨b, rfl, by simp [litsOf, hd, he]⟩
    | @neg d hd =>
      have h0 : isOperand ['~'] = false := by decide
      rw [evaluate_neg, evaluate_leaf hd]
      have hne := hb d (by simp [identifiers, h0, hd])
      cases he : env d with
      | none => exact absurd he hne
      | some b => exact ⟨!b, rfl, by cases b <;> simp [litsOf, h0, he]⟩
  | @or l r _ _ ihl ihr =>
    have h1 : isOperand ['+'] = false := by decide
    have hid := identifiers_mk_of_not_operand h1 l r
    obtain ⟨a, ea, ha⟩ := ihl fun v hv => hb v (by rw [hid]; exact List.mem_append.2 (Or.inl hv))
    obtain ⟨b, eb, hb'⟩ := ihr fun v hv => hb v (by rw [hid]; exact List.mem_append.2 (Or.inr hv))
    have hl : litsOf (.mk ['+'] l r) = litsOf l ++ litsOf r := by simp [litsOf, h1]
    refine ⟨a || b, by rw [evaluate_or, ea, eb]; rfl, ?_⟩
    rw [hl, Bool.or_eq_true, ha, hb']
    constructor
    · rintro (⟨p, hp, e⟩ | ⟨p, hp, e⟩)
      · exact ⟨p, List.mem_append.2 (Or.inl hp), e⟩
      · exact ⟨p, List.mem_append.2 (Or.inr hp), e⟩
    · rintro ⟨p, hp, e⟩
      rcases List.mem_append.1 hp with hp | hp
      · exact Or.inl ⟨p, hp, e⟩
      · exact Or.inr ⟨p, hp, e⟩

/-- A clause tree with a complementary pair is true under every environment
that binds its identifiers. -/
theorem clause_satisfied {c : Node} (hc : IsClause c) (h : HasComplement (litsOf c))
    (env : Env) (hb : ∀ v ∈ identifiers c, env v ≠ none) : evaluate c env = some true := by
  obtain ⟨b, eb, hiff⟩ := clause_evaluate hc env hb
  obtain ⟨x, hp, hn⟩ := h
  have hx := hb x (litsOf_identifiers hc _ hp)
  have : b = true := by
    rw [hiff]
    cases he : env x with
    | none => exact absurd he hx
    | some v =>
      cases v
      · exact ⟨_, hn, by simp [he]⟩
      · exact ⟨_, hp, by simp [he]⟩
  rw [eb, this]

/-- A conjunction of clauses each of which has a complementary pair is true
under every environment that binds its identifiers. -/
theorem cnf_satisfied {C : Node} (hC : IsCNF C) (h : ∀ cl ∈ clausesOf C, HasComplement cl)
    (env : Env) (hb : ∀ v ∈ identifiers C, env v ≠ none) : evaluate C env = some true := by
  induction hC with
  | @clause c hc =>
    rw [isClause_clausesOf hc] at h
    exact clause_satisfied hc (h _ (List.mem_singleton.2 rfl)) env hb
  | @and l r _ _ ihl ihr =>
    have h2 : isOperand ['*'] = false := by decide
    have hid := identifiers_mk_of_not_operand h2 l r
    have hcl : clausesOf (.mk ['*'] l r) = clausesOf l ++ clausesOf r := by simp [clausesOf]
    rw [hcl] at h
    rw [evaluate_and,
      ihl (fun cl hm => h cl (List.mem_append.2 (Or.inl hm)))
        (fun v hv => hb v (by rw [hid]; exact List.mem_append.2 (Or.inl hv))),
      ihr (fun cl hm => h cl (List.mem_append.2 (Or.inr hm)))
        (fun v hv => hb v (by rw [hid]; exact List.mem_append.2 (Or.inr hv)))]
    rfl

/-- The check on the text of the generated CNF returns, and it answers true
exactly when the formula is true under every environment binding its
identifiers. -/
theorem check_generated_cnf {F : Node} (wf : WellFormed F)
    (hid : ∀ v ∈ identifiers F, IsIdent v) :
    ∃ N C, nnf (impl_free F) = some N ∧ cnf N = some C ∧
      (∃ b, check_cnf_valid (treeToInfixString C) = some b) ∧
      (check_cnf_valid (treeToInfixString C) = some true ↔
        ∀ env : Env, Binds env F → evaluate F env = some true) := by
  obtain ⟨N, C, eN, eC, -, hC, hev⟩ := pipeline_spec wf
  have hsub : ∀ v ∈ identifiers C, v ∈ identifiers F := fun v hv => by
    have h1 := cnfAux_identifiers _ _ _ eC v hv
    have h2 := nnfAux_identifiers _ _ _ eN v h1
    rwa [identifiers_impl_free] at h2
  obtain ⟨b, hb, hiff⟩ := check_cnf_valid_tree hC fun v hv => hid v (hsub v hv)
  refine ⟨N, C, eN, eC, ⟨b, hb⟩, ?_, ?_⟩
  · intro ht env henv
    have : b = true := by rw [hb] at ht; exact Option.some.inj ht
    rw [← hev env]
    exact cnf_satisfied hC (hiff.1 this) env fun v hv => henv v (hsub v hv)
  · intro taut
    obtain ⟨N', C', eN', eC', h⟩ := tautology_accepted wf hid taut
    rw [eN] at eN'
    cases eN'
    rw [eC] at eC'
    cases eC'
    exact h

end Main2

namespace Main2

theorem literalsToInfix_lits (c : Clause) :
    literalsToInfix c = joinSep [' ', '+', ' '] (c.map fun l => litText (dimacsLit l)) := by
  induction c with
  | nil => rfl
  | cons l t ih =>
    have hl : (if l < 0 then ['~', 'P'] ++ intToStr (negInt l) else ['P'] ++ intToStr l) =
        litText (dimacsLit l) := by
      by_cases h : l < 0 <;> simp [dimacsLit, litText, h]
    cases t with
    | nil =>
      rw [literalsToInfix, hl]
      simp [literalsToInfix, joinSep]
    | cons l2 t2 =>
      rw [literalsToInfix, hl, ih]
      simp [joinSep]

theorem clausesToInfix_lits (f : DimacsCNF) (hne : ∀ c ∈ f, c ≠ []) :
    clausesToInfix f = cnfText (f.map fun c => c.map dimacsLit) := by
  induction f with
  | nil => rfl
  | cons c t ih =>
    have iht := ih fun x hx => hne x (List.mem_cons_of_mem _ hx)
    have hc : c.isEmpty = false := by
      have := hne c (List.mem_cons_self _ _)
      cases c with
      | nil => exact absurd rfl this
      | cons _ _ => rfl
    have e : ['('] ++ literalsToInfix c ++ [')'] = clauseText (c.map dimacsLit) := by
      rw [literalsToInfix_lits, clauseText, List.map_map]
      rfl
    cases t with
    | nil =>
      rw [clausesToInfix, hc]
      simp only [Bool.false_eq_true, if_false, List.isEmpty_nil, if_true, List.append_nil,
        clausesToInfix]
      rw [e]
      simp [cnfText, joinSep]
    | cons c2 t2 =>
      rw [clausesToInfix, hc, iht]
      simp only [Bool.false_eq_true, if_false, List.isEmpty_cons]
      rw [e]
      simp [cnfText, joinSep]

theorem dimacsToInfix_lits (f : DimacsCNF) (hne : ∀ c ∈ f, c ≠ []) :
    dimacsToInfix f = cnfText (f.map fun c => c.map dimacsLit) := by
  unfold dimacsToInfix
  split
  · rename_i h
    have : f = [] := by simpa using h
    subst this; rfl
  · exact clausesToInfix_lits f hne

theorem intToStr_injective {v w : Int} (h : intToStr v = intToStr w) : v = w := by
  obtain ⟨dv, -, hdv, cv⟩ := intToStr_spec v
  obtain ⟨dw, -, hdw, cw⟩ := intToStr_spec w
  rcases cv with ⟨-, ev, vv⟩ | ⟨-, ev, vv⟩ <;> rcases cw with ⟨-, ew, vw⟩ | ⟨-, ew, vw⟩
  · rw [ev, ew] at h; subst h; rw [← vv, ← vw]
  · rw [ev, ew] at h
    have := hdv '-' (by rw [h]; exact List.mem_cons_self _ _)
    exact absurd this (by decide)
  · rw [ev, ew] at h
    have := hdw '-' (by rw [← h]; exact List.mem_cons_self _ _)
    exact absurd this (by decide)
  · rw [ev, ew] at h
    have : dv = dw := by simpa using h
    subst this; rw [← vv, ← vw]

theorem dimacsLit_isIdent (l : Int) : IsIdent (dimacsLit l).2 := by
  have key : ∀ x : Int, IsIdent ('P' :: intToStr x) := by
    intro x
    refine ⟨by simp, fun c hc => ?_⟩
    rcases List.mem_cons.1 hc with rfl | hc
    · decide
    · rcases (intToStr_chars x).2.2 c hc with rfl | hd
      · decide
      · simp only [isIdentChar, Bool.and_eq_true, Bool.not_eq_true']
        refine ⟨isDigit_not_space hd, ?_⟩
        simp only [isSymbol, Bool.or_eq_false_iff, beq_eq_false_iff_ne]
        refine ⟨⟨⟨⟨⟨?_, ?_⟩, ?_⟩, ?_⟩, ?_⟩, ?_⟩ <;> rintro rfl <;> revert hd <;> decide
  unfold dimacsLit
  split
  · exact key _
  · exact key _

/-- A clause of `int` literals has a complementary pair in its rendering exactly
when it passes `is_dimacs_clause_true`. -/
theorem hasComplement_dimacs (c : List Int) (hc : ∀ l ∈ c, isInt l) :
    HasComplement (c.map dimacsLit) ↔ is_dimacs_clause_true c = true := by
  simp only [is_dimacs_clause_true, List.any_eq_true, Bool.and_eq_true, decide_eq_true_eq,
    List.contains_iff_exists_mem_beq, List.mem_filter, beq_iff_eq, gt_iff_lt, HasComplement,
    List.mem_map]
  constructor
  · rintro ⟨x, ⟨(l : Int), hl, el⟩, ⟨(l' : Int), hl', el'⟩⟩
    have hl0 : ¬ (l : Int) < 0 := by
      intro h; simp [dimacsLit, h] at el
    have hl'0 : (l' : Int) < 0 := by
      by_contra h; simp [dimacsLit, h] at el'
    simp only [dimacsLit, if_neg hl0, Prod.mk.injEq, true_and] at el
    simp only [dimacsLit, if_pos hl'0, Prod.mk.injEq, true_and] at el'
    have e : intToStr l = intToStr (negInt l') := by
      have := el.trans el'.symm
      simpa using this
    have e2 : (l : Int) = negInt l' := intToStr_injective e
    have hi := (isInt_iff _).1 (hc l' hl')
    have hpos : (0 : Int) < l := by
      by_cases hm : l' = -2147483648
      · subst hm
        rw [negInt_INT_MIN] at e2
        omega
      · rw [negInt_eq_neg (hc l' hl') hm] at e2
        omega
    exact ⟨l', hl', hl'0, l, ⟨hl, hpos⟩, e2.symm⟩
  · rintro ⟨(l' : Int), hl', hl'0, (l : Int), ⟨hl, hpos⟩, e⟩
    have hpos' : (0 : Int) < l := hpos
    have hneg' : (l' : Int) < 0 := hl'0
    refine ⟨'P' :: intToStr l, ⟨l, hl, ?_⟩, ⟨l', hl', ?_⟩⟩
    · have : ¬ l < 0 := by omega
      simp [dimacsLit, this]
    · simp [dimacsLit, hneg', e]

/-- The two validity checks agree through the renderer. -/
theorem check_cnf_valid_dimacsToInfix (f : DimacsCNF) (hne : ∀ c ∈ f, c ≠ [])
    (hl : ∀ c ∈ f, ∀ l ∈ c, isInt l) :
    check_cnf_valid (dimacsToInfix f) = some (check_dimacs_valid_formula f) := by
  rw [dimacsToInfix_lits f hne]
  obtain ⟨b, hb, hiff⟩ := check_cnf_valid_cnfText (f.map fun c => c.map dimacsLit) (by
    intro c hc l hl
    obtain ⟨c0, -, rfl⟩ := List.mem_map.1 hc
    obtain ⟨l0, -, rfl⟩ := List.mem_map.1 hl
    exact dimacsLit_isIdent l0)
  rw [hb]
  congr 1
  rw [Bool.eq_iff_iff, hiff, check_dimacs_valid_formula_iff]
  simp only [List.mem_map, forall_exists_index, and_imp, forall_apply_eq_imp_iff₂]
  constructor
  · intro h c hc
    exact (hasComplement_dimacs c (hl c hc)).1 (h c hc)
  · intro h c hc
    exact (hasComplement_dimacs c (hl c hc)).2 (h c hc)

end Main2

theorem implFree_hasImplies {α : Type} (f : Formula α) : f.implFree.hasImplies = false := by
  induction f with
  | var x => rfl
  | not f ih => simpa [Formula.implFree, Formula.hasImplies] using ih
  | and f g ihf ihg => simp [Formula.implFree, Formula.hasImplies, ihf, ihg]
  | or f g ihf ihg => simp [Formula.implFree, Formula.hasImplies, ihf, ihg]
  | implies f g ihf ihg => simp [Formula.implFree, Formula.hasImplies, ihf, ihg]

namespace Main2

/-- A well-formed tree is the tree of a formula, and `impl_free` yields the
tree of the rewritten formula. -/
theorem impl_free_ofFormula {T : Node} (wf : WellFormed T) :
    ∃ f : Formula Str, ofFormula f = T ∧ impl_free T = ofFormula f.implFree := by
  induction wf with
  | @leaf d hd =>
    have hn := (isOperand_not_op hd).2.2.2
    exact ⟨.var d, rfl, by simp [impl_free, hn, Formula.implFree, ofFormula]⟩
  | @neg c _ ih =>
    obtain ⟨f, e, h⟩ := ih
    refine ⟨.not f, by simp [ofFormula, e], ?_⟩
    have : (['~'] : Str) ≠ ['>'] := by decide
    simp [impl_free, this, h, Formula.implFree, ofFormula]
  | @bin d l r hd _ _ ihl ihr =>
    obtain ⟨f, ef, hf⟩ := ihl
    obtain ⟨g, eg, hg⟩ := ihr
    rcases hd with rfl | rfl | rfl
    · refine ⟨.or f g, by simp [ofFormula, ef, eg], ?_⟩
      have : (['+'] : Str) ≠ ['>'] := by decide
      simp [impl_free, this, hf, hg, Formula.implFree, ofFormula]
    · refine ⟨.and f g, by simp [ofFormula, ef, eg], ?_⟩
      have : (['*'] : Str) ≠ ['>'] := by decide
      simp [impl_free, this, hf, hg, Formula.implFree, ofFormula]
    · refine ⟨.implies f g, by simp [ofFormula, ef, eg], ?_⟩
      simp [impl_free, hf, hg, Formula.implFree, ofFormula]

end Main2

namespace Main1

/-- A well-formed tree is the tree of a formula, and `impl_free` yields the
tree of the rewritten formula. -/
theorem impl_free_ofFormula_m1 {T : Node} (wf : WellFormed T) :
    ∃ f : Formula Char, ofFormula f = T ∧ impl_free T = ofFormula f.implFree := by
  induction wf with
  | @leaf d hd =>
    have hn := (not_isOperator_m1 hd).2.2.2
    exact ⟨.var d, rfl, by simp [impl_free, hn, Formula.implFree, ofFormula]⟩
  | @neg c _ ih =>
    obtain ⟨f, e, h⟩ := ih
    refine ⟨.not f, by simp [ofFormula, e], ?_⟩
    simp [impl_free, h, Formula.implFree, ofFormula]
  | @bin d l r hd _ _ ihl ihr =>
    obtain ⟨f, ef, hf⟩ := ihl
    obtain ⟨g, eg, hg⟩ := ihr
    rcases hd with rfl | rfl | rfl
    · exact ⟨.or f g, by simp [ofFormula, ef, eg],
        by simp [impl_free, hf, hg, Formula.implFree, ofFormula]⟩
    · exact ⟨.and f g, by simp [ofFormula, ef, eg],
        by simp [impl_free, hf, hg, Formula.implFree, ofFormula]⟩
    · exact ⟨.implies f g, by simp [ofFormula, ef, eg],
        by simp [impl_free, hf, hg, Formula.implFree, ofFormula]⟩

end Main1

namespace Main1

theorem mem_identifiers_op {d : Char} (h : isOperator d = true) (l r : Node) (v : Char) :
    v ∈ identifiers (.mk d l r) ↔ v ∈ identifiers l ∨ v ∈ identifiers r := by
  simp [identifiers, h]

theorem identifiers_impl_free_m1 (t : Node) (v : Char) :
    v ∈ identifiers (impl_free t) ↔ v ∈ identifiers t := by
  induction t with
  | null => rfl
  | mk d l r ihl ihr =>
    by_cases hd : d = '>'
    · subst hd
      simp only [impl_free, if_true]
      rw [mem_identifiers_op (by decide), mem_identifiers_op (by decide),
        mem_identifiers_op (by decide), ihl, ihr]
      simp [identifiers]
    · simp only [impl_free, if_neg hd]
      simp only [identifiers, List.mem_append, ihl, ihr]

theorem nnfAux_identifiers_m1 :
    ∀ (n : Nat) (t t' : Node), nnfAux n t = some t' →
      ∀ v ∈ identifiers t', v ∈ identifiers t := by
  intro n
  induction n with
  | zero => intro t t' h; simp [nnfAux] at h
  | succ n ih =>
    intro t t' h
    have o1 : isOperator '~' = true := by decide
    have o2 : isOperator '+' = true := by decide
    have o3 : isOperator '*' = true := by decide
    cases t with
    | null => simp [nnfAux] at h; subst h; simp
    | mk d l r =>
      have pair : ∀ {x y : Node} {e : Char}, nnfAux n x = none ∨ nnfAux n y = none →
          (match nnfAux n x, nnfAux n y with
            | some a, some b => some (Node.mk e a b)
            | _, _ => none) = some t' → False := by
        intro x y e hn hm
        rcases hn with hn | hn
        · rw [hn] at hm; simp at hm
        · rw [hn] at hm
          cases nnfAux n x <;> simp at hm
      have both : ∀ {x y : Node} {e : Char}, isOperator e = true →
          (match nnfAux n x, nnfAux n y with
            | some a, some b => some (Node.mk e a b)
            | _, _ => none) = some t' →
          ∀ v ∈ identifiers t', v ∈ identifiers x ∨ v ∈ identifiers y := by
        intro x y e he hm v hv
        cases hx : nnfAux n x with
        | none => exact absurd hm (fun hm => pair (Or.inl hx) hm)
        | some a =>
          cases hy : nnfAux n y with
          | none => exact absurd hm (fun hm => pair (Or.inr hy) hm)
          | some b =>
            rw [hx, hy] at hm
            simp only [Option.some.injEq] at hm
            subst hm
            rcases (mem_identifiers_op he _ _ v).1 hv with hv | hv
            · exact Or.inl (ih _ _ hx v hv)
            · exact Or.inr (ih _ _ hy v hv)
      simp only [nnfAux] at h
      split at h
      · rename_i hd; subst hd
        cases r with
        | null => simp at h
        | mk sd sl sr =>
          simp only at h
          intro v hv
          rw [mem_identifiers_op o1]
          split at h
          · rename_i hsd; subst hsd
            rw [mem_identifiers_op o1]
            exact Or.inr (Or.inr (ih _ _ h v hv))
          · split at h
            · rename_i hsd; subst hsd
              rw [mem_identifiers_op o2]
              rcases both o3 h v hv with hv | hv
              · rw [mem_identifiers_op o1] at hv; simp [identifiers] at hv; tauto
              · rw [mem_identifiers_op o1] at hv; simp [identifiers] at hv; tauto
            · split at h
              · rename_i hsd; subst hsd
                rw [mem_identifiers_op o3]
                rcases both o2 h v hv with hv | hv
                · rw [mem_identifiers_op o1] at hv; simp [identifiers] at hv; tauto
                · rw [mem_identifiers_op o1] at hv; simp [identifiers] at hv; tauto
              · exact both o1 h v hv
      · rename_i hd
        intro v hv
        by_cases hop : isOperator d = true
        · rw [mem_identifiers_op hop]
          exact both hop h v hv
        · cases hx : nnfAux n l with
          | none => exact absurd h (fun hm => pair (Or.inl hx) hm)
          | some a =>
            cases hy : nnfAux n r with
            | none => exact absurd h (fun hm => pair (Or.inr hy) hm)
            | some b =>
              rw [hx, hy] at h
              simp only [Option.some.injEq] at h
              subst h
              simp only [identifiers, List.mem_append] at hv ⊢
              rcases hv with (hv | hv) | hv
              · exact Or.inl (Or.inl hv)
              · exact Or.inl (Or.inr (ih _ _ hx v hv))
              · exact Or.inr (ih _ _ hy v hv)

theorem distributeAux_identifiers_m1 :
    ∀ (n : Nat) (a b t : Node), distributeAux n a b = some t →
      ∀ v ∈ identifiers t, v ∈ identifiers a ∨ v ∈ identifiers b := by
  intro n
  induction n with
  | zero => intro a b t h; simp [distributeAux] at h
  | succ n ih =>
    intro a b t h
    have o2 : isOperator '+' = true := by decide
    have o3 : isOperator '*' = true := by decide
    cases a with
    | null => simp [distributeAux] at h
    | mk ad al ar =>
      simp only [distributeAux] at h
      split at h
      · rename_i had; subst had
        cases hx : distributeAux n al (copyTree b) with
        | none => rw [hx] at h; simp at h
        | some x =>
          cases hy : distributeAux n ar b with
          | none => rw [hx, hy] at h; simp at h
          | some y =>
            rw [hx, hy] at h
            simp only [Option.some.injEq] at h
            subst h
            intro v hv
            rw [mem_identifiers_op o3] at hv ⊢
            rcases hv with hv | hv
            · have := ih _ _ _ hx v hv
              rw [copyTree_eq_m1] at this
              tauto
            · have := ih _ _ _ hy v hv
              tauto
      · cases b with
        | null => simp at h
        | mk bd bl br =>
          simp only at h
          split at h
          · rename_i hbd; subst hbd
            cases hx : distributeAux n (copyTree (.mk ad al ar)) bl with
            | none => rw [hx] at h; simp at h
            | some x =>
              cases hy : distributeAux n (.mk ad al ar) br with
              | none => rw [hx, hy] at h; simp at h
              | some y =>
                rw [hx, hy] at h
                simp only [Option.some.injEq] at h
                subst h
                intro v hv
                rw [mem_identifiers_op o3] at hv
                rw [mem_identifiers_op o3 bl br]
                rcases hv with hv | hv
                · have := ih _ _ _ hx v hv
                  rw [copyTree_eq_m1] at this
                  tauto
                · have := ih _ _ _ hy v hv
                  tauto
          · simp only [Option.some.injEq] at h
            subst h
            intro v hv
            exact (mem_identifiers_op o2 _ _ v).1 hv

theorem cnf_identifiers_m1 :
    ∀ (t t' : Node), cnf t = some t' → ∀ v ∈ identifiers t', v ∈ identifiers t := by
  intro t
  induction t with
  | null => intro t' h; simp [cnf] at h; subst h; simp
  | mk d l r ihl ihr =>
    intro t' h
    simp only [cnf] at h
    cases hl : cnf l with
    | none => rw [hl] at h; simp at h
    | some l' =>
      cases hr : cnf r with
      | none => rw [hl, hr] at h; simp at h
      | some r' =>
        rw [hl, hr] at h
        simp only at h
        intro v hv
        split at h
        · rename_i hd; subst hd
          rw [mem_identifiers_op (by decide)]
          rcases distributeAux_identifiers_m1 _ _ _ _ h v hv with hv | hv
          · exact Or.inl (ihl _ hl v hv)
          · exact Or.inr (ihr _ hr v hv)
        · simp only [Option.some.injEq] at h
          subst h
          simp only [identifiers, List.mem_append] at hv ⊢
          rcases hv with (hv | hv) | hv
          · exact Or.inl (Or.inl hv)
          · exact Or.inl (Or.inr (ihl _ hl v hv))
          · exact Or.inr (ihr _ hr v hv)

end Main1

namespace Main1

theorem splitStar_noStar (u : Str) (hu : ∀ c ∈ u, c ≠ '*') :
    ∀ (lvl : Int) (clause : Str) (clauses : List Str),
      splitStar u lvl clause clauses =
        if (clause ++ u).isEmpty then clauses else clauses ++ [clause ++ u] := by
  induction u with
  | nil => intro lvl clause clauses; simp [splitStar]
  | cons c u ih =>
    intro lvl clause clauses
    have hc : c ≠ '*' := hu c (List.mem_cons_self _ _)
    simp only [splitStar, hc, false_and, if_false]
    rw [ih (fun x hx => hu x (List.mem_cons_of_mem _ hx))]
    simp

/-- On a non-empty text without `*` the check is the clause test of the whole
text. -/
theorem check_cnf_valid_noStar (u : Str) (hne : u ≠ []) (hu : ∀ c ∈ u, c ≠ '*') :
    check_cnf_valid u = is_clause_true u := by
  have he : u.isEmpty = false := by cases u with
    | nil => exact absurd rfl hne
    | cons _ _ => rfl
  simp only [check_cnf_valid]
  rw [splitStar_noStar u hu]
  simp only [List.nil_append, he, Bool.false_eq_true, if_false, List.isEmpty_cons, Bool.false_and,
    List.filter_cons, List.filter_nil]
  cases is_clause_true u <;> simp

/-- The text of a clause tree over variable characters, with its parentheses
removed, is the text of its literals joined by `+`. -/
theorem parseTreeToInfix_clause {c : Node} (hc : IsClause c)
    (hv : ∀ v ∈ identifiers c, isVariableChar v = true) :
    (((parseTreeToInfix c).filter fun x => x != '(').filter fun x => x != ')').filter
        (fun x => x != ' ') = Main2.joinSep ['+'] ((litsOf c).map litText) ∧
      litsOf c ≠ [] ∧ (∀ l ∈ litsOf c, isVariableChar l.2 = true) ∧
      parseTreeToInfix c ≠ [] ∧ ∀ x ∈ parseTreeToInfix c, x ≠ '*' := by
  induction hc with
  | lit hl =>
    cases hl with
    | @pos d hd =>
      have hvd := hv d (by simp [identifiers, hd])
      obtain ⟨c0, c1, c2, c3⟩ := isVariableChar_spec hvd
      have hs := (not_isOperator_m1 hd).2.2.1
      refine ⟨by simp [parseTreeToInfix, hd, litsOf, litText, Main2.joinSep, c0, c1, c2],
        by simp [litsOf, hd], by simp [litsOf, hd, hvd], by simp [parseTreeToInfix, hd],
        by simp [parseTreeToInfix, hd, hs]⟩
    | @neg d hd =>
      have o1 : isOperator '~' = true := by decide
      have hvd := hv d (by simp [identifiers, hd, o1])
      obtain ⟨c0, c1, c2, c3⟩ := isVariableChar_spec hvd
      have hs := (not_isOperator_m1 hd).2.2.1
      refine ⟨by simp [parseTreeToInfix, hd, o1, litsOf, litText, Main2.joinSep, c0, c1, c2],
        by simp [litsOf, o1], by simp [litsOf, o1, hvd], by simp [parseTreeToInfix, o1],
        by simp [parseTreeToInfix, hd, o1, hs]⟩
  | @or l r _ _ ihl ihr =>
    have o2 : isOperator '+' = true := by decide
    obtain ⟨a1, a2, a3, a4, a5⟩ := ihl fun v h =>
      hv v ((mem_identifiers_op o2 l r v).2 (Or.inl h))
    obtain ⟨b1, b2, b3, b4, b5⟩ := ihr fun v h =>
      hv v ((mem_identifiers_op o2 l r v).2 (Or.inr h))
    have hl : litsOf (.mk '+' l r) = litsOf l ++ litsOf r := by simp [litsOf, o2]
    have ht : parseTreeToInfix (.mk '+' l r) =
        ['('] ++ parseTreeToInfix l ++ ['+'] ++ parseTreeToInfix r ++ [')'] := by
      simp [parseTreeToInfix, o2]
    refine ⟨?_, by simp [hl, a2], ?_, by simp [ht], ?_⟩
    · rw [ht, hl, List.map_append, Main2.joinSep_append _ _ _ (by simpa using a2)
        (by simpa using b2)]
      simp only [List.filter_append, a1, b1]
      simp
    · intro p hp
      rw [hl] at hp
      rcases List.mem_append.1 hp with hp | hp
      · exact a3 p hp
      · exact b3 p hp
    · intro x hx
      rw [ht] at hx
      simp only [List.mem_append, List.mem_singleton] at hx
      rcases hx with (((rfl | hx) | rfl) | hx) | rfl
      · decide
      · exact a5 x hx
      · decide
      · exact b5 x hx
      · decide

/-- The clause test on the text of a clause tree: true exactly when some
variable occurs negated and unnegated. -/
theorem is_clause_true_tree {c : Node} (hc : IsClause c)
    (hv : ∀ v ∈ identifiers c, isVariableChar v = true) :
    is_clause_true (parseTreeToInfix c) = true ↔
      ∃ x, (true, x) ∈ litsOf c ∧ (false, x) ∈ litsOf c := by
  obtain ⟨e, -, hl, -, -⟩ := parseTreeToInfix_clause hc hv
  have hs : splitPlus (Main2.joinSep ['+'] ((litsOf c).map litText)) [] [] =
      (litsOf c).map litText := by
    have := splitPlus_joinSep ((litsOf c).map litText) (by
      intro t ht
      obtain ⟨l, hm, rfl⟩ := List.mem_map.1 ht
      exact ⟨(litText_chars (hl l hm)).1, fun x hx => (litText_chars (hl l hm)).2 x hx |>.1⟩) []
    simpa using this
  simp only [is_clause_true]
  rw [e, hs]
  exact any_litText (litsOf c) hl

/-- A clause tree is true under an environment exactly when one of its literals
is, an unbound variable counting as false. -/
theorem clause_evaluate_m1 {c : Node} (hc : IsClause c) (env : Env) :
    evaluate c env = (litsOf c).any fun p => p.1 != extendFalse env p.2 := by
  induction hc with
  | lit hl =>
    cases hl with
    | @pos d hd =>
      simp only [evaluate, hd, litsOf, extendFalse]
      cases he : env d <;> simp [he]
    | @neg d hd =>
      have o1 : isOperator '~' = true := by decide
      rw [evaluate_neg_m1]
      simp only [evaluate, hd, litsOf, o1, extendFalse]
      cases he : env d with
      | none => simp [he]
      | some b => cases b <;> simp [he]
  | @or l r _ _ ihl ihr =>
    have o2 : isOperator '+' = true := by decide
    have hl : litsOf (.mk '+' l r) = litsOf l ++ litsOf r := by simp [litsOf, o2]
    rw [evaluate_or_m1, ihl, ihr, hl, List.any_append]

/-- When the generated CNF is a single clause, the check on its text is sound. -/
theorem check_single_clause_sound {F : Node} (wf : WellFormed F)
    (hv : ∀ v ∈ identifiers F, isVariableChar v = true) :
    ∃ N C, nnf (impl_free F) = some N ∧ cnf N = some C ∧
      (C.contains '*' = false → check_cnf_valid (parseTreeToInfix C) = true →
        ∀ env : Env, evaluate F env = true) := by
  obtain ⟨N, C, eN, eC, -, hC, hev⟩ := pipeline_spec_m1 wf
  refine ⟨N, C, eN, eC, fun hstar hcheck env => ?_⟩
  have hvC : ∀ v ∈ identifiers C, isVariableChar v = true := fun v h =>
    hv v ((identifiers_impl_free_m1 F v).1
      (nnfAux_identifiers_m1 _ _ _ eN v (cnf_identifiers_m1 _ _ eC v h)))
  have hcl : IsClause C := by
    cases hC with
    | clause h => exact h
    | and _ _ => simp [Node.contains] at hstar
  obtain ⟨-, -, -, hne, hns⟩ := parseTreeToInfix_clause hcl hvC
  rw [check_cnf_valid_noStar _ hne hns, is_clause_true_tree hcl hvC] at hcheck
  obtain ⟨x, hn, hp⟩ := hcheck
  rw [← hev env, clause_evaluate_m1 hcl env, List.any_eq_true]
  cases hx : extendFalse env x
  · exact ⟨_, hn, by simp [hx]⟩
  · exact ⟨_, hp, by simp [hx]⟩

end Main1

/-! ### Balanced parentheses -/

theorem parenLevel_append {α : Type} [DecidableEq α] (o c : α) :
    ∀ (a b : List α) (k : Nat),
      parenLevel o c (a ++ b) k = (parenLevel o c a k).bind (parenLevel o c b) := by
  intro a
  induction a with
  | nil => intro b k; rfl
  | cons x a ih =>
    intro b k
    simp only [List.cons_append, parenLevel]
    cases parenStep o c x k with
    | none => rfl
    | some k' => exact ih b k'

theorem parenLevel_plain {α : Type} [DecidableEq α] (o c : α) (u : List α)
    (hu : ∀ x ∈ u, x ≠ o ∧ x ≠ c) (k : Nat) : parenLevel o c u k = some k := by
  induction u with
  | nil => rfl
  | cons x u ih =>
    obtain ⟨h1, h2⟩ := hu x (List.mem_cons_self _ _)
    simp only [parenLevel, parenStep, h1, h2, if_false]
    exact ih fun y hy => hu y (List.mem_cons_of_mem _ hy)

/-- Reading the reversed sequence with the two parentheses exchanged runs the
count backwards. -/
theorem parenLevel_reverse {α : Type} [DecidableEq α] (o c : α) (hoc : o ≠ c) :
    ∀ (s : List α) (k m : Nat), parenLevel o c s k = some m →
      parenLevel o c (s.reverse.map fun x => if x = o then c else if x = c then o else x) m =
        some k := by
  intro s
  induction s with
  | nil => intro k m h; simp only [parenLevel, Option.some.injEq] at h; subst h; rfl
  | cons x s ih =>
    intro k m h
    simp only [parenLevel] at h
    cases hs : parenStep o c x k with
    | none => rw [hs] at h; simp at h
    | some k' =>
      rw [hs] at h
      simp only at h
      rw [List.reverse_cons, List.map_append, parenLevel_append, ih k' m h]
      simp only [Option.some_bind, List.map_cons, List.map_nil, parenLevel]
      have hco : c ≠ o := fun e => hoc e.symm
      by_cases h1 : x = o
      · subst h1
        simp only [parenStep, if_true, Option.some.injEq] at hs
        subst hs
        simp [parenStep, hco]
      · by_cases h2 : x = c
        · subst h2
          simp only [parenStep, h1, if_false, if_true] at hs
          by_cases hk : k = 0
          · simp [hk] at hs
          · simp only [hk, if_false, Option.some.injEq] at hs
            subst hs
            simp only [if_neg h1, if_true, parenStep]
            congr 1
            omega
        · simp only [parenStep, h1, h2, if_false, Option.some.injEq] at hs
          subst hs
          simp [parenStep, h1, h2]

theorem parenLevel_filter_space :
    ∀ (s : Str) (k : Nat),
      parenLevel '(' ')' (s.filter fun c => c != ' ') k = parenLevel '(' ')' s k := by
  intro s
  induction s with
  | nil => intro k; rfl
  | cons x s ih =>
    intro k
    by_cases hx : x = ' '
    · subst hx
      have : parenStep '(' ')' ' ' k = some k := by simp [parenStep]
      simp only [List.filter_cons, bne_self_eq_false, Bool.false_eq_true, if_false, parenLevel,
        this]
      exact ih k
    · have : (x != ' ') = true := by simpa using hx
      simp only [List.filter_cons, this, if_true, parenLevel]
      cases parenStep '(' ')' x k with
      | none => rfl
      | some k' => exact ih k'

namespace Main1

/-- Inside parentheses the loop of `isFullyEnclosed` reads a text whose closing
parentheses all have a partner to its end. -/
theorem isFullyEnclosedLoop_level (len : Nat) :
    ∀ (s rest : Str) (i k m : Nat), parenLevel '(' ')' s k = some m →
      isFullyEnclosedLoop len (s ++ rest) i ((k : Int) + 1) =
        isFullyEnclosedLoop len rest (i + s.length) ((m : Int) + 1) := by
  intro s
  induction s with
  | nil =>
    intro rest i k m h
    simp only [parenLevel, Option.some.injEq] at h
    subst h; rfl
  | cons x s ih =>
    intro rest i k m h
    simp only [parenLevel] at h
    cases hs : parenStep '(' ')' x k with
    | none => rw [hs] at h; simp at h
    | some k' =>
      rw [hs] at h
      simp only at h
      have e : i + (x :: s).length = (i + 1) + s.length := by simp; omega
      rw [e, ← ih rest (i + 1) k' m h, List.cons_append]
      by_cases h1 : x = '('
      · subst h1
        simp only [parenStep, if_true, Option.some.injEq] at hs
        subst hs
        rw [isFullyEnclosedLoop_open, if_neg (by omega)]
        push_cast
        rfl
      · by_cases h2 : x = ')'
        · subst h2
          simp only [parenStep, h1, if_false, if_true] at hs
          by_cases hk : k = 0
          · simp [hk] at hs
          · simp only [hk, if_false, Option.some.injEq] at hs
            subst hs
            rw [isFullyEnclosedLoop_close, if_neg (by omega)]
            congr 1
            omega
        · simp only [parenStep, h1, h2, if_false, Option.some.injEq] at hs
          subst hs
          rw [isFullyEnclosedLoop_plain h1 h2, if_neg (by omega)]

/-- A text with balanced parentheses, put in parentheses, is fully enclosed. -/
theorem isFullyEnclosed_balanced {s : Str} (h : parenLevel '(' ')' s 0 = some 0) :
    isFullyEnclosed ('(' :: s ++ [')']) = true := by
  have hl : ('(' :: s ++ [')']).length = s.length + 2 := by simp
  have hg : ¬(('(' :: s ++ [')']).length < 2 ∨ ('(' :: s ++ [')']).head? ≠ some '(' ∨
      ('(' :: s ++ [')']).getLast? ≠ some ')') := by
    have hlast : ('(' :: s ++ [')']).getLast? = some ')' := by
      rw [List.getLast?_append]; rfl
    rw [hl, hlast]
    simp
  rw [isFullyEnclosed, if_neg hg, hl]
  have es : '(' :: s ++ [')'] = '(' :: (s ++ [')']) := by simp
  have := isFullyEnclosedLoop_level (s.length + 2) s [')'] (0 + 1) 0 0 h
  simp only [Nat.cast_zero, zero_add] at this
  rw [es, isFullyEnclosedLoop_open, if_neg (by omega)]
  simp only [zero_add]
  rw [this, isFullyEnclosedLoop_close, if_neg (by omega)]
  simp [isFullyEnclosedLoop]

end Main1

namespace Main1

/-- The position found by the loop of `findMainOperator` is the one it started
with or an index of the text it has read. -/
theorem findMainOperatorLoop_range :
    ∀ (rest : Str) (i lvl pos prec : Int),
      findMainOperatorLoop rest i lvl pos prec = pos ∨
        (i ≤ findMainOperatorLoop rest i lvl pos prec ∧
          findMainOperatorLoop rest i lvl pos prec < i + rest.length) := by
  intro rest
  induction rest with
  | nil => intro i lvl pos prec; exact Or.inl rfl
  | cons c rest ih =>
    intro i lvl pos prec
    simp only [findMainOperatorLoop, List.length_cons]
    push_cast
    generalize (if c = '(' then lvl + 1 else if c = ')' then lvl - 1 else lvl) = L
    split_ifs
    · rcases ih (i + 1) L i (getPrecedence c) with h | h
      · rw [h]; exact Or.inr ⟨le_refl _, by omega⟩
      · exact Or.inr ⟨by omega, by omega⟩
    · rcases ih (i + 1) L pos prec with h | h
      · exact Or.inl h
      · exact Or.inr ⟨by omega, by omega⟩
    · rcases ih (i + 1) L pos prec with h | h
      · exact Or.inl h
      · exact Or.inr ⟨by omega, by omega⟩

theorem findMainOperator_range (s : Str) :
    findMainOperator s = -1 ∨ (0 ≤ findMainOperator s ∧ findMainOperator s < s.length) := by
  have := findMainOperatorLoop_range s 0 0 (-1) 99
  simpa [findMainOperator] using this

/-- The result of `infixToPrefix` does not depend on the fuel once the fuel
exceeds the length of the text without its spaces. -/
theorem infixToPrefixAux_fuel :
    ∀ (n m : Nat) (s : Str), (s.filter fun c => c != ' ').length < n →
      (s.filter fun c => c != ' ').length < m →
      infixToPrefixAux n s = infixToPrefixAux m s := by
  intro n
  induction n with
  | zero => intro m s h; omega
  | succ n ih =>
    intro m s hn hm
    cases m with
    | zero => omega
    | succ m =>
      have hle : ∀ u : Str, (u.filter fun c => c != ' ').length ≤ u.length :=
        fun u => List.length_filter_le _ _
      generalize ht : (s.filter fun c => c != ' ') = t at hn hm
      have step : ∀ u : Str, u.length < t.length → infixToPrefixAux n u = infixToPrefixAux m u :=
        fun u hu => ih m u (by have := hle u; omega) (by have := hle u; omega)
      simp only [infixToPrefixAux, ht]
      by_cases hl : t.length ≤ 1
      · simp only [hl, if_true]
      · simp only [hl, if_false]
        by_cases he : isFullyEnclosed t = true
        · simp only [he, if_true]
          exact step _ (by simp only [List.length_take, List.length_drop]; omega)
        · simp only [he, Bool.false_eq_true, if_false]
          by_cases hp : findMainOperator t = -1
          · simp only [hp, ne_eq, not_true_eq_false, if_false]
          · simp only [ne_eq, hp, not_false_eq_true, if_true]
            have hr := findMainOperator_range t
            rcases hr with hr | ⟨h0, h1⟩
            · exact absurd hr hp
            · have hq : (findMainOperator t).toNat < t.length := by omega
              rw [step (t.drop 1) (by simp only [List.length_drop]; omega),
                step (t.take (findMainOperator t).toNat)
                  (by simp only [List.length_take]; omega),
                step (t.drop ((findMainOperator t).toNat + 1))
                  (by simp only [List.length_drop]; omega)]

/-- With fuel beyond the length of the text `infixToPrefix` returns. -/
theorem infixToPrefixAux_total :
    ∀ (n : Nat) (s : Str), (s.filter fun c => c != ' ').length < n →
      ∃ r, infixToPrefixAux n s = some r := by
  intro n
  induction n with
  | zero => intro s h; omega
  | succ n ih =>
    intro s hn
    have hle : ∀ u : Str, (u.filter fun c => c != ' ').length ≤ u.length :=
      fun u => List.length_filter_le _ _
    generalize ht : (s.filter fun c => c != ' ') = t at hn
    have step : ∀ u : Str, u.length < t.length → ∃ r, infixToPrefixAux n u = some r :=
      fun u hu => ih u (by have := hle u; omega)
    simp only [infixToPrefixAux, ht]
    by_cases hl : t.length ≤ 1
    · simp only [hl, if_true]; exact ⟨_, rfl⟩
    · simp only [hl, if_false]
      by_cases he : isFullyEnclosed t = true
      · simp only [he, if_true]
        exact step _ (by simp only [List.length_take, List.length_drop]; omega)
      · simp only [he, Bool.false_eq_true, if_false]
        by_cases hp : findMainOperator t = -1
        · simp only [hp, ne_eq, not_true_eq_false, if_false]; exact ⟨_, rfl⟩
        · simp only [ne_eq, hp, not_false_eq_true, if_true]
          have hr := findMainOperator_range t
          rcases hr with hr | ⟨h0, h1⟩
          · exact absurd hr hp
          · have hq : (findMainOperator t).toNat < t.length := by omega
            obtain ⟨r1, e1⟩ := step (t.drop 1) (by simp only [List.length_drop]; omega)
            obtain ⟨r2, e2⟩ := step (t.take (findMainOperator t).toNat)
              (by simp only [List.length_take]; omega)
            obtain ⟨r3, e3⟩ := step (t.drop ((findMainOperator t).toNat + 1))
              (by simp only [List.length_drop]; omega)
            rw [e1, e2, e3]
            split_ifs <;> exact ⟨_, rfl⟩

theorem infixToPrefix_total (s : Str) : ∃ r, infixToPrefix s = some r :=
  infixToPrefixAux_total _ s (by have := List.length_filter_le (fun c => c != ' ') s; omega)

/-- Stripping an outer pair of parentheses around a text with balanced
parentheses does not change the result of `infixToPrefix`. -/
theorem infixToPrefix_strip (s : Str) (h : parenLevel '(' ')' s 0 = some 0) :
    infixToPrefix ('(' :: s ++ [')']) = infixToPrefix s := by
  have hf : (('(' :: s ++ [')']).filter fun c => c != ' ') =
      '(' :: (s.filter fun c => c != ' ') ++ [')'] := by
    simp [List.filter_cons, List.filter_append]
  have hb : parenLevel '(' ')' (s.filter fun c => c != ' ') 0 = some 0 := by
    rw [parenLevel_filter_space]; exact h
  have hlen : (s.filter fun c => c != ' ').length ≤ s.length := List.length_filter_le _ _
  have hstrip : (('(' :: (s.filter fun c => c != ' ') ++ [')']).drop 1).take
      (('(' :: (s.filter fun c => c != ' ') ++ [')']).length - 2) =
        s.filter fun c => c != ' ' := by
    simp
  have e1 : infixToPrefix ('(' :: s ++ [')']) =
      infixToPrefixAux (s.length + 2) (s.filter fun c => c != ' ') := by
    have hl2 : ('(' :: s ++ [')']).length + 1 = (s.length + 2) + 1 := by simp
    have hnl : ¬ ('(' :: (s.filter fun c => c != ' ') ++ [')']).length ≤ 1 := by simp
    rw [infixToPrefix, hl2]
    simp only [infixToPrefixAux, hf, hnl, if_false, isFullyEnclosed_balanced hb, if_true]
    rw [hstrip]
  have e2 : infixToPrefixAux (s.length + 2) (s.filter fun c => c != ' ') =
      infixToPrefixAux (s.length + 2) s := by
    simp only [infixToPrefixAux, List.filter_filter, Bool.and_self]
  rw [e1, e2, infixToPrefix]
  exact infixToPrefixAux_fuel _ _ s (by omega) (by omega)

end Main1

namespace Main2

theorem isIdentChar_not_paren {c : Char} (h : isIdentChar c = true) : c ≠ '(' ∧ c ≠ ')' := by
  constructor <;> rintro rfl <;> revert h <;> decide

theorem isspace_not_paren {c : Char} (h : isspace c = true) : c ≠ '(' ∧ c ≠ ')' := by
  constructor <;> rintro rfl <;> revert h <;> decide

/-- The parenthesis tokens of a text are its parenthesis characters. -/
theorem tokenize_parenLevel :
    ∀ (n : Nat) (s : Str), s.length ≤ n → ∀ k : Nat,
      parenLevel ['('] [')'] (tokenize s) k = parenLevel '(' ')' s k := by
  intro n
  induction n with
  | zero =>
    intro s hs k
    have : s = [] := List.length_eq_zero.1 (by omega)
    subst this; rfl
  | succ n ih =>
    intro s hs k
    cases s with
    | nil => rfl
    | cons c rest =>
      have hr : rest.length ≤ n := by simpa using hs
      by_cases hsp : isspace c = true
      · obtain ⟨h1, h2⟩ := isspace_not_paren hsp
        rw [tokenize_space hsp, ih rest hr]
        simp [parenLevel, parenStep, h1, h2]
      · by_cases hsy : isSymbol c = true
        · rw [tokenize_symbol hsy]
          simp only [parenLevel, parenStep, List.cons.injEq, and_true]
          cases (if c = '(' then some (k + 1)
              else if c = ')' then if k = 0 then none else some (k - 1) else some k) with
          | none => rfl
          | some k' => exact ih rest hr k'
        · have hid : isIdentChar c = true := by
            simp only [Bool.not_eq_true] at hsp hsy
            simp [isIdentChar, hsp, hsy]
          have hx : IsIdent (c :: rest.takeWhile isIdentChar) :=
            ⟨by simp, fun x hx => by
              rcases List.mem_cons.1 hx with rfl | hx
              · exact hid
              · exact mem_takeWhile_imp _ _ x hx⟩
          have es : c :: rest = (c :: rest.takeWhile isIdentChar) ++ rest.dropWhile isIdentChar := by
            rw [List.cons_append, takeWhile_append_dropWhile]
          have hplain : ∀ x ∈ c :: rest.takeWhile isIdentChar, x ≠ '(' ∧ x ≠ ')' :=
            fun y hy => isIdentChar_not_paren (hx.2 y hy)
          have ht1 : c :: rest.takeWhile isIdentChar ≠ ['('] := by
            intro e
            have := (List.cons.inj e).1
            exact (isIdentChar_not_paren hid).1 this
          have ht2 : c :: rest.takeWhile isIdentChar ≠ [')'] := by
            intro e
            have := (List.cons.inj e).1
            exact (isIdentChar_not_paren hid).2 this
          rw [es, tokenize_ident_append hx _ (breaks_dropWhile rest), parenLevel_append,
            parenLevel_plain _ _ _ hplain]
          simp only [parenLevel, parenStep, ht1, ht2, if_false, Option.some_bind]
          exact ih _ (le_trans (dropWhile_length_le _ _) hr) k

theorem popWhile_append_stop (cond : Str → Bool) {b : Str} (hb : cond b = false)
    (c : List Str) :
    ∀ (a : List Str) (out : Str),
      popWhile cond (a ++ b :: c) out =
        ((popWhile cond a out).1 ++ b :: c, (popWhile cond a out).2) := by
  intro a
  induction a with
  | nil => intro out; simp [popWhile, hb]
  | cons t a ih =>
    intro out
    simp only [List.cons_append, popWhile]
    cases cond t
    · simp
    · simp only [if_true]; exact ih _

theorem popWhile_count (cond : Str → Bool) (p : Str) (hp : ∀ t, cond t = true → t ≠ p) :
    ∀ (a : List Str) (out : Str), (popWhile cond a out).1.count p = a.count p := by
  intro a
  induction a with
  | nil => intro out; rfl
  | cons t a ih =>
    intro out
    simp only [popWhile]
    cases h : cond t
    · simp
    · simp only [if_true]
      rw [ih, List.count_cons_of_ne (Ne.symm (hp t h))]

theorem popWhile_head (cond : Str → Bool) :
    ∀ (a : List Str) (out : Str), ∀ t ∈ (popWhile cond a out).1.head?, cond t = false := by
  intro a
  induction a with
  | nil => intro out t ht; simp [popWhile] at ht
  | cons x a ih =>
    intro out t ht
    simp only [popWhile] at ht
    cases h : cond x
    · simp only [h, Bool.false_eq_true, if_false, List.head?_cons, Option.mem_def,
        Option.some.injEq] at ht
      rw [← ht]; exact h
    · simp only [h, if_true] at ht
      exact ih _ t ht

/-- One round of the loop of `infixToPrefix` does not look below an opening
parenthesis on the stack as long as every closing parenthesis it reads has a
partner above it. -/
theorem infixStep_bottom (base : List Str) (x : Str) (stk : List Str) (out : Str)
    (k k' : Nat) (hs : parenStep ['('] [')'] x k = some k') (hk : stk.count ['('] = k) :
    infixStep (stk ++ ['('] :: base, out) x =
        ((infixStep (stk, out) x).1 ++ ['('] :: base, (infixStep (stk, out) x).2) ∧
      (infixStep (stk, out) x).1.count ['('] = k' := by
  by_cases h1 : isOperand x = true
  · have hx1 : x ≠ ['('] := by rintro rfl; revert h1; decide
    have hx2 : x ≠ [')'] := by rintro rfl; revert h1; decide
    simp only [parenStep, hx1, hx2, if_false, Option.some.injEq] at hs
    subst hs
    simp [infixStep, h1, hk]
  · by_cases h2 : x = ['(']
    · subst h2
      simp only [parenStep, if_true, Option.some.injEq] at hs
      subst hs
      simp [infixStep, h1, hk]
    · by_cases h3 : x = [')']
      · subst h3
        have hne : ([')'] : Str) ≠ ['('] := by decide
        simp only [parenStep, hne, if_false, if_true] at hs
        by_cases hk0 : k = 0
        · simp [hk0] at hs
        · simp only [hk0, if_false, Option.some.injEq] at hs
          subst hs
          have hcond : (fun top : Str => top != ['(']) ['('] = false := by decide
          have hcnt := popWhile_count (fun top : Str => top != ['(']) ['(']
            (fun t ht => by simpa using ht) stk out
          have hhead := popWhile_head (fun top : Str => top != ['(']) stk out
          have hstop := popWhile_append_stop (fun top : Str => top != ['(']) hcond base stk out
          simp only [infixStep, h1, Bool.false_eq_true, if_false, hne, if_true]
          rw [hstop]
          cases hP : (popWhile (fun top : Str => top != ['(']) stk out).1 with
          | nil => rw [hP] at hcnt; simp at hcnt; omega
          | cons t tl =>
            rw [hP] at hcnt hhead
            have ht : t = ['('] := by
              have := hhead t (by simp)
              simpa using this
            subst ht
            simp only [List.count_cons_self] at hcnt
            exact ⟨by simp, by simp only [List.tail_cons]; omega⟩
      · simp only [parenStep, h2, h3, if_false, Option.some.injEq] at hs
        subst hs
        by_cases h4 : isOperator x = true
        · have hprec : 0 ≤ getPrecedence x := by
            simp only [isOperator, Bool.or_eq_true, beq_iff_eq] at h4
            rcases h4 with ((rfl | rfl) | rfl) | rfl <;> decide
          have hcond : (fun top : Str => decide (getPrecedence x < getPrecedence top)) ['('] =
              false := by
            have : getPrecedence ['('] = -1 := by decide
            simp only [this, decide_eq_false_iff_not, not_lt]
            omega
          have hcnt := popWhile_count
            (fun top : Str => decide (getPrecedence x < getPrecedence top)) ['(']
            (fun t ht => by
              rintro rfl
              rw [hcond] at ht
              exact Bool.false_ne_true ht) stk out
          have hstop := popWhile_append_stop
            (fun top : Str => decide (getPrecedence x < getPrecedence top)) hcond base stk out
          simp only [infixStep, h1, Bool.false_eq_true, if_false, h2, h3, h4, if_true, gt_iff_lt]
          rw [hstop]
          refine ⟨by simp, ?_⟩
          rw [List.count_cons_of_ne (Ne.symm h2), hcnt, hk]
        · simp [infixStep, h1, h2, h3, h4, hk]

theorem foldl_infixStep_bottom (base : List Str) :
    ∀ (R : List Str) (stk : List Str) (out : Str) (k m : Nat),
      parenLevel ['('] [')'] R k = some m → stk.count ['('] = k →
      R.foldl infixStep (stk ++ ['('] :: base, out) =
          ((R.foldl infixStep (stk, out)).1 ++ ['('] :: base,
            (R.foldl infixStep (stk, out)).2) ∧
        (R.foldl infixStep (stk, out)).1.count ['('] = m := by
  intro R
  induction R with
  | nil =>
    intro stk out k m h hk
    simp only [parenLevel, Option.some.injEq] at h
    subst h
    exact ⟨rfl, hk⟩
  | cons x R ih =>
    intro stk out k m h hk
    simp only [parenLevel] at h
    cases hs : parenStep ['('] [')'] x k with
    | none => rw [hs] at h; simp at h
    | some k' =>
      rw [hs] at h
      simp only at h
      obtain ⟨e, hc⟩ := infixStep_bottom base x stk out k k' hs hk
      simp only [List.foldl_cons]
      rw [e]
      exact ih _ _ k' m h hc

/-- Stripping an outer pair of parentheses around a text with balanced
parentheses does not change the result of `infixToPrefix`. -/
theorem infixToPrefix_strip_m2 (s : Str) (h : parenLevel '(' ')' s 0 = some 0) :
    infixToPrefix ('(' :: s ++ [')']) = infixToPrefix s := by
  have ht : tokenize ('(' :: s ++ [')']) = ['('] :: tokenize s ++ [[')']] := by
    have e : '(' :: s ++ [')'] = '(' :: (s ++ [')']) := by simp
    rw [e, tokenize_symbol (by decide), tokenize_append _ _ (breaks_cons (by decide) _),
      tokenize_symbol (by decide), tokenize_nil]
    rfl
  have hR := parenLevel_reverse (['('] : Str) [')'] (by decide) (tokenize s) 0 0
    (by rw [tokenize_parenLevel _ s (le_refl _)]; exact h)
  generalize hRd : ((tokenize s).reverse.map fun x : Str =>
    if x = ['('] then [')'] else if x = [')'] then ['('] else x) = R at hR
  have hrev : ((tokenize ('(' :: s ++ [')'])).reverse.map fun token : Str =>
      if token = ['('] then [')'] else if token = [')'] then ['('] else token) =
        ['('] :: R ++ [[')']] := by
    rw [ht, ← hRd]
    simp
  obtain ⟨e, hc⟩ := foldl_infixStep_bottom [] R [] [] 0 0 hR rfl
  have hnone : ∀ p ∈ (R.foldl infixStep ([], [])).1, (fun top : Str => top != ['(']) p = true := by
    intro p hp
    have : p ≠ ['('] := by
      rintro rfl
      have := List.count_pos_iff.2 hp
      omega
    simpa using this
  have hfold : (['('] :: R ++ [[')']]).foldl infixStep ([], []) =
      ([], (R.foldl infixStep ([], [])).2 ++ joinSp (R.foldl infixStep ([], [])).1) := by
    have hpush : infixStep ([], []) ['('] = ([] ++ ['('] :: [], []) := by decide
    rw [List.cons_append, List.foldl_cons, List.foldl_append, hpush, e]
    simp only [List.foldl_cons, List.foldl_nil]
    have hstep : ∀ (S : List Str) (O : Str), (∀ p ∈ S, (fun top : Str => top != ['(']) p = true) →
        infixStep (S ++ [['(']], O) [')'] = ([], O ++ joinSp S) := by
      intro S O hS
      have h1 : isOperand [')'] = false := by decide
      have h2 : ([')'] : Str) ≠ ['('] := by decide
      simp only [infixStep, h1, Bool.false_eq_true, if_false, h2, if_true]
      rw [popWhile_run _ S [['(']] O hS (by simp)]
      rfl
    exact hstep _ _ hnone
  have hplain : popWhile (fun _ => true) (R.foldl infixStep ([], [])).1
      (R.foldl infixStep ([], [])).2 =
        ([], (R.foldl infixStep ([], [])).2 ++ joinSp (R.foldl infixStep ([], [])).1) := by
    have := popWhile_run (fun _ => true) (R.foldl infixStep ([], [])).1 []
      (R.foldl infixStep ([], [])).2 (by simp) (by simp)
    simpa using this
  simp only [infixToPrefix]
  rw [hrev, hfold, hRd, hplain]
  simp [popWhile]

end Main2
namespace Main2

/-! #### Rendering at the least `int` -/

/-- A character that is neither in the separator nor in a piece is not in the
joined text. -/
theorem not_mem_joinSep {a : Char} {sep : Str} (hs : a ∉ sep) :
    ∀ segs : List Str, (∀ g ∈ segs, a ∉ g) → a ∉ joinSep sep segs
  | [], _ => by simp [joinSep]
  | [g], h => by simpa [joinSep] using h g (by simp)
  | g :: g' :: t, h => by
    rw [joinSep_cons_cons]
    simp only [List.mem_append, not_or]
    exact ⟨⟨h g (by simp), hs⟩,
      not_mem_joinSep hs (g' :: t) fun x hx => h x (List.mem_cons_of_mem _ hx)⟩

theorem literalText_no_minus (l : Int) : '-' ∉ literalText l := by
  have hd : ∀ n, '-' ∉ decimal n := fun n hm => (isDigit_ne ((decimal_spec n).2.1 _ hm)).1 rfl
  unfold literalText
  split <;> simp [hd]

/-- The described rendering never holds a minus sign. -/
theorem formulaText_no_minus (f : DimacsCNF) : '-' ∉ formulaText f := by
  unfold formulaText
  apply not_mem_joinSep (by decide)
  intro g hg
  obtain ⟨c, _, rfl⟩ := List.mem_map.1 hg
  simp only [List.mem_append, List.mem_singleton, not_or]
  refine ⟨⟨by decide, ?_⟩, by decide⟩
  apply not_mem_joinSep (by decide)
  intro t ht
  obtain ⟨l, _, rfl⟩ := List.mem_map.1 ht
  exact literalText_no_minus l

theorem literalsToInfix_minus (c : Clause) (h : (-2147483648 : Int) ∈ c) :
    '-' ∈ literalsToInfix c := by
  induction c with
  | nil => simp at h
  | cons l t ih =>
    simp only [literalsToInfix, List.mem_append]
    rcases List.mem_cons.1 h with e | e
    · left; left
      subst e
      decide
    · right; exact ih e

theorem clausesToInfix_minus (f : DimacsCNF) (c : Clause) (hc : c ∈ f)
    (h : (-2147483648 : Int) ∈ c) : '-' ∈ clausesToInfix f := by
  induction f with
  | nil => simp at hc
  | cons d t ih =>
    rcases List.mem_cons.1 hc with e | e
    · subst e
      have hne : c.isEmpty = false := by cases c <;> simp_all
      simp only [clausesToInfix, hne, Bool.false_eq_true, if_false, List.mem_append]
      left; left; left; right
      exact literalsToInfix_minus c h
    · simp only [clausesToInfix]
      split
      · exact ih e
      · simp only [List.mem_append]
        right; exact ih e

/-- The text `dimacsToInfix` writes for a formula that holds the literal
`INT_MIN` holds a minus sign. -/
theorem dimacsToInfix_minus (f : DimacsCNF) (c : Clause) (hc : c ∈ f)
    (h : (-2147483648 : Int) ∈ c) : '-' ∈ dimacsToInfix f := by
  have hne : f.isEmpty = false := by cases f <;> simp_all
  simp only [dimacsToInfix, hne, Bool.false_eq_true, if_false]
  exact clausesToInfix_minus f c hc h

/-- On the formulas of non-zero `int` literals with non-empty clauses,
`dimacsToInfix` writes the described rendering exactly when the literal
`INT_MIN` does not occur. -/
theorem dimacsToInfix_eq_iff (f : List (List Int)) (hne : ∀ c ∈ f, c ≠ [])
    (hl : ∀ c ∈ f, ∀ l ∈ c, l ≠ 0 ∧ isInt l) :
    dimacsToInfix f = formulaText f ↔ ∀ c ∈ f, (-2147483648 : Int) ∉ c := by
  constructor
  · intro e c hc hm
    have h1 := dimacsToInfix_minus f c hc hm
    rw [e] at h1
    exact formulaText_no_minus f h1
  · intro h
    apply dimacsToInfix_eq f hne
    intro c hc l hlc
    obtain ⟨h0, h1⟩ := hl c hc l hlc
    rw [isInt_iff] at h1
    have h2 : l ≠ -2147483648 := fun e => h c hc (e ▸ hlc)
    exact (isDimacsLiteral_iff l).2 ⟨h0, by omega, by omega⟩

end Main2
namespace Main1

/-! ### The CNF validity check on CNF texts written with blanks -/

/-- A text whose non-blank characters are pieces joined by `*` is itself
pieces joined by `*`, each with the non-blank characters of its piece. -/
theorem segs_of_filter :
    ∀ (ts : List Str), ts ≠ [] → ∀ s : Str,
      s.filter (fun c => c != ' ') = Main2.joinSep ['*'] ts →
      ∃ segs : List Str, s = Main2.joinSep ['*'] segs ∧
        segs.map (fun g => g.filter fun c => c != ' ') = ts := by
  intro ts
  induction ts with
  | nil => intro h; exact absurd rfl h
  | cons t r ih =>
    intro _ s hs
    cases r with
    | nil =>
      exact ⟨[s], by simp [Main2.joinSep], by simpa [Main2.joinSep] using hs⟩
    | cons t2 r2 =>
      rw [Main2.joinSep_cons_cons, List.append_assoc] at hs
      obtain ⟨s1, s2, rfl, h1, h2⟩ := List.filter_eq_append_iff.1 hs
      rw [List.singleton_append] at h2
      obtain ⟨l1, l2, rfl, hl1, _, h3⟩ := List.filter_eq_cons_iff.1 h2
      obtain ⟨segs, rfl, hsegs⟩ := ih (by simp) l2 h3
      have hne : segs ≠ [] := by
        intro e
        rw [e] at hsegs
        simp at hsegs
      have hl1' : l1.filter (fun c => c != ' ') = [] :=
        List.filter_eq_nil_iff.2 hl1
      refine ⟨(s1 ++ l1) :: segs, ?_, ?_⟩
      · rw [Main2.joinSep_cons_of_ne_nil _ _ hne]
        simp
      · simp only [List.map_cons, List.filter_append, h1, hl1', List.append_nil, hsegs]

/-- A piece without `*` is passed to the current clause as a whole; the
parenthesis level moves by the `(` of the piece less its `)`. -/
theorem splitStar_seg (u : Str) (hu : ∀ c ∈ u, c ≠ '*') :
    ∀ (rest : Str) (lvl : Int) (clause : Str) (clauses : List Str),
      splitStar (u ++ rest) lvl clause clauses =
        splitStar rest (lvl + (u.count '(' : Nat) - (u.count ')' : Nat)) (clause ++ u)
          clauses := by
  induction u with
  | nil => intro rest lvl clause clauses; simp
  | cons c u ih =>
    intro rest lvl clause clauses
    have hc : c ≠ '*' := hu c (List.mem_cons_self _ _)
    simp only [List.cons_append, splitStar, hc, false_and, if_false, List.append_eq]
    rw [ih (fun x hx => hu x (List.mem_cons_of_mem _ hx))]
    have e : clause ++ [c] ++ u = clause ++ c :: u := by simp
    rw [e]
    congr 1
    simp only [List.count_cons, beq_iff_eq]
    by_cases h1 : c = '('
    · subst h1
      have h2 : ('(' : Char) ≠ ')' := by decide
      simp only [if_true, h2, if_false]
      push_cast
      omega
    · by_cases h2 : c = ')'
      · subst h2
        simp only [h1, if_false, if_true]
        push_cast
        omega
      · simp only [h1, h2, if_false]
        push_cast
        omega

/-- Pieces without `*`, each non-empty and with as many `(` as `)`, are
returned by the cut at `*` one by one. -/
theorem splitStar_segs :
    ∀ (segs : List Str),
      (∀ g ∈ segs, g ≠ [] ∧ (∀ c ∈ g, c ≠ '*') ∧ g.count '(' = g.count ')') →
      ∀ clauses : List Str,
        splitStar (Main2.joinSep ['*'] segs) 0 [] clauses = clauses ++ segs := by
  intro segs
  induction segs with
  | nil => intro _ clauses; simp [Main2.joinSep, splitStar]
  | cons g t ih =>
    intro h clauses
    obtain ⟨hne, hc, hcount⟩ := h g (List.mem_cons_self _ _)
    have ht := fun x hx => h x (List.mem_cons_of_mem _ hx)
    have hemp : g.isEmpty = false := by cases g <;> simp_all
    have hlvl : (0 : Int) + (g.count '(' : Nat) - (g.count ')' : Nat) = 0 := by
      rw [hcount]; omega
    cases t with
    | nil =>
      have := splitStar_seg g hc [] 0 [] clauses
      simp only [List.append_nil, List.nil_append, hlvl] at this
      simp only [Main2.joinSep, this, splitStar, hemp, Bool.false_eq_true, if_false]
    | cons g2 t2 =>
      have h1 : ('*' : Char) ≠ '(' := by decide
      have h2 : ('*' : Char) ≠ ')' := by decide
      rw [Main2.joinSep_cons_cons, List.append_assoc, splitStar_seg g hc, hlvl]
      simp only [List.nil_append, List.singleton_append, splitStar, h1, h2, if_false, and_self,
        if_true, hemp, Bool.false_eq_true, List.append_eq]
      rw [ih ht]
      simp

/-- Blanks in a clause do not matter to `is_clause_true`. -/
theorem is_clause_true_filter (g : Str) :
    is_clause_true (g.filter fun c => c != ' ') = is_clause_true g := by
  have e : ((((g.filter fun c => c != ' ').filter fun c => c != '(').filter
        fun c => c != ')').filter fun c => c != ' ') =
      (((g.filter fun c => c != '(').filter fun c => c != ')').filter fun c => c != ' ') := by
    simp only [List.filter_filter]
    apply List.filter_congr
    intro x _
    cases (x != ' ') <;> simp
  simp only [is_clause_true, e]

theorem count_paren_clauseText {c : Bool × List (Bool × Char)}
    (h : ∀ l ∈ c.2, isVariableChar l.2 = true) :
    (clauseText c).count '(' = (clauseText c).count ')' := by
  have hb := clauseBody_chars h
  have c1 : (Main2.joinSep ['+'] (c.2.map litText)).count '(' = 0 :=
    List.count_eq_zero.2 fun hm => (hb _ hm).2.1 rfl
  have c2 : (Main2.joinSep ['+'] (c.2.map litText)).count ')' = 0 :=
    List.count_eq_zero.2 fun hm => (hb _ hm).2.2.1 rfl
  obtain ⟨p, lits⟩ := c
  cases p
  · simp only [clauseText, Bool.false_eq_true, if_false]
    rw [c1, c2]
  · simp only [clauseText, if_true, List.count_append, c1, c2]
    decide

/-- On a text whose non-blank characters form a CNF text, `check_cnf_valid` of
`main.cpp` answers true exactly when every clause holds a variable both
negated and unnegated. -/
theorem check_cnf_valid_blanks (cs : List (Bool × List (Bool × Char))) (hne : cs ≠ [])
    (h : ∀ c ∈ cs, c.2 ≠ [] ∧ ∀ l ∈ c.2, isVariableChar l.2 = true)
    (s : Str) (hs : s.filter (fun c => c != ' ') = cnfText cs) :
    check_cnf_valid s = true ↔ ∀ c ∈ cs, ∃ x, (true, x) ∈ c.2 ∧ (false, x) ∈ c.2 := by
  have hne' : cs.map clauseText ≠ [] := by
    cases cs with
    | nil => exact absurd rfl hne
    | cons _ _ => simp
  obtain ⟨segs, rfl, hsegs⟩ := segs_of_filter (cs.map clauseText) hne' s hs
  have hseg : ∀ g ∈ segs, ∃ c ∈ cs, (g.filter fun x => x != ' ') = clauseText c := by
    intro g hg
    have : (g.filter fun x => x != ' ') ∈ cs.map clauseText := by
      rw [← hsegs]; exact List.mem_map.2 ⟨g, hg, rfl⟩
    obtain ⟨c, hc, e⟩ := List.mem_map.1 this
    exact ⟨c, hc, e.symm⟩
  have hprop : ∀ g ∈ segs, g ≠ [] ∧ (∀ c ∈ g, c ≠ '*') ∧ g.count '(' = g.count ')' := by
    intro g hg
    obtain ⟨c, hc, e⟩ := hseg g hg
    refine ⟨?_, ?_, ?_⟩
    · intro e0
      rw [e0] at e
      exact clauseText_ne_nil (h c hc).1 (h c hc).2 e.symm
    · intro x hx e0
      subst e0
      have hm : '*' ∈ clauseText c := by
        rw [← e]; exact List.mem_filter.2 ⟨hx, by decide⟩
      obtain ⟨p, lits⟩ := c
      have hb := clauseBody_chars (h _ hc).2
      cases p
      · simp only [clauseText, Bool.false_eq_true, if_false] at hm
        exact (hb _ hm).1 rfl
      · simp only [clauseText, if_true, List.mem_append, List.mem_singleton] at hm
        rcases hm with (hm | hm) | hm
        · exact absurd hm (by decide)
        · exact (hb _ hm).1 rfl
        · exact absurd hm (by decide)
    · have e1 : g.count '(' = (clauseText c).count '(' := by
        rw [← e]; exact (List.count_filter (by decide)).symm
      have e2 : g.count ')' = (clauseText c).count ')' := by
        rw [← e]; exact (List.count_filter (by decide)).symm
      rw [e1, e2]
      exact count_paren_clauseText (h c hc).2
  have hsp := splitStar_segs segs hprop []
  rw [List.nil_append] at hsp
  have hemp : segs.isEmpty = false := by
    cases segs with
    | nil => simp at hsegs; exact absurd hsegs hne
    | cons _ _ => rfl
  simp only [check_cnf_valid, hsp, hemp, Bool.false_and, Bool.false_eq_true, if_false,
    beq_iff_eq, List.length_eq_zero, List.filter_eq_nil_iff, Bool.not_eq_true',
    Bool.not_eq_false]
  constructor
  · intro hall c hc
    have hm : clauseText c ∈ segs.map (fun g => g.filter fun x => x != ' ') := by
      rw [hsegs]; exact List.mem_map.2 ⟨c, hc, rfl⟩
    obtain ⟨g, hg, e⟩ := List.mem_map.1 hm
    have := hall g hg
    rw [← is_clause_true_filter, e] at this
    exact (is_clause_true_clauseText (h c hc).2).1 this
  · intro hall g hg
    obtain ⟨c, hc, e⟩ := hseg g hg
    rw [← is_clause_true_filter, e]
    exact (is_clause_true_clauseText (h c hc).2).2 (hall c hc)

end Main1
namespace Main2

/-! ### `buildParseTree` on every stream of tokens -/

/-- The tokens left by a reading are a final part of the tokens read from. -/
theorem readsTree_suffix {ts ts' : List Str} {T : Node} (h : ReadsTree ts T ts') :
    ∃ pre, ts = pre ++ ts' := by
  induction h with
  | exhausted => exact ⟨[], rfl⟩
  | @operand t ts _ => exact ⟨[t], rfl⟩
  | neg _ ih =>
    obtain ⟨pre, e⟩ := ih
    exact ⟨['~'] :: pre, by rw [e]; rfl⟩
  | @bin op _ _ _ _ _ _ _ _ _ ih1 ih2 =>
    obtain ⟨p1, e1⟩ := ih1
    obtain ⟨p2, e2⟩ := ih2
    exact ⟨op :: (p1 ++ p2), by rw [e1, e2]; simp⟩

theorem readsTree_length {ts ts' : List Str} {T : Node} (h : ReadsTree ts T ts') :
    ts'.length ≤ ts.length := by
  obtain ⟨pre, e⟩ := readsTree_suffix h
  rw [e, List.length_append]
  omega

theorem readsTree_total_aux :
    ∀ (n : Nat) (ts : List Str), ts.length ≤ n → ∃ T ts', ReadsTree ts T ts' := by
  intro n
  induction n with
  | zero =>
    intro ts h
    have : ts = [] := List.length_eq_zero.1 (by omega)
    subst this
    exact ⟨_, _, .exhausted⟩
  | succ n ih =>
    intro ts h
    cases ts with
    | nil => exact ⟨_, _, .exhausted⟩
    | cons t ts1 =>
      have h1len : ts1.length ≤ n := by simp at h; omega
      by_cases hop : isOperator t = true
      · obtain ⟨l, ts2, h1⟩ := ih ts1 h1len
        by_cases hneg : t = ['~']
        · subst hneg
          exact ⟨_, _, .neg h1⟩
        · have hlen := readsTree_length h1
          obtain ⟨r, ts3, h2⟩ := ih ts2 (by omega)
          exact ⟨_, _, .bin hop hneg h1 h2⟩
      · exact ⟨_, _, .operand (by simpa using hop)⟩

/-- Every stream of tokens is read as some tree. -/
theorem readsTree_total (ts : List Str) : ∃ T ts', ReadsTree ts T ts' :=
  readsTree_total_aux ts.length ts (Nat.le_refl _)

/-- A stream of tokens is read in one way only. -/
theorem readsTree_unique {ts ts1 : List Str} {T1 : Node} (h1 : ReadsTree ts T1 ts1) :
    ∀ {T2 : Node} {ts2 : List Str}, ReadsTree ts T2 ts2 → T1 = T2 ∧ ts1 = ts2 := by
  induction h1 with
  | exhausted =>
    intro T2 ts2 h2
    cases h2
    exact ⟨rfl, rfl⟩
  | operand hop =>
    intro T2 ts2 h2
    cases h2 with
    | operand _ => exact ⟨rfl, rfl⟩
    | neg _ => exact absurd hop (by decide)
    | bin hop2 _ _ _ => rw [hop] at hop2; exact absurd hop2 (by decide)
  | neg _ ih =>
    intro T2 ts2 h2
    cases h2 with
    | operand hop => exact absurd hop (by decide)
    | neg h =>
      obtain ⟨e1, e2⟩ := ih h
      subst e1; subst e2
      exact ⟨rfl, rfl⟩
    | bin _ hneg _ _ => exact absurd rfl hneg
  | bin hop hneg _ _ ih1 ih2 =>
    intro T2 ts2 h2
    cases h2 with
    | operand hop2 => rw [hop] at hop2; exact absurd hop2 (by decide)
    | neg _ => exact absurd rfl hneg
    | bin _ _ ha hb =>
      obtain ⟨e1, e2⟩ := ih1 ha
      subst e1; subst e2
      obtain ⟨e3, e4⟩ := ih2 hb
      subst e3; subst e4
      exact ⟨rfl, rfl⟩

/-- The text of a non-empty token list is its first token and a rest that is
empty or starts with the separating space. -/
theorem joinSep_space_cons (t : Str) (ts : List Str) :
    ∃ sp : Str, (sp = [] ∨ sp = [' ']) ∧
      joinSep [' '] (t :: ts) = t ++ (sp ++ joinSep [' '] ts) ∧
      (sp ++ joinSep [' '] ts = [] ∨ (sp ++ joinSep [' '] ts).head? = some ' ') := by
  cases ts with
  | nil => exact ⟨[], Or.inl rfl, by simp [joinSep], Or.inl (by simp [joinSep])⟩
  | cons a b =>
    exact ⟨[' '], Or.inr rfl, by rw [joinSep_cons_cons]; simp, Or.inr (by simp)⟩

/-- The helper of `buildParseTree` reads the text of a token list as the tree
that is read from the tokens. -/
theorem buildParseTree_helperAux_reads {ts ts' : List Str} {T : Node}
    (h : ReadsTree ts T ts') :
    (∀ t ∈ ts, t ≠ [] ∧ ∀ c ∈ t, isspace c = false) →
    ∀ (n : Nat) (sp : Str), ts.length < n → (sp = [] ∨ sp = [' ']) →
      ∃ sp' : Str, (sp' = [] ∨ sp' = [' ']) ∧
        buildParseTree_helperAux n (sp ++ joinSep [' '] ts) =
          some (T, sp' ++ joinSep [' '] ts') := by
  induction h with
  | exhausted =>
    intro _ n sp hn hsp
    obtain ⟨m, rfl⟩ : ∃ m, n = m + 1 := ⟨n - 1, by omega⟩
    refine ⟨[], Or.inl rfl, ?_⟩
    rcases hsp with rfl | rfl
    · simp [joinSep, buildParseTree_helperAux]
    · have hg : getNextToken [' '] = ([], []) := by decide
      simp [joinSep, buildParseTree_helperAux, hg]
  | @operand t ts1 hop =>
    intro hw n sp hn hsp
    obtain ⟨m, rfl⟩ : ∃ m, n = m + 1 := ⟨n - 1, by simp at hn; omega⟩
    obtain ⟨hne, hns⟩ := hw t (List.mem_cons_self _ _)
    obtain ⟨sp1, hsp1, e, hrest⟩ := joinSep_space_cons t ts1
    have hg := getNextToken_token sp t (sp1 ++ joinSep [' '] ts1) hsp hne hns hrest
    have hemp : (sp ++ t ++ (sp1 ++ joinSep [' '] ts1)).isEmpty = false := by
      cases sp <;> cases t <;> simp_all
    have htne : t.isEmpty = false := by cases t <;> simp_all
    refine ⟨sp1, hsp1, ?_⟩
    rw [e, ← List.append_assoc]
    simp only [buildParseTree_helperAux, hemp, hg, htne, hop, Bool.false_eq_true, if_false]
  | @neg ts1 ts2 l _ ih =>
    intro hw n sp hn hsp
    obtain ⟨m, rfl⟩ : ∃ m, n = m + 1 := ⟨n - 1, by simp at hn; omega⟩
    have hm : ts1.length < m := by simp at hn; omega
    obtain ⟨sp1, hsp1, e, hrest⟩ := joinSep_space_cons ['~'] ts1
    have hg := getNextToken_token sp ['~'] (sp1 ++ joinSep [' '] ts1) hsp (by simp)
      (by decide) hrest
    have hemp : (sp ++ ['~'] ++ (sp1 ++ joinSep [' '] ts1)).isEmpty = false := by
      cases sp <;> simp
    obtain ⟨sp2, hsp2, hc⟩ := ih (fun t ht => hw t (List.mem_cons_of_mem _ ht)) m sp1 hm hsp1
    have hop : isOperator ['~'] = true := by decide
    refine ⟨sp2, hsp2, ?_⟩
    rw [e, ← List.append_assoc]
    simp only [buildParseTree_helperAux, hemp, hg, hop, hc]
    simp
  | @bin op ts1 ts2 ts3 l r hop hneg h1 _ ih1 ih2 =>
    intro hw n sp hn hsp
    obtain ⟨m, rfl⟩ : ∃ m, n = m + 1 := ⟨n - 1, by simp at hn; omega⟩
    have hm : ts1.length < m := by simp at hn; omega
    obtain ⟨hne, hns⟩ := hw op (List.mem_cons_self _ _)
    obtain ⟨sp1, hsp1, e, hrest⟩ := joinSep_space_cons op ts1
    have hg := getNextToken_token sp op (sp1 ++ joinSep [' '] ts1) hsp hne hns hrest
    have hemp : (sp ++ op ++ (sp1 ++ joinSep [' '] ts1)).isEmpty = false := by
      cases sp <;> cases op <;> simp_all
    have hopne : op.isEmpty = false := by cases op <;> simp_all
    have hw1 : ∀ t ∈ ts1, t ≠ [] ∧ ∀ c ∈ t, isspace c = false :=
      fun t ht => hw t (List.mem_cons_of_mem _ ht)
    obtain ⟨pre, epre⟩ := readsTree_suffix h1
    have hw2 : ∀ t ∈ ts2, t ≠ [] ∧ ∀ c ∈ t, isspace c = false :=
      fun t ht => hw1 t (by rw [epre]; exact List.mem_append.2 (Or.inr ht))
    have hlen := readsTree_length h1
    obtain ⟨sp2, hsp2, hc1⟩ := ih1 hw1 m sp1 hm hsp1
    obtain ⟨sp3, hsp3, hc2⟩ := ih2 hw2 m sp2 (by omega) hsp2
    refine ⟨sp3, hsp3, ?_⟩
    rw [e, ← List.append_assoc]
    simp only [buildParseTree_helperAux, hemp, hg, hopne, hop, hc1, hc2, ne_eq, hneg,
      not_false_eq_true, if_true, Bool.false_eq_true, if_false]

/-- On the text of any token list `buildParseTree` returns the tree that is
read from the tokens, with null for every child whose turn comes when the
stream is exhausted. -/
theorem buildParseTree_reads {ts ts' : List Str} {T : Node}
    (hw : ∀ t ∈ ts, t ≠ [] ∧ ∀ c ∈ t, isspace c = false) (h : ReadsTree ts T ts') :
    buildParseTree (joinSep [' '] ts) = some T := by
  cases ts with
  | nil =>
    cases h
    rfl
  | cons t ts1 =>
    have hlen := length_le_joinSep [' '] (t :: ts1) fun g hg => (hw g hg).1
    have hemp : (joinSep [' '] (t :: ts1)).isEmpty = false := by
      cases hj : joinSep [' '] (t :: ts1) with
      | nil => rw [hj] at hlen; simp at hlen
      | cons _ _ => rfl
    obtain ⟨sp', _, hc⟩ := buildParseTree_helperAux_reads h hw
      ((joinSep [' '] (t :: ts1)).length + 1) [] (by omega) (Or.inl rfl)
    rw [List.nil_append] at hc
    simp only [buildParseTree, hemp, Bool.false_eq_true, if_false, hc, Option.map_some']

end Main2

namespace Main2

/-! ### `buildParseTree` on a truncated prefix expression -/

theorem cutTree_snd : ∀ (T : Node) (k : Nat), (cutTree k T).2 = k - (preorder T).length := by
  intro T
  induction T with
  | null => intro k; cases k <;> simp [cutTree, preorder]
  | mk d l r ihl ihr =>
    intro k
    cases k with
    | zero => simp [cutTree]
    | succ k =>
      simp only [cutTree, ihr, ihl, preorder, List.length_cons, List.length_append]
      omega

theorem cutTree_full : ∀ (T : Node) (k : Nat), (preorder T).length ≤ k →
    (cutTree k T).1 = T := by
  intro T
  induction T with
  | null => intro k _; cases k <;> simp [cutTree]
  | mk d l r ihl ihr =>
    intro k hk
    cases k with
    | zero => simp [preorder] at hk
    | succ k =>
      simp only [preorder, List.length_cons, List.length_append] at hk
      simp only [cutTree, cutTree_snd]
      rw [ihl k (by omega), ihr (k - (preorder l).length) (by omega)]

theorem not_isOperator_of_isOperand {d : Str} (hd : isOperand d = true) :
    isOperator d = false := by
  simp only [isOperand, Bool.and_eq_true, Bool.not_eq_true'] at hd
  exact hd.1.1.2

theorem isOperator_of_bin {d : Str} (hd : d = ['+'] ∨ d = ['*'] ∨ d = ['>']) :
    isOperator d = true ∧ d ≠ ['~'] := by
  rcases hd with rfl | rfl | rfl <;> exact ⟨by decide, by decide⟩

/-- The pre-order tokens of a well-formed tree are read as that tree, and what
follows them is left. -/
theorem readsTree_preorder {T : Node} (wf : WellFormed T) :
    ∀ rest : List Str, ReadsTree (preorder T ++ rest) T rest := by
  induction wf with
  | leaf hd =>
    intro rest
    simpa [preorder] using ReadsTree.operand (not_isOperator_of_isOperand hd)
  | neg _ ih =>
    intro rest
    have := ReadsTree.neg (ih rest)
    simpa [preorder] using this
  | bin hd _ _ ihl ihr =>
    intro rest
    have := ReadsTree.bin (isOperator_of_bin hd).1 (isOperator_of_bin hd).2
      (ihl (preorder _ ++ rest)) (ihr rest)
    simpa [preorder] using this

/-- The first `k` pre-order tokens of a well-formed tree are read as the tree
cut after its first `k` nodes, and nothing is left. -/
theorem readsTree_cut {T : Node} (wf : WellFormed T) :
    ∀ k : Nat, ReadsTree ((preorder T).take k) (cutTree k T).1 [] := by
  induction wf with
  | @leaf d hd =>
    intro k
    cases k with
    | zero => simpa [cutTree] using ReadsTree.exhausted
    | succ k =>
      simpa [preorder, cutTree] using
        (ReadsTree.operand (not_isOperator_of_isOperand hd) : ReadsTree [d] _ [])
  | @neg c _ ih =>
    intro k
    cases k with
    | zero => simpa [cutTree] using ReadsTree.exhausted
    | succ k =>
      have := ReadsTree.neg (ih k)
      have e : (cutTree (cutTree k c).2 Node.null).1 = Node.null := by
        cases (cutTree k c).2 <;> rfl
      simpa [preorder, cutTree, e] using this
  | @bin d l r hd wl wr ihl ihr =>
    intro k
    cases k with
    | zero => simpa [cutTree] using ReadsTree.exhausted
    | succ k =>
      obtain ⟨hop, hneg⟩ := isOperator_of_bin hd
      have key : ReadsTree ((preorder l ++ preorder r).take k) (cutTree k l).1
            ((preorder r).take (k - (preorder l).length)) ∧
          ReadsTree ((preorder r).take (k - (preorder l).length))
            (cutTree (k - (preorder l).length) r).1 [] := by
        refine ⟨?_, ihr _⟩
        rw [List.take_append_eq_append_take]
        by_cases hk : (preorder l).length ≤ k
        · rw [List.take_of_length_le hk, cutTree_full l k hk]
          exact readsTree_preorder wl _
        · have h0 : k - (preorder l).length = 0 := by omega
          rw [h0, List.take_zero, List.append_nil]
          exact ihl k
      have := ReadsTree.bin hop hneg key.1 key.2
      simpa [preorder, cutTree, cutTree_snd] using this

theorem preorder_words {T : Node} (wf : WellFormed T)
    (hid : ∀ v ∈ identifiers T, IsIdent v) :
    ∀ t ∈ preorder T, t ≠ [] ∧ ∀ c ∈ t, isspace c = false := by
  induction wf with
  | @leaf d hd =>
    intro t ht
    have e : t = d := by simpa [preorder] using ht
    have hi : IsIdent d := hid d (by simp [identifiers_leaf hd])
    rw [e]
    exact ⟨hi.1, isIdent_no_space hi⟩
  | @neg c _ ih =>
    intro t ht
    have hc := ih fun v hv => hid v (by rw [identifiers_neg]; exact List.mem_append.2 (Or.inl hv))
    simp only [preorder, List.append_nil, List.mem_cons] at ht
    rcases ht with rfl | ht
    · exact ⟨by simp, by decide⟩
    · exact hc t ht
  | @bin d l r hd _ _ ihl ihr =>
    intro t ht
    have hl := ihl fun v hv =>
      hid v (by rw [identifiers_bin hd]; exact List.mem_append.2 (Or.inl hv))
    have hr := ihr fun v hv =>
      hid v (by rw [identifiers_bin hd]; exact List.mem_append.2 (Or.inr hv))
    simp only [preorder, List.mem_cons, List.mem_append] at ht
    rcases ht with rfl | ht | ht
    · rcases hd with rfl | rfl | rfl <;> exact ⟨by simp, by decide⟩
    · exact hl t ht
    · exact hr t ht

/-- From the first `k` tokens of the prefix text of a well-formed tree
`buildParseTree` builds the tree cut after its first `k` nodes: the children
the tokens do not reach are null. -/
theorem buildParseTree_cut {T : Node} (wf : WellFormed T)
    (hid : ∀ v ∈ identifiers T, IsIdent v) (k : Nat) :
    buildParseTree (joinSep [' '] ((preorder T).take k)) = some (cutTree k T).1 :=
  buildParseTree_reads
    (fun t ht => preorder_words wf hid t (List.mem_of_mem_take ht)) (readsTree_cut wf k)

end Main2
namespace Main1

/-! ### `buildParseTree` on every prefix text -/

theorem readsTree_suffix_m1 {p p' : Str} {T : Node} (h : ReadsTree p T p') :
    ∃ pre, p = pre ++ p' := by
  induction h with
  | exhausted => exact ⟨[], rfl⟩
  | @operand t ts _ => exact ⟨[t], rfl⟩
  | neg _ ih =>
    obtain ⟨pre, e⟩ := ih
    exact ⟨'~' :: pre, by rw [e]; rfl⟩
  | @bin op _ _ _ _ _ _ _ _ _ ih1 ih2 =>
    obtain ⟨p1, e1⟩ := ih1
    obtain ⟨p2, e2⟩ := ih2
    exact ⟨op :: (p1 ++ p2), by rw [e1, e2]; simp⟩

theorem readsTree_length_m1 {p p' : Str} {T : Node} (h : ReadsTree p T p') :
    p'.length ≤ p.length := by
  obtain ⟨pre, e⟩ := readsTree_suffix_m1 h
  rw [e, List.length_append]
  omega

theorem readsTree_total_aux_m1 :
    ∀ (n : Nat) (p : Str), p.length ≤ n → ∃ T p', ReadsTree p T p' := by
  intro n
  induction n with
  | zero =>
    intro p h
    have : p = [] := List.length_eq_zero.1 (by omega)
    subst this
    exact ⟨_, _, .exhausted⟩
  | succ n ih =>
    intro p h
    cases p with
    | nil => exact ⟨_, _, .exhausted⟩
    | cons t p1 =>
      have h1len : p1.length ≤ n := by simp at h; omega
      by_cases hop : isOperator t = true
      · obtain ⟨l, p2, h1⟩ := ih p1 h1len
        by_cases hneg : t = '~'
        · subst hneg
          exact ⟨_, _, .neg h1⟩
        · have hlen := readsTree_length_m1 h1
          obtain ⟨r, p3, h2⟩ := ih p2 (by omega)
          exact ⟨_, _, .bin hop hneg h1 h2⟩
      · exact ⟨_, _, .operand (by simpa using hop)⟩

/-- Every prefix text is read as some tree. -/
theorem readsTree_total_m1 (p : Str) : ∃ T p', ReadsTree p T p' :=
  readsTree_total_aux_m1 p.length p (Nat.le_refl _)

/-- A prefix text is read in one way only. -/
theorem readsTree_unique_m1 {p p1 : Str} {T1 : Node} (h1 : ReadsTree p T1 p1) :
    ∀ {T2 : Node} {p2 : Str}, ReadsTree p T2 p2 → T1 = T2 ∧ p1 = p2 := by
  induction h1 with
  | exhausted =>
    intro T2 p2 h2
    cases h2
    exact ⟨rfl, rfl⟩
  | operand hop =>
    intro T2 p2 h2
    cases h2 with
    | operand _ => exact ⟨rfl, rfl⟩
    | neg _ => exact absurd hop (by decide)
    | bin hop2 _ _ _ => rw [hop] at hop2; exact absurd hop2 (by decide)
  | neg _ ih =>
    intro T2 p2 h2
    cases h2 with
    | operand hop => exact absurd hop (by decide)
    | neg h =>
      obtain ⟨e1, e2⟩ := ih h
      subst e1; subst e2
      exact ⟨rfl, rfl⟩
    | bin _ hneg _ _ => exact absurd rfl hneg
  | bin hop hneg _ _ ih1 ih2 =>
    intro T2 p2 h2
    cases h2 with
    | operand hop2 => rw [hop] at hop2; exact absurd hop2 (by decide)
    | neg _ => exact absurd rfl hneg
    | bin _ _ ha hb =>
      obtain ⟨e1, e2⟩ := ih1 ha
      subst e1; subst e2
      obtain ⟨e3, e4⟩ := ih2 hb
      subst e3; subst e4
      exact ⟨rfl, rfl⟩

/-- The recursive builder reads a prefix text as the tree that is read from its
characters. -/
theorem buildParseTreeRecursive_reads {p p' : Str} {T : Node} (h : ReadsTree p T p') :
    ∀ n : Nat, p.length < n → buildParseTreeRecursive n p = some (T, p') := by
  induction h with
  | exhausted =>
    intro n hn
    obtain ⟨m, rfl⟩ : ∃ m, n = m + 1 := ⟨n - 1, by omega⟩
    rfl
  | operand hop =>
    intro n hn
    obtain ⟨m, rfl⟩ : ∃ m, n = m + 1 := ⟨n - 1, by omega⟩
    simp only [buildParseTreeRecursive, hop, Bool.false_eq_true, if_false]
  | neg _ ih =>
    intro n hn
    obtain ⟨m, rfl⟩ : ∃ m, n = m + 1 := ⟨n - 1, by omega⟩
    have hop : isOperator '~' = true := by decide
    simp only [buildParseTreeRecursive, hop, if_true, ih m (by simp at hn; omega)]
  | bin hop hneg h1 _ ih1 ih2 =>
    intro n hn
    obtain ⟨m, rfl⟩ : ∃ m, n = m + 1 := ⟨n - 1, by omega⟩
    have hlen := readsTree_length_m1 h1
    simp only [buildParseTreeRecursive, hop, hneg, if_true, if_false,
      ih1 m (by simp at hn; omega), ih2 m (by simp at hn; omega)]

/-- On every prefix text `buildParseTree` returns the tree that is read from
its characters, with null for every child whose turn comes when the text is
exhausted. -/
theorem buildParseTree_reads_m1 {p p' : Str} {T : Node} (h : ReadsTree p T p') :
    buildParseTree p = some T := by
  cases p with
  | nil =>
    cases h
    rfl
  | cons t p1 =>
    simp only [buildParseTree, List.isEmpty_cons, Bool.false_eq_true, if_false,
      buildParseTreeRecursive_reads h _ (Nat.lt_succ_self _), Option.map_some']

/-! ### `buildParseTree` on a truncated prefix expression -/

theorem cutTree_snd_m1 : ∀ (T : Node) (k : Nat),
    (cutTree k T).2 = k - (preorder T).length := by
  intro T
  induction T with
  | null => intro k; cases k <;> simp [cutTree, preorder]
  | mk d l r ihl ihr =>
    intro k
    cases k with
    | zero => simp [cutTree]
    | succ k =>
      simp only [cutTree, ihr, ihl, preorder, List.length_cons, List.length_append]
      omega

theorem cutTree_full_m1 : ∀ (T : Node) (k : Nat), (preorder T).length ≤ k →
    (cutTree k T).1 = T := by
  intro T
  induction T with
  | null => intro k _; cases k <;> simp [cutTree]
  | mk d l r ihl ihr =>
    intro k hk
    cases k with
    | zero => simp [preorder] at hk
    | succ k =>
      simp only [preorder, List.length_cons, List.length_append] at hk
      simp only [cutTree, cutTree_snd_m1]
      rw [ihl k (by omega), ihr (k - (preorder l).length) (by omega)]

theorem isOperator_of_bin_m1 {d : Char} (hd : d = '+' ∨ d = '*' ∨ d = '>') :
    isOperator d = true ∧ d ≠ '~' := by
  rcases hd with rfl | rfl | rfl <;> exact ⟨by decide, by decide⟩

/-- The pre-order characters of a well-formed tree are read as that tree, and
what follows them is left. -/
theorem readsTree_preorder_m1 {T : Node} (wf : WellFormed T) :
    ∀ rest : Str, ReadsTree (preorder T ++ rest) T rest := by
  induction wf with
  | leaf hd =>
    intro rest
    simpa [preorder] using ReadsTree.operand hd
  | neg _ ih =>
    intro rest
    have := ReadsTree.neg (ih rest)
    simpa [preorder] using this
  | bin hd _ _ ihl ihr =>
    intro rest
    have := ReadsTree.bin (isOperator_of_bin_m1 hd).1 (isOperator_of_bin_m1 hd).2
      (ihl (preorder _ ++ rest)) (ihr rest)
    simpa [preorder] using this

/-- The first `k` pre-order characters of a well-formed tree are read as the
tree cut after its first `k` nodes, and nothing is left. -/
theorem readsTree_cut_m1 {T : Node} (wf : WellFormed T) :
    ∀ k : Nat, ReadsTree ((preorder T).take k) (cutTree k T).1 [] := by
  induction wf with
  | @leaf d hd =>
    intro k
    cases k with
    | zero => simpa [cutTree] using ReadsTree.exhausted
    | succ k =>
      simpa [preorder, cutTree] using (ReadsTree.operand hd : ReadsTree [d] _ [])
  | @neg c _ ih =>
    intro k
    cases k with
    | zero => simpa [cutTree] using ReadsTree.exhausted
    | succ k =>
      have := ReadsTree.neg (ih k)
      simpa [preorder, cutTree] using this
  | @bin d l r hd wl wr ihl ihr =>
    intro k
    cases k with
    | zero => simpa [cutTree] using ReadsTree.exhausted
    | succ k =>
      obtain ⟨hop, hneg⟩ := isOperator_of_bin_m1 hd
      have key : ReadsTree ((preorder l ++ preorder r).take k) (cutTree k l).1
            ((preorder r).take (k - (preorder l).length)) ∧
          ReadsTree ((preorder r).take (k - (preorder l).length))
            (cutTree (k - (preorder l).length) r).1 [] := by
        refine ⟨?_, ihr _⟩
        rw [List.take_append_eq_append_take]
        by_cases hk : (preorder l).length ≤ k
        · rw [List.take_of_length_le hk, cutTree_full_m1 l k hk]
          exact readsTree_preorder_m1 wl _
        · have h0 : k - (preorder l).length = 0 := by omega
          rw [h0, List.take_zero, List.append_nil]
          exact ihl k
      have := ReadsTree.bin hop hneg key.1 key.2
      simpa [preorder, cutTree, cutTree_snd_m1] using this

/-- From the first `k` characters of the prefix text of a well-formed tree
`buildParseTree` builds the tree cut after its first `k` nodes: the children
the text does not reach are null. -/
theorem buildParseTree_cut_m1 {T : Node} (wf : WellFormed T) (k : Nat) :
    buildParseTree ((preorder T).take k) = some (cutTree k T).1 :=
  buildParseTree_reads_m1 (readsTree_cut_m1 wf k)

end Main1

/-! ## The claims -/

/-- C1. In both variants, for every well-formed expression tree `F` and every
environment `env` that binds all identifiers of `F`, the passes `impl_free`,
`nnf`, `cnf` run to completion and `evaluate(cnf(nnf(impl_free(F))), env)`
equals `evaluate(F, env)`. -/
theorem C1_cnf_pipeline_preserves_evaluate :
    (∀ (F : Main2.Node) (env : Main2.Env), Main2.WellFormed F → Main2.Binds env F →
      ∃ N C, Main2.nnf (Main2.impl_free F) = some N ∧ Main2.cnf N = some C ∧
        Main2.evaluate C env = Main2.evaluate F env) ∧
    (∀ (F : Main1.Node) (env : Main1.Env), Main1.WellFormed F → Main1.Binds env F →
      ∃ N C, Main1.nnf (Main1.impl_free F) = some N ∧ Main1.cnf N = some C ∧
        Main1.evaluate C env = Main1.evaluate F env) := by
  constructor
  · intro F env wf _
    obtain ⟨N, C, eN, eC, -, -, h⟩ := Main2.pipeline_spec wf
    exact ⟨N, C, eN, eC, h env⟩
  · intro F env wf _
    obtain ⟨N, C, eN, eC, -, -, h⟩ := Main1.pipeline_spec_m1 wf
    exact ⟨N, C, eN, eC, h env⟩

/-- Witness of C1 at `(A > B) * ~C` with every identifier bound to true, once
for each variant. -/
theorem C1_cnf_pipeline_preserves_evaluate_witness :
    (Main2.WellFormed
        (.mk ['*'] (.mk ['>'] (.mk ['A'] .null .null) (.mk ['B'] .null .null))
          (.mk ['~'] (.mk ['C'] .null .null) .null)) ∧
      Main2.Binds (fun _ => some true)
        (.mk ['*'] (.mk ['>'] (.mk ['A'] .null .null) (.mk ['B'] .null .null))
          (.mk ['~'] (.mk ['C'] .null .null) .null)) ∧
      ∃ N C, Main2.nnf (Main2.impl_free
          (.mk ['*'] (.mk ['>'] (.mk ['A'] .null .null) (.mk ['B'] .null .null))
            (.mk ['~'] (.mk ['C'] .null .null) .null))) = some N ∧ Main2.cnf N = some C ∧
        Main2.evaluate C (fun _ => some true) =
          Main2.evaluate
            (.mk ['*'] (.mk ['>'] (.mk ['A'] .null .null) (.mk ['B'] .null .null))
              (.mk ['~'] (.mk ['C'] .null .null) .null)) (fun _ => some true)) ∧
    (Main1.WellFormed
        (.mk '*' (.mk '>' (.mk 'A' .null .null) (.mk 'B' .null .null))
          (.mk '~' .null (.mk 'C' .null .null))) ∧
      Main1.Binds (fun _ => some true)
        (.mk '*' (.mk '>' (.mk 'A' .null .null) (.mk 'B' .null .null))
          (.mk '~' .null (.mk 'C' .null .null))) ∧
      ∃ N C, Main1.nnf (Main1.impl_free
          (.mk '*' (.mk '>' (.mk 'A' .null .null) (.mk 'B' .null .null))
            (.mk '~' .null (.mk 'C' .null .null)))) = some N ∧ Main1.cnf N = some C ∧
        Main1.evaluate C (fun _ => some true) =
          Main1.evaluate
            (.mk '*' (.mk '>' (.mk 'A' .null .null) (.mk 'B' .null .null))
              (.mk '~' .null (.mk 'C' .null .null))) (fun _ => some true)) :=
  have w2 : Main2.WellFormed
      (.mk ['*'] (.mk ['>'] (.mk ['A'] .null .null) (.mk ['B'] .null .null))
        (.mk ['~'] (.mk ['C'] .null .null) .null)) :=
    .bin (Or.inr (Or.inl rfl))
      (.bin (Or.inr (Or.inr rfl)) (.leaf (by decide)) (.leaf (by decide)))
      (.neg (.leaf (by decide)))
  have w1 : Main1.WellFormed
      (.mk '*' (.mk '>' (.mk 'A' .null .null) (.mk 'B' .null .null))
        (.mk '~' .null (.mk 'C' .null .null))) :=
    .bin (Or.inr (Or.inl rfl))
      (.bin (Or.inr (Or.inr rfl)) (.leaf (by decide)) (.leaf (by decide)))
      (.neg (.leaf (by decide)))
  ⟨⟨w2, fun _ _ => Option.some_ne_none _,
      C1_cnf_pipeline_preserves_evaluate.1 _ _ w2 (fun _ _ => Option.some_ne_none _)⟩,
    ⟨w1, fun _ _ => Option.some_ne_none _,
      C1_cnf_pipeline_preserves_evaluate.2 _ _ w1 (fun _ _ => Option.some_ne_none _)⟩⟩

/-- C2. In both variants, for every well-formed expression tree `F`, the passes
run to completion and `cnf(nnf(impl_free(F)))` is in conjunctive normal form:
it contains no `>` node, every `~` node has a leaf as its child, and no `*`
node occurs anywhere below a `+` node. -/
theorem C2_cnf_pipeline_yields_cnf :
    (∀ F : Main2.Node, Main2.WellFormed F →
      ∃ N C, Main2.nnf (Main2.impl_free F) = some N ∧ Main2.cnf N = some C ∧
        C.contains ['>'] = false ∧ Main2.negOnLeaves C = true ∧
        Main2.noAndBelowOr C = true) ∧
    (∀ F : Main1.Node, Main1.WellFormed F →
      ∃ N C, Main1.nnf (Main1.impl_free F) = some N ∧ Main1.cnf N = some C ∧
        C.contains '>' = false ∧ Main1.negOnLeaves C = true ∧
        Main1.noAndBelowOr C = true) := by
  constructor
  · intro F wf
    obtain ⟨N, C, eN, eC, -, hC, -⟩ := Main2.pipeline_spec wf
    exact ⟨N, C, eN, eC, Main2.isCNF_shape hC⟩
  · intro F wf
    obtain ⟨N, C, eN, eC, -, hC, -⟩ := Main1.pipeline_spec_m1 wf
    exact ⟨N, C, eN, eC, Main1.isCNF_shape_m1 hC⟩

/-- Witness of C2 at `~(A * B) + C`, once for each variant. -/
theorem C2_cnf_pipeline_yields_cnf_witness :
    (Main2.WellFormed
        (.mk ['+'] (.mk ['~'] (.mk ['*'] (.mk ['A'] .null .null) (.mk ['B'] .null .null)) .null)
          (.mk ['C'] .null .null)) ∧
      ∃ N C, Main2.nnf (Main2.impl_free
          (.mk ['+']
            (.mk ['~'] (.mk ['*'] (.mk ['A'] .null .null) (.mk ['B'] .null .null)) .null)
            (.mk ['C'] .null .null))) = some N ∧ Main2.cnf N = some C ∧
        C.contains ['>'] = false ∧ Main2.negOnLeaves C = true ∧
        Main2.noAndBelowOr C = true) ∧
    (Main1.WellFormed
        (.mk '+' (.mk '~' .null (.mk '*' (.mk 'A' .null .null) (.mk 'B' .null .null)))
          (.mk 'C' .null .null)) ∧
      ∃ N C, Main1.nnf (Main1.impl_free
          (.mk '+' (.mk '~' .null (.mk '*' (.mk 'A' .null .null) (.mk 'B' .null .null)))
            (.mk 'C' .null .null))) = some N ∧ Main1.cnf N = some C ∧
        C.contains '>' = false ∧ Main1.negOnLeaves C = true ∧
        Main1.noAndBelowOr C = true) :=
  have w2 : Main2.WellFormed
      (.mk ['+'] (.mk ['~'] (.mk ['*'] (.mk ['A'] .null .null) (.mk ['B'] .null .null)) .null)
        (.mk ['C'] .null .null)) :=
    .bin (Or.inl rfl)
      (.neg (.bin (Or.inr (Or.inl rfl)) (.leaf (by decide)) (.leaf (by decide))))
      (.leaf (by decide))
  have w1 : Main1.WellFormed
      (.mk '+' (.mk '~' .null (.mk '*' (.mk 'A' .null .null) (.mk 'B' .null .null)))
        (.mk 'C' .null .null)) :=
    .bin (Or.inl rfl)
      (.neg (.bin (Or.inr (Or.inl rfl)) (.leaf (by decide)) (.leaf (by decide))))
      (.leaf (by decide))
  ⟨⟨w2, C2_cnf_pipeline_yields_cnf.1 _ w2⟩, ⟨w1, C2_cnf_pipeline_yields_cnf.2 _ w1⟩⟩

/-- C3. `infixToPrefix` of `main_2.cpp` is a correct precedence parser: for
every tree `T` over identifiers and every infix text `s` that denotes `T` under
the grammar with precedence NOT > AND > OR > IMPLIES, left-associative binary
operators, prefix `~` and explicit parentheses (redundant parentheses and
spaces allowed), `infixToPrefix(s)` equals the pre-order token sequence of `T`
joined by single spaces. -/
theorem C3_infixToPrefix_precedence_grammar (s : Str) (T : Main2.Node)
    (h : Main2.Denotes 0 s T) :
    Main2.infixToPrefix s = Main2.joinSep [' '] (Main2.preorder T) :=
  Main2.infixToPrefix_of_denotes h

/-- Witness of C3 at the text `A > ~B * (C)`, which denotes `A > ((~B) * C)`. -/
theorem C3_infixToPrefix_precedence_grammar_witness :
    Main2.Denotes 0 "A > ~B * (C)".toList
      (.mk ['>'] (.mk ['A'] .null .null)
        (.mk ['*'] (.mk ['~'] (.mk ['B'] .null .null) .null) (.mk ['C'] .null .null))) ∧
    Main2.infixToPrefix "A > ~B * (C)".toList =
      Main2.joinSep [' '] (Main2.preorder
        (.mk ['>'] (.mk ['A'] .null .null)
          (.mk ['*'] (.mk ['~'] (.mk ['B'] .null .null) .null) (.mk ['C'] .null .null)))) :=
  have sp : Main2.isspace ' ' = true := by decide
  have hA : Main2.Denotes 3 ['A'] (.mk ['A'] .null .null) := .ident ⟨by simp, by decide⟩
  have hB : Main2.Denotes 3 ['B'] (.mk ['B'] .null .null) := .ident ⟨by simp, by decide⟩
  have hC : Main2.Denotes 3 ['C'] (.mk ['C'] .null .null) := .ident ⟨by simp, by decide⟩
  have hl : Main2.Denotes 0 ['A', ' '] (.mk ['A'] .null .null) :=
    .up (.up (.up (.spaceAfter sp hA)))
  have hnB : Main2.Denotes 2 [' ', '~', 'B', ' '] (.mk ['~'] (.mk ['B'] .null .null) .null) :=
    .up (.spaceBefore sp (.spaceAfter sp (.neg hB)))
  have hpC : Main2.Denotes 3 [' ', '(', 'C', ')'] (.mk ['C'] .null .null) :=
    .spaceBefore sp (.paren (.up (.up (.up hC))))
  have hr : Main2.Denotes 1 [' ', '~', 'B', ' ', '*', ' ', '(', 'C', ')']
      (.mk ['*'] (.mk ['~'] (.mk ['B'] .null .null) .null) (.mk ['C'] .null .null)) :=
    .up (.and hnB hpC)
  have h : Main2.Denotes 0 "A > ~B * (C)".toList
      (.mk ['>'] (.mk ['A'] .null .null)
        (.mk ['*'] (.mk ['~'] (.mk ['B'] .null .null) .null) (.mk ['C'] .null .null))) :=
    .imp hl hr
  ⟨h, C3_infixToPrefix_precedence_grammar _ _ h⟩

/-- C4. Round trip in `main_2.cpp`: for every well-formed expression tree `T`
over identifiers without white space, parentheses or operator characters and
every environment `env` binding the identifiers of `T`, parsing
`infixToPrefix(treeToInfixString(T))` with `buildParseTree` returns a tree, and
that tree evaluates under `env` like `T`. -/
theorem C4_text_roundtrip_preserves_evaluate (T : Main2.Node) (env : Main2.Env)
    (wf : Main2.WellFormed T) (hid : ∀ v ∈ Main2.identifiers T, Main2.IsIdent v)
    (_hb : Main2.Binds env T) :
    ∃ T', Main2.buildParseTree (Main2.infixToPrefix (Main2.treeToInfixString T)) = some T' ∧
      Main2.evaluate T' env = Main2.evaluate T env :=
  ⟨T, Main2.roundtrip_tree wf hid, rfl⟩

/-- Witness of C4 at `~(P1 + Q)` with every identifier bound to false. -/
theorem C4_text_roundtrip_preserves_evaluate_witness :
    Main2.WellFormed
      (.mk ['~'] (.mk ['+'] (.mk ['P', '1'] .null .null) (.mk ['Q'] .null .null)) .null) ∧
    (∀ v ∈ Main2.identifiers
        (.mk ['~'] (.mk ['+'] (.mk ['P', '1'] .null .null) (.mk ['Q'] .null .null)) .null),
      Main2.IsIdent v) ∧
    Main2.Binds (fun _ => some false)
      (.mk ['~'] (.mk ['+'] (.mk ['P', '1'] .null .null) (.mk ['Q'] .null .null)) .null) ∧
    ∃ T', Main2.buildParseTree (Main2.infixToPrefix (Main2.treeToInfixString
        (.mk ['~'] (.mk ['+'] (.mk ['P', '1'] .null .null) (.mk ['Q'] .null .null)) .null))) =
          some T' ∧
      Main2.evaluate T' (fun _ => some false) =
        Main2.evaluate
          (.mk ['~'] (.mk ['+'] (.mk ['P', '1'] .null .null) (.mk ['Q'] .null .null)) .null)
          (fun _ => some false) :=
  have w : Main2.WellFormed
      (.mk ['~'] (.mk ['+'] (.mk ['P', '1'] .null .null) (.mk ['Q'] .null .null)) .null) :=
    .neg (.bin (Or.inl rfl) (.leaf (by decide)) (.leaf (by decide)))
  have hid : ∀ v ∈ Main2.identifiers
      (.mk ['~'] (.mk ['+'] (.mk ['P', '1'] .null .null) (.mk ['Q'] .null .null)) .null),
      Main2.IsIdent v := by
    intro v hv
    have hv' : v = ['P', '1'] ∨ v = ['Q'] := by
      simpa [Main2.identifiers, Main2.isOperand, Main2.isOperator] using hv
    rcases hv' with rfl | rfl <;> exact ⟨by simp, by decide⟩
  have hb : Main2.Binds (fun _ => some false)
      (.mk ['~'] (.mk ['+'] (.mk ['P', '1'] .null .null) (.mk ['Q'] .null .null)) .null) :=
    fun _ _ => Option.some_ne_none _
  ⟨w, hid, hb, C4_text_roundtrip_preserves_evaluate _ _ w hid hb⟩

/-- C5. `evaluate(T, env)` of `main_2.cpp`, for every well-formed tree `T`,
fails (throws) if and only if some leaf identifier of `T` is absent from `env`
(there is no short-circuit: an unbound identifier anywhere makes it fail); when
it does not fail it returns the standard truth value of `T` under every total
assignment that agrees with `env`, with `~` as negation, `*` as conjunction,
`+` as disjunction and `l > r` as `(not l) or r`. -/
theorem C5_evaluate_fails_iff_unbound (T : Main2.Node) (env : Main2.Env)
    (wf : Main2.WellFormed T) :
    (Main2.evaluate T env = none ↔ ∃ v ∈ Main2.identifiers T, env v = none) ∧
    (∀ b, Main2.evaluate T env = some b →
      ∀ σ : Str → Bool, (∀ v ∈ Main2.identifiers T, ∀ x, env v = some x → σ v = x) →
        b = Main2.truthValue σ T) :=
  Main2.evaluate_spec wf env

/-- Witness of C5 at `A + B` with `A` bound to true and `B` unbound: the left
operand already decides the disjunction, and `evaluate` still fails. -/
theorem C5_evaluate_fails_iff_unbound_witness :
    Main2.WellFormed (.mk ['+'] (.mk ['A'] .null .null) (.mk ['B'] .null .null)) ∧
    ((Main2.evaluate (.mk ['+'] (.mk ['A'] .null .null) (.mk ['B'] .null .null))
        (fun v => if v = ['A'] then some true else none) = none ↔
      ∃ v ∈ Main2.identifiers (.mk ['+'] (.mk ['A'] .null .null) (.mk ['B'] .null .null)),
        (fun v => if v = ['A'] then some true else none : Main2.Env) v = none) ∧
    (∀ b, Main2.evaluate (.mk ['+'] (.mk ['A'] .null .null) (.mk ['B'] .null .null))
        (fun v => if v = ['A'] then some true else none) = some b →
      ∀ σ : Str → Bool,
        (∀ v ∈ Main2.identifiers (.mk ['+'] (.mk ['A'] .null .null) (.mk ['B'] .null .null)),
          ∀ x, (fun v => if v = ['A'] then some true else none : Main2.Env) v = some x →
            σ v = x) →
        b = Main2.truthValue σ
          (.mk ['+'] (.mk ['A'] .null .null) (.mk ['B'] .null .null)))) :=
  have w : Main2.WellFormed (.mk ['+'] (.mk ['A'] .null .null) (.mk ['B'] .null .null)) :=
    .bin (Or.inl rfl) (.leaf (by decide)) (.leaf (by decide))
  ⟨w, C5_evaluate_fails_iff_unbound _ _ w⟩

/-- C6. Tautology agreement in `main_2.cpp`: for every well-formed formula tree
`F` over identifiers that is true under every assignment of its variables (for
any number of variables, in particular up to 4), the passes run to completion
and `check_cnf_valid(treeToInfixString(cnf(nnf(impl_free(F)))))` returns true. -/
theorem C6_tautology_agreement (F : Main2.Node) (wf : Main2.WellFormed F)
    (hid : ∀ v ∈ Main2.identifiers F, Main2.IsIdent v)
    (taut : ∀ env : Main2.Env, Main2.Binds env F → Main2.evaluate F env = some true) :
    ∃ N C, Main2.nnf (Main2.impl_free F) = some N ∧ Main2.cnf N = some C ∧
      Main2.check_cnf_valid (Main2.treeToInfixString C) = some true :=
  Main2.tautology_accepted wf hid taut

/-- Witness of C6 at the tautology `A > A`. -/
theorem C6_tautology_agreement_witness :
    Main2.WellFormed (.mk ['>'] (.mk ['A'] .null .null) (.mk ['A'] .null .null)) ∧
    (∀ v ∈ Main2.identifiers (.mk ['>'] (.mk ['A'] .null .null) (.mk ['A'] .null .null)),
      Main2.IsIdent v) ∧
    (∀ env : Main2.Env,
      Main2.Binds env (.mk ['>'] (.mk ['A'] .null .null) (.mk ['A'] .null .null)) →
      Main2.evaluate (.mk ['>'] (.mk ['A'] .null .null) (.mk ['A'] .null .null)) env =
        some true) ∧
    ∃ N C, Main2.nnf (Main2.impl_free
        (.mk ['>'] (.mk ['A'] .null .null) (.mk ['A'] .null .null))) = some N ∧
      Main2.cnf N = some C ∧
      Main2.check_cnf_valid (Main2.treeToInfixString C) = some true :=
  have w : Main2.WellFormed (.mk ['>'] (.mk ['A'] .null .null) (.mk ['A'] .null .null)) :=
    .bin (Or.inr (Or.inr rfl)) (.leaf (by decide)) (.leaf (by decide))
  have hid : ∀ v ∈ Main2.identifiers
      (.mk ['>'] (.mk ['A'] .null .null) (.mk ['A'] .null .null)), Main2.IsIdent v := by
    intro v hv
    have : v = ['A'] := by
      simp only [Main2.identifiers] at hv
      simpa [Main2.isOperand, Main2.isOperator] using hv
    subst this
    exact ⟨by simp, by decide⟩
  have taut : ∀ env : Main2.Env,
      Main2.Binds env (.mk ['>'] (.mk ['A'] .null .null) (.mk ['A'] .null .null)) →
      Main2.evaluate (.mk ['>'] (.mk ['A'] .null .null) (.mk ['A'] .null .null)) env =
        some true := by
    intro env hb
    have hA : env ['A'] ≠ none := hb ['A'] (by decide)
    rw [Main2.evaluate_imp, Main2.evaluate_leaf (by decide)]
    cases h : env ['A'] with
    | none => exact absurd h hA
    | some b => cases b <;> rfl
  ⟨w, hid, taut, C6_tautology_agreement _ w hid taut⟩

/-- C7. `check_cnf_valid` of `main_2.cpp`, on every CNF text written as
parenthesised clauses joined by `" * "` where each clause is a `" + "`-joined
list of literals (an identifier, optionally preceded by `~`), returns, and
returns true if and only if every clause contains some identifier both negated
and unnegated; `"(A + ~A) * (B + ~B)"` gives true and `"(A + B) * (~A + ~B)"`
gives false. -/
theorem C7_check_cnf_valid_iff_complements :
    (∀ cs : List (List (Bool × Str)), (∀ c ∈ cs, ∀ l ∈ c, Main2.IsIdent l.2) →
      ∃ b, Main2.check_cnf_valid (Main2.cnfText cs) = some b ∧
        (b = true ↔ ∀ c ∈ cs, Main2.HasComplement c)) ∧
    Main2.check_cnf_valid "(A + ~A) * (B + ~B)".toList = some true ∧
    Main2.check_cnf_valid "(A + B) * (~A + ~B)".toList = some false :=
  ⟨Main2.check_cnf_valid_cnfText, by decide, by decide⟩

/-- Witness of C7 at the clauses `(A + ~A)` and `(B + C)`. -/
theorem C7_check_cnf_valid_iff_complements_witness :
    (∀ c ∈ [[(false, ['A']), (true, ['A'])], [(false, ['B']), (false, ['C'])]],
      ∀ l ∈ c, Main2.IsIdent l.2) ∧
    ∃ b, Main2.check_cnf_valid (Main2.cnfText
        [[(false, ['A']), (true, ['A'])], [(false, ['B']), (false, ['C'])]]) = some b ∧
      (b = true ↔ ∀ c ∈ [[(false, ['A']), (true, ['A'])], [(false, ['B']), (false, ['C'])]],
        Main2.HasComplement c) :=
  have hid : ∀ c ∈ [[(false, ['A']), (true, ['A'])], [(false, ['B']), (false, ['C'])]],
      ∀ l ∈ c, Main2.IsIdent l.2 := by
    intro c hc l hl
    simp only [List.mem_cons, List.mem_singleton, List.not_mem_nil, or_false] at hc
    rcases hc with rfl | rfl <;>
      simp only [List.mem_cons, List.mem_singleton, List.not_mem_nil, or_false] at hl <;>
      rcases hl with rfl | rfl <;> exact ⟨by simp, by decide⟩
  ⟨hid, C7_check_cnf_valid_iff_complements.1 _ hid⟩

/-- C8. DIMACS parse round trip: for every formula `f` given as a list of
non-empty clauses of nonzero integers (values of type `int`), `readDIMACSCNF`
applied to the text made of a line `p cnf <numVars> <numClauses>` followed by
one line per clause listing its integers separated by spaces and ended by
` 0` returns exactly `f`; `"p cnf 2 2\n1 -2 0\n-1 2 0\n"` is such a text and
yields `[[1,-2],[-1,2]]`. -/
theorem C8_dimacs_parse_roundtrip :
    (∀ (numVars numClauses : Int) (f : List (List Int)),
      Main2.isInt numVars → Main2.isInt numClauses →
      (∀ c ∈ f, c ≠ [] ∧ ∀ l ∈ c, l ≠ 0 ∧ Main2.isInt l) →
      (Main2.readDIMACSCNF (Main2.dimacsText numVars numClauses f)).formula = f) ∧
    Main2.dimacsText 2 2 [[1, -2], [-1, 2]] = "p cnf 2 2\n1 -2 0\n-1 2 0\n".toList ∧
    (Main2.readDIMACSCNF "p cnf 2 2\n1 -2 0\n-1 2 0\n".toList).formula = [[1, -2], [-1, 2]] :=
  ⟨fun nv nc f hnv hnc hf => by rw [Main2.readDIMACSCNF_dimacsText nv nc f hnv hnc hf],
    by decide, by decide⟩

/-- Witness of C8 at the formula `[[3, -1], [2]]` with header counts 3 and 2. -/
theorem C8_dimacs_parse_roundtrip_witness :
    Main2.isInt 3 ∧ Main2.isInt 2 ∧
    (∀ c ∈ ([[3, -1], [2]] : List (List Int)), c ≠ [] ∧ ∀ l ∈ c, l ≠ 0 ∧ Main2.isInt l) ∧
    (Main2.readDIMACSCNF (Main2.dimacsText 3 2 [[3, -1], [2]])).formula = [[3, -1], [2]] :=
  have h3 : Main2.isInt 3 := ⟨by decide, by decide⟩
  have h2 : Main2.isInt 2 := ⟨by decide, by decide⟩
  have hf : ∀ c ∈ ([[3, -1], [2]] : List (List Int)),
      c ≠ [] ∧ ∀ l ∈ c, l ≠ 0 ∧ Main2.isInt l := by
    intro c hc
    simp only [List.mem_cons, List.mem_singleton, List.not_mem_nil, or_false] at hc
    rcases hc with rfl | rfl
    · refine ⟨by simp, fun l hl => ?_⟩
      simp only [List.mem_cons, List.mem_singleton, List.not_mem_nil, or_false] at hl
      rcases hl with rfl | rfl <;> exact ⟨by decide, by decide, by decide⟩
    · refine ⟨by simp, fun l hl => ?_⟩
      simp only [List.mem_singleton] at hl
      subst hl
      exact ⟨by decide, by decide, by decide⟩
  ⟨h3, h2, hf, C8_dimacs_parse_roundtrip.1 3 2 _ h3 h2 hf⟩

/-- C9. `dimacsToInfix` is to render every formula whose clauses are all
non-empty as the clauses in order joined by `" * "`, each clause being `"("`,
its literals in order joined by `" + "`, and `")"`, where a positive literal
`n` is written `P<n>` and a negative literal `-n` is written `~P<n>`; the
empty formula renders to the empty string; `[[1,-2],[-1,2]]` renders
`"(P1 + ~P2) * (~P1 + P2)"`. On the formulas of non-zero `int` literals with
non-empty clauses the code writes this rendering exactly when the literal
`INT_MIN` does not occur: at `-2147483648`, which `readDIMACSCNF` returns from
the clause line `-2147483648 0`, the negation `-lit` overflows and the text
written is `(~P-2147483648)`, where the rendering described is
`(~P2147483648)`. -/
theorem C9_dimacsToInfix_rendering :
    (∀ f : List (List Int), (∀ c ∈ f, c ≠ []) →
      (∀ c ∈ f, ∀ l ∈ c, l ≠ 0 ∧ Main2.isInt l) →
      (Main2.dimacsToInfix f = Main2.formulaText f ↔
        ∀ c ∈ f, (-2147483648 : Int) ∉ c)) ∧
    Main2.dimacsToInfix [] = [] ∧
    Main2.dimacsToInfix [[1, -2], [-1, 2]] = "(P1 + ~P2) * (~P1 + P2)".toList ∧
    (Main2.readDIMACSCNF "p cnf 1 1\n-2147483648 0\n".toList).formula = [[-2147483648]] ∧
    Main2.dimacsToInfix [[-2147483648]] = "(~P-2147483648)".toList ∧
    Main2.formulaText [[-2147483648]] = "(~P2147483648)".toList :=
  ⟨Main2.dimacsToInfix_eq_iff, rfl, by decide, by decide, by decide, by decide⟩

/-- Witness of C9: the formula `[[12, -3], [-7]]` is rendered as described,
the formula `[[-2147483648]]` is not. -/
theorem C9_dimacsToInfix_rendering_witness :
    ((∀ c ∈ ([[12, -3], [-7]] : List (List Int)), c ≠ []) ∧
      (∀ c ∈ ([[12, -3], [-7]] : List (List Int)), ∀ l ∈ c, l ≠ 0 ∧ Main2.isInt l) ∧
      Main2.dimacsToInfix [[12, -3], [-7]] = Main2.formulaText [[12, -3], [-7]] ∧
      Main2.formulaText [[12, -3], [-7]] = "(P12 + ~P3) * (~P7)".toList) ∧
    ((∀ c ∈ ([[-2147483648]] : List (List Int)), c ≠ []) ∧
      (∀ c ∈ ([[-2147483648]] : List (List Int)), ∀ l ∈ c, l ≠ 0 ∧ Main2.isInt l) ∧
      Main2.dimacsToInfix [[-2147483648]] ≠ Main2.formulaText [[-2147483648]]) :=
  have hne : ∀ c ∈ ([[12, -3], [-7]] : List (List Int)), c ≠ [] := by
    intro c hc
    simp only [List.mem_cons, List.mem_singleton, List.not_mem_nil, or_false] at hc
    rcases hc with rfl | rfl <;> simp
  have hl : ∀ c ∈ ([[12, -3], [-7]] : List (List Int)), ∀ l ∈ c, l ≠ 0 ∧ Main2.isInt l := by
    intro c hc l hl
    simp only [List.mem_cons, List.mem_singleton, List.not_mem_nil, or_false] at hc
    rcases hc with rfl | rfl <;>
      simp only [List.mem_cons, List.mem_singleton, List.not_mem_nil, or_false] at hl
    · rcases hl with rfl | rfl <;> exact ⟨by decide, by decide, by decide⟩
    · subst hl; exact ⟨by decide, by decide, by decide⟩
  have hne2 : ∀ c ∈ ([[-2147483648]] : List (List Int)), c ≠ [] := by
    intro c hc
    simp only [List.mem_singleton] at hc
    subst hc; simp
  have hl2 : ∀ c ∈ ([[-2147483648]] : List (List Int)), ∀ l ∈ c, l ≠ 0 ∧ Main2.isInt l := by
    intro c hc l hl
    simp only [List.mem_singleton] at hc
    subst hc
    simp only [List.mem_singleton] at hl
    subst hl; exact ⟨by decide, by decide, by decide⟩
  ⟨⟨hne, hl, (C9_dimacsToInfix_rendering.1 _ hne hl).2 (by decide), by decide⟩,
    ⟨hne2, hl2, fun e => (C9_dimacsToInfix_rendering.1 _ hne2 hl2).1 e _
      (List.mem_singleton.2 rfl) (List.mem_singleton.2 rfl)⟩⟩

/-- C10. `is_dimacs_clause_true(c)` is true if and only if the clause `c` (of
`int` values) contains some positive literal `v` together with `-v`, and
`check_dimacs_valid_formula(f)` is true if and only if `is_dimacs_clause_true`
holds for every clause of `f`; so the empty formula is valid. -/
theorem C10_dimacs_validity :
    (∀ c : List Int, (∀ l ∈ c, Main2.isInt l) →
      (Main2.is_dimacs_clause_true c = true ↔ ∃ v : Int, 0 < v ∧ v ∈ c ∧ -v ∈ c)) ∧
    (∀ f : List (List Int), Main2.check_dimacs_valid_formula f = true ↔
      ∀ c ∈ f, Main2.is_dimacs_clause_true c = true) ∧
    Main2.check_dimacs_valid_formula [] = true :=
  ⟨Main2.is_dimacs_clause_true_iff, Main2.check_dimacs_valid_formula_iff, rfl⟩

/-- Witness of C10 at the clause `[2, -5, -2]`, which holds `2` and `-2`. -/
theorem C10_dimacs_validity_witness :
    (∀ l ∈ ([2, -5, -2] : List Int), Main2.isInt l) ∧
    (Main2.is_dimacs_clause_true [2, -5, -2] = true ↔
      ∃ v : Int, 0 < v ∧ v ∈ ([2, -5, -2] : List Int) ∧ -v ∈ ([2, -5, -2] : List Int)) :=
  have h : ∀ l ∈ ([2, -5, -2] : List Int), Main2.isInt l := by
    intro l hl
    simp only [List.mem_cons, List.mem_singleton, List.not_mem_nil, or_false] at hl
    rcases hl with rfl | rfl | rfl <;> exact ⟨by decide, by decide⟩
  ⟨h, C10_dimacs_validity.1 _ h⟩

/-- C11. AND binds tighter than IMPLIES in `infixToPrefix` of `main_2.cpp`: for
all identifiers `a`, `b`, `c`, `infixToPrefix("a > b * c")` is `"> a * b c"` and
`infixToPrefix("a * b > c")` is `"> * a b c"`; in particular
`infixToPrefix("A > B * C")` is `"> A * B C"`. -/
theorem C11_and_binds_tighter_than_implies (a b c : Str)
    (ha : Main2.IsIdent a) (hb : Main2.IsIdent b) (hc : Main2.IsIdent c) :
    Main2.infixToPrefix (a ++ [' ', '>', ' '] ++ b ++ [' ', '*', ' '] ++ c) =
      ['>', ' '] ++ a ++ [' ', '*', ' '] ++ b ++ [' '] ++ c ∧
    Main2.infixToPrefix (a ++ [' ', '*', ' '] ++ b ++ [' ', '>', ' '] ++ c) =
      ['>', ' ', '*', ' '] ++ a ++ [' '] ++ b ++ [' '] ++ c ∧
    Main2.infixToPrefix "A > B * C".toList = "> A * B C".toList :=
  ⟨Main2.infixToPrefix_chain_right (Or.inr (Or.inr ⟨rfl, rfl⟩)) (Or.inl ⟨rfl, rfl⟩)
      (by decide) ha hb hc,
    Main2.infixToPrefix_chain_left (Or.inl ⟨rfl, rfl⟩) (Or.inr (Or.inr ⟨rfl, rfl⟩))
      (by decide) ha hb hc,
    by decide⟩

/-- Witness of C11 at the identifiers `P1`, `Q` and `R2`. -/
theorem C11_and_binds_tighter_than_implies_witness :
    Main2.IsIdent ['P', '1'] ∧ Main2.IsIdent ['Q'] ∧ Main2.IsIdent ['R', '2'] ∧
    Main2.infixToPrefix "P1 > Q * R2".toList = "> P1 * Q R2".toList ∧
    Main2.infixToPrefix "P1 * Q > R2".toList = "> * P1 Q R2".toList :=
  have h1 : Main2.IsIdent ['P', '1'] := ⟨by simp, by decide⟩
  have h2 : Main2.IsIdent ['Q'] := ⟨by simp, by decide⟩
  have h3 : Main2.IsIdent ['R', '2'] := ⟨by simp, by decide⟩
  ⟨h1, h2, h3, (C11_and_binds_tighter_than_implies _ _ _ h1 h2 h3).1,
    (C11_and_binds_tighter_than_implies _ _ _ h1 h2 h3).2.1⟩

/-- C12. Same-precedence binary operators are left-associative in both
`infixToPrefix` variants: for every binary operator `op` among `*`, `+`, `>` and
all identifiers `a`, `b`, `c`, `infixToPrefix("a op b op c")` is the prefix form
of `(a op b) op c`, which is `"op op a b c"` in `main_2.cpp` and `"opopabc"`
(no spaces, one-character identifiers) in `main.cpp`. -/
theorem C12_same_precedence_left_associative :
    (∀ (op : Char) (a b c : Str), op = '*' ∨ op = '+' ∨ op = '>' →
      Main2.IsIdent a → Main2.IsIdent b → Main2.IsIdent c →
      Main2.infixToPrefix (a ++ [' ', op, ' '] ++ b ++ [' ', op, ' '] ++ c) =
          [op, ' ', op, ' '] ++ a ++ [' '] ++ b ++ [' '] ++ c ∧
        [op, ' ', op, ' '] ++ a ++ [' '] ++ b ++ [' '] ++ c =
          Main2.joinSep [' '] (Main2.preorder
            (.mk [op] (.mk [op] (.mk a .null .null) (.mk b .null .null)) (.mk c .null .null)))) ∧
    (∀ (op a b c : Char), op = '*' ∨ op = '+' ∨ op = '>' →
      Main1.isVariableChar a = true → Main1.isVariableChar b = true →
      Main1.isVariableChar c = true →
      Main1.infixToPrefix [a, ' ', op, ' ', b, ' ', op, ' ', c] = some [op, op, a, b, c] ∧
        [op, op, a, b, c] = Main1.preorder
          (.mk op (.mk op (.mk a .null .null) (.mk b .null .null)) (.mk c .null .null))) := by
  constructor
  · intro op a b c hop ha hb hc
    refine ⟨?_, by simp [Main2.preorder, Main2.joinSep]⟩
    rcases hop with rfl | rfl | rfl
    · exact Main2.infixToPrefix_chain_left (Or.inl ⟨rfl, rfl⟩) (Or.inl ⟨rfl, rfl⟩)
        (le_refl _) ha hb hc
    · exact Main2.infixToPrefix_chain_left (Or.inr (Or.inl ⟨rfl, rfl⟩))
        (Or.inr (Or.inl ⟨rfl, rfl⟩)) (le_refl _) ha hb hc
    · exact Main2.infixToPrefix_chain_left (Or.inr (Or.inr ⟨rfl, rfl⟩))
        (Or.inr (Or.inr ⟨rfl, rfl⟩)) (le_refl _) ha hb hc
  · intro op a b c hop ha hb hc
    refine ⟨?_, rfl⟩
    rcases hop with rfl | rfl | rfl
    · exact Main1.infixToPrefix_chain_left_m1 (Or.inl ⟨rfl, rfl⟩) ha hb hc
    · exact Main1.infixToPrefix_chain_left_m1 (Or.inr (Or.inl ⟨rfl, rfl⟩)) ha hb hc
    · exact Main1.infixToPrefix_chain_left_m1 (Or.inr (Or.inr ⟨rfl, rfl⟩)) ha hb hc

/-- Witness of C12 at `P1 + Q + R2` for `main_2.cpp` and `x * y * z` for
`main.cpp`. -/
theorem C12_same_precedence_left_associative_witness :
    (Main2.IsIdent ['P', '1'] ∧ Main2.IsIdent ['Q'] ∧ Main2.IsIdent ['R', '2'] ∧
      Main2.infixToPrefix "P1 + Q + R2".toList = "+ + P1 Q R2".toList) ∧
    (Main1.isVariableChar 'x' = true ∧ Main1.isVariableChar 'y' = true ∧
      Main1.isVariableChar 'z' = true ∧
      Main1.infixToPrefix "x * y * z".toList = some "**xyz".toList) :=
  have h1 : Main2.IsIdent ['P', '1'] := ⟨by simp, by decide⟩
  have h2 : Main2.IsIdent ['Q'] := ⟨by simp, by decide⟩
  have h3 : Main2.IsIdent ['R', '2'] := ⟨by simp, by decide⟩
  ⟨⟨h1, h2, h3,
      (C12_same_precedence_left_associative.1 '+' _ _ _ (Or.inr (Or.inl rfl)) h1 h2 h3).1⟩,
    ⟨by decide, by decide, by decide,
      (C12_same_precedence_left_associative.2 '*' 'x' 'y' 'z' (Or.inl rfl)
        (by decide) (by decide) (by decide)).1⟩⟩

/-- C13, counterexample. On `a > b > c` the converters return `> > a b c` and
`>>abc`, the prefix forms of `(a > b) > c`, and not `> a > b c` and `>a>bc`, the
prefix forms of `a > (b > c)`. -/
theorem C13_chained_implication_counterexample :
    Main2.infixToPrefix "a > b > c".toList = "> > a b c".toList ∧
    Main2.infixToPrefix "a > b > c".toList ≠ "> a > b c".toList ∧
    Main1.infixToPrefix "a > b > c".toList = some ">>abc".toList ∧
    Main1.infixToPrefix "a > b > c".toList ≠ some ">a>bc".toList := by
  decide

/-- C13, amended. Chained implication is left-associative: for all identifiers
`a`, `b`, `c`, `infixToPrefix("a > b > c")` is the prefix form of `(a > b) > c`,
which is `"> > a b c"` in `main_2.cpp` and `">>abc"` in `main.cpp`. -/
theorem C13_chained_implication_left_associative :
    (∀ (a b c : Str), Main2.IsIdent a → Main2.IsIdent b → Main2.IsIdent c →
      Main2.infixToPrefix (a ++ [' ', '>', ' '] ++ b ++ [' ', '>', ' '] ++ c) =
          ['>', ' ', '>', ' '] ++ a ++ [' '] ++ b ++ [' '] ++ c ∧
        ['>', ' ', '>', ' '] ++ a ++ [' '] ++ b ++ [' '] ++ c =
          Main2.joinSep [' '] (Main2.preorder
            (.mk ['>'] (.mk ['>'] (.mk a .null .null) (.mk b .null .null))
              (.mk c .null .null)))) ∧
    (∀ (a b c : Char), Main1.isVariableChar a = true → Main1.isVariableChar b = true →
      Main1.isVariableChar c = true →
      Main1.infixToPrefix [a, ' ', '>', ' ', b, ' ', '>', ' ', c] = some ['>', '>', a, b, c] ∧
        ['>', '>', a, b, c] = Main1.preorder
          (.mk '>' (.mk '>' (.mk a .null .null) (.mk b .null .null)) (.mk c .null .null))) :=
  ⟨fun _ _ _ ha hb hc =>
      ⟨Main2.infixToPrefix_chain_left (Or.inr (Or.inr ⟨rfl, rfl⟩)) (Or.inr (Or.inr ⟨rfl, rfl⟩))
        (le_refl _) ha hb hc, by simp [Main2.preorder, Main2.joinSep]⟩,
    fun _ _ _ ha hb hc =>
      ⟨Main1.infixToPrefix_chain_left_m1 (Or.inr (Or.inr ⟨rfl, rfl⟩)) ha hb hc, rfl⟩⟩

/-- Witness of the amended C13 at `P1 > Q > R2` for `main_2.cpp` and
`x > y > z` for `main.cpp`. -/
theorem C13_chained_implication_left_associative_witness :
    (Main2.IsIdent ['P', '1'] ∧ Main2.IsIdent ['Q'] ∧ Main2.IsIdent ['R', '2'] ∧
      Main2.infixToPrefix "P1 > Q > R2".toList = "> > P1 Q R2".toList) ∧
    (Main1.isVariableChar 'x' = true ∧ Main1.isVariableChar 'y' = true ∧
      Main1.isVariableChar 'z' = true ∧
      Main1.infixToPrefix "x > y > z".toList = some ">>xyz".toList) :=
  have h1 : Main2.IsIdent ['P', '1'] := ⟨by simp, by decide⟩
  have h2 : Main2.IsIdent ['Q'] := ⟨by simp, by decide⟩
  have h3 : Main2.IsIdent ['R', '2'] := ⟨by simp, by decide⟩
  ⟨⟨h1, h2, h3, (C13_chained_implication_left_associative.1 _ _ _ h1 h2 h3).1⟩,
    ⟨by decide, by decide, by decide,
      (C13_chained_implication_left_associative.2 'x' 'y' 'z'
        (by decide) (by decide) (by decide)).1⟩⟩

/-- C14. The two infix-to-prefix converters agree: for every well-formed infix
formula `s` over one-character identifiers (characters other than white space,
parentheses and `+ * ~ >`), built from identifiers, prefix `~`, binary `*`, `+`,
`>`, parentheses and spaces, `infixToPrefix(s)` of `main.cpp` returns
`infixToPrefix(s)` of `main_2.cpp` with its separating spaces removed. -/
theorem C14_converters_agree (s : Str) (T : Main1.Node) (h : Main1.Denotes 0 s T)
    (hid : ∀ c ∈ Main1.identifiers T, Main2.isspace c = false) :
    Main1.infixToPrefix s = some ((Main2.infixToPrefix s).filter fun c => c != ' ') :=
  Main1.converters_agree h hid

/-- Witness of C14 at the text `~(a + b) * c > d`. -/
theorem C14_converters_agree_witness :
    Main1.Denotes 0 "~(a + b) * c > d".toList
      (.mk '>'
        (.mk '*' (.mk '~' .null (.mk '+' (.mk 'a' .null .null) (.mk 'b' .null .null)))
          (.mk 'c' .null .null))
        (.mk 'd' .null .null)) ∧
    Main1.infixToPrefix "~(a + b) * c > d".toList =
      some ((Main2.infixToPrefix "~(a + b) * c > d".toList).filter fun c => c != ' ') :=
  have hA : Main1.Denotes 3 ['a'] (.mk 'a' .null .null) := .ident (by decide)
  have hB : Main1.Denotes 3 ['b'] (.mk 'b' .null .null) := .ident (by decide)
  have hC : Main1.Denotes 3 ['c'] (.mk 'c' .null .null) := .ident (by decide)
  have hD : Main1.Denotes 3 ['d'] (.mk 'd' .null .null) := .ident (by decide)
  have hor : Main1.Denotes 0 ['a', ' ', '+', ' ', 'b']
      (.mk '+' (.mk 'a' .null .null) (.mk 'b' .null .null)) :=
    .up (.or (.up (.up (.spaceAfter hA))) (.up (.spaceBefore hB)))
  have hneg : Main1.Denotes 2 ['~', '(', 'a', ' ', '+', ' ', 'b', ')', ' ']
      (.mk '~' .null (.mk '+' (.mk 'a' .null .null) (.mk 'b' .null .null))) :=
    .up (.spaceAfter (.neg (.paren hor)))
  have hand : Main1.Denotes 0
      ['~', '(', 'a', ' ', '+', ' ', 'b', ')', ' ', '*', ' ', 'c', ' ']
      (.mk '*' (.mk '~' .null (.mk '+' (.mk 'a' .null .null) (.mk 'b' .null .null)))
        (.mk 'c' .null .null)) :=
    .up (.up (.and hneg (.spaceBefore (.spaceAfter hC))))
  have h : Main1.Denotes 0 "~(a + b) * c > d".toList
      (.mk '>'
        (.mk '*' (.mk '~' .null (.mk '+' (.mk 'a' .null .null) (.mk 'b' .null .null)))
          (.mk 'c' .null .null))
        (.mk 'd' .null .null)) :=
    .imp hand (.up (.up (.spaceBefore hD)))
  ⟨h, C14_converters_agree _ _ h (by decide)⟩

/-- C15. Round trip in `main.cpp`: for every well-formed expression tree `T`
whose leaves are single characters other than space, parentheses and
`+ * ~ >`, and every environment `env` binding the variables of `T`,
`infixToPrefix(parseTreeToInfix(T))` returns a text, `buildParseTree` of that
text returns a tree, and that tree evaluates under `env` like `T`. -/
theorem C15_text_roundtrip_main1 (T : Main1.Node) (env : Main1.Env)
    (wf : Main1.WellFormed T)
    (hid : ∀ c ∈ Main1.identifiers T, c ≠ ' ' ∧ c ≠ '(' ∧ c ≠ ')')
    (_hb : Main1.Binds env T) :
    ∃ p T', Main1.infixToPrefix (Main1.parseTreeToInfix T) = some p ∧
      Main1.buildParseTree p = some T' ∧
      Main1.evaluate T' env = Main1.evaluate T env :=
  ⟨Main1.preorder T, T, (Main1.roundtrip_tree_m1 wf hid).1, (Main1.roundtrip_tree_m1 wf hid).2,
    rfl⟩

/-- Witness of C15 at `~(p + q) > r` with every variable bound to false. -/
theorem C15_text_roundtrip_main1_witness :
    Main1.WellFormed
      (.mk '>' (.mk '~' .null (.mk '+' (.mk 'p' .null .null) (.mk 'q' .null .null)))
        (.mk 'r' .null .null)) ∧
    ∃ p T', Main1.infixToPrefix (Main1.parseTreeToInfix
        (.mk '>' (.mk '~' .null (.mk '+' (.mk 'p' .null .null) (.mk 'q' .null .null)))
          (.mk 'r' .null .null))) = some p ∧
      Main1.buildParseTree p = some T' ∧
      Main1.evaluate T' (fun _ => some false) =
        Main1.evaluate
          (.mk '>' (.mk '~' .null (.mk '+' (.mk 'p' .null .null) (.mk 'q' .null .null)))
            (.mk 'r' .null .null)) (fun _ => some false) :=
  have w : Main1.WellFormed
      (.mk '>' (.mk '~' .null (.mk '+' (.mk 'p' .null .null) (.mk 'q' .null .null)))
        (.mk 'r' .null .null)) :=
    .bin (Or.inr (Or.inr rfl))
      (.neg (.bin (Or.inl rfl) (.leaf (by decide)) (.leaf (by decide))))
      (.leaf (by decide))
  ⟨w, C15_text_roundtrip_main1 _ _ w (by decide) (fun _ _ => Option.some_ne_none _)⟩

/-- C16. `tokenize(s)` of `main_2.cpp`, for every text `s`, returns in input
order exactly one single-character token for each occurrence of `( ) + * ~ >`
and exactly one token for each maximal run of characters that are neither white
space nor one of those six: the token list is the only reading of `s` into
white-space characters, symbol characters and maximal runs. White space gives
no token and is in no token (the tokens concatenated are `s` without its white
space), and no token is empty (each is one symbol character or an
identifier). -/
theorem C16_tokenize_maximal_runs (s : Str) :
    (∀ ts, Main2.tokenize s = ts ↔ Main2.TokensOf s ts) ∧
    (Main2.tokenize s).flatten = s.filter (fun c => !Main2.isspace c) ∧
    ∀ t ∈ Main2.tokenize s,
      (∃ c, Main2.isSymbol c = true ∧ t = [c]) ∨ Main2.IsIdent t :=
  have h := Main2.tokensOf_tokenize s.length s (le_refl _)
  ⟨fun _ => ⟨fun e => e ▸ h, Main2.tokenize_of_tokensOf⟩, Main2.tokensOf_flatten h,
    Main2.tokensOf_shape h⟩

/-- Witness of C16 at the text ` ab(c+ ~d)>e12 `: its reading into pieces gives
the tokens `ab ( c + ~ d ) > e12`. -/
theorem C16_tokenize_maximal_runs_witness :
    Main2.tokenize " ab(c+ ~d)>e12 ".toList =
      [['a', 'b'], ['('], ['c'], ['+'], ['~'], ['d'], [')'], ['>'], ['e', '1', '2']] ∧
    Main2.TokensOf " ab(c+ ~d)>e12 ".toList
      [['a', 'b'], ['('], ['c'], ['+'], ['~'], ['d'], [')'], ['>'], ['e', '1', '2']] :=
  ⟨by decide, ((C16_tokenize_maximal_runs " ab(c+ ~d)>e12 ".toList).1 _).1 (by decide)⟩

/-- C17. In both variants, building a tree from the pre-order serialisation of
a well-formed tree returns that tree: for every well-formed `T` over
identifiers, `buildParseTree` applied to the pre-order tokens of `T` (joined by
single spaces in `main_2.cpp`, concatenated single characters in `main.cpp`)
returns `T` itself, so with a leaf per identifier, one child under each `~` and
the sub-expression parsed first as the left child of each binary operator. -/
theorem C17_buildParseTree_of_preorder :
    (∀ T : Main2.Node, Main2.WellFormed T → (∀ v ∈ Main2.identifiers T, Main2.IsIdent v) →
      Main2.buildParseTree (Main2.joinSep [' '] (Main2.preorder T)) = some T) ∧
    (∀ T : Main1.Node, Main1.WellFormed T →
      Main1.buildParseTree (Main1.preorder T) = some T) :=
  ⟨fun _ wf hid => Main2.buildParseTree_preorder wf hid,
    fun _ wf => Main1.buildParseTree_preorder_m1 wf⟩

/-- Witness of C17 at `(~P1) > (Q * R)` for `main_2.cpp` and `(~p) > (q * r)`
for `main.cpp`. -/
theorem C17_buildParseTree_of_preorder_witness :
    (Main2.WellFormed
        (.mk ['>'] (.mk ['~'] (.mk ['P', '1'] .null .null) .null)
          (.mk ['*'] (.mk ['Q'] .null .null) (.mk ['R'] .null .null))) ∧
      Main2.buildParseTree "> ~ P1 * Q R".toList =
        some (.mk ['>'] (.mk ['~'] (.mk ['P', '1'] .null .null) .null)
          (.mk ['*'] (.mk ['Q'] .null .null) (.mk ['R'] .null .null)))) ∧
    (Main1.WellFormed
        (.mk '>' (.mk '~' .null (.mk 'p' .null .null))
          (.mk '*' (.mk 'q' .null .null) (.mk 'r' .null .null))) ∧
      Main1.buildParseTree ">~p*qr".toList =
        some (.mk '>' (.mk '~' .null (.mk 'p' .null .null))
          (.mk '*' (.mk 'q' .null .null) (.mk 'r' .null .null)))) :=
  have w2 : Main2.WellFormed
      (.mk ['>'] (.mk ['~'] (.mk ['P', '1'] .null .null) .null)
        (.mk ['*'] (.mk ['Q'] .null .null) (.mk ['R'] .null .null))) :=
    .bin (Or.inr (Or.inr rfl)) (.neg (.leaf (by decide)))
      (.bin (Or.inr (Or.inl rfl)) (.leaf (by decide)) (.leaf (by decide)))
  have hid : ∀ v ∈ Main2.identifiers
      (.mk ['>'] (.mk ['~'] (.mk ['P', '1'] .null .null) .null)
        (.mk ['*'] (.mk ['Q'] .null .null) (.mk ['R'] .null .null))), Main2.IsIdent v := by
    intro v hv
    have hv' : v = ['P', '1'] ∨ v = ['Q'] ∨ v = ['R'] := by
      simpa [Main2.identifiers, Main2.isOperand, Main2.isOperator] using hv
    rcases hv' with rfl | rfl | rfl <;> exact ⟨by simp, by decide⟩
  have w1 : Main1.WellFormed
      (.mk '>' (.mk '~' .null (.mk 'p' .null .null))
        (.mk '*' (.mk 'q' .null .null) (.mk 'r' .null .null))) :=
    .bin (Or.inr (Or.inr rfl)) (.neg (.leaf (by decide)))
      (.bin (Or.inr (Or.inl rfl)) (.leaf (by decide)) (.leaf (by decide)))
  ⟨⟨w2, C17_buildParseTree_of_preorder.1 _ w2 hid⟩,
    ⟨w1, C17_buildParseTree_of_preorder.2 _ w1⟩⟩

/-- C18, counterexample. On the prefix inputs `+ A` and `~`, where the token
stream ends before a required child of the operator has been produced,
`buildParseTree` returns a tree: the node with the missing child null. -/
theorem C18_buildParseTree_exhausted_counterexample :
    Main2.buildParseTree "+ A".toList =
      some (.mk ['+'] (.mk ['A'] .null .null) .null) ∧
    Main2.buildParseTree "~".toList = some (.mk ['~'] .null .null) ∧
    Main1.buildParseTree "+A".toList = some (.mk '+' (.mk 'A' .null .null) .null) ∧
    Main1.buildParseTree "~".toList = some (.mk '~' .null .null) := by
  decide

/-- C18, amended. `buildParseTree` never fails: in both variants it returns a
tree for every input, and whenever the prefix token stream is exhausted before
a required child of an operator has been produced that child is left null. On
the text of any stream of tokens the tree returned is the one read from the
tokens in pre-order with null for every tree whose turn comes on an exhausted
stream (every stream is read as exactly one tree); so the first `k` tokens of
the prefix text of a well-formed tree give that tree cut after its first `k`
nodes, all nodes the tokens do not reach being null. In particular an operator
token alone gives a node without children, and a binary operator followed by
the pre-order tokens of a single well-formed tree gives that tree as the left
child and a null right child. -/
theorem C18_buildParseTree_never_fails :
    (∀ e : Str, ∃ t, Main2.buildParseTree e = some t) ∧
    (∀ p : Str, ∃ t, Main1.buildParseTree p = some t) ∧
    (∀ op : Str, Main2.isOperator op = true →
      Main2.buildParseTree op = some (.mk op .null .null)) ∧
    (∀ op : Char, Main1.isOperator op = true →
      Main1.buildParseTree [op] = some (.mk op .null .null)) ∧
    (∀ (op : Str) (T : Main2.Node), op = ['+'] ∨ op = ['*'] ∨ op = ['>'] →
      Main2.WellFormed T → (∀ v ∈ Main2.identifiers T, Main2.IsIdent v) →
      Main2.buildParseTree (op ++ [' '] ++ Main2.joinSep [' '] (Main2.preorder T)) =
        some (.mk op T .null)) ∧
    (∀ (op : Char) (T : Main1.Node), op = '+' ∨ op = '*' ∨ op = '>' →
      Main1.WellFormed T →
      Main1.buildParseTree (op :: Main1.preorder T) = some (.mk op T .null)) ∧
    (∀ (ts ts1 : List Str) (T : Main2.Node),
      (∀ t ∈ ts, t ≠ [] ∧ ∀ c ∈ t, Main2.isspace c = false) →
      Main2.ReadsTree ts T ts1 → Main2.buildParseTree (Main2.joinSep [' '] ts) = some T) ∧
    (∀ (p p1 : Str) (T : Main1.Node),
      Main1.ReadsTree p T p1 → Main1.buildParseTree p = some T) ∧
    (∀ ts : List Str, ∃ T ts1, Main2.ReadsTree ts T ts1 ∧
      ∀ T2 ts2, Main2.ReadsTree ts T2 ts2 → T = T2 ∧ ts1 = ts2) ∧
    (∀ p : Str, ∃ T p1, Main1.ReadsTree p T p1 ∧
      ∀ T2 p2, Main1.ReadsTree p T2 p2 → T = T2 ∧ p1 = p2) ∧
    (∀ (T : Main2.Node) (k : Nat), Main2.WellFormed T →
      (∀ v ∈ Main2.identifiers T, Main2.IsIdent v) →
      Main2.buildParseTree (Main2.joinSep [' '] ((Main2.preorder T).take k)) =
        some (Main2.cutTree k T).1) ∧
    (∀ (T : Main1.Node) (k : Nat), Main1.WellFormed T →
      Main1.buildParseTree ((Main1.preorder T).take k) = some (Main1.cutTree k T).1) :=
  ⟨Main2.buildParseTree_total, Main1.buildParseTree_total_m1,
    fun _ h => Main2.buildParseTree_operator_alone h,
    fun _ h => Main1.buildParseTree_operator_alone_m1 h,
    fun _ _ hop wf hid => Main2.buildParseTree_missing_right hop wf hid,
    fun _ _ hop wf => Main1.buildParseTree_missing_right_m1 hop wf,
    fun _ _ _ hw h => Main2.buildParseTree_reads hw h,
    fun _ _ _ h => Main1.buildParseTree_reads_m1 h,
    fun ts =>
      let ⟨T, ts1, h⟩ := Main2.readsTree_total ts
      ⟨T, ts1, h, fun _ _ h2 => Main2.readsTree_unique h h2⟩,
    fun p =>
      let ⟨T, p1, h⟩ := Main1.readsTree_total_m1 p
      ⟨T, p1, h, fun _ _ h2 => Main1.readsTree_unique_m1 h h2⟩,
    fun _ k wf hid => Main2.buildParseTree_cut wf hid k,
    fun _ k wf => Main1.buildParseTree_cut_m1 wf k⟩

/-- Witness of the amended C18. At `* ~ P1` for `main_2.cpp` and `*~p` for
`main.cpp` the `~` sub-expression becomes the left child of `*` and the right
child is null. At `+ * A` the stream ends inside the left child of `+`: the
node `*` has the left child `A` and no right child, and `+` has no right child;
at `~ +` the node `+` has no child. The same trees are those of `+ * A B C`
cut after three nodes. -/
theorem C18_buildParseTree_never_fails_witness :
    (Main2.WellFormed (.mk ['~'] (.mk ['P', '1'] .null .null) .null) ∧
      Main2.buildParseTree "* ~ P1".toList =
        some (.mk ['*'] (.mk ['~'] (.mk ['P', '1'] .null .null) .null) .null)) ∧
    (Main1.WellFormed (.mk '~' .null (.mk 'p' .null .null)) ∧
      Main1.buildParseTree "*~p".toList =
        some (.mk '*' (.mk '~' .null (.mk 'p' .null .null)) .null)) ∧
    (Main2.ReadsTree [['+'], ['*'], ['A']]
        (.mk ['+'] (.mk ['*'] (.mk ['A'] .null .null) .null) .null) [] ∧
      Main2.buildParseTree "+ * A".toList =
        some (.mk ['+'] (.mk ['*'] (.mk ['A'] .null .null) .null) .null)) ∧
    (Main2.ReadsTree [['~'], ['+']] (.mk ['~'] (.mk ['+'] .null .null) .null) [] ∧
      Main2.buildParseTree "~ +".toList = some (.mk ['~'] (.mk ['+'] .null .null) .null)) ∧
    (Main1.ReadsTree "+*A".toList
        (.mk '+' (.mk '*' (.mk 'A' .null .null) .null) .null) [] ∧
      Main1.buildParseTree "+*A".toList =
        some (.mk '+' (.mk '*' (.mk 'A' .null .null) .null) .null)) ∧
    (Main1.ReadsTree "~+".toList (.mk '~' .null (.mk '+' .null .null)) [] ∧
      Main1.buildParseTree "~+".toList = some (.mk '~' .null (.mk '+' .null .null))) ∧
    (Main2.WellFormed (.mk ['+'] (.mk ['*'] (.mk ['A'] .null .null) (.mk ['B'] .null .null))
        (.mk ['C'] .null .null)) ∧
      Main2.buildParseTree (Main2.joinSep [' '] ((Main2.preorder
        (.mk ['+'] (.mk ['*'] (.mk ['A'] .null .null) (.mk ['B'] .null .null))
          (.mk ['C'] .null .null))).take 3)) =
        some (Main2.cutTree 3 (.mk ['+'] (.mk ['*'] (.mk ['A'] .null .null)
          (.mk ['B'] .null .null)) (.mk ['C'] .null .null))).1 ∧
      Main2.joinSep [' '] ((Main2.preorder
        (.mk ['+'] (.mk ['*'] (.mk ['A'] .null .null) (.mk ['B'] .null .null))
          (.mk ['C'] .null .null))).take 3) = "+ * A".toList ∧
      (Main2.cutTree 3 (.mk ['+'] (.mk ['*'] (.mk ['A'] .null .null)
          (.mk ['B'] .null .null)) (.mk ['C'] .null .null))).1 =
        .mk ['+'] (.mk ['*'] (.mk ['A'] .null .null) .null) .null) ∧
    (Main1.WellFormed (.mk '+' (.mk '*' (.mk 'A' .null .null) (.mk 'B' .null .null))
        (.mk 'C' .null .null)) ∧
      Main1.buildParseTree ((Main1.preorder
        (.mk '+' (.mk '*' (.mk 'A' .null .null) (.mk 'B' .null .null))
          (.mk 'C' .null .null))).take 3) =
        some (Main1.cutTree 3 (.mk '+' (.mk '*' (.mk 'A' .null .null)
          (.mk 'B' .null .null)) (.mk 'C' .null .null))).1 ∧
      (Main1.preorder (.mk '+' (.mk '*' (.mk 'A' .null .null) (.mk 'B' .null .null))
          (.mk 'C' .null .null))).take 3 = "+*A".toList ∧
      (Main1.cutTree 3 (.mk '+' (.mk '*' (.mk 'A' .null .null)
          (.mk 'B' .null .null)) (.mk 'C' .null .null))).1 =
        .mk '+' (.mk '*' (.mk 'A' .null .null) .null) .null) :=
  have w2 : Main2.WellFormed (.mk ['~'] (.mk ['P', '1'] .null .null) .null) :=
    .neg (.leaf (by decide))
  have hid : ∀ v ∈ Main2.identifiers (.mk ['~'] (.mk ['P', '1'] .null .null) .null),
      Main2.IsIdent v := by
    intro v hv
    have hv' : v = ['P', '1'] := by
      simpa [Main2.identifiers, Main2.isOperand, Main2.isOperator] using hv
    rw [hv']
    exact ⟨by simp, by decide⟩
  have w1 : Main1.WellFormed (.mk '~' .null (.mk 'p' .null .null)) := .neg (.leaf (by decide))
  have r2a : Main2.ReadsTree [['+'], ['*'], ['A']]
      (.mk ['+'] (.mk ['*'] (.mk ['A'] .null .null) .null) .null) [] :=
    .bin (by decide) (by decide)
      (.bin (by decide) (by decide) (.operand (by decide)) .exhausted) .exhausted
  have r2b : Main2.ReadsTree [['~'], ['+']] (.mk ['~'] (.mk ['+'] .null .null) .null) [] :=
    .neg (.bin (by decide) (by decide) .exhausted .exhausted)
  have r1a : Main1.ReadsTree "+*A".toList
      (.mk '+' (.mk '*' (.mk 'A' .null .null) .null) .null) [] :=
    .bin (by decide) (by decide)
      (.bin (by decide) (by decide) (.operand (by decide)) .exhausted) .exhausted
  have r1b : Main1.ReadsTree "~+".toList (.mk '~' .null (.mk '+' .null .null)) [] :=
    .neg (.bin (by decide) (by decide) .exhausted .exhausted)
  have w2c : Main2.WellFormed (.mk ['+'] (.mk ['*'] (.mk ['A'] .null .null)
      (.mk ['B'] .null .null)) (.mk ['C'] .null .null)) :=
    .bin (Or.inl rfl) (.bin (Or.inr (Or.inl rfl)) (.leaf (by decide)) (.leaf (by decide)))
      (.leaf (by decide))
  have hidc : ∀ v ∈ Main2.identifiers (.mk ['+'] (.mk ['*'] (.mk ['A'] .null .null)
      (.mk ['B'] .null .null)) (.mk ['C'] .null .null)), Main2.IsIdent v := by
    intro v hv
    have hv' : v = ['A'] ∨ v = ['B'] ∨ v = ['C'] := by
      simpa [Main2.identifiers, Main2.isOperand, Main2.isOperator] using hv
    rcases hv' with rfl | rfl | rfl <;> exact ⟨by simp, by decide⟩
  have w1c : Main1.WellFormed (.mk '+' (.mk '*' (.mk 'A' .null .null)
      (.mk 'B' .null .null)) (.mk 'C' .null .null)) :=
    .bin (Or.inl rfl) (.bin (Or.inr (Or.inl rfl)) (.leaf (by decide)) (.leaf (by decide)))
      (.leaf (by decide))
  ⟨⟨w2, C18_buildParseTree_never_fails.2.2.2.2.1 ['*'] _ (Or.inr (Or.inl rfl)) w2 hid⟩,
    ⟨w1, C18_buildParseTree_never_fails.2.2.2.2.2.1 '*' _ (Or.inr (Or.inl rfl)) w1⟩,
    ⟨r2a, C18_buildParseTree_never_fails.2.2.2.2.2.2.1 _ _ _ (by decide) r2a⟩,
    ⟨r2b, C18_buildParseTree_never_fails.2.2.2.2.2.2.1 _ _ _ (by decide) r2b⟩,
    ⟨r1a, C18_buildParseTree_never_fails.2.2.2.2.2.2.2.1 _ _ _ r1a⟩,
    ⟨r1b, C18_buildParseTree_never_fails.2.2.2.2.2.2.2.1 _ _ _ r1b⟩,
    ⟨w2c, C18_buildParseTree_never_fails.2.2.2.2.2.2.2.2.2.2.1 _ 3 w2c hidc, by decide,
      by decide⟩,
    ⟨w1c, C18_buildParseTree_never_fails.2.2.2.2.2.2.2.2.2.2.2 _ 3 w1c, by decide,
      by decide⟩⟩

/-- C19. In both variants, for every well-formed formula tree `F` and every
environment `env` binding the variables of `F`, `nnf(impl_free(F))` returns a
tree that evaluates under `env` like `F`; in particular
`nnf(impl_free(parse("~(A > B)")))`, with `parse` the composition of
`infixToPrefix` and `buildParseTree`, has the truth value of `A * ~B` for all
four assignments of `A` and `B`. -/
theorem C19_nnf_impl_free_preserves_evaluate :
    (∀ (F : Main2.Node) (env : Main2.Env), Main2.WellFormed F → Main2.Binds env F →
      ∃ N, Main2.nnf (Main2.impl_free F) = some N ∧
        Main2.evaluate N env = Main2.evaluate F env) ∧
    (∀ (F : Main1.Node) (env : Main1.Env), Main1.WellFormed F → Main1.Binds env F →
      ∃ N, Main1.nnf (Main1.impl_free F) = some N ∧
        Main1.evaluate N env = Main1.evaluate F env) ∧
    (∃ T N, Main2.buildParseTree (Main2.infixToPrefix "~(A > B)".toList) = some T ∧
      Main2.nnf (Main2.impl_free T) = some N ∧
      ∀ a b : Bool,
        Main2.evaluate N (fun v => if v = ['A'] then some a else if v = ['B'] then some b
          else none) = some (a && !b) ∧
        Main2.evaluate
          (.mk ['*'] (.mk ['A'] .null .null) (.mk ['~'] (.mk ['B'] .null .null) .null))
          (fun v => if v = ['A'] then some a else if v = ['B'] then some b else none) =
            some (a && !b)) ∧
    (∃ p T N, Main1.infixToPrefix "~(A > B)".toList = some p ∧
      Main1.buildParseTree p = some T ∧ Main1.nnf (Main1.impl_free T) = some N ∧
      ∀ a b : Bool,
        Main1.evaluate N (fun v => if v = 'A' then some a else if v = 'B' then some b
          else none) = (a && !b) ∧
        Main1.evaluate
          (.mk '*' (.mk 'A' .null .null) (.mk '~' .null (.mk 'B' .null .null)))
          (fun v => if v = 'A' then some a else if v = 'B' then some b else none) =
            (a && !b)) := by
  refine ⟨?_, ?_, ?_, ?_⟩
  · intro F env wf _
    obtain ⟨w, c⟩ := Main2.impl_free_wellFormed wf
    obtain ⟨N, eN, -⟩ := Main2.nnfAux_total _ _ w c (Nat.lt_succ_self _)
    exact ⟨N, eN, by rw [Main2.nnfAux_evaluate env _ _ _ eN, Main2.evaluate_impl_free]⟩
  · intro F env wf _
    obtain ⟨w, c⟩ := Main1.impl_free_wellFormed_m1 wf
    obtain ⟨N, eN, -⟩ := Main1.nnfAux_total_m1 _ _ w c (Nat.lt_succ_self _)
    exact ⟨N, eN, by rw [Main1.nnfAux_evaluate_m1 env _ _ _ eN, Main1.evaluate_impl_free_m1]⟩
  · refine ⟨.mk ['~'] (.mk ['>'] (.mk ['A'] .null .null) (.mk ['B'] .null .null)) .null,
      .mk ['*'] (.mk ['A'] .null .null) (.mk ['~'] (.mk ['B'] .null .null) .null),
      by decide, by decide, ?_⟩
    intro a b
    cases a <;> cases b <;> decide
  · refine ⟨"~>AB".toList,
      .mk '~' .null (.mk '>' (.mk 'A' .null .null) (.mk 'B' .null .null)),
      .mk '*' (.mk 'A' .null .null) (.mk '~' .null (.mk 'B' .null .null)),
      by decide, by decide, by decide, ?_⟩
    intro a b
    cases a <;> cases b <;> decide

/-- Witness of C19 at `~(A > B)` with `A` bound to true and `B` to false, once
for each variant. -/
theorem C19_nnf_impl_free_preserves_evaluate_witness :
    (Main2.WellFormed
        (.mk ['~'] (.mk ['>'] (.mk ['A'] .null .null) (.mk ['B'] .null .null)) .null) ∧
      ∃ N, Main2.nnf (Main2.impl_free
          (.mk ['~'] (.mk ['>'] (.mk ['A'] .null .null) (.mk ['B'] .null .null)) .null)) =
            some N ∧
        Main2.evaluate N (fun v => if v = ['A'] then some true else some false) =
          Main2.evaluate
            (.mk ['~'] (.mk ['>'] (.mk ['A'] .null .null) (.mk ['B'] .null .null)) .null)
            (fun v => if v = ['A'] then some true else some false)) ∧
    (Main1.WellFormed
        (.mk '~' .null (.mk '>' (.mk 'A' .null .null) (.mk 'B' .null .null))) ∧
      ∃ N, Main1.nnf (Main1.impl_free
          (.mk '~' .null (.mk '>' (.mk 'A' .null .null) (.mk 'B' .null .null)))) = some N ∧
        Main1.evaluate N (fun v => if v = 'A' then some true else some false) =
          Main1.evaluate
            (.mk '~' .null (.mk '>' (.mk 'A' .null .null) (.mk 'B' .null .null)))
            (fun v => if v = 'A' then some true else some false)) :=
  have w2 : Main2.WellFormed
      (.mk ['~'] (.mk ['>'] (.mk ['A'] .null .null) (.mk ['B'] .null .null)) .null) :=
    .neg (.bin (Or.inr (Or.inr rfl)) (.leaf (by decide)) (.leaf (by decide)))
  have b2 : Main2.Binds (fun v => if v = ['A'] then some true else some false)
      (.mk ['~'] (.mk ['>'] (.mk ['A'] .null .null) (.mk ['B'] .null .null)) .null) := by
    intro v _
    by_cases h : v = ['A'] <;> simp [h]
  have w1 : Main1.WellFormed
      (.mk '~' .null (.mk '>' (.mk 'A' .null .null) (.mk 'B' .null .null))) :=
    .neg (.bin (Or.inr (Or.inr rfl)) (.leaf (by decide)) (.leaf (by decide)))
  have b1 : Main1.Binds (fun v => if v = 'A' then some true else some false)
      (.mk '~' .null (.mk '>' (.mk 'A' .null .null) (.mk 'B' .null .null))) := by
    intro v _
    by_cases h : v = 'A' <;> simp [h]
  ⟨⟨w2, C19_nnf_impl_free_preserves_evaluate.1 _ _ w2 b2⟩,
    ⟨w1, C19_nnf_impl_free_preserves_evaluate.2.1 _ _ w1 b1⟩⟩

/-- C20. Truth-table enumeration over the `n` sorted variables of a formula
is to produce exactly `2^n` rows, for the row indices `i = 0, ..., 2^n - 1` in
increasing order, row `i` making the `j`-th variable (counted from 0) true
exactly when bit `n - 1 - j` of `i` is set; so for 3 variables the 8 rows are
FFF, FFT, FTF, FTT, TFF, TFT, TTF, TTT, the first variable varying slowest.
The loops of `main_2.cpp` produce this enumeration as long as `1LL << n` is
representable (`n ≤ 62`; its caller admits at most 18 variables). The loops of
`main.cpp`, which has no ceiling on `n`, produce it for `n ≤ 30` only: with 31
variables the bound `1 << n` is negative and no row at all is produced, where
the enumeration has `2^31` rows, and from 32 variables on the shift is
undefined. -/
theorem C20_truth_table_rows :
    (∀ varList : List Str, varList.length ≤ 62 →
      Main2.truthTableRows varList = Main2.rowsSpec varList) ∧
    (∀ varList : List Char, varList.length ≤ 30 →
      Main1.truthTableRows varList = some (Main2.rowsSpec varList)) ∧
    (∀ varList : List Char, varList.length = 31 →
      Main1.truthTableRows varList = some [] ∧
      (Main2.rowsSpec varList).length = 2 ^ 31 ∧
      Main1.truthTableRows varList ≠ some (Main2.rowsSpec varList)) ∧
    (∀ varList : List Char, 32 ≤ varList.length → Main1.truthTableRows varList = none) ∧
    Main1.truthTableRows "ABCDEFGHIJKLMNOPQRSTUVWXYZabcde".toList = some [] ∧
    (∀ (α : Type) (varList : List α),
      (Main2.rowsSpec varList).length = 2 ^ varList.length ∧
      (∀ i, i < 2 ^ varList.length →
        (Main2.rowsSpec varList)[i]? = some (Main2.rowSpec varList i)) ∧
      ∀ (i j : Nat) (h : j < varList.length),
        (Main2.rowSpec varList i)[j]? =
          some (varList.get ⟨j, h⟩, i.testBit (varList.length - 1 - j))) ∧
    (Main2.truthTableRows [['A'], ['B'], ['C']]).map (fun r => r.map Prod.snd) =
      [[false, false, false], [false, false, true], [false, true, false], [false, true, true],
        [true, false, false], [true, false, true], [true, true, false], [true, true, true]] ∧
    (Main1.truthTableRows ['A', 'B', 'C']).map (fun rows => rows.map fun r => r.map Prod.snd) =
      some [[false, false, false], [false, false, true], [false, true, false],
        [false, true, true], [true, false, false], [true, false, true], [true, true, false],
        [true, true, true]] :=
  ⟨Main2.truthTableRows_eq, Main1.truthTableRows_eq_m1,
    fun varList h => by
      have hlen : (Main2.rowsSpec varList).length = 2 ^ 31 := by
        rw [Main2.rowsSpec_length, h]
      refine ⟨Main1.truthTableRows_31 varList h, hlen, ?_⟩
      rw [Main1.truthTableRows_31 varList h]
      intro heq
      have hnil : Main2.rowsSpec varList = [] := (Option.some.inj heq).symm
      rw [hnil] at hlen
      exact absurd hlen (by decide),
    Main1.truthTableRows_undefined,
    Main1.truthTableRows_31 _ (by decide),
    fun _ varList => ⟨Main2.rowsSpec_length varList, Main2.rowsSpec_get varList,
      Main2.rowSpec_get varList⟩,
    by decide, by decide⟩

/-- Witness of C20: at two variables the rows of both programs are the four
rows FF, FT, TF, TT of the described enumeration; at the 31 variables `A`, ...,
`Z`, `a`, ..., `e` the loops of `main.cpp` produce no row; at 32 variables their
bound is undefined. -/
theorem C20_truth_table_rows_witness :
    ([['P', '1'], ['Q']] : List Str).length ≤ 62 ∧
    Main2.truthTableRows [['P', '1'], ['Q']] = Main2.rowsSpec [['P', '1'], ['Q']] ∧
    (['p', 'q'] : List Char).length ≤ 30 ∧
    Main1.truthTableRows ['p', 'q'] = some (Main2.rowsSpec ['p', 'q']) ∧
    Main2.rowsSpec ['p', 'q'] =
      [[('p', false), ('q', false)], [('p', false), ('q', true)],
        [('p', true), ('q', false)], [('p', true), ('q', true)]] ∧
    "ABCDEFGHIJKLMNOPQRSTUVWXYZabcde".toList.length = 31 ∧
    (Main1.truthTableRows "ABCDEFGHIJKLMNOPQRSTUVWXYZabcde".toList = some [] ∧
      (Main2.rowsSpec "ABCDEFGHIJKLMNOPQRSTUVWXYZabcde".toList).length = 2 ^ 31 ∧
      Main1.truthTableRows "ABCDEFGHIJKLMNOPQRSTUVWXYZabcde".toList ≠
        some (Main2.rowsSpec "ABCDEFGHIJKLMNOPQRSTUVWXYZabcde".toList)) ∧
    32 ≤ "ABCDEFGHIJKLMNOPQRSTUVWXYZabcdef".toList.length ∧
    Main1.truthTableRows "ABCDEFGHIJKLMNOPQRSTUVWXYZabcdef".toList = none :=
  ⟨by decide, C20_truth_table_rows.1 _ (by decide), by decide,
    C20_truth_table_rows.2.1 _ (by decide), by decide, by decide,
    C20_truth_table_rows.2.2.1 _ (by decide), by decide,
    C20_truth_table_rows.2.2.2.1 _ (by decide)⟩

/-! ## Truth-table ceiling, variable collection and the validity checks -/

/-- C21. In `main_2.cpp` the truth-table enumeration is rejected, producing no
row, exactly when there are more than 18 variables, and with at most 18
variables it produces all `2^n` rows of the described enumeration. This holds
for the guard of the automated run on every variable list, the interactive run
after the answer `Y` or `y` behaves the same, and for a well-formed formula
`T`, whose variable set is `getVariables T {}`, the number that is compared
with 18 is the number of distinct identifiers at the leaves of `T`. -/
theorem C21_truth_table_ceiling :
    (∀ varList : List Str, Main2.truthTable varList = none ↔ 18 < varList.length) ∧
    (∀ varList : List Str, varList.length ≤ 18 →
      Main2.truthTable varList = some (Main2.rowsSpec varList) ∧
      (Main2.rowsSpec varList).length = 2 ^ varList.length) ∧
    (∀ (generate_table : Char) (vars : List Str), generate_table = 'Y' ∨ generate_table = 'y' →
      Main2.truthTableOnRequest generate_table vars = Main2.truthTable vars) ∧
    ∀ T : Main2.Node, Main2.WellFormed T →
      (Main2.truthTable (Main2.getVariables T []) = none ↔
        18 < (Main2.leaves T).toFinset.card) ∧
      ((Main2.leaves T).toFinset.card ≤ 18 →
        ∃ rows, Main2.truthTable (Main2.getVariables T []) = some rows ∧
          rows = Main2.rowsSpec (Main2.getVariables T []) ∧
          rows.length = 2 ^ (Main2.leaves T).toFinset.card) :=
  ⟨Main2.truthTable_none_iff,
    fun varList h => ⟨Main2.truthTable_rows varList h, Main2.rowsSpec_length varList⟩,
    Main2.truthTableOnRequest_eq,
    fun T wf => by
      have hl := (Main2.getVariables_leaves wf).2.2.2
      refine ⟨by rw [Main2.truthTable_none_iff, hl], fun h => ?_⟩
      refine ⟨_, Main2.truthTable_rows _ (by rw [hl]; exact h), rfl, ?_⟩
      rw [Main2.rowsSpec_length, hl]⟩

/-- Witness of C21: the formula `(q + p) * ~q` has two distinct identifiers and
gets its four rows, also on request; a list of 19 variables gets none. -/
theorem C21_truth_table_ceiling_witness :
    Main2.truthTable (List.replicate 19 ['x']) = none ∧
    Main2.truthTableOnRequest 'y' (List.replicate 19 ['x']) = none ∧
    ∃ rows,
      Main2.truthTable (Main2.getVariables
        (.mk ['*'] (.mk ['+'] (.mk ['q'] .null .null) (.mk ['p'] .null .null))
          (.mk ['~'] (.mk ['q'] .null .null) .null)) []) = some rows ∧
      rows = Main2.rowsSpec [['p'], ['q']] ∧ rows.length = 2 ^ 2 :=
  ⟨(C21_truth_table_ceiling.1 _).2 (by decide),
    (C21_truth_table_ceiling.2.2.1 'y' _ (Or.inr rfl)).trans
      ((C21_truth_table_ceiling.1 _).2 (by decide)),
    C21_truth_table_ceiling.2.2.2 _
      (.bin (Or.inr (Or.inl rfl)) (.bin (Or.inl rfl) (.leaf (by decide)) (.leaf (by decide)))
        (.neg (.leaf (by decide)))) |>.2 (by decide)⟩

/-- C22. `getVariables` of `main_2.cpp`, started from the empty set, returns
for every well-formed tree `T` exactly the identifiers at the leaves of `T`,
each once, in strictly increasing lexicographic order of their characters. -/
theorem C22_getVariables_sorted_set (T : Main2.Node) (wf : Main2.WellFormed T) :
    (∀ x, x ∈ Main2.getVariables T [] ↔ x ∈ Main2.leaves T) ∧
    (Main2.getVariables T []).Nodup ∧
    (Main2.getVariables T []).Pairwise (fun a b => Main2.strLess a b = true) ∧
    (Main2.getVariables T []).length = (Main2.leaves T).toFinset.card :=
  ⟨(Main2.getVariables_leaves wf).2.2.1, (Main2.getVariables_leaves wf).2.1,
    (Main2.getVariables_leaves wf).1, (Main2.getVariables_leaves wf).2.2.2⟩

/-- Witness of C22 at `(b > ab) + ~(b * a)`, whose variables come out as
`a`, `ab`, `b`. -/
theorem C22_getVariables_sorted_set_witness :
    Main2.getVariables
      (.mk ['+'] (.mk ['>'] (.mk ['b'] .null .null) (.mk ['a', 'b'] .null .null))
        (.mk ['~'] (.mk ['*'] (.mk ['b'] .null .null) (.mk ['a'] .null .null)) .null)) [] =
      [['a'], ['a', 'b'], ['b']] ∧
    (∀ x, x ∈ Main2.getVariables
      (.mk ['+'] (.mk ['>'] (.mk ['b'] .null .null) (.mk ['a', 'b'] .null .null))
        (.mk ['~'] (.mk ['*'] (.mk ['b'] .null .null) (.mk ['a'] .null .null)) .null)) [] ↔
      x ∈ Main2.leaves
        (.mk ['+'] (.mk ['>'] (.mk ['b'] .null .null) (.mk ['a', 'b'] .null .null))
          (.mk ['~'] (.mk ['*'] (.mk ['b'] .null .null) (.mk ['a'] .null .null)) .null))) :=
  ⟨by decide,
    (C22_getVariables_sorted_set _
      (.bin (Or.inl rfl) (.bin (Or.inr (Or.inr rfl)) (.leaf (by decide)) (.leaf (by decide)))
        (.neg (.bin (Or.inr (Or.inl rfl)) (.leaf (by decide)) (.leaf (by decide)))))).1⟩

/-- C23. `check_cnf_valid` of `main.cpp`, on every CNF text of one or more
clauses joined by `*`, each clause a `+`-separated list of one or more literals
(a one-character variable, optionally preceded by `~`) written with or without
enclosing parentheses, returns true if and only if every clause contains some
variable both negated and unnegated; and this holds of the text written with
blanks anywhere, as in `(P + ~P) * (Q + ~Q)`: of every text whose non-blank
characters form such a CNF text. A clause is given as the flag "written in
parentheses" with its literals; a literal as the flag "negated" with its
variable. -/
theorem C23_check_cnf_valid_main1 (cs : List (Bool × List (Bool × Char))) (hne : cs ≠ [])
    (h : ∀ c ∈ cs, c.2 ≠ [] ∧ ∀ l ∈ c.2, Main1.isVariableChar l.2 = true) :
    (Main1.check_cnf_valid (Main1.cnfText cs) = true ↔
      ∀ c ∈ cs, ∃ x, (true, x) ∈ c.2 ∧ (false, x) ∈ c.2) ∧
    ∀ s : Str, s.filter (fun c => c != ' ') = Main1.cnfText cs →
      (Main1.check_cnf_valid s = true ↔
        ∀ c ∈ cs, ∃ x, (true, x) ∈ c.2 ∧ (false, x) ∈ c.2) :=
  ⟨Main1.check_cnf_valid_cnfText_m1 cs hne h, Main1.check_cnf_valid_blanks cs hne h⟩

/-- Witness of C23: `(P+~P)*~Q+R+Q` is valid and `(P+~P)*Q+R` is not; written
with blanks, `(P + ~P) * (Q + ~Q)` is valid and `( P + ~ P ) * Q + R` is not. -/
theorem C23_check_cnf_valid_main1_witness :
    Main1.cnfText [(true, [(false, 'P'), (true, 'P')]),
      (false, [(true, 'Q'), (false, 'R'), (false, 'Q')])] = "(P+~P)*~Q+R+Q".toList ∧
    Main1.check_cnf_valid "(P+~P)*~Q+R+Q".toList = true ∧
    Main1.check_cnf_valid "(P+~P)*Q+R".toList = false ∧
    (Main1.check_cnf_valid (Main1.cnfText [(true, [(false, 'P'), (true, 'P')]),
        (false, [(true, 'Q'), (false, 'R'), (false, 'Q')])]) = true ↔
      ∀ c ∈ [(true, [(false, 'P'), (true, 'P')]),
          (false, [(true, 'Q'), (false, 'R'), (false, 'Q')])],
        ∃ x, (true, x) ∈ c.2 ∧ (false, x) ∈ c.2) ∧
    "(P + ~P) * (Q + ~Q)".toList.filter (fun c => c != ' ') =
      Main1.cnfText [(true, [(false, 'P'), (true, 'P')]),
        (true, [(false, 'Q'), (true, 'Q')])] ∧
    (Main1.check_cnf_valid "(P + ~P) * (Q + ~Q)".toList = true ↔
      ∀ c ∈ [(true, [(false, 'P'), (true, 'P')]), (true, [(false, 'Q'), (true, 'Q')])],
        ∃ x, (true, x) ∈ c.2 ∧ (false, x) ∈ c.2) ∧
    Main1.check_cnf_valid "(P + ~P) * (Q + ~Q)".toList = true ∧
    "( P + ~ P ) * Q + R".toList.filter (fun c => c != ' ') =
      Main1.cnfText [(true, [(false, 'P'), (true, 'P')]),
        (false, [(false, 'Q'), (false, 'R')])] ∧
    (Main1.check_cnf_valid "( P + ~ P ) * Q + R".toList = true ↔
      ∀ c ∈ [(true, [(false, 'P'), (true, 'P')]), (false, [(false, 'Q'), (false, 'R')])],
        ∃ x, (true, x) ∈ c.2 ∧ (false, x) ∈ c.2) ∧
    Main1.check_cnf_valid "( P + ~ P ) * Q + R".toList = false :=
  ⟨by decide, by decide, by decide,
    (C23_check_cnf_valid_main1 _ (by simp) (by decide)).1,
    by decide,
    (C23_check_cnf_valid_main1 _ (by simp) (by decide)).2 _ (by decide),
    by decide, by decide,
    (C23_check_cnf_valid_main1 _ (by simp) (by decide)).2 _ (by decide),
    by decide⟩

/-- C24. The check of `main_2.cpp` at the two texts of the claim: on
`(A + ~A)*(B + C)`, written without spaces around `*`, `check_cnf_valid`
answers true, and on `(A + ~A) * (B + C)` it answers false, although the two
texts differ in spaces only. The formula is not valid (`A, B, C` all false
makes `B + C` false), and `check_cnf_valid` of `main.cpp` answers false on
both texts. -/
theorem C24_check_cnf_valid_spacing :
    Main2.check_cnf_valid "(A + ~A)*(B + C)".toList = some true ∧
    Main2.check_cnf_valid "(A + ~A) * (B + C)".toList = some false ∧
    Main1.check_cnf_valid "(A + ~A)*(B + C)".toList = false ∧
    Main1.check_cnf_valid "(A + ~A) * (B + C)".toList = false := by
  decide

/-! ## The DIMACS reader -/

/-- Counterexample to C25 as stated: after the header `p cnf 3 1` the clause
lines `1 2` and `3 0` yield the single clause `[3]`, not the clause `[1, 2, 3]`
that cutting the whole integer sequence `1 2 3 0` at its zeros gives; the
integers `1 2` of the line without a `0` are dropped at the end of that line. -/
theorem C25_clause_across_lines_counterexample :
    (Main2.readDIMACSCNF "p cnf 3 1\n1 2\n3 0\n".toList).formula = [[3]] ∧
    Main2.terminatedRuns
      (Main2.extractInts "1 2".toList ++ Main2.extractInts "3 0".toList) = [[1, 2, 3]] ∧
    (Main2.readDIMACSCNF "p cnf 3 1\n1 2\n3 0\n".toList).formula ≠
      Main2.terminatedRuns
        (Main2.extractInts "1 2".toList ++ Main2.extractInts "3 0".toList) := by
  decide

/-- C25, amended. `readDIMACSCNF` accumulates a clause until its terminating
`0` within one line: for every input whose first header line is valid (and
whose later lines beginning with `p`, if any, are valid headers too), the
returned clause list is obtained line by line, in order, from the lines after
the header that are neither blank nor a comment nor a header: the integers on
the line are cut at every `0` and each non-empty run that is followed by a `0`
is kept; the integers of a line after its last `0` are dropped. -/
theorem C25_clauses_per_line (input : Str) (pre body : List Str) (hdr : Str) (nv nc : Int)
    (hg : Main2.getlines input = pre ++ hdr :: body)
    (hpre : ∀ l ∈ pre, l.head? ≠ some 'p')
    (hp : hdr.head? = some 'p') (hh : Main2.headerOf hdr = some (nv, nc))
    (hbody : ∀ l ∈ body, l.head? = some 'p' → Main2.headerOf l ≠ none) :
    (Main2.readDIMACSCNF input).formula =
      ((body.filter Main2.isClauseLine).map fun l =>
        Main2.terminatedRuns (Main2.extractInts l)).flatten :=
  Main2.readDIMACSCNF_per_line input pre body hdr nv nc hg hpre hp hh hbody

/-- Witness of C25, amended: after a comment and the header, the lines
`1 2 0 3 0`, `c x`, `4 5` and `-6 0 7` yield the clauses `[1, 2]`, `[3]` and
`[-6]`. -/
theorem C25_clauses_per_line_witness :
    (Main2.readDIMACSCNF "c a\np cnf 7 3\n1 2 0 3 0\nc x\n4 5\n-6 0 7\n".toList).formula =
      (((["1 2 0 3 0".toList, "c x".toList, "4 5".toList, "-6 0 7".toList].filter
        Main2.isClauseLine).map fun l =>
          Main2.terminatedRuns (Main2.extractInts l)).flatten) ∧
    (Main2.readDIMACSCNF "c a\np cnf 7 3\n1 2 0 3 0\nc x\n4 5\n-6 0 7\n".toList).formula =
      [[1, 2], [3], [-6]] :=
  ⟨C25_clauses_per_line _ ["c a".toList] _ "p cnf 7 3".toList 7 3 (by decide) (by decide)
      (by decide) (by decide) (by decide),
    by decide⟩

/-- Counterexample to C26 as stated: the input `p cnf 1 1`, `1 0`, `p cnf 1`
ends in a header line that lacks its second integer, so its formula is empty;
appending the nonzero integers ` 2 3` completes that header and the formula
becomes `[[1]]`. -/
theorem C26_append_unterminated_counterexample :
    (Main2.readDIMACSCNF "p cnf 1 1\n1 0\np cnf 1".toList).formula = [] ∧
    (Main2.readDIMACSCNF ("p cnf 1 1\n1 0\np cnf 1".toList ++ " 2 3".toList)).formula =
      [[1]] ∧
    (Main2.readDIMACSCNF ("p cnf 1 1\n1 0\np cnf 1".toList ++ " 2 3".toList)).formula ≠
      (Main2.readDIMACSCNF "p cnf 1 1\n1 0\np cnf 1".toList).formula := by
  decide

/-- C26, amended. `readDIMACSCNF` never commits unterminated integers: for
every input, every returned clause is a run of integers of one line that is
followed by a `0` on that line, so integers after the last `0` are in no
returned clause; and appending nonzero integers without a final `0` to the end
of an input, on a new line, or after a space when the last line of the input
does not begin with `p`, does not change the parsed formula. -/
theorem C26_unterminated_not_committed (input : Str) :
    (∀ c ∈ (Main2.readDIMACSCNF input).formula,
      ∃ line ∈ Main2.getlines input, ∃ pre post,
        Main2.extractInts line = pre ++ c ++ 0 :: post) ∧
    (∀ lits : List Int, (∀ l ∈ lits, l ≠ 0 ∧ Main2.isInt l) →
      (Main2.readDIMACSCNF
        (input ++ '\n' :: Main2.joinSep [' '] (lits.map Main2.intToStr))).formula =
        (Main2.readDIMACSCNF input).formula) ∧
    (∀ lits : List Int, (∀ l ∈ lits, l ≠ 0 ∧ Main2.isInt l) →
      (∀ L, (Main2.getlines input).getLast? = some L → L.head? ≠ some 'p') →
      (Main2.readDIMACSCNF
        (input ++ ' ' :: Main2.joinSep [' '] (lits.map Main2.intToStr))).formula =
        (Main2.readDIMACSCNF input).formula) :=
  ⟨fun c h => (Main2.readDIMACSCNF_clause input c h).1,
    Main2.readDIMACSCNF_append_line input, Main2.readDIMACSCNF_append_space input⟩

/-- Witness of C26, amended: to `p cnf 3 1`, `1 -2 0 3` the integers `2 -1` are
appended after a space and on a new line; the formula stays `[[1, -2]]`. -/
theorem C26_unterminated_not_committed_witness :
    (Main2.readDIMACSCNF "p cnf 3 1\n1 -2 0 3".toList).formula = [[1, -2]] ∧
    (Main2.readDIMACSCNF ("p cnf 3 1\n1 -2 0 3".toList ++
        '\n' :: Main2.joinSep [' '] ([2, -1].map Main2.intToStr))).formula =
      (Main2.readDIMACSCNF "p cnf 3 1\n1 -2 0 3".toList).formula ∧
    (Main2.readDIMACSCNF ("p cnf 3 1\n1 -2 0 3".toList ++
        ' ' :: Main2.joinSep [' '] ([2, -1].map Main2.intToStr))).formula =
      (Main2.readDIMACSCNF "p cnf 3 1\n1 -2 0 3".toList).formula ∧
    "p cnf 3 1\n1 -2 0 3".toList ++ ' ' :: Main2.joinSep [' '] ([2, -1].map Main2.intToStr) =
      "p cnf 3 1\n1 -2 0 3 2 -1".toList :=
  ⟨by decide,
    (C26_unterminated_not_committed _).2.1 [2, -1] (by simp only [Main2.isInt]; decide),
    (C26_unterminated_not_committed _).2.2 [2, -1] (by simp only [Main2.isInt]; decide)
      (by decide),
    by decide⟩

/-- C27. `readDIMACSCNF` yields an empty formula whenever the input has no valid
header: if some line beginning with `p` does not read as a word followed by two
integers with the word being `cnf`, the result is the empty formula, whatever
was read before; and if no line begins with `p`, every clause line is ignored
and the result is the empty formula. -/
theorem C27_no_valid_header_empty_formula (input : Str) :
    ((∃ l ∈ Main2.getlines input, l.head? = some 'p' ∧ Main2.headerOf l = none) →
      (Main2.readDIMACSCNF input).formula = []) ∧
    ((∀ l ∈ Main2.getlines input, l.head? ≠ some 'p') →
      (Main2.readDIMACSCNF input).formula = []) :=
  ⟨Main2.readLines_invalid_header _ _, Main2.readDIMACSCNF_no_header input⟩

/-- Witness of C27: a second header with the word `dnf` discards the clause
read before it, and clause lines without any header give nothing. -/
theorem C27_no_valid_header_empty_formula_witness :
    (Main2.readDIMACSCNF "p cnf 1 1\n1 0\np dnf 1 1\n-1 0\n".toList).formula = [] ∧
    (Main2.readDIMACSCNF "p cnf 1 1\n1 0\n".toList).formula = [[1]] ∧
    (Main2.readDIMACSCNF "1 0\n-1 2 0\n".toList).formula = [] :=
  ⟨(C27_no_valid_header_empty_formula _).1
      ⟨"p dnf 1 1".toList, by decide, by decide, by decide⟩,
    by decide,
    (C27_no_valid_header_empty_formula _).2 (by decide)⟩

/-- C28. `readDIMACSCNF` ignores blank lines and comment lines: for a line `x`
that is empty or begins with `c`, two texts whose line sequences differ by `x`
alone, at any position, give the same formula and the same variable and clause
counts; in particular inserting `x` with its line break after any number of
complete lines of a text, or removing it there, changes nothing. -/
theorem C28_blank_and_comment_lines_ignored (x : Str) (hx : x = [] ∨ x.head? = some 'c') :
    (∀ (input input' : Str) (ls₁ ls₂ : List Str),
      Main2.getlines input = ls₁ ++ ls₂ → Main2.getlines input' = ls₁ ++ x :: ls₂ →
      Main2.readDIMACSCNF input' = Main2.readDIMACSCNF input) ∧
    (∀ (ls : List Str) (rest : Str), (∀ l ∈ ls, '\n' ∉ l) → '\n' ∉ x →
      Main2.readDIMACSCNF (Main2.unlines ls ++ (x ++ '\n' :: rest)) =
        Main2.readDIMACSCNF (Main2.unlines ls ++ rest)) :=
  ⟨fun input input' ls₁ ls₂ h h' => by
      rw [Main2.readDIMACSCNF, Main2.readDIMACSCNF, h, h', Main2.readLines_insert hx],
    fun ls rest hls hn => Main2.readDIMACSCNF_insert ls hls x hx hn rest⟩

/-- Witness of C28: a comment line between the header and the clauses, and an
empty line between the two clause lines. -/
theorem C28_blank_and_comment_lines_ignored_witness :
    Main2.readDIMACSCNF "p cnf 2 2\nc two clauses\n1 -2 0\n-1 2 0\n".toList =
      Main2.readDIMACSCNF "p cnf 2 2\n1 -2 0\n-1 2 0\n".toList ∧
    Main2.readDIMACSCNF "p cnf 2 2\n1 -2 0\n\n-1 2 0\n".toList =
      Main2.readDIMACSCNF "p cnf 2 2\n1 -2 0\n-1 2 0\n".toList ∧
    Main2.readDIMACSCNF "p cnf 2 2\n1 -2 0\n-1 2 0\n".toList =
      { formula := [[1, -2], [-1, 2]], numVars := 2, numClauses := 2 } :=
  ⟨(C28_blank_and_comment_lines_ignored "c two clauses".toList (Or.inr (by decide))).1
      "p cnf 2 2\n1 -2 0\n-1 2 0\n".toList _ ["p cnf 2 2".toList]
      ["1 -2 0".toList, "-1 2 0".toList] (by decide) (by decide),
    (C28_blank_and_comment_lines_ignored [] (Or.inl rfl)).2
      ["p cnf 2 2".toList, "1 -2 0".toList] "-1 2 0\n".toList (by decide) (by decide),
    by decide⟩

/-- C29. Every clause in the formula returned by `readDIMACSCNF`, for every
input text, is non-empty and contains only nonzero integers. -/
theorem C29_clauses_nonempty_nonzero (input : Str) (c : List Int)
    (h : c ∈ (Main2.readDIMACSCNF input).formula) : c ≠ [] ∧ ∀ x ∈ c, x ≠ 0 :=
  (Main2.readDIMACSCNF_clause input c h).2

/-- Witness of C29: with a lone `0` on a line and a doubled `0` after a clause
the formula is `[[1, -2], [2]]`, and its clause `[1, -2]` is as stated. -/
theorem C29_clauses_nonempty_nonzero_witness :
    (Main2.readDIMACSCNF "p cnf 2 2\n0\n1 -2 0 0\n0 2 0\n".toList).formula = [[1, -2], [2]] ∧
    ([1, -2] : List Int) ≠ [] ∧ ∀ x ∈ ([1, -2] : List Int), x ≠ 0 :=
  ⟨by decide,
    C29_clauses_nonempty_nonzero "p cnf 2 2\n0\n1 -2 0 0\n0 2 0\n".toList [1, -2] (by decide)⟩

/-- C30. Idempotence of the CNF conversion, in both variants: for every
well-formed tree `C` in CNF shape the passes `impl_free`, `nnf`, `cnf` run to
completion on `C` and the result, again in CNF shape, evaluates like `C` under
every environment (so under every environment binding its variables; under the
others both evaluations fail alike). A tree in CNF shape is well-formed, and
for every well-formed `F` the conversion of `F` returns such a `C`, so
converting twice evaluates like converting once. -/
theorem C30_cnf_idempotent :
    (∀ C : Main2.Node, Main2.WellFormed C → Main2.IsCNF C →
      ∃ N C', Main2.nnf (Main2.impl_free C) = some N ∧ Main2.cnf N = some C' ∧
        Main2.IsCNF C' ∧ ∀ env, Main2.evaluate C' env = Main2.evaluate C env) ∧
    (∀ C : Main2.Node, Main2.IsCNF C → Main2.WellFormed C) ∧
    (∀ F : Main2.Node, Main2.WellFormed F →
      ∃ N C N' C', Main2.nnf (Main2.impl_free F) = some N ∧ Main2.cnf N = some C ∧
        Main2.nnf (Main2.impl_free C) = some N' ∧ Main2.cnf N' = some C' ∧
        ∀ env, Main2.evaluate C' env = Main2.evaluate C env) ∧
    (∀ C : Main1.Node, Main1.WellFormed C → Main1.IsCNF C →
      ∃ N C', Main1.nnf (Main1.impl_free C) = some N ∧ Main1.cnf N = some C' ∧
        Main1.IsCNF C' ∧ ∀ env, Main1.evaluate C' env = Main1.evaluate C env) ∧
    (∀ C : Main1.Node, Main1.IsCNF C → Main1.WellFormed C) ∧
    (∀ F : Main1.Node, Main1.WellFormed F →
      ∃ N C N' C', Main1.nnf (Main1.impl_free F) = some N ∧ Main1.cnf N = some C ∧
        Main1.nnf (Main1.impl_free C) = some N' ∧ Main1.cnf N' = some C' ∧
        ∀ env, Main1.evaluate C' env = Main1.evaluate C env) := by
  refine ⟨fun C wf _ => ?_, fun _ => Main2.isCNF_wellFormed, fun F wf => ?_,
    fun C wf _ => ?_, fun _ => Main1.isCNF_wellFormed_m1, fun F wf => ?_⟩
  · obtain ⟨N, C', eN, eC, -, hC, h⟩ := Main2.pipeline_spec wf
    exact ⟨N, C', eN, eC, hC, h⟩
  · obtain ⟨N, C, eN, eC, -, hC, -⟩ := Main2.pipeline_spec wf
    obtain ⟨N', C', eN', eC', -, -, h⟩ := Main2.pipeline_spec (Main2.isCNF_wellFormed hC)
    exact ⟨N, C, N', C', eN, eC, eN', eC', h⟩
  · obtain ⟨N, C', eN, eC, -, hC, h⟩ := Main1.pipeline_spec_m1 wf
    exact ⟨N, C', eN, eC, hC, h⟩
  · obtain ⟨N, C, eN, eC, -, hC, -⟩ := Main1.pipeline_spec_m1 wf
    obtain ⟨N', C', eN', eC', -, -, h⟩ := Main1.pipeline_spec_m1 (Main1.isCNF_wellFormed_m1 hC)
    exact ⟨N, C, N', C', eN, eC, eN', eC', h⟩

/-- Witness of C30 at the CNF tree `(A + ~B) * C`, once for each variant, and
at the conversion of `A > (B * C)` repeated. -/
theorem C30_cnf_idempotent_witness :
    (∃ N C', Main2.nnf (Main2.impl_free
        (.mk ['*'] (.mk ['+'] (.mk ['A'] .null .null) (.mk ['~'] (.mk ['B'] .null .null) .null))
          (.mk ['C'] .null .null))) = some N ∧ Main2.cnf N = some C' ∧
      Main2.IsCNF C' ∧ ∀ env, Main2.evaluate C' env = Main2.evaluate
        (.mk ['*'] (.mk ['+'] (.mk ['A'] .null .null) (.mk ['~'] (.mk ['B'] .null .null) .null))
          (.mk ['C'] .null .null)) env) ∧
    (∃ N C', Main1.nnf (Main1.impl_free
        (.mk '*' (.mk '+' (.mk 'A' .null .null) (.mk '~' .null (.mk 'B' .null .null)))
          (.mk 'C' .null .null))) = some N ∧ Main1.cnf N = some C' ∧
      Main1.IsCNF C' ∧ ∀ env, Main1.evaluate C' env = Main1.evaluate
        (.mk '*' (.mk '+' (.mk 'A' .null .null) (.mk '~' .null (.mk 'B' .null .null)))
          (.mk 'C' .null .null)) env) ∧
    (∃ N C N' C', Main2.nnf (Main2.impl_free
        (.mk ['>'] (.mk ['A'] .null .null)
          (.mk ['*'] (.mk ['B'] .null .null) (.mk ['C'] .null .null)))) = some N ∧
      Main2.cnf N = some C ∧ Main2.nnf (Main2.impl_free C) = some N' ∧
      Main2.cnf N' = some C' ∧ ∀ env, Main2.evaluate C' env = Main2.evaluate C env) :=
  have c2 : Main2.IsCNF
      (.mk ['*'] (.mk ['+'] (.mk ['A'] .null .null) (.mk ['~'] (.mk ['B'] .null .null) .null))
        (.mk ['C'] .null .null)) :=
    .and (.clause (.or (.lit (.pos (by decide))) (.lit (.neg (by decide)))))
      (.clause (.lit (.pos (by decide))))
  have c1 : Main1.IsCNF
      (.mk '*' (.mk '+' (.mk 'A' .null .null) (.mk '~' .null (.mk 'B' .null .null)))
        (.mk 'C' .null .null)) :=
    .and (.clause (.or (.lit (.pos (by decide))) (.lit (.neg (by decide)))))
      (.clause (.lit (.pos (by decide))))
  ⟨C30_cnf_idempotent.1 _ (C30_cnf_idempotent.2.1 _ c2) c2,
    C30_cnf_idempotent.2.2.2.1 _ (C30_cnf_idempotent.2.2.2.2.1 _ c1) c1,
    C30_cnf_idempotent.2.2.1 _
      (.bin (Or.inr (Or.inr rfl)) (.leaf (by decide))
        (.bin (Or.inr (Or.inl rfl)) (.leaf (by decide)) (.leaf (by decide))))⟩

/-! ## The evaluator of `main.cpp`, the rewrite passes and the converters -/

/-- C31. `evaluate` of `main.cpp` never fails: for every well-formed tree `T`
and every environment `env`, which may leave variables of `T` unbound, it
returns the standard truth value of `T` under the total assignment that takes
the value of `env` where `env` binds a variable and false where it does not. -/
theorem C31_evaluate_main1_defaults_false :
    (∀ (T : Main1.Node) (env : Main1.Env), Main1.WellFormed T →
      Main1.evaluate T env = Main1.truthValue (Main1.extendFalse env) T) ∧
    ∀ (env : Main1.Env) (c : Char),
      (∀ b, env c = some b → Main1.extendFalse env c = b) ∧
      (env c = none → Main1.extendFalse env c = false) :=
  ⟨fun T env _ => Main1.evaluate_eq_truthValue env T,
    fun env c => ⟨fun b h => by simp [Main1.extendFalse, h],
      fun h => by simp [Main1.extendFalse, h]⟩⟩

/-- Witness of C31 at `A > B` with `A` true and `B` unbound: the result is the
truth value under `A` true, `B` false, which is false. -/
theorem C31_evaluate_main1_defaults_false_witness :
    Main1.evaluate (.mk '>' (.mk 'A' .null .null) (.mk 'B' .null .null))
        (fun c => if c = 'A' then some true else none) =
      Main1.truthValue (Main1.extendFalse fun c => if c = 'A' then some true else none)
        (.mk '>' (.mk 'A' .null .null) (.mk 'B' .null .null)) ∧
    Main1.evaluate (.mk '>' (.mk 'A' .null .null) (.mk 'B' .null .null))
        (fun c => if c = 'A' then some true else none) = false :=
  ⟨C31_evaluate_main1_defaults_false.1 _ _
      (.bin (Or.inr (Or.inr rfl)) (.leaf (by decide)) (.leaf (by decide))),
    by decide⟩

/-- C32. In both variants, for every well-formed tree `T` that contains no `>`
node, `nnf(T)` returns and is in negation normal form: it contains no `>` node
and the child of every `~` node is a leaf. -/
theorem C32_nnf_yields_nnf :
    (∀ T : Main2.Node, Main2.WellFormed T → T.contains ['>'] = false →
      ∃ N, Main2.nnf T = some N ∧ N.contains ['>'] = false ∧ Main2.negOnLeaves N = true) ∧
    (∀ T : Main1.Node, Main1.WellFormed T → T.contains '>' = false →
      ∃ N, Main1.nnf T = some N ∧ N.contains '>' = false ∧ Main1.negOnLeaves N = true) := by
  constructor
  · intro T wf hc
    obtain ⟨N, e, hN⟩ := Main2.nnfAux_total _ T wf hc (Nat.lt_succ_self _)
    exact ⟨N, e, Main2.isNNF_shape hN⟩
  · intro T wf hc
    obtain ⟨N, e, hN⟩ := Main1.nnfAux_total_m1 _ T wf hc (Nat.lt_succ_self _)
    exact ⟨N, e, Main1.isNNF_shape_m1 hN⟩

/-- Witness of C32 at `~(A + ~(B * C))`, once for each variant. -/
theorem C32_nnf_yields_nnf_witness :
    (∃ N, Main2.nnf
        (.mk ['~'] (.mk ['+'] (.mk ['A'] .null .null)
          (.mk ['~'] (.mk ['*'] (.mk ['B'] .null .null) (.mk ['C'] .null .null)) .null))
          .null) = some N ∧
      N.contains ['>'] = false ∧ Main2.negOnLeaves N = true) ∧
    (∃ N, Main1.nnf
        (.mk '~' .null (.mk '+' (.mk 'A' .null .null)
          (.mk '~' .null (.mk '*' (.mk 'B' .null .null) (.mk 'C' .null .null))))) = some N ∧
      N.contains '>' = false ∧ Main1.negOnLeaves N = true) ∧
    Main2.nnf
        (.mk ['~'] (.mk ['+'] (.mk ['A'] .null .null)
          (.mk ['~'] (.mk ['*'] (.mk ['B'] .null .null) (.mk ['C'] .null .null)) .null))
          .null) =
      some (.mk ['*'] (.mk ['~'] (.mk ['A'] .null .null) .null)
        (.mk ['*'] (.mk ['B'] .null .null) (.mk ['C'] .null .null))) :=
  ⟨C32_nnf_yields_nnf.1 _
      (.neg (.bin (Or.inl rfl) (.leaf (by decide))
        (.neg (.bin (Or.inr (Or.inl rfl)) (.leaf (by decide)) (.leaf (by decide))))))
      (by decide),
    C32_nnf_yields_nnf.2 _
      (.neg (.bin (Or.inl rfl) (.leaf (by decide))
        (.neg (.bin (Or.inr (Or.inl rfl)) (.leaf (by decide)) (.leaf (by decide))))))
      (by decide),
    by decide⟩

/-- C33. In both variants `impl_free` computes the same reference rewrite,
whatever the traversal order: every well-formed tree `T` is the tree of a
formula `f`, and `impl_free(T)` is the tree of the formula obtained from `f` by
replacing every `l > r` by `(~l') + r'`, with `l'` and `r'` the rewritten
children, and leaving every other node as it is; that formula has no
implication and `impl_free(T)` contains no `>` node. -/
theorem C33_impl_free_reference_rewrite :
    (∀ T : Main2.Node, Main2.WellFormed T →
      (∃ f : Formula Str, Main2.ofFormula f = T ∧
        Main2.impl_free T = Main2.ofFormula f.implFree ∧ f.implFree.hasImplies = false) ∧
      (Main2.impl_free T).contains ['>'] = false) ∧
    (∀ T : Main1.Node, Main1.WellFormed T →
      (∃ f : Formula Char, Main1.ofFormula f = T ∧
        Main1.impl_free T = Main1.ofFormula f.implFree ∧ f.implFree.hasImplies = false) ∧
      (Main1.impl_free T).contains '>' = false) := by
  constructor
  · intro T wf
    obtain ⟨f, e, h⟩ := Main2.impl_free_ofFormula wf
    exact ⟨⟨f, e, h, implFree_hasImplies f⟩, (Main2.impl_free_wellFormed wf).2⟩
  · intro T wf
    obtain ⟨f, e, h⟩ := Main1.impl_free_ofFormula_m1 wf
    exact ⟨⟨f, e, h, implFree_hasImplies f⟩, (Main1.impl_free_wellFormed_m1 wf).2⟩

/-- Witness of C33 at `(A > B) > ~C`, once for each variant; the result is
`(~((~A) + B)) + ~C`. -/
theorem C33_impl_free_reference_rewrite_witness :
    (Main2.impl_free
        (.mk ['>'] (.mk ['>'] (.mk ['A'] .null .null) (.mk ['B'] .null .null))
          (.mk ['~'] (.mk ['C'] .null .null) .null))).contains ['>'] = false ∧
    (Main1.impl_free
        (.mk '>' (.mk '>' (.mk 'A' .null .null) (.mk 'B' .null .null))
          (.mk '~' .null (.mk 'C' .null .null)))).contains '>' = false ∧
    Main2.impl_free
        (.mk ['>'] (.mk ['>'] (.mk ['A'] .null .null) (.mk ['B'] .null .null))
          (.mk ['~'] (.mk ['C'] .null .null) .null)) =
      Main2.ofFormula (Formula.implFree
        (.implies (.implies (.var ['A']) (.var ['B'])) (.not (.var ['C'])))) ∧
    Main1.impl_free
        (.mk '>' (.mk '>' (.mk 'A' .null .null) (.mk 'B' .null .null))
          (.mk '~' .null (.mk 'C' .null .null))) =
      Main1.ofFormula (Formula.implFree
        (.implies (.implies (.var 'A') (.var 'B')) (.not (.var 'C')))) :=
  ⟨(C33_impl_free_reference_rewrite.1 _
      (.bin (Or.inr (Or.inr rfl))
        (.bin (Or.inr (Or.inr rfl)) (.leaf (by decide)) (.leaf (by decide)))
        (.neg (.leaf (by decide))))).2,
    (C33_impl_free_reference_rewrite.2 _
      (.bin (Or.inr (Or.inr rfl))
        (.bin (Or.inr (Or.inr rfl)) (.leaf (by decide)) (.leaf (by decide)))
        (.neg (.leaf (by decide))))).2,
    by decide, by decide⟩

/-- C34. Stripping an outer parenthesis pair does not change the prefix form:
for every infix text `s` with balanced parentheses, `infixToPrefix` of `s` put
in parentheses equals `infixToPrefix` of `s`, in the tokenised converter of
`main_2.cpp` and in the recursive converter of `main.cpp`, which returns on
every text. -/
theorem C34_strip_outer_parentheses (s : Str) (h : balanced s = true) :
    Main2.infixToPrefix ('(' :: s ++ [')']) = Main2.infixToPrefix s ∧
    Main1.infixToPrefix ('(' :: s ++ [')']) = Main1.infixToPrefix s ∧
    ∃ r, Main1.infixToPrefix s = some r := by
  have h0 : parenLevel '(' ')' s 0 = some 0 := by simpa [balanced] using h
  exact ⟨Main2.infixToPrefix_strip_m2 s h0, Main1.infixToPrefix_strip s h0,
    Main1.infixToPrefix_total s⟩

/-- Witness of C34 at the text `(A + B) * ~(C > A)`; the prefix forms are
`* + A B ~ > C A` and `*+AB~>CA`. -/
theorem C34_strip_outer_parentheses_witness :
    balanced "(A + B) * ~(C > A)".toList = true ∧
    Main2.infixToPrefix ('(' :: "(A + B) * ~(C > A)".toList ++ [')']) =
      Main2.infixToPrefix "(A + B) * ~(C > A)".toList ∧
    Main1.infixToPrefix ('(' :: "(A + B) * ~(C > A)".toList ++ [')']) =
      Main1.infixToPrefix "(A + B) * ~(C > A)".toList ∧
    Main2.infixToPrefix "(A + B) * ~(C > A)".toList = "* + A B ~ > C A".toList ∧
    Main1.infixToPrefix "(A + B) * ~(C > A)".toList = some "*+AB~>CA".toList :=
  ⟨by decide, (C34_strip_outer_parentheses _ (by decide)).1,
    (C34_strip_outer_parentheses _ (by decide)).2.1, by decide, by decide⟩

/-! ## The validity checks on generated texts -/

/-- C35. Soundness of the syntactic check on the generated CNF in `main_2.cpp`:
for every well-formed formula tree `F` over identifiers the passes run to
completion, `check_cnf_valid(treeToInfixString(cnf(nnf(impl_free(F)))))`
returns, and if it returns true then `F` is true under every assignment of its
variables; with the converse, the check returns true exactly for the
tautologies. -/
theorem C35_generated_cnf_check_sound (F : Main2.Node) (wf : Main2.WellFormed F)
    (hid : ∀ v ∈ Main2.identifiers F, Main2.IsIdent v) :
    ∃ N C, Main2.nnf (Main2.impl_free F) = some N ∧ Main2.cnf N = some C ∧
      (∃ b, Main2.check_cnf_valid (Main2.treeToInfixString C) = some b) ∧
      (Main2.check_cnf_valid (Main2.treeToInfixString C) = some true →
        ∀ env : Main2.Env, Main2.Binds env F → Main2.evaluate F env = some true) ∧
      ((∀ env : Main2.Env, Main2.Binds env F → Main2.evaluate F env = some true) →
        Main2.check_cnf_valid (Main2.treeToInfixString C) = some true) := by
  obtain ⟨N, C, eN, eC, hb, hiff⟩ := Main2.check_generated_cnf wf hid
  exact ⟨N, C, eN, eC, hb, hiff.1, hiff.2⟩

/-- Witness of C35 at `A > (B > A)`, whose generated CNF is written
`(~A + (~B + A))` and passes the check. -/
theorem C35_generated_cnf_check_sound_witness :
    (∃ N C, Main2.nnf (Main2.impl_free
        (.mk ['>'] (.mk ['A'] .null .null)
          (.mk ['>'] (.mk ['B'] .null .null) (.mk ['A'] .null .null)))) = some N ∧
      Main2.cnf N = some C ∧
      (∃ b, Main2.check_cnf_valid (Main2.treeToInfixString C) = some b) ∧
      (Main2.check_cnf_valid (Main2.treeToInfixString C) = some true →
        ∀ env : Main2.Env,
          Main2.Binds env (.mk ['>'] (.mk ['A'] .null .null)
            (.mk ['>'] (.mk ['B'] .null .null) (.mk ['A'] .null .null))) →
          Main2.evaluate (.mk ['>'] (.mk ['A'] .null .null)
            (.mk ['>'] (.mk ['B'] .null .null) (.mk ['A'] .null .null))) env = some true) ∧
      ((∀ env : Main2.Env,
          Main2.Binds env (.mk ['>'] (.mk ['A'] .null .null)
            (.mk ['>'] (.mk ['B'] .null .null) (.mk ['A'] .null .null))) →
          Main2.evaluate (.mk ['>'] (.mk ['A'] .null .null)
            (.mk ['>'] (.mk ['B'] .null .null) (.mk ['A'] .null .null))) env = some true) →
        Main2.check_cnf_valid (Main2.treeToInfixString C) = some true)) ∧
    ((Main2.nnf (Main2.impl_free
        (.mk ['>'] (.mk ['A'] .null .null)
          (.mk ['>'] (.mk ['B'] .null .null) (.mk ['A'] .null .null))))).bind Main2.cnf).map
        Main2.treeToInfixString = some "(~A + (~B + A))".toList ∧
    Main2.check_cnf_valid "(~A + (~B + A))".toList = some true :=
  have hid : ∀ v ∈ Main2.identifiers
      (.mk ['>'] (.mk ['A'] .null .null)
        (.mk ['>'] (.mk ['B'] .null .null) (.mk ['A'] .null .null))), Main2.IsIdent v := by
    intro v hv
    have : v = ['A'] ∨ v = ['B'] := by
      simp only [Main2.identifiers] at hv
      simpa [Main2.isOperand, Main2.isOperator, or_comm] using hv
    rcases this with rfl | rfl <;> exact ⟨by simp, by decide⟩
  ⟨C35_generated_cnf_check_sound _
      (.bin (Or.inr (Or.inr rfl)) (.leaf (by decide))
        (.bin (Or.inr (Or.inr rfl)) (.leaf (by decide)) (.leaf (by decide)))) hid,
    by decide, by decide⟩

/-- Counterexample to C36 as stated: the formula `(A + ~A) * (B + C)` is
well-formed and already in CNF, so the passes return it unchanged;
`parseTreeToInfix` writes it as `((A+(~A))*(B+C))`, where the `*` stands
inside the outer parentheses, so `check_cnf_valid` takes the whole text as one
clause and returns true, although the formula is false when `A`, `B` and `C`
are false. -/
theorem C36_check_on_own_output_counterexample :
    Main1.WellFormed
      (.mk '*' (.mk '+' (.mk 'A' .null .null) (.mk '~' .null (.mk 'A' .null .null)))
        (.mk '+' (.mk 'B' .null .null) (.mk 'C' .null .null))) ∧
    (Main1.nnf (Main1.impl_free
        (.mk '*' (.mk '+' (.mk 'A' .null .null) (.mk '~' .null (.mk 'A' .null .null)))
          (.mk '+' (.mk 'B' .null .null) (.mk 'C' .null .null))))).bind Main1.cnf =
      some (.mk '*' (.mk '+' (.mk 'A' .null .null) (.mk '~' .null (.mk 'A' .null .null)))
        (.mk '+' (.mk 'B' .null .null) (.mk 'C' .null .null))) ∧
    Main1.parseTreeToInfix
        (.mk '*' (.mk '+' (.mk 'A' .null .null) (.mk '~' .null (.mk 'A' .null .null)))
          (.mk '+' (.mk 'B' .null .null) (.mk 'C' .null .null))) =
      "((A+(~A))*(B+C))".toList ∧
    Main1.check_cnf_valid "((A+(~A))*(B+C))".toList = true ∧
    Main1.evaluate
        (.mk '*' (.mk '+' (.mk 'A' .null .null) (.mk '~' .null (.mk 'A' .null .null)))
          (.mk '+' (.mk 'B' .null .null) (.mk 'C' .null .null)))
        (fun _ => some false) = false :=
  ⟨.bin (Or.inr (Or.inl rfl))
      (.bin (Or.inl rfl) (.leaf (by decide)) (.neg (.leaf (by decide))))
      (.bin (Or.inl rfl) (.leaf (by decide)) (.leaf (by decide))),
    by decide, by decide, by decide, by decide⟩

/-- C36, amended. In `main.cpp` the validity checker is sound on the program's
own CNF output when that output is a single clause: for every well-formed
formula tree `F` over single-character variables (no space, parenthesis or
operator character), the passes run to completion, and if
`cnf(nnf(impl_free(F)))` contains no `*` node and `check_cnf_valid` of its
`parseTreeToInfix` text returns true, then `F` is true under every
assignment of its variables. -/
theorem C36_check_on_single_clause_output (F : Main1.Node) (wf : Main1.WellFormed F)
    (hv : ∀ v ∈ Main1.identifiers F, Main1.isVariableChar v = true) :
    ∃ N C, Main1.nnf (Main1.impl_free F) = some N ∧ Main1.cnf N = some C ∧
      (C.contains '*' = false →
        Main1.check_cnf_valid (Main1.parseTreeToInfix C) = true →
        ∀ env : Main1.Env, Main1.evaluate F env = true) :=
  Main1.check_single_clause_sound wf hv

/-- Witness of C36, amended, at `A > (B > A)`: the CNF output is the single
clause `((~A)+((~B)+A))`, which passes the check. -/
theorem C36_check_on_single_clause_output_witness :
    (∃ N C, Main1.nnf (Main1.impl_free
        (.mk '>' (.mk 'A' .null .null)
          (.mk '>' (.mk 'B' .null .null) (.mk 'A' .null .null)))) = some N ∧
      Main1.cnf N = some C ∧
      (C.contains '*' = false →
        Main1.check_cnf_valid (Main1.parseTreeToInfix C) = true →
        ∀ env : Main1.Env, Main1.evaluate
          (.mk '>' (.mk 'A' .null .null)
            (.mk '>' (.mk 'B' .null .null) (.mk 'A' .null .null))) env = true)) ∧
    (Main1.nnf (Main1.impl_free
        (.mk '>' (.mk 'A' .null .null)
          (.mk '>' (.mk 'B' .null .null) (.mk 'A' .null .null))))).bind Main1.cnf =
      some (.mk '+' (.mk '~' .null (.mk 'A' .null .null))
        (.mk '+' (.mk '~' .null (.mk 'B' .null .null)) (.mk 'A' .null .null))) ∧
    Main1.check_cnf_valid (Main1.parseTreeToInfix
      (.mk '+' (.mk '~' .null (.mk 'A' .null .null))
        (.mk '+' (.mk '~' .null (.mk 'B' .null .null)) (.mk 'A' .null .null)))) = true :=
  ⟨C36_check_on_single_clause_output _
      (.bin (Or.inr (Or.inr rfl)) (.leaf (by decide))
        (.bin (Or.inr (Or.inr rfl)) (.leaf (by decide)) (.leaf (by decide))))
      (by decide),
    by decide, by decide⟩

/-- C37. The two validity checks of `main_2.cpp` agree through the renderer:
for every DIMACS formula `f` of `int` literals whose clauses are all non-empty
(so also for the empty formula), `check_cnf_valid(dimacsToInfix(f))` returns
and equals `check_dimacs_valid_formula(f)`. The literals of the claim are
nonzero; the agreement does not depend on it. -/
theorem C37_validity_checks_agree (f : List (List Int)) (hne : ∀ c ∈ f, c ≠ [])
    (hl : ∀ c ∈ f, ∀ l ∈ c, Main2.isInt l) :
    Main2.check_cnf_valid (Main2.dimacsToInfix f) =
      some (Main2.check_dimacs_valid_formula f) :=
  Main2.check_cnf_valid_dimacsToInfix f hne hl

/-- Witness of C37 at `[[1, -2, -1], [3]]`, rendered `(P1 + ~P2 + ~P1) * (P3)`,
which both checks reject, and at the empty formula, which both accept. -/
theorem C37_validity_checks_agree_witness :
    Main2.check_cnf_valid (Main2.dimacsToInfix [[1, -2, -1], [3]]) =
      some (Main2.check_dimacs_valid_formula [[1, -2, -1], [3]]) ∧
    Main2.dimacsToInfix [[1, -2, -1], [3]] = "(P1 + ~P2 + ~P1) * (P3)".toList ∧
    Main2.check_dimacs_valid_formula [[1, -2, -1], [3]] = false ∧
    Main2.check_cnf_valid (Main2.dimacsToInfix []) =
      some (Main2.check_dimacs_valid_formula []) ∧
    Main2.check_dimacs_valid_formula [] = true :=
  ⟨C37_validity_checks_agree [[1, -2, -1], [3]] (by decide)
      (by simp only [Main2.isInt]; decide),
    by decide, by decide,
    C37_validity_checks_agree [] (by decide) (by simp), by decide⟩

/-! ## Variable set, termination and ownership of `cnf` in `main_2.cpp` -/

/-- C38. CNF conversion keeps the variable set: for every well-formed formula
tree `F` of `main_2.cpp` the passes run to completion and
`getVariables(cnf(nnf(impl_free(F))))` equals `getVariables(F)`, both started
from the empty set; so do the variable sets after `impl_free` and after
`nnf`. -/
theorem C38_cnf_keeps_variable_set (F : Main2.Node) (wf : Main2.WellFormed F) :
    ∃ N C, Main2.nnf (Main2.impl_free F) = some N ∧ Main2.cnf N = some C ∧
      Main2.getVariables C [] = Main2.getVariables F [] ∧
      Main2.getVariables N [] = Main2.getVariables F [] ∧
      Main2.getVariables (Main2.impl_free F) [] = Main2.getVariables F [] :=
  Main2.getVariables_pipeline wf

/-- Witness of C38 at `(B * A) + C`: distribution gives `(B + C) * (A + C)`,
with the leaf `C` twice, and the variable set stays `A`, `B`, `C`. -/
theorem C38_cnf_keeps_variable_set_witness :
    (∃ N C, Main2.nnf (Main2.impl_free
        (.mk ['+'] (.mk ['*'] (.mk ['B'] .null .null) (.mk ['A'] .null .null))
          (.mk ['C'] .null .null))) = some N ∧ Main2.cnf N = some C ∧
      Main2.getVariables C [] = Main2.getVariables
        (.mk ['+'] (.mk ['*'] (.mk ['B'] .null .null) (.mk ['A'] .null .null))
          (.mk ['C'] .null .null)) [] ∧
      Main2.getVariables N [] = Main2.getVariables
        (.mk ['+'] (.mk ['*'] (.mk ['B'] .null .null) (.mk ['A'] .null .null))
          (.mk ['C'] .null .null)) [] ∧
      Main2.getVariables (Main2.impl_free
        (.mk ['+'] (.mk ['*'] (.mk ['B'] .null .null) (.mk ['A'] .null .null))
          (.mk ['C'] .null .null))) [] = Main2.getVariables
        (.mk ['+'] (.mk ['*'] (.mk ['B'] .null .null) (.mk ['A'] .null .null))
          (.mk ['C'] .null .null)) []) ∧
    (Main2.nnf (Main2.impl_free
        (.mk ['+'] (.mk ['*'] (.mk ['B'] .null .null) (.mk ['A'] .null .null))
          (.mk ['C'] .null .null)))).bind Main2.cnf =
      some (.mk ['*'] (.mk ['+'] (.mk ['B'] .null .null) (.mk ['C'] .null .null))
        (.mk ['+'] (.mk ['A'] .null .null) (.mk ['C'] .null .null))) ∧
    Main2.getVariables
        (.mk ['+'] (.mk ['*'] (.mk ['B'] .null .null) (.mk ['A'] .null .null))
          (.mk ['C'] .null .null)) [] = [['A'], ['B'], ['C']] :=
  ⟨C38_cnf_keeps_variable_set _
      (.bin (Or.inl rfl) (.bin (Or.inr (Or.inl rfl)) (.leaf (by decide)) (.leaf (by decide)))
        (.leaf (by decide))),
    by decide, by decide⟩

/-- C39. `cnf` of `main_2.cpp` terminates on every tree, so on every well-formed
one, although it calls itself on freshly built `+` nodes: the recursion of the
embedding returns within the bound `cnfFuel`, which multiplies the bounds of
the children at a `+` node, and any larger bound gives the same result. At
`(A * B) + (C * D)` the result is `((A + C) * (A + D)) * ((B + C) * (B + D))`. -/
theorem C39_cnf_terminates :
    (∀ T : Main2.Node, ∃ C, Main2.cnf T = some C ∧
      ∀ n, Main2.cnfFuel T ≤ n → Main2.cnfAux n T = some C) ∧
    Main2.cnf
        (.mk ['+'] (.mk ['*'] (.mk ['A'] .null .null) (.mk ['B'] .null .null))
          (.mk ['*'] (.mk ['C'] .null .null) (.mk ['D'] .null .null))) =
      some (.mk ['*']
        (.mk ['*'] (.mk ['+'] (.mk ['A'] .null .null) (.mk ['C'] .null .null))
          (.mk ['+'] (.mk ['A'] .null .null) (.mk ['D'] .null .null)))
        (.mk ['*'] (.mk ['+'] (.mk ['B'] .null .null) (.mk ['C'] .null .null))
          (.mk ['+'] (.mk ['B'] .null .null) (.mk ['D'] .null .null)))) :=
  ⟨Main2.cnf_total, by decide⟩

/-- Witness of C39 at `(A * B) + (C * D)`, whose bound `cnfFuel` is 25: `cnf`
returns, and with fuel 50 the recursion returns the same tree. -/
theorem C39_cnf_terminates_witness :
    ∃ C, Main2.cnf
        (.mk ['+'] (.mk ['*'] (.mk ['A'] .null .null) (.mk ['B'] .null .null))
          (.mk ['*'] (.mk ['C'] .null .null) (.mk ['D'] .null .null))) = some C ∧
      Main2.cnfAux 50
        (.mk ['+'] (.mk ['*'] (.mk ['A'] .null .null) (.mk ['B'] .null .null))
          (.mk ['*'] (.mk ['C'] .null .null) (.mk ['D'] .null .null))) = some C :=
  (C39_cnf_terminates.1
    (.mk ['+'] (.mk ['*'] (.mk ['A'] .null .null) (.mk ['B'] .null .null))
      (.mk ['*'] (.mk ['C'] .null .null) (.mk ['D'] .null .null)))).elim
    fun C h => ⟨C, h.1, h.2 50 (by decide)⟩

/-- C40. The first distribution of `cnf` in `main_2.cpp` on the heap. The tree
`(A * B) + C` is laid out with `A`, `B`, `*`, `C`, `+` at the addresses 0 to 4.
After `cnf` the result is the tree `(A + C) * (B + C)`, and the node `B` at
address 1, the original of the copied sub-tree `q`, is still allocated but is
not reached from the result: it was detached and neither re-attached nor
deleted. On `C + (A * B)`, handled by the second distribution, no node is left
over. -/
theorem C40_cnf_first_distribution_leaks :
    (Main2.cnfH 4
        [some ⟨['A'], none, none⟩, some ⟨['B'], none, none⟩, some ⟨['*'], some 0, some 1⟩,
          some ⟨['C'], none, none⟩, some ⟨['+'], some 2, some 3⟩] (some 4)).map
        (fun res => (Main2.treeAt 4 res.2 res.1, Main2.leaked res.2 res.1, res.2.read 1)) =
      some (.mk ['*'] (.mk ['+'] (.mk ['A'] .null .null) (.mk ['C'] .null .null))
          (.mk ['+'] (.mk ['B'] .null .null) (.mk ['C'] .null .null)),
        [1], some ⟨['B'], none, none⟩) ∧
    (Main2.cnfH 4
        [some ⟨['C'], none, none⟩, some ⟨['A'], none, none⟩, some ⟨['B'], none, none⟩,
          some ⟨['*'], some 1, some 2⟩, some ⟨['+'], some 0, some 3⟩] (some 4)).map
        (fun res => (Main2.treeAt 4 res.2 res.1, Main2.leaked res.2 res.1)) =
      some (.mk ['*'] (.mk ['+'] (.mk ['C'] .null .null) (.mk ['A'] .null .null))
          (.mk ['+'] (.mk ['C'] .null .null) (.mk ['B'] .null .null)), []) := by
  decide
